import Mathlib

set_option autoImplicit false

/-! # Verification of the data-structure engines

The four engines of the repository (hash table, graph, heap, search tree) are
embedded as functions on explicit state. A run that would hit undefined
behaviour in C++ (an index outside a vector, a null pointer dereference) or that
exhausts its loop budget ends in a `Fault`. -/

/-! # Open-addressing hash table (`src/hashmap.cpp`)

`class LinearProbing` keeps a `std::vector<int> table` of `size` slots.  A slot
holds `EMPTY` (-1), `DELETED` (-2) or a key.  Every `while` loop of the source
is embedded with a fuel counter; reading `table[h]` outside `0 .. table.size()-1`
is undefined behaviour in C++ and is reported as `Fault.outOfBounds`. -/

/-- Ways in which an embedded run can fail to produce a value. -/
inductive Fault where
  | outOfBounds
  | outOfFuel
  | nullDeref
  deriving DecidableEq, Repr

/-- Equality of run results is decidable, so concrete runs can be evaluated. -/
instance instDecidableEqExcept {ε α : Type} [DecidableEq ε] [DecidableEq α] :
    DecidableEq (Except ε α) := fun a b =>
  match a, b with
  | Except.ok x, Except.ok y =>
    if h : x = y then isTrue (by rw [h]) else isFalse (fun h' => h (by cases h'; rfl))
  | Except.error x, Except.error y =>
    if h : x = y then isTrue (by rw [h]) else isFalse (fun h' => h (by cases h'; rfl))
  | Except.ok _, Except.error _ => isFalse (fun h => by cases h)
  | Except.error _, Except.ok _ => isFalse (fun h => by cases h)

namespace LinearProbing

/-- Embeds `const int EMPTY = -1;` -/
def EMPTY : Int := -1

/-- Embeds `const int DELETED = -2;` -/
def DELETED : Int := -2

/-- One entry of the `table` array handed to JavaScript: `null`, `"DEL"` or the value. -/
inductive Cell where
  | null
  | del
  | val (v : Int)
  deriving DecidableEq, Repr

/-- One element of `probeSteps` built by `insert`. -/
inductive ProbeStep where
  | collision (index : Int) (existingValue : Int)
  | insert (index : Int)
  deriving DecidableEq, Repr

/-- Calls into the JavaScript side: `renderHashMap`, `animateHashMap`, `highlightItem`. -/
inductive HEvent where
  | renderHashMap (table : List Cell) (size : Int)
  | animateHashMap (table : List Cell) (size : Int) (steps : List ProbeStep)
  | highlightItem (idx : Int)
  deriving DecidableEq, Repr

end LinearProbing

/-- The two data members of `class LinearProbing`. -/
structure LinearProbing where
  table : List Int
  size : Int
  deriving DecidableEq, Repr

namespace LinearProbing

/-- The loop body shared by `updateVisualization` and `updateVisualizationWithAnimation`. -/
def jsTable (table : List Int) : List Cell :=
  table.map fun v => if v = EMPTY then Cell.null else if v = DELETED then Cell.del else Cell.val v

/-- Embeds `updateVisualization()`. -/
def updateVisualization (t : LinearProbing) : HEvent :=
  HEvent.renderHashMap (jsTable t.table) t.size

/-- Embeds `updateVisualizationWithAnimation(probeSteps)`. -/
def updateVisualizationWithAnimation (t : LinearProbing) (probeSteps : List ProbeStep) : HEvent :=
  HEvent.animateHashMap (jsTable t.table) t.size probeSteps

/-- Constructor `LinearProbing(int s)`: `table.assign(size, EMPTY)` and one render call. -/
def new (s : Int) : LinearProbing × List HEvent :=
  let t : LinearProbing := { table := List.replicate s.toNat EMPTY, size := s }
  (t, [updateVisualization t])

/-- Embeds `clear()`. -/
def clear (t : LinearProbing) : LinearProbing × List HEvent :=
  let t' : LinearProbing := { t with table := List.replicate t.size.toNat EMPTY }
  (t', [updateVisualization t'])

/-- Embeds `hash(key)`: C++ `key % size`, which truncates toward zero. -/
def hash (t : LinearProbing) (key : Int) : Int :=
  Int.tmod key t.size

/-- Embeds `table[h]` for an `int` index. -/
def readSlot (table : List Int) (h : Int) : Option Int :=
  if h < 0 then none else table.get? h.toNat

/-- The `while (table[h] != EMPTY)` loop of `searchInternal`, started at index `h`. -/
def searchLoop (t : LinearProbing) (key start : Int) : Nat → Int → Except Fault Int
  | 0, _ => Except.error Fault.outOfFuel
  | fuel + 1, h =>
    match readSlot t.table h with
    | none => Except.error Fault.outOfBounds
    | some x =>
      if x = EMPTY then Except.ok (-1)
      else if x = key then Except.ok h
      else
        let h' := Int.tmod (h + 1) t.size
        if h' = start then Except.ok (-1) else searchLoop t key start fuel h'

/-- Embeds `searchInternal(key)`: the slot holding `key`, or -1. -/
def searchInternal (t : LinearProbing) (key : Int) (fuel : Nat) : Except Fault Int :=
  searchLoop t key (hash t key) fuel (hash t key)

/-- The `while (table[h] != EMPTY && table[h] != DELETED)` loop of `insert`:
`none` is the `return false` taken when the probe wraps back to `start`,
`some (h, steps)` is the normal exit at the free slot `h`. -/
def insertLoop (t : LinearProbing) (start : Int) :
    Nat → Int → List ProbeStep → Except Fault (Option (Int × List ProbeStep))
  | 0, _, _ => Except.error Fault.outOfFuel
  | fuel + 1, h, steps =>
    match readSlot t.table h with
    | none => Except.error Fault.outOfBounds
    | some x =>
      if x ≠ EMPTY ∧ x ≠ DELETED then
        let steps' := steps ++ [ProbeStep.collision h x]
        let h' := Int.tmod (h + 1) t.size
        if h' = start then Except.ok none else insertLoop t start fuel h' steps'
      else Except.ok (some (h, steps))

/-- What one call of `insert` produces: the `bool` result, the slot written on
success, the table afterwards and the JavaScript calls made. -/
structure InsertResult where
  ok : Bool
  slot : Option Int
  tbl : LinearProbing
  events : List HEvent
  deriving DecidableEq, Repr

/-- Embeds `insert(key)`. -/
def insert (t : LinearProbing) (key : Int) (fuel : Nat) : Except Fault InsertResult :=
  match searchInternal t key fuel with
  | Except.error e => Except.error e
  | Except.ok idx =>
    if idx ≠ -1 then Except.ok { ok := false, slot := none, tbl := t, events := [] }
    else
      match insertLoop t (hash t key) fuel (hash t key) [] with
      | Except.error e => Except.error e
      | Except.ok none => Except.ok { ok := false, slot := none, tbl := t, events := [] }
      | Except.ok (some (h, steps)) =>
        let probeSteps := steps ++ [ProbeStep.insert h]
        let t' : LinearProbing := { t with table := t.table.set h.toNat key }
        Except.ok { ok := true, slot := some h, tbl := t',
                    events := [updateVisualizationWithAnimation t' probeSteps] }

/-- Embeds `search(key)`: highlights the slot when the key is found. -/
def search (t : LinearProbing) (key : Int) (fuel : Nat) : Except Fault (List HEvent) :=
  match searchInternal t key fuel with
  | Except.error e => Except.error e
  | Except.ok idx => if idx ≠ -1 then Except.ok [HEvent.highlightItem idx] else Except.ok []

/-- Embeds `remove(key)`: lazy deletion. -/
def remove (t : LinearProbing) (key : Int) (fuel : Nat) :
    Except Fault (LinearProbing × List HEvent) :=
  match searchInternal t key fuel with
  | Except.error e => Except.error e
  | Except.ok idx =>
    if idx ≠ -1 then
      let t' : LinearProbing := { t with table := t.table.set idx.toNat DELETED }
      Except.ok (t', [updateVisualization t'])
    else Except.ok (t, [])

/-- A call on the table. -/
inductive Op where
  | insert (key : Int)
  | remove (key : Int)
  | clear
  deriving DecidableEq, Repr

/-- The key an operation mentions (`clear` mentions none, 0 stands in). -/
def Op.key : Op → Int
  | Op.insert k => k
  | Op.remove k => k
  | Op.clear => 0

/-- Runs one operation, keeping only the table. -/
def step (fuel : Nat) (t : LinearProbing) : Op → Except Fault LinearProbing
  | Op.insert k =>
    match insert t k fuel with
    | Except.error e => Except.error e
    | Except.ok r => Except.ok r.tbl
  | Op.remove k =>
    match remove t k fuel with
    | Except.error e => Except.error e
    | Except.ok r => Except.ok r.1
  | Op.clear => Except.ok (clear t).1

/-- Runs a sequence of operations from left to right. -/
def run (fuel : Nat) : LinearProbing → List Op → Except Fault LinearProbing
  | t, [] => Except.ok t
  | t, op :: ops =>
    match step fuel t op with
    | Except.error e => Except.error e
    | Except.ok t' => run fuel t' ops

/-- Inserts the keys in order and collects the `bool` results. -/
def insertAll (fuel : Nat) : LinearProbing → List Int → Except Fault (List Bool)
  | _, [] => Except.ok []
  | t, k :: ks =>
    match insert t k fuel with
    | Except.error e => Except.error e
    | Except.ok r =>
      match insertAll fuel r.tbl ks with
      | Except.error e => Except.error e
      | Except.ok bs => Except.ok (r.ok :: bs)

/-- The set model of the claim about lookups, kept as a map from key to slot:
a successful insert records the slot written, a remove forgets the key, a clear
forgets everything; a failed insert changes nothing. -/
def track (fuel : Nat) : LinearProbing → (Int → Option Int) → List Op →
    Except Fault (Int → Option Int)
  | _, m, [] => Except.ok m
  | t, m, Op.insert k :: ops =>
    match insert t k fuel with
    | Except.error e => Except.error e
    | Except.ok r =>
      track fuel r.tbl (fun x => if x = k ∧ r.ok = true then r.slot else m x) ops
  | t, m, Op.remove k :: ops =>
    match remove t k fuel with
    | Except.error e => Except.error e
    | Except.ok r => track fuel r.1 (fun x => if x = k then none else m x) ops
  | t, _, Op.clear :: ops => track fuel (clear t).1 (fun _ => none) ops

end LinearProbing

namespace LinearProbing

/-- The `d`-th slot of the cyclic probe sequence that starts at slot `s`. -/
def pos (N s d : Nat) : Nat := (s + d) % N

/-- Home slot of a non-negative key, as a natural number. -/
def home (N : Nat) (k : Int) : Nat := k.toNat % N

/-- Number of slots that are `EMPTY` or `DELETED`. -/
def freeCount (t : LinearProbing) : Nat :=
  t.table.countP fun x => decide (x = EMPTY ∨ x = DELETED)

/-- State invariant of a table of capacity `N`: the vector has `N` slots, every
slot is a sentinel or a non-negative key, and every stored key is reached from
its home slot through slots that are neither `EMPTY` nor the key itself. -/
structure Inv (t : LinearProbing) (N : Nat) : Prop where
  hsize : t.size = (N : Int)
  hlen : t.table.length = N
  hpos : 0 < N
  hvals : ∀ (i : Nat) (x : Int), t.table[i]? = some x → x = EMPTY ∨ x = DELETED ∨ 0 ≤ x
  hchain : ∀ (i : Nat) (k : Int), t.table[i]? = some k → 0 ≤ k →
    ∃ d, d < N ∧ i = pos N (home N k) d ∧
      ∀ d', d' < d → ∀ y : Int, t.table[pos N (home N k) d']? = some y → y ≠ EMPTY ∧ y ≠ k

/-- The tracked map `m` describes the table: `m k = some h` exactly when slot `h` holds `k`. -/
def Agree (t : LinearProbing) (m : Int → Option Int) : Prop :=
  ∀ k, 0 ≤ k → ∀ h, m k = some h ↔ ∃ i : Nat, h = (i : Int) ∧ t.table[i]? = some k

end LinearProbing

/-! # Graph engine (`src/graph.cpp`)

`std::map<int, V>` is embedded as an association list with ascending keys and
`std::set<int>` as an ascending duplicate-free list.  The message strings passed
to `logEvent` are left out of the events. -/

/-- Embeds `struct Edge { int target; int weight; }`. -/
structure Edge where
  target : Int
  weight : Int
  deriving DecidableEq, Repr

/-- Embeds `std::map<int, V>`: key/value pairs. -/
abbrev IntMap (V : Type) := List (Int × V)

namespace IntMap

/-- Embeds `m.find(k)`: the value stored under `k`, if any. -/
def lookup? {V : Type} : IntMap V → Int → Option V
  | [], _ => none
  | (k', v) :: m, k => if k' = k then some v else lookup? m k

/-- Embeds `m[k] = v`: replaces the value under `k`, or inserts the pair in key order. -/
def put {V : Type} : IntMap V → Int → V → IntMap V
  | [], k, v => [(k, v)]
  | (k', v') :: m, k, v =>
    if k < k' then (k, v) :: (k', v') :: m
    else if k = k' then (k, v) :: m
    else (k', v') :: put m k v

/-- Embeds `m.erase(k)`. -/
def del {V : Type} (m : IntMap V) (k : Int) : IntMap V :=
  m.filter fun p => decide (p.1 ≠ k)

/-- Applies `f` to every value, as a `for (auto& [k, v] : m)` loop that rewrites `v`. -/
def mapVals {V : Type} (f : V → V) (m : IntMap V) : IntMap V :=
  m.map fun p => (p.1, f p.2)

/-- Reading `m[k]` on a map of vectors: an absent key reads as the empty vector. -/
def vec {V : Type} (m : IntMap (List V)) (k : Int) : List V :=
  (lookup? m k).getD []

/-- Reading `m[k]` on a map of `int`: an absent key reads as 0. -/
def rd (m : IntMap Int) (k : Int) : Int :=
  (lookup? m k).getD 0

end IntMap

/-- Events passed to `logEvent`, by their `type` tag. -/
inductive GEvent where
  | snapshot (nodes : List Int) (links : List (Int × Int × Int))
  | highlight (node : Int) (pending : List Int)
  | finished
  | mst_edge (source target : Int)
  | visit_node (node dist : Int)
  | relax_edge (source target newDist : Int)
  | shortest_path (path : List Int)
  deriving DecidableEq, Repr

/-- The two globals `adj` and `nodes`. -/
structure Graph where
  adj : IntMap (List Edge)
  nodes : List Int
  deriving DecidableEq, Repr

namespace Graph

/-- The state at program start: both containers empty. -/
def empty : Graph := { adj := [], nodes := [] }

/-- Embeds `nodes.insert(id)` on a `std::set<int>`. -/
def setInsert : List Int → Int → List Int
  | [], id => [id]
  | x :: xs, id => if id < x then id :: x :: xs else if id = x then x :: xs else x :: setInsert xs id

/-- Embeds `getGraphData()`: node ids, and one `(source, target, weight)` link per adjacency entry. -/
def getGraphData (g : Graph) : List Int × List (Int × Int × Int) :=
  (g.nodes, g.adj.flatMap fun p => p.2.map fun e => (p.1, e.target, e.weight))

/-- Embeds `updateGraphVisualization(message)`. -/
def updateGraphVisualization (g : Graph) : GEvent :=
  GEvent.snapshot (getGraphData g).1 (getGraphData g).2

/-- Embeds `addNode(id)`. -/
def addNode (g : Graph) (id : Int) : Graph × List GEvent :=
  if id ∈ g.nodes then (g, [])
  else
    let g' : Graph := { g with nodes := setInsert g.nodes id }
    (g', [updateGraphVisualization g'])

/-- The `erase(remove_if(...))` idiom: drops every entry whose target is `v`. -/
def dropTarget (es : List Edge) (v : Int) : List Edge :=
  es.filter fun e => decide (e.target ≠ v)

/-- Embeds `addEdge(source, target, weight)`. -/
def addEdge (g : Graph) (source target weight : Int) : Graph × List GEvent :=
  let r1 := addNode g source
  let r2 := addNode r1.1 target
  let a1 := r2.1.adj.put source (dropTarget (r2.1.adj.vec source) target)
  let a2 := a1.put target (dropTarget (a1.vec target) source)
  let a3 := a2.put source (a2.vec source ++ [{ target := target, weight := weight }])
  let a4 := a3.put target (a3.vec target ++ [{ target := source, weight := weight }])
  let g' : Graph := { r2.1 with adj := a4 }
  (g', r1.2 ++ r2.2 ++ [updateGraphVisualization g'])

/-- Embeds `removeNode(id)`. -/
def removeNode (g : Graph) (id : Int) : Graph × List GEvent :=
  if id ∈ g.nodes then
    let g' : Graph :=
      { nodes := g.nodes.filter fun x => decide (x ≠ id),
        adj := (g.adj.del id).mapVals fun es => dropTarget es id }
    (g', [updateGraphVisualization g'])
  else (g, [])

/-- Embeds `removeEdge(source, target)`. -/
def removeEdge (g : Graph) (source target : Int) : Graph × List GEvent :=
  let edgesSource := g.adj.vec source
  let changed1 := decide (dropTarget edgesSource target ≠ edgesSource)
  let a1 := g.adj.put source (dropTarget edgesSource target)
  let edgesTarget := a1.vec target
  let changed2 := decide (dropTarget edgesTarget source ≠ edgesTarget)
  let a2 := a1.put target (dropTarget edgesTarget source)
  let g' : Graph := { g with adj := a2 }
  (g', if changed1 || changed2 then [updateGraphVisualization g'] else [])

/-- Embeds `clearGraph()`. -/
def clearGraph (_g : Graph) : Graph × List GEvent :=
  (empty, [updateGraphVisualization empty])

/-- A mutating call on the graph. -/
inductive Op where
  | addNode (id : Int)
  | addEdge (source target weight : Int)
  | removeNode (id : Int)
  | removeEdge (source target : Int)
  | clearGraph
  deriving DecidableEq, Repr

/-- Runs one call. -/
def step (g : Graph) : Op → Graph × List GEvent
  | Op.addNode id => addNode g id
  | Op.addEdge s t w => addEdge g s t w
  | Op.removeNode id => removeNode g id
  | Op.removeEdge s t => removeEdge g s t
  | Op.clearGraph => clearGraph g

/-- The graph after a sequence of calls, left to right. -/
def run (g : Graph) (ops : List Op) : Graph :=
  ops.foldl (fun g op => (step g op).1) g

/-- Node `u` has an adjacency entry targeting `v`. -/
def hasEdge (g : Graph) (u v : Int) : Prop :=
  ∃ e ∈ g.adj.vec u, e.target = v

end Graph

/-! # Binary heap (`src/heap.cpp`)

The global `std::vector<int> heap` is a `List Int`, the flag `isMinHeap` a `Bool`.
The two recursive helpers carry a fuel counter. -/

namespace Heap

/-- The call `renderHeap(js_heap)` made by `updateVisualization`. -/
inductive HeapEvent where
  | renderHeap (values : List Int)
  deriving DecidableEq, Repr

/-- Embeds `updateVisualization()`. -/
def updateVisualization (heap : List Int) : HeapEvent :=
  HeapEvent.renderHeap heap

/-- Embeds `shouldSwap(parentVal, childVal)`. -/
def shouldSwap (isMinHeap : Bool) (parentVal childVal : Int) : Bool :=
  if isMinHeap then decide (childVal < parentVal) else decide (childVal > parentVal)

/-- Embeds `std::swap(heap[i], heap[j])`. -/
def swap (heap : List Int) (i j : Nat) : List Int :=
  (heap.set i (heap.getD j 0)).set j (heap.getD i 0)

/-- Embeds `bubbleUp(index)`.  Both `heap[parentIndex]` and `heap[index]` lie inside the
vector exactly when `index` does. -/
def bubbleUp (isMinHeap : Bool) : Nat → List Int → Nat → Except Fault (List Int)
  | 0, _, _ => Except.error Fault.outOfFuel
  | fuel + 1, heap, index =>
    if index = 0 then Except.ok heap
    else if heap.length ≤ index then Except.error Fault.outOfBounds
    else
      let parentIndex := (index - 1) / 2
      if shouldSwap isMinHeap (heap.getD parentIndex 0) (heap.getD index 0) then
        bubbleUp isMinHeap fuel (swap heap index parentIndex) parentIndex
      else Except.ok heap

/-- The choice of `target` made by `bubbleDown(index)` before it swaps. -/
def downTarget (isMinHeap : Bool) (heap : List Int) (index : Nat) : Nat :=
  let leftChild := 2 * index + 1
  let rightChild := 2 * index + 2
  let target1 :=
    if leftChild < heap.length ∧ shouldSwap isMinHeap (heap.getD index 0) (heap.getD leftChild 0)
    then leftChild else index
  if rightChild < heap.length ∧
      shouldSwap isMinHeap (heap.getD target1 0) (heap.getD rightChild 0)
  then rightChild else target1

/-- Embeds `bubbleDown(index)`.  Every read is guarded by a comparison with `heap.size()`. -/
def bubbleDown (isMinHeap : Bool) : Nat → List Int → Nat → Except Fault (List Int)
  | 0, _, _ => Except.error Fault.outOfFuel
  | fuel + 1, heap, index =>
    let target := downTarget isMinHeap heap index
    if target ≠ index then bubbleDown isMinHeap fuel (swap heap index target) target
    else Except.ok heap

/-- The loop of `rebuildHeap`, with `count` standing for `i + 1`. -/
def rebuildLoop (isMinHeap : Bool) (fuel : Nat) : Nat → List Int → Except Fault (List Int)
  | 0, heap => Except.ok heap
  | i + 1, heap =>
    match bubbleDown isMinHeap fuel heap i with
    | Except.error e => Except.error e
    | Except.ok heap' => rebuildLoop isMinHeap fuel i heap'

/-- Embeds `rebuildHeap()`. -/
def rebuildHeap (isMinHeap : Bool) (fuel : Nat) (heap : List Int) :
    Except Fault (List Int × List HeapEvent) :=
  match rebuildLoop isMinHeap fuel (heap.length / 2) heap with
  | Except.error e => Except.error e
  | Except.ok heap' => Except.ok (heap', [updateVisualization heap'])

/-- Embeds `insertHeap(value)`. -/
def insertHeap (isMinHeap : Bool) (fuel : Nat) (heap : List Int) (value : Int) :
    Except Fault (List Int × List HeapEvent) :=
  let heap1 := heap ++ [value]
  match bubbleUp isMinHeap fuel heap1 (heap1.length - 1) with
  | Except.error e => Except.error e
  | Except.ok heap' => Except.ok (heap', [updateVisualization heap'])

/-- Embeds `extractRoot()`. -/
def extractRoot (isMinHeap : Bool) (fuel : Nat) (heap : List Int) :
    Except Fault (List Int × List HeapEvent) :=
  if heap = [] then Except.ok (heap, [])
  else
    let heap1 := (heap.set 0 (heap.getD (heap.length - 1) 0)).dropLast
    if heap1 ≠ [] then
      match bubbleDown isMinHeap fuel heap1 0 with
      | Except.error e => Except.error e
      | Except.ok heap' => Except.ok (heap', [updateVisualization heap'])
    else Except.ok (heap1, [updateVisualization heap1])

/-- Embeds `clearHeap()`. -/
def clearHeap (_heap : List Int) : List Int × List HeapEvent :=
  ([], [updateVisualization []])

/-- Embeds `toggleHeapType(makeMinHeap)`: the new flag together with the rebuilt vector. -/
def toggleHeapType (makeMinHeap : Bool) (fuel : Nat) (heap : List Int) :
    Except Fault (Bool × List Int × List HeapEvent) :=
  match rebuildHeap makeMinHeap fuel heap with
  | Except.error e => Except.error e
  | Except.ok r => Except.ok (makeMinHeap, r.1, r.2)

/-- A call that leaves the mode flag alone. -/
inductive Op where
  | insertHeap (value : Int)
  | extractRoot
  | clearHeap
  deriving DecidableEq, Repr

/-- Runs one call in the mode `isMinHeap`. -/
def step (isMinHeap : Bool) (fuel : Nat) (heap : List Int) : Op → Except Fault (List Int)
  | Op.insertHeap v =>
    match insertHeap isMinHeap fuel heap v with
    | Except.error e => Except.error e
    | Except.ok r => Except.ok r.1
  | Op.extractRoot =>
    match extractRoot isMinHeap fuel heap with
    | Except.error e => Except.error e
    | Except.ok r => Except.ok r.1
  | Op.clearHeap => Except.ok (clearHeap heap).1

/-- Runs a sequence of calls, left to right. -/
def run (isMinHeap : Bool) (fuel : Nat) : List Int → List Op → Except Fault (List Int)
  | heap, [] => Except.ok heap
  | heap, op :: ops =>
    match step isMinHeap fuel heap op with
    | Except.error e => Except.error e
    | Except.ok heap' => run isMinHeap fuel heap' ops

/-- The order the active comparator wants between a parent and its child. -/
def inOrder (isMinHeap : Bool) (parentVal childVal : Int) : Prop :=
  if isMinHeap then parentVal ≤ childVal else childVal ≤ parentVal

/-- Every index `i ≥ 1` is in order with its parent `(i - 1) / 2`. -/
def Ordered (isMinHeap : Bool) (heap : List Int) : Prop :=
  ∀ i, 1 ≤ i → i < heap.length →
    inOrder isMinHeap (heap.getD ((i - 1) / 2) 0) (heap.getD i 0)

/-- Order holds at every index whose parent is not `k`, and the children of `k`
are in order with the parent of `k`: what `bubbleDown k` starts from. -/
def DownInv (isMinHeap : Bool) (heap : List Int) (k : Nat) : Prop :=
  (∀ i, 1 ≤ i → i < heap.length → (i - 1) / 2 ≠ k →
    inOrder isMinHeap (heap.getD ((i - 1) / 2) 0) (heap.getD i 0)) ∧
  (∀ i, 1 ≤ i → i < heap.length → (i - 1) / 2 = k → 1 ≤ k →
    inOrder isMinHeap (heap.getD ((k - 1) / 2) 0) (heap.getD i 0))

/-- Order holds at every index other than `k`, and the children of `k` are in
order with the parent of `k`: what `bubbleUp k` starts from. -/
def UpInv (isMinHeap : Bool) (heap : List Int) (k : Nat) : Prop :=
  (∀ i, 1 ≤ i → i < heap.length → i ≠ k →
    inOrder isMinHeap (heap.getD ((i - 1) / 2) 0) (heap.getD i 0)) ∧
  (∀ i, 1 ≤ i → i < heap.length → (i - 1) / 2 = k → 1 ≤ k →
    inOrder isMinHeap (heap.getD ((k - 1) / 2) 0) (heap.getD i 0))

end Heap

/-! # Search tree with optional AVL balancing (`src/tree.cpp`)

A `Node*` is a value of `Node`; `nullptr` is `Node.nil`.  Every node is owned by exactly one
parent pointer, so the in-place updates of the source are functional updates.
The calls to `logEvent` are not part of this embedding of the tree. -/

/-- A `Node*`: `nullptr`, or `struct Node { int data; Node* left; Node* right; int id; int height; }`. -/
inductive Node where
  | nil
  | node (data : Int) (left right : Node) (id : Int) (height : Int)
  deriving DecidableEq, Repr

namespace Node

/-- Embeds `getHeight(N)`: the stored height, 0 for `nullptr`. -/
def getHeight : Node → Int
  | nil => 0
  | node _ _ _ _ h => h

/-- Embeds `max(a, b)` as defined in the source. -/
def max (a b : Int) : Int :=
  if a > b then a else b

/-- Embeds `getBalance(N)`. -/
def getBalance : Node → Int
  | nil => 0
  | node _ l r _ _ => getHeight l - getHeight r

/-- Embeds `rightRotate(y)`; dereferences `y` and `y->left`. -/
def rightRotate : Node → Except Fault Node
  | node yd (node xd xl t2 xid _) yr yid _ =>
    let y' := node yd t2 yr yid (max (getHeight t2) (getHeight yr) + 1)
    Except.ok (node xd xl y' xid (max (getHeight xl) (getHeight y') + 1))
  | _ => Except.error Fault.nullDeref

/-- Embeds `leftRotate(x)`; dereferences `x` and `x->right`. -/
def leftRotate : Node → Except Fault Node
  | node xd xl (node yd t2 yr yid _) xid _ =>
    let x' := node xd xl t2 xid (max (getHeight xl) (getHeight t2) + 1)
    Except.ok (node yd x' yr yid (max (getHeight x') (getHeight yr) + 1))
  | _ => Except.error Fault.nullDeref

/-- Embeds `inorderExtraction(root, nodes)`: the keys in in-order. -/
def inorderExtraction : Node → List Int
  | nil => []
  | node d l r _ _ => inorderExtraction l ++ d :: inorderExtraction r

/-- The part of `insertRec` after the recursive call: `node` already holds the new
child.  Returns at once in plain mode; otherwise recomputes the height and
applies the four rotation cases, which compare `value` with the child's key. -/
def insertFix (useAVL : Bool) (value : Int) : Node → Except Fault Node
  | nil => Except.error Fault.nullDeref
  | node d l r id h =>
    if !useAVL then Except.ok (node d l r id h)
    else
      let nd := node d l r id (1 + max (getHeight l) (getHeight r))
      let balance := getBalance nd
      if balance > 1 then
        match l with
        | nil => Except.error Fault.nullDeref
        | node ld _ _ _ _ =>
          if value < ld then rightRotate nd
          else if value > ld then
            match leftRotate l with
            | Except.error e => Except.error e
            | Except.ok l' => rightRotate (node d l' r id (1 + max (getHeight l) (getHeight r)))
          else Except.ok nd
      else if balance < -1 then
        match r with
        | nil => Except.error Fault.nullDeref
        | node rd _ _ _ _ =>
          if value > rd then leftRotate nd
          else if value < rd then
            match rightRotate r with
            | Except.error e => Except.error e
            | Except.ok r' => leftRotate (node d l r' id (1 + max (getHeight l) (getHeight r)))
          else Except.ok nd
      else Except.ok nd

/-- Embeds `insertRec(node, value)`, threading the global `nextId`. -/
def insertRec (useAVL : Bool) (value : Int) : Node → Int → Except Fault (Node × Int)
  | nil, nextId => Except.ok (node value nil nil nextId 1, nextId + 1)
  | node d l r id h, nextId =>
    if value < d then
      match insertRec useAVL value l nextId with
      | Except.error e => Except.error e
      | Except.ok (l', n') =>
        match insertFix useAVL value (node d l' r id h) with
        | Except.error e => Except.error e
        | Except.ok t => Except.ok (t, n')
    else if value > d then
      match insertRec useAVL value r nextId with
      | Except.error e => Except.error e
      | Except.ok (r', n') =>
        match insertFix useAVL value (node d l r' id h) with
        | Except.error e => Except.error e
        | Except.ok t => Except.ok (t, n')
    else Except.ok (node d l r id h, nextId)

/-- Embeds `minValueNode(node)`: the leftmost node. -/
def minValueNode : Node → Node
  | nil => nil
  | node d nil r id h => node d nil r id h
  | node _ (node ld ll lr lid lh) _ _ _ => minValueNode (node ld ll lr lid lh)

/-- The part of `deleteRec` after the `if/else` chain: returns at once in plain
mode; otherwise recomputes the height and applies the four rotation cases, which
look at the balance factor of the child. -/
def deleteFix (useAVL : Bool) : Node → Except Fault Node
  | nil => Except.ok nil
  | node d l r id h =>
    if !useAVL then Except.ok (node d l r id h)
    else
      let nd := node d l r id (1 + max (getHeight l) (getHeight r))
      let balance := getBalance nd
      if balance > 1 ∧ getBalance l ≥ 0 then rightRotate nd
      else if balance > 1 ∧ getBalance l < 0 then
        match leftRotate l with
        | Except.error e => Except.error e
        | Except.ok l' => rightRotate (node d l' r id (1 + max (getHeight l) (getHeight r)))
      else if balance < -1 ∧ getBalance r ≤ 0 then leftRotate nd
      else if balance < -1 ∧ getBalance r > 0 then
        match rightRotate r with
        | Except.error e => Except.error e
        | Except.ok r' => leftRotate (node d l r' id (1 + max (getHeight l) (getHeight r)))
      else Except.ok nd

/-- The test `!p` on a pointer. -/
def isNull : Node → Bool
  | nil => true
  | node _ _ _ _ _ => false

/-- Embeds `deleteRec(root, value)`. -/
def deleteRec (useAVL : Bool) : Node → Int → Except Fault Node
  | nil, _ => Except.ok nil
  | node d l r id h, value =>
    if value < d then
      match deleteRec useAVL l value with
      | Except.error e => Except.error e
      | Except.ok l' => deleteFix useAVL (node d l' r id h)
    else if value > d then
      match deleteRec useAVL r value with
      | Except.error e => Except.error e
      | Except.ok r' => deleteFix useAVL (node d l r' id h)
    else if isNull l then Except.ok r
    else if isNull r then Except.ok l
    else
      match minValueNode r with
      | nil => Except.error Fault.nullDeref
      | node td _ _ _ _ =>
        match deleteRec useAVL r td with
        | Except.error e => Except.error e
        | Except.ok r' => deleteFix useAVL (node td l r' id h)

end Node

/-- The globals `bstRoot`, `nextId` and `useAVL`. -/
structure TreeState where
  bstRoot : Node
  nextId : Int
  useAVL : Bool
  deriving DecidableEq, Repr

namespace TreeState

/-- The state at program start. -/
def init : TreeState := { bstRoot := Node.nil, nextId := 0, useAVL := false }

/-- Embeds `insertBST(value)`. -/
def insertBST (s : TreeState) (value : Int) : Except Fault TreeState :=
  match Node.insertRec s.useAVL value s.bstRoot s.nextId with
  | Except.error e => Except.error e
  | Except.ok (t, n) => Except.ok { s with bstRoot := t, nextId := n }

/-- Embeds `deleteBST(value)`. -/
def deleteBST (s : TreeState) (value : Int) : Except Fault TreeState :=
  match Node.deleteRec s.useAVL s.bstRoot value with
  | Except.error e => Except.error e
  | Except.ok t => Except.ok { s with bstRoot := t }

/-- The `for (int val : nodes)` loop of `rebalanceBST`. -/
def reinsert (useAVL : Bool) : List Int → Node → Int → Except Fault (Node × Int)
  | [], t, n => Except.ok (t, n)
  | v :: vs, t, n =>
    match Node.insertRec useAVL v t n with
    | Except.error e => Except.error e
    | Except.ok (t', n') => reinsert useAVL vs t' n'

/-- Embeds `rebalanceBST()`: empties the tree, resets `nextId` and re-inserts the keys. -/
def rebalanceBST (s : TreeState) : Except Fault TreeState :=
  match reinsert s.useAVL (Node.inorderExtraction s.bstRoot) Node.nil 0 with
  | Except.error e => Except.error e
  | Except.ok (t, n) => Except.ok { s with bstRoot := t, nextId := n }

/-- Embeds `setAVL(enable)`. -/
def setAVL (s : TreeState) (enable : Bool) : Except Fault TreeState :=
  if enable then rebalanceBST { s with useAVL := enable }
  else Except.ok { s with useAVL := enable }

/-- Embeds `clearBST()`. -/
def clearBST (s : TreeState) : TreeState :=
  { s with bstRoot := Node.nil, nextId := 0 }

/-- A call on the tree. -/
inductive Op where
  | insertBST (value : Int)
  | deleteBST (value : Int)
  | setAVL (enable : Bool)
  | clearBST
  deriving DecidableEq, Repr

/-- A call other than `setAVL(false)`. -/
def Op.keepsAVL : Op → Bool
  | Op.setAVL false => false
  | _ => true

/-- The set model of the tree: how one call changes the set of stored values. -/
def track (m : Int → Bool) : Op → Int → Bool
  | Op.insertBST v => fun x => decide (x = v) || m x
  | Op.deleteBST v => fun x => !decide (x = v) && m x
  | Op.setAVL _ => m
  | Op.clearBST => fun _ => false

/-- The values that were inserted and not deleted (or cleared) since. -/
def live (ops : List Op) : Int → Bool :=
  ops.foldl track (fun _ => false)

/-- Runs one call. -/
def step (s : TreeState) : Op → Except Fault TreeState
  | Op.insertBST v => insertBST s v
  | Op.deleteBST v => deleteBST s v
  | Op.setAVL b => setAVL s b
  | Op.clearBST => Except.ok (clearBST s)

/-- Runs a sequence of calls, left to right. -/
def run : TreeState → List Op → Except Fault TreeState
  | s, [] => Except.ok s
  | s, op :: ops =>
    match step s op with
    | Except.error e => Except.error e
    | Except.ok s' => run s' ops

end TreeState

namespace Node

/-- The true height of a tree: 0 for `nullptr`, otherwise one more than the
taller child. -/
def trueHeight : Node → Int
  | nil => 0
  | node _ l r _ _ => 1 + Max.max (trueHeight l) (trueHeight r)

/-- Every node has children whose true heights differ by at most 1. -/
def Balanced : Node → Prop
  | nil => True
  | node _ l r _ _ =>
    Balanced l ∧ Balanced r ∧
      trueHeight l ≤ trueHeight r + 1 ∧ trueHeight r ≤ trueHeight l + 1

/-- Every stored `height` field equals the true height of its node. -/
def HeightsExact : Node → Prop
  | nil => True
  | node _ l r _ h =>
    HeightsExact l ∧ HeightsExact r ∧ h = 1 + Max.max (trueHeight l) (trueHeight r)

/-- The AVL invariant: balanced, with exact stored heights. -/
def AVL (t : Node) : Prop :=
  Balanced t ∧ HeightsExact t

/-- What is known about a tree that just grew by an insertion of `value`: it is
the new leaf, or its taller side is the side `value` went to. -/
def Grown (value : Int) : Node → Prop
  | nil => False
  | node d l r _ _ =>
    (value = d ∧ l = nil ∧ r = nil) ∨
    (value < d ∧ trueHeight l = trueHeight r + 1) ∨
    (value > d ∧ trueHeight r = trueHeight l + 1)

end Node

/-! ## Dijkstra (`dijkstra` in `src/graph.cpp`)

The local maps `dist` and `parent` are only ever accessed through `operator[]`,
which reads 0 under an absent key. `std::priority_queue` with `std::greater` hands
out the lexicographically smallest pair; it is embedded as a list from which the
smallest pair is removed. `int` addition wraps at 32 bits. The lookups `adj[u]`
can add empty vectors to the global `adj`; no call can observe them, and they are
not part of the embedding. -/

namespace Graph

/-- Embeds `std::numeric_limits<int>::max()`. -/
def INT_MAX : Int := 2147483647

/-- The value of an `int` computation: two's complement wrap-around at 32 bits. -/
def wrap32 (x : Int) : Int :=
  (x + 2147483648) % 4294967296 - 2147483648

/-- Embeds `a + b` on `int`. -/
def addInt (a b : Int) : Int :=
  wrap32 (a + b)

/-- Embeds `std::greater` on pairs, read as "`a` leaves the queue before `b`". -/
def pairLt (a b : Int × Int) : Bool :=
  decide (a.1 < b.1) || (decide (a.1 = b.1) && decide (a.2 < b.2))

/-- Embeds `pq.top()`: the smallest pair of the queue. -/
def minPair : List (Int × Int) → Option (Int × Int)
  | [] => none
  | p :: ps =>
    match minPair ps with
    | none => some p
    | some q => if pairLt q p then some q else some p

/-- Embeds `pq.top()` followed by `pq.pop()`. -/
def popMin (pq : List (Int × Int)) : Option ((Int × Int) × List (Int × Int)) :=
  match minPair pq with
  | none => none
  | some p => some (p, pq.erase p)

/-- The locals of `dijkstra` that live across loop iterations, and the events so far. -/
structure DState where
  dist : IntMap Int
  parent : IntMap Int
  pq : List (Int × Int)
  events : List GEvent
  deriving DecidableEq, Repr

/-- The `for (const auto& edge : adj[u])` loop of `dijkstra`. -/
def relaxEdges (u : Int) : List Edge → DState → DState
  | [], s => s
  | e :: es, s =>
    if addInt (s.dist.rd u) e.weight < s.dist.rd e.target then
      let nd := addInt (s.dist.rd u) e.weight
      relaxEdges u es
        { dist := s.dist.put e.target nd,
          parent := s.parent.put e.target u,
          pq := (nd, e.target) :: s.pq,
          events := s.events ++ [GEvent.relax_edge u e.target nd] }
    else relaxEdges u es s

/-- The `while (!pq.empty())` loop of `dijkstra`. -/
def mainLoop (g : Graph) (endNode : Int) : Nat → DState → Except Fault DState
  | 0, _ => Except.error Fault.outOfFuel
  | fuel + 1, s =>
    match popMin s.pq with
    | none => Except.ok s
    | some ((d, u), pq') =>
      if d > s.dist.rd u then mainLoop g endNode fuel { s with pq := pq' }
      else
        let s1 : DState := { s with pq := pq', events := s.events ++ [GEvent.visit_node u d] }
        if u = endNode then Except.ok s1
        else mainLoop g endNode fuel (relaxEdges u (g.adj.vec u) s1)

/-- The `while (curr != startNode)` loop of the path reconstruction. -/
def pathLoop (parent : IntMap Int) (startNode : Int) : Nat → Int → List Int →
    Except Fault (List Int)
  | 0, _, _ => Except.error Fault.outOfFuel
  | fuel + 1, curr, path =>
    if curr ≠ startNode then pathLoop parent startNode fuel (parent.rd curr) (path ++ [curr])
    else Except.ok path

/-- The state built before the main loop: every node at `INT_MAX`, the start at 0,
the queue holding `(0, startNode)`. -/
def initState (g : Graph) (startNode : Int) : DState :=
  { dist := IntMap.put (g.nodes.foldl (fun m id => IntMap.put m id INT_MAX) ([] : IntMap Int))
      startNode 0,
    parent := [],
    pq := [(0, startNode)],
    events := [] }

/-- Embeds `dijkstra(startNode, endNode)`: the events it emits. -/
def dijkstra (g : Graph) (startNode endNode : Int) (fuel : Nat) : Except Fault (List GEvent) :=
  if startNode ∉ g.nodes then Except.ok []
  else
    match mainLoop g endNode fuel (initState g startNode) with
    | Except.error e => Except.error e
    | Except.ok s =>
      if s.dist.rd endNode ≠ INT_MAX then
        match pathLoop s.parent startNode fuel endNode [] with
        | Except.error e => Except.error e
        | Except.ok path =>
          Except.ok (s.events ++ [GEvent.shortest_path ((path ++ [startNode]).reverse)])
      else Except.ok (s.events ++ [GEvent.finished])

/-- Recognises the `shortest_path` events. -/
def isShortestPath : GEvent → Bool
  | GEvent.shortest_path _ => true
  | _ => false

/-- The relation `Walk g s p u w`: `p` lists the nodes of a walk from `s` to `u` that follows
adjacency entries of `g`, and `w` is the sum of the weights of those entries. -/
inductive Walk (g : Graph) (s : Int) : List Int → Int → Int → Prop where
  | nil : Walk g s [s] s 0
  | snoc {p : List Int} {u w : Int} (e : Edge) :
      Walk g s p u w → e ∈ g.adj.vec u → Walk g s (p ++ [e.target]) e.target (w + e.weight)

end Graph

namespace Graph

/-- Node `u` has been settled: a `visit_node` event for it was emitted. -/
def Settled (evs : List GEvent) (u : Int) : Prop :=
  ∃ d, GEvent.visit_node u d ∈ evs

/-- The relation `Chain parent start S v p`: following `parent` from `v` leads to `start` through
nodes of `S`, and `p` lists the nodes met, from `start` to `v`. -/
inductive Chain (parent : IntMap Int) (start : Int) (S : Int → Prop) :
    Int → List Int → Prop where
  | base : Chain parent start S start [start]
  | step {v : Int} {p : List Int} :
      v ≠ start → S v → Chain parent start S (parent.rd v) p →
      Chain parent start S v (p ++ [v])

/-- No walk from `start` to `u` weighs less than `d`. -/
def IsMin (g : Graph) (start u d : Int) : Prop :=
  ∀ p w, Walk g start p u w → d ≤ w

/-- The sum of the tentative distances of all nodes. -/
def distSum (g : Graph) (dist : IntMap Int) : Int :=
  (g.nodes.map fun v => dist.rd v).sum

/-- Termination measure of the main loop. -/
def measure (g : Graph) (st : DState) : Int :=
  (st.pq.length : Int) + 2 * distSum g st.dist

/-- Loop invariant of `dijkstra`.  `C u e` marks the adjacency entries `e` of settled
nodes `u` that have already been relaxed. -/
structure DInv (g : Graph) (start endNode : Int) (C : Int → Edge → Prop) (st : DState) :
    Prop where
  dist_start : st.dist.rd start = 0
  dist_nonneg : ∀ v, v ∈ g.nodes → 0 ≤ st.dist.rd v
  tree : ∀ v, v ∈ g.nodes → st.dist.rd v < INT_MAX →
    v = start ∨ (Settled st.events (st.parent.rd v) ∧
      ∃ e, e ∈ g.adj.vec (st.parent.rd v) ∧ e.target = v ∧
        st.dist.rd v = st.dist.rd (st.parent.rd v) + e.weight)
  settled : ∀ u, Settled st.events u →
    u ∈ g.nodes ∧ st.dist.rd u < INT_MAX ∧ IsMin g start u (st.dist.rd u) ∧
      ∃ p, Chain st.parent start (Settled st.events) u p ∧ Walk g start p u (st.dist.rd u)
  queued : ∀ v, v ∈ g.nodes → st.dist.rd v < INT_MAX →
    Settled st.events v ∨ (st.dist.rd v, v) ∈ st.pq
  closed : ∀ u, Settled st.events u → ∀ e, e ∈ g.adj.vec u → C u e →
    st.dist.rd e.target ≤ st.dist.rd u + e.weight
  pq_ok : ∀ d v, (d, v) ∈ st.pq → v ∈ g.nodes ∧ st.dist.rd v ≤ d ∧ d < INT_MAX
  end_open : ¬ Settled st.events endNode
  no_path_event : ∀ ev, ev ∈ st.events → isShortestPath ev = false

/-- What the main loop establishes when it leaves through `break`. -/
structure DPost (g : Graph) (start endNode : Int) (st : DState) : Prop where
  no_path_event : ∀ ev, ev ∈ st.events → isShortestPath ev = false
  finite : st.dist.rd endNode < INT_MAX
  minimal : IsMin g start endNode (st.dist.rd endNode)
  chain : ∃ p, Chain st.parent start (Settled st.events) endNode p ∧
    Walk g start p endNode (st.dist.rd endNode)

/-- The hypotheses on the graph under which `dijkstra` is verified: adjacency targets
are nodes, weights are non-negative, and no sum of a shortest distance from `start`
and the weight of an edge leaving that node reaches `INT_MAX`. -/
structure DHyp (g : Graph) (start : Int) : Prop where
  start_mem : start ∈ g.nodes
  targets : ∀ u e, e ∈ g.adj.vec u → e.target ∈ g.nodes
  nonneg : ∀ u e, e ∈ g.adj.vec u → 0 ≤ e.weight
  bound : ∀ p u d, Walk g start p u d → IsMin g start u d →
    ∀ e, e ∈ g.adj.vec u → d + e.weight < INT_MAX

end Graph

/-! ## Tree: search and the events of an insertion (`src/tree.cpp`) -/

/-- The object built by `getTreeData`: `null`, or `id`, `value`, `height`,
`balanceFactor` and the array `children` (left child first; only the children that
exist; the key is absent, here the empty list, on a leaf). -/
inductive TreeData where
  | null
  | obj (id value height balanceFactor : Int) (children : List TreeData)

/-- Calls into the JavaScript side made by the tree: `logEvent` with the tags
`snapshot` and `highlight` (with its message), and `highlightPath`. -/
inductive TEvent where
  | snapshot (data : TreeData) (message : String)
  | highlight (ids : List Int) (message : String)
  | highlightPath (ids : List Int)

namespace Node

/-- Embeds `getTreeData(node)`. -/
def getTreeData : Node → TreeData
  | nil => TreeData.null
  | node d l r id h =>
    TreeData.obj id d h (getHeight l - getHeight r)
      ((if isNull l then [] else [getTreeData l]) ++ (if isNull r then [] else [getTreeData r]))

/-- Embeds `searchRec(node, value, path)`: returns the extended `path`. -/
def searchRec : Node → Int → List Int → List Int
  | nil, _, path => path
  | node d l r id _, value, path =>
    if d = value then path ++ [id]
    else if value < d then searchRec l value (path ++ [id])
    else searchRec r value (path ++ [id])

/-- The nodes met when descending from the root by comparing `value` with the key of
each node: stop on equality, go left when `value` is smaller, right otherwise. -/
def descent : Node → Int → List Node
  | nil, _ => []
  | node d l r id h, value =>
    node d l r id h ::
      (if d = value then [] else if value < d then descent l value else descent r value)

/-- The field `id` of a node (0 for `nullptr`). -/
def idOf : Node → Int
  | nil => 0
  | node _ _ _ id _ => id

/-- The field `data` of a node (0 for `nullptr`). -/
def dataOf : Node → Int
  | nil => 0
  | node d _ _ _ _ => d

/-- The `highlight` event logged at the start of a rotation of `y`: its id and the id of
the child `c` that moves up, when there is one. -/
def rotateEvent (y c : Node) (message : String) : TEvent :=
  TEvent.highlight ([idOf y] ++ (if isNull c then [] else [idOf c])) message

/-- Embeds `rightRotate(y)` together with the event it logs. -/
def rightRotateLog : Node → Except Fault (Node × List TEvent)
  | nil => Except.error Fault.nullDeref
  | node yd yl yr yid yh =>
    match rightRotate (node yd yl yr yid yh) with
    | Except.error e => Except.error e
    | Except.ok t => Except.ok (t, [rotateEvent (node yd yl yr yid yh) yl "Right Rotating..."])

/-- Embeds `leftRotate(x)` together with the event it logs. -/
def leftRotateLog : Node → Except Fault (Node × List TEvent)
  | nil => Except.error Fault.nullDeref
  | node xd xl xr xid xh =>
    match leftRotate (node xd xl xr xid xh) with
    | Except.error e => Except.error e
    | Except.ok t => Except.ok (t, [rotateEvent (node xd xl xr xid xh) xr "Left Rotating..."])

/-- The part of `insertRec` after the recursive call, with the events of its rotations. -/
def insertFixLog (useAVL : Bool) (value : Int) : Node → Except Fault (Node × List TEvent)
  | nil => Except.error Fault.nullDeref
  | node d l r id h =>
    if !useAVL then Except.ok (node d l r id h, [])
    else
      let nd := node d l r id (1 + max (getHeight l) (getHeight r))
      let balance := getBalance nd
      if balance > 1 then
        match l with
        | nil => Except.error Fault.nullDeref
        | node ld _ _ _ _ =>
          if value < ld then rightRotateLog nd
          else if value > ld then
            match leftRotateLog l with
            | Except.error e => Except.error e
            | Except.ok (l', ev1) =>
              match rightRotateLog (node d l' r id (1 + max (getHeight l) (getHeight r))) with
              | Except.error e => Except.error e
              | Except.ok (t, ev2) => Except.ok (t, ev1 ++ ev2)
          else Except.ok (nd, [])
      else if balance < -1 then
        match r with
        | nil => Except.error Fault.nullDeref
        | node rd _ _ _ _ =>
          if value > rd then leftRotateLog nd
          else if value < rd then
            match rightRotateLog r with
            | Except.error e => Except.error e
            | Except.ok (r', ev1) =>
              match leftRotateLog (node d l r' id (1 + max (getHeight l) (getHeight r))) with
              | Except.error e => Except.error e
              | Except.ok (t, ev2) => Except.ok (t, ev1 ++ ev2)
          else Except.ok (nd, [])
      else Except.ok (nd, [])

/-- The `Rebalancing...` snapshot logged in AVL mode after a recursive call returned:
`whole` is the tree hanging from the global `bstRoot` at that moment. -/
def rebalancingEvent (useAVL : Bool) (whole : Node) : List TEvent :=
  if useAVL then [TEvent.snapshot (getTreeData whole) "Rebalancing..."] else []

/-- Embeds `insertRec(node, value)` with its events.  While the recursion runs, the
global `bstRoot` still points to the old root, whose descendants are updated in place:
`ctx t` is the tree seen from `bstRoot` when the subtree being visited is `t`. -/
def insertRecLog (useAVL : Bool) (value : Int) :
    (Node → Node) → Node → Int → Except Fault (Node × Int × List TEvent)
  | _, nil, nextId => Except.ok (node value nil nil nextId 1, nextId + 1, [])
  | ctx, node d l r id h, nextId =>
    if value < d then
      match insertRecLog useAVL value (fun x => ctx (node d x r id h)) l nextId with
      | Except.error e => Except.error e
      | Except.ok (l', n', ev1) =>
        match insertFixLog useAVL value (node d l' r id h) with
        | Except.error e => Except.error e
        | Except.ok (t, ev2) =>
          Except.ok (t, n', ev1 ++ rebalancingEvent useAVL (ctx (node d l' r id h)) ++ ev2)
    else if value > d then
      match insertRecLog useAVL value (fun x => ctx (node d l x id h)) r nextId with
      | Except.error e => Except.error e
      | Except.ok (r', n', ev1) =>
        match insertFixLog useAVL value (node d l r' id h) with
        | Except.error e => Except.error e
        | Except.ok (t, ev2) =>
          Except.ok (t, n', ev1 ++ rebalancingEvent useAVL (ctx (node d l r' id h)) ++ ev2)
    else Except.ok (node d l r id h, nextId, [])

end Node

namespace TreeState

/-- Embeds `updateBSTVisualization()`. -/
def updateBSTVisualization (s : TreeState) : TEvent :=
  TEvent.snapshot (Node.getTreeData s.bstRoot) "Tree Updated"

/-- Embeds `insertBST(value)` with the events it emits. -/
def insertBSTLog (s : TreeState) (value : Int) : Except Fault (TreeState × List TEvent) :=
  match Node.insertRecLog s.useAVL value (fun x => x) s.bstRoot s.nextId with
  | Except.error e => Except.error e
  | Except.ok (t, n, evs) =>
    Except.ok ({ s with bstRoot := t, nextId := n },
      evs ++ [updateBSTVisualization { s with bstRoot := t, nextId := n }])

/-- Embeds `searchBST(value)`: one call of `highlightPath`. -/
def searchBST (s : TreeState) (value : Int) : List TEvent :=
  [TEvent.highlightPath (Node.searchRec s.bstRoot value [])]

end TreeState

namespace Heap

/-- Every index whose parent is at least `lo` is in order with that parent: the state of
the vector while `rebuildHeap` walks from the last parent down to index 0. -/
def OrderedFrom (isMinHeap : Bool) (lo : Nat) (heap : List Int) : Prop :=
  ∀ i, 1 ≤ i → i < heap.length → lo ≤ (i - 1) / 2 →
    inOrder isMinHeap (heap.getD ((i - 1) / 2) 0) (heap.getD i 0)

end Heap

namespace Graph

/-- The adjacency entries of `u` that target `v`, in list order. -/
def entries (g : Graph) (u v : Int) : List Edge :=
  (g.adj.vec u).filter fun e => decide (e.target = v)

end Graph

/-! ## Traversals and Prim (`bfs`, `dfs`, `prim` in `src/graph.cpp`)

`std::queue` and `std::stack` are lists (front, respectively top, first), the local
`std::set<int> visited` an ascending list.  The local vectors `traversalOrder` and
`mstEdges` are written and never read; they are not part of the loop state, and
`highlighted` and `mstEdges` below read the same sequences off the events.  The lookups
`adj[u]` can add empty vectors to the global `adj`; no call can observe them, and they
are not part of the embedding.  The three loops carry a fuel counter. -/

namespace Graph

/-- The `for (const auto& edge : adj[u])` loop of `bfs`: the new `visited` and `q`. -/
def bfsScan : List Edge → List Int → List Int → List Int × List Int
  | [], visited, q => (visited, q)
  | e :: es, visited, q =>
    if e.target ∈ visited then bfsScan es visited q
    else bfsScan es (setInsert visited e.target) (q ++ [e.target])

/-- The `while (!q.empty())` loop of `bfs`. -/
def bfsLoop (g : Graph) : Nat → List Int → List Int → List GEvent → Except Fault (List GEvent)
  | 0, _, _, _ => Except.error Fault.outOfFuel
  | _ + 1, [], _, evs => Except.ok evs
  | fuel + 1, u :: q, visited, evs =>
    bfsLoop g fuel (bfsScan (g.adj.vec u) visited q).2 (bfsScan (g.adj.vec u) visited q).1
      (evs ++ [GEvent.highlight u q])

/-- Embeds `bfs(startNode)`: the events it emits. -/
def bfs (g : Graph) (startNode : Int) (fuel : Nat) : Except Fault (List GEvent) :=
  if startNode ∉ g.nodes then Except.ok []
  else
    match bfsLoop g fuel [startNode] (setInsert [] startNode) [] with
    | Except.error e => Except.error e
    | Except.ok evs => Except.ok (evs ++ [GEvent.finished])

/-- The `for (const auto& edge : adj[u])` loop of `dfs`: the new stack. -/
def dfsPush : List Edge → List Int → List Int → List Int
  | [], _, s => s
  | e :: es, visited, s =>
    if e.target ∈ visited then dfsPush es visited s
    else dfsPush es visited (e.target :: s)

/-- The `while (!s.empty())` loop of `dfs`. -/
def dfsLoop (g : Graph) : Nat → List Int → List Int → List GEvent → Except Fault (List GEvent)
  | 0, _, _, _ => Except.error Fault.outOfFuel
  | _ + 1, [], _, evs => Except.ok evs
  | fuel + 1, u :: s, visited, evs =>
    if u ∈ visited then dfsLoop g fuel s visited evs
    else
      dfsLoop g fuel (dfsPush (g.adj.vec u) (setInsert visited u) s) (setInsert visited u)
        (evs ++ [GEvent.highlight u s])

/-- Embeds `dfs(startNode)`: the events it emits. -/
def dfs (g : Graph) (startNode : Int) (fuel : Nat) : Except Fault (List GEvent) :=
  if startNode ∉ g.nodes then Except.ok []
  else
    match dfsLoop g fuel [startNode] [] [] with
    | Except.error e => Except.error e
    | Except.ok evs => Except.ok (evs ++ [GEvent.finished])

/-- Embeds `std::greater` on `tuple<int, int, int>`, read as "`a` leaves the queue before
`b`": the lexicographic order. -/
def tripleLt (a b : Int × Int × Int) : Bool :=
  decide (a.1 < b.1) ||
    (decide (a.1 = b.1) &&
      (decide (a.2.1 < b.2.1) || (decide (a.2.1 = b.2.1) && decide (a.2.2 < b.2.2))))

/-- Embeds `pq.top()` in `prim`: the smallest triple of the queue. -/
def minTriple : List (Int × Int × Int) → Option (Int × Int × Int)
  | [] => none
  | p :: ps =>
    match minTriple ps with
    | none => some p
    | some q => if tripleLt q p then some q else some p

/-- Embeds `pq.top()` followed by `pq.pop()` in `prim`. -/
def popMinTriple (pq : List (Int × Int × Int)) :
    Option ((Int × Int × Int) × List (Int × Int × Int)) :=
  match minTriple pq with
  | none => none
  | some p => some (p, pq.erase p)

/-- The `for (const auto& edge : adj[u])` loop of `prim`: the new queue. -/
def primPush (u : Int) : List Edge → List Int → List (Int × Int × Int) →
    List (Int × Int × Int)
  | [], _, pq => pq
  | e :: es, visited, pq =>
    if e.target ∈ visited then primPush u es visited pq
    else primPush u es visited ((e.weight, e.target, u) :: pq)

/-- The `while (!pq.empty())` loop of `prim`. -/
def primLoop (g : Graph) : Nat → List (Int × Int × Int) → List Int → List GEvent →
    Except Fault (List GEvent)
  | 0, _, _, _ => Except.error Fault.outOfFuel
  | fuel + 1, pq, visited, evs =>
    match popMinTriple pq with
    | none => Except.ok evs
    | some ((_, u, parent), pq') =>
      if u ∈ visited then primLoop g fuel pq' visited evs
      else
        primLoop g fuel (primPush u (g.adj.vec u) (setInsert visited u) pq')
          (setInsert visited u)
          (if parent ≠ -1 then evs ++ [GEvent.mst_edge parent u] else evs)

/-- Embeds `prim(startNode)`: the events it emits. -/
def prim (g : Graph) (startNode : Int) (fuel : Nat) : Except Fault (List GEvent) :=
  if startNode ∉ g.nodes then Except.ok []
  else
    match primLoop g fuel [(0, startNode, -1)] [] [] with
    | Except.error e => Except.error e
    | Except.ok evs => Except.ok (evs ++ [GEvent.finished])

/-! ### Notions used to state what the traversals compute -/

/-- Node `v` can be reached from `start` along adjacency entries. -/
def Reach (g : Graph) (start v : Int) : Prop :=
  ∃ p w, Walk g start p v w

/-- Some walk from `start` to `v` has exactly `k` edges. -/
def Hop (g : Graph) (start v : Int) (k : Nat) : Prop :=
  ∃ p w, Walk g start p v w ∧ p.length = k + 1

/-- The hop distance of `v` from `start` is `k`: the fewest edges of a walk. -/
def HopDist (g : Graph) (start v : Int) (k : Nat) : Prop :=
  Hop g start v k ∧ ∀ k', Hop g start v k' → k ≤ k'

/-- The nodes of the `highlight` events, in emission order: what `bfs` and `dfs` push to
their local `traversalOrder`. -/
def highlighted : List GEvent → List Int
  | [] => []
  | GEvent.highlight u _ :: evs => u :: highlighted evs
  | _ :: evs => highlighted evs

/-- The `(source, target)` pairs of the `mst_edge` events, in emission order: what `prim`
pushes to its local `mstEdges`. -/
def mstEdges : List GEvent → List (Int × Int)
  | [] => []
  | GEvent.mst_edge s t :: evs => (s, t) :: mstEdges evs
  | _ :: evs => mstEdges evs

/-- The targets in `ts` that are not in `seen`, each once, in the order of `ts`. -/
def discover : List Int → List Int → List Int
  | _, [] => []
  | seen, t :: ts => if t ∈ seen then discover seen ts else t :: discover (t :: seen) ts

/-- The events are `highlight` events in which every queue snapshot continues the one before:
the queue left after visiting `u` is the queue shown with `u`, followed by the neighbours
of `u` that were neither visited nor queued (`before` lists the nodes already visited),
in the order of the adjacency list of `u`; the next event visits the front of that queue,
and after the last event that queue is empty. -/
def AdjOrder (g : Graph) : List Int → List GEvent → Prop
  | _, [] => True
  | before, [GEvent.highlight u q] =>
    q ++ discover (before ++ u :: q) ((g.adj.vec u).map fun e => e.target) = []
  | before, GEvent.highlight u q :: GEvent.highlight u' q' :: evs =>
    u' :: q' = q ++ discover (before ++ u :: q) ((g.adj.vec u).map fun e => e.target) ∧
      AdjOrder g (before ++ [u]) (GEvent.highlight u' q' :: evs)
  | _, _ => False

/-- The weight of the first adjacency entry of `u` that targets `v` (0 if there is none). -/
def edgeWeight (g : Graph) (u v : Int) : Int :=
  match (g.adj.vec u).find? fun e => decide (e.target = v) with
  | some e => e.weight
  | none => 0

/-- The relation `Rooted g start par v d`: following the parent links `par` from `v` leads to
`start` in `d` steps, each link being an adjacency entry from the parent to the child. -/
inductive Rooted (g : Graph) (start : Int) (par : Int → Int) : Int → Nat → Prop where
  | root : Rooted g start par start 0
  | step {v : Int} {d : Nat} :
      v ≠ start → hasEdge g (par v) v → Rooted g start par (par v) d →
      Rooted g start par v (d + 1)

/-- A spanning tree of the component of `start`, given by the parent of every node in the
tree rooted at `start`: the tree edges join each node of the component other than
`start` to its parent, and the parent links of every node of the component lead to
`start`. -/
def IsSpanningTree (g : Graph) (start : Int) (par : Int → Int) : Prop :=
  ∀ v, Reach g start v → ∃ d, Rooted g start par v d

/-- The total weight of the tree edges joining the nodes `vs` to their parents. -/
def treeWeight (g : Graph) (par : Int → Int) (vs : List Int) : Int :=
  (vs.map fun v => edgeWeight g (par v) v).sum

/-- The sum of the graph weights of the edges of the `mst_edge` events. -/
def mstWeight (g : Graph) (evs : List GEvent) : Int :=
  ((mstEdges evs).map fun e => edgeWeight g e.1 e.2).sum

end Graph

namespace Graph

/-- The number of nodes plus the number of adjacency entries of the nodes: a bound on the
work of one traversal. -/
def size (g : Graph) : Nat :=
  (g.nodes.map fun v => (g.adj.vec v).length + 1).sum

/-- The part of `size` that belongs to the nodes outside `visited`. -/
def pending (g : Graph) (visited : List Int) : Nat :=
  (g.nodes.map fun v => if v ∈ visited then 0 else (g.adj.vec v).length + 1).sum

/-- Recognises the `highlight` events. -/
def isHighlight : GEvent → Bool
  | GEvent.highlight _ _ => true
  | _ => false

/-- Recognises the `mst_edge` events. -/
def isMstEdge : GEvent → Bool
  | GEvent.mst_edge _ _ => true
  | _ => false

/-- Loop invariant of `dfs`. -/
structure DfsInv (g : Graph) (start : Int) (s visited : List Int) (evs : List GEvent) :
    Prop where
  events : ∀ ev ∈ evs, isHighlight ev = true
  vis : ∀ v, v ∈ visited ↔ v ∈ highlighted evs
  nodup : (highlighted evs).Nodup
  reach : ∀ v, v ∈ s ∨ v ∈ visited → Reach g start v
  innodes : ∀ v, v ∈ s → v ∈ g.nodes
  closed : ∀ u, u ∈ visited → ∀ e, e ∈ g.adj.vec u → e.target ∈ visited ∨ e.target ∈ s
  started : start ∈ visited ∨ start ∈ s
  first : (highlighted evs = [] ∧ s = [start]) ∨ (highlighted evs).head? = some start

end Graph

namespace Graph

/-- The targets of the `mst_edge` events: the nodes `prim` settled after `start`. -/
def mstTargets (evs : List GEvent) : List Int :=
  (mstEdges evs).map Prod.snd

/-- Loop invariant of `prim`, from the moment `start` is settled. -/
structure PrimInv (g : Graph) (start : Int) (pq : List (Int × Int × Int)) (visited : List Int)
    (evs : List GEvent) : Prop where
  events : ∀ ev ∈ evs, isMstEdge ev = true
  vis : ∀ v, v ∈ visited ↔ v = start ∨ v ∈ mstTargets evs
  nodup : (start :: mstTargets evs).Nodup
  reach : ∀ v, v ∈ visited → Reach g start v
  innodes : ∀ v, v ∈ visited → v ∈ g.nodes
  queue : ∀ w t u, (w, t, u) ∈ pq →
    u ∈ visited ∧ ({ target := t, weight := w } : Edge) ∈ g.adj.vec u
  crossing : ∀ u, u ∈ visited → ∀ e, e ∈ g.adj.vec u → e.target ∉ visited →
    (e.weight, e.target, u) ∈ pq
  edges : ∀ pre s t, pre ++ [GEvent.mst_edge s t] <+: evs →
    hasEdge g s t ∧ (s = start ∨ s ∈ mstTargets pre)
  sources : ∀ e, e ∈ mstEdges evs → e.1 ∈ visited

end Graph

namespace Graph

/-- Loop invariant of `bfs`: `order` lists the nodes visited so far and `pend` the
visited node under the loop body, if any, followed by the queue. -/
structure BfsInv (g : Graph) (start : Int) (order pend visited : List Int) : Prop where
  nodup : (order ++ pend).Nodup
  vis : ∀ v, v ∈ visited ↔ v ∈ order ∨ v ∈ pend
  dist : ∀ v, v ∈ visited → ∃ k, HopDist g start v k
  sorted : List.Pairwise (fun a b => ∀ ka kb, HopDist g start a ka → HopDist g start b kb →
    ka ≤ kb) (order ++ pend)
  window : ∀ h, pend.head? = some h → ∀ x, x ∈ pend → ∀ kh kx, HopDist g start h kh →
    HopDist g start x kx → kx ≤ kh + 1
  closed : ∀ x, x ∈ order → ∀ e, e ∈ g.adj.vec x → e.target ∈ visited
  start_in : start ∈ visited

end Graph

namespace Graph

/-- Node `a` has an adjacency entry targeting `b` with weight `w`. -/
def wEdge (g : Graph) (a b w : Int) : Prop :=
  ({ target := b, weight := w } : Edge) ∈ g.adj.vec a

/-- The graph is undirected and each pair of nodes has one weight: the entries of `a`
that target `b` all carry the same weight, and `b` has an entry of that weight back
to `a`. -/
structure Undirected (g : Graph) : Prop where
  functional : ∀ a b w1 w2, wEdge g a b w1 → wEdge g a b w2 → w1 = w2
  symm : ∀ a b w, wEdge g a b w → wEdge g b a w

end Graph

namespace Graph

/-- The parent links `par` with the first `j + 1` links of the chain that starts at `u`
turned around: `u` hangs from `p`, and the `m`-th ancestor of `u`, for `1 ≤ m ≤ j`,
hangs from the ancestor before it. -/
def rewire (par : Int → Int) (u p : Int) : Nat → Int → Int
  | 0, v => if v = u then p else par v
  | j + 1, v => if v = Nat.iterate par (j + 1) u then Nat.iterate par j u else rewire par u p j v

end Graph

namespace Graph

/-- The edges emitted so far can be completed to a spanning tree that weighs no more than
any given spanning tree: for every spanning tree `par` there is a spanning tree that
contains every emitted edge as a parent link and whose weight over the nodes `R` is at
most that of `par`. -/
def MinInv (g : Graph) (start : Int) (R : List Int) (evs : List GEvent) : Prop :=
  ∀ par, IsSpanningTree g start par →
    ∃ par', IsSpanningTree g start par' ∧ (∀ e, e ∈ mstEdges evs → par' e.2 = e.1) ∧
      treeWeight g par' R ≤ treeWeight g par R

end Graph

namespace Graph

/-- The parent links read off the `mst_edge` events: the source of the first emitted edge
that targets `v` (`start` if there is none). -/
def mstParent (evs : List GEvent) (start v : Int) : Int :=
  match (mstEdges evs).find? fun e => decide (e.2 = v) with
  | some e => e.1
  | none => start

end Graph

namespace LinearProbing

/-- The collision steps of a probe that starts at slot `s` and passes `e` occupied slots:
one step per slot passed, in probe order, with the slot index and the value it holds. -/
def probeCollisions (t : LinearProbing) (N s e : Nat) : List ProbeStep :=
  (List.range e).map fun d =>
    ProbeStep.collision ((pos N s d : Nat) : Int) (t.table.getD (pos N s d) 0)

end LinearProbing

namespace Node

/-- The ids of the nodes of a tree, in in-order. -/
def ids : Node → List Int
  | nil => []
  | node _ l r id _ => ids l ++ id :: ids r

/-- The (key, id) pairs of the nodes of a tree, in in-order. -/
def pairs : Node → List (Int × Int)
  | nil => []
  | node d l r id _ => pairs l ++ (d, id) :: pairs r

end Node

namespace TreeState

/-- The calls that reset the id allocator: `clearBST` and the rebuild of `setAVL(true)`. -/
def Op.resets : Op → Bool
  | Op.clearBST => true
  | Op.setAVL true => true
  | _ => false

/-- State invariant behind the id claims, after `c` calls: the tree is a search tree (an
AVL tree in AVL mode), its ids are pairwise distinct and lie in `0 .. nextId - 1`, and
neither the number of nodes nor `nextId` exceeds `c`. -/
structure IdInv (s : TreeState) (c : Nat) : Prop where
  sorted : List.Pairwise (· < ·) (Node.inorderExtraction s.bstRoot)
  avl : s.useAVL = true → Node.AVL s.bstRoot
  nodup : (Node.ids s.bstRoot).Nodup
  range : ∀ id, id ∈ Node.ids s.bstRoot → 0 ≤ id ∧ id < s.nextId
  count : ((Node.ids s.bstRoot).length : Int) ≤ s.nextId
  bound : s.nextId ≤ (c : Int)

end TreeState

namespace LinearProbing

/-! ## Probe arithmetic -/

theorem pos_lt {N : Nat} (hN : 0 < N) (s d : Nat) : pos N s d < N :=
  Nat.mod_lt _ hN

theorem pos_zero {N s : Nat} (hs : s < N) : pos N s 0 = s := by
  simp [pos, Nat.mod_eq_of_lt hs]

theorem pos_wrap (N s : Nat) : pos N s N = pos N s 0 := by
  simp [pos]

theorem pos_inj {N s a b : Nat} (ha : a < N) (hb : b < N)
    (h : pos N s a = pos N s b) : a = b := by
  unfold pos at h
  have key : ∀ x y : Nat, x < N → y < N → x ≤ y → (s + x) % N = (s + y) % N → x = y := by
    intro x y _ hy hxy hm
    have h1 : (s + y) % N = ((s + x) + (y - x)) % N := by
      congr 1; omega
    rw [h1] at hm
    have h2 : (y - x) % N = 0 := by
      have h3 := Nat.ModEq.add_left_cancel (Nat.ModEq.refl (s + x))
        (show (s + x + 0) % N = (s + x + (y - x)) % N by simpa using hm)
      exact h3.symm
    have h4 : y - x < N := by omega
    rw [Nat.mod_eq_of_lt h4] at h2
    omega
  rcases Nat.le_total a b with hab | hab
  · exact key a b ha hb hab h
  · exact (key b a hb ha hab h.symm).symm

theorem pos_surj {N s i : Nat} (hs : s < N) (hi : i < N) : ∃ d, d < N ∧ i = pos N s d := by
  by_cases h : s ≤ i
  · refine ⟨i - s, by omega, ?_⟩
    unfold pos
    rw [show s + (i - s) = i by omega, Nat.mod_eq_of_lt hi]
  · refine ⟨N - s + i, by omega, ?_⟩
    unfold pos
    rw [show s + (N - s + i) = i + N by omega, Nat.add_mod_right, Nat.mod_eq_of_lt hi]

theorem next_cast {N : Nat} (s d : Nat) :
    Int.tmod (((pos N s d : Nat) : Int) + 1) (N : Int) = ((pos N s (d + 1) : Nat) : Int) := by
  have h1 : (((pos N s d : Nat) : Int) + 1) = (((pos N s d + 1 : Nat)) : Int) := by push_cast; rfl
  rw [h1, ← Int.ofNat_tmod]
  congr 1
  unfold pos
  exact Nat.ModEq.add_right 1 (Nat.mod_modEq (s + d) N)

theorem readSlot_cast (tbl : List Int) (i : Nat) : readSlot tbl (i : Int) = tbl[i]? := by
  unfold readSlot
  have : ¬ ((i : Int) < 0) := by omega
  simp [this, List.get?_eq_getElem?]

theorem hash_cast {t : LinearProbing} {N : Nat} (hsize : t.size = (N : Int)) {k : Int}
    (hk : 0 ≤ k) : hash t k = ((home N k : Nat) : Int) := by
  unfold hash home
  rw [hsize, Int.ofNat_tmod, Int.toNat_of_nonneg hk]

theorem home_lt {N : Nat} (hN : 0 < N) (k : Int) : home N k < N :=
  Nat.mod_lt _ hN

end LinearProbing

namespace LinearProbing

/-! ## The two probe loops -/

theorem slot_defined {t : LinearProbing} {N : Nat} (hlen : t.table.length = N) {i : Nat}
    (hi : i < N) : ∃ x, t.table[i]? = some x := by
  have hi' : i < t.table.length := by omega
  exact ⟨t.table[i], List.getElem?_eq_getElem hi'⟩

theorem searchLoop_found {t : LinearProbing} {N : Nat} (hsize : t.size = (N : Int))
    (hlen : t.table.length = N) {key : Int} {s : Nat} (hs : s < N) (hkey : key ≠ EMPTY) :
    ∀ (n d e fuel : Nat), e = d + n → e < N → n < fuel →
      (∀ d', d ≤ d' → d' < e → ∀ y : Int, t.table[pos N s d']? = some y → y ≠ EMPTY ∧ y ≠ key) →
      t.table[pos N s e]? = some key →
      searchLoop t key (s : Int) fuel ((pos N s d : Nat) : Int)
        = Except.ok ((pos N s e : Nat) : Int) := by
  intro n
  induction n with
  | zero =>
    intro d e fuel he _ hf _ hslot
    obtain ⟨f, rfl⟩ : ∃ f, fuel = f + 1 := ⟨fuel - 1, by omega⟩
    have hde : e = d := by omega
    subst hde
    rw [searchLoop, readSlot_cast, hslot]
    simp [hkey]
  | succ n ih =>
    intro d e fuel he heN hf hbefore hslot
    obtain ⟨f, rfl⟩ : ∃ f, fuel = f + 1 := ⟨fuel - 1, by omega⟩
    have hN : 0 < N := by omega
    obtain ⟨y, hy⟩ := slot_defined hlen (pos_lt hN s d)
    obtain ⟨hy1, hy2⟩ := hbefore d (le_refl d) (by omega) y hy
    rw [searchLoop, readSlot_cast, hy]
    simp only [hy1, hy2, if_false, hsize, next_cast]
    have hne : ((pos N s (d + 1) : Nat) : Int) ≠ (s : Int) := by
      intro h
      have h' : pos N s (d + 1) = pos N s 0 := by
        rw [pos_zero hs]; exact_mod_cast h
      have := pos_inj (by omega) hN h'
      omega
    rw [if_neg hne]
    exact ih (d + 1) e f (by omega) heN (by omega)
      (fun d' h1 h2 => hbefore d' (by omega) h2) hslot

theorem searchLoop_absent {t : LinearProbing} {N : Nat} (hsize : t.size = (N : Int))
    (hlen : t.table.length = N) {key : Int} {s : Nat} (hs : s < N)
    (habs : ∀ (i : Nat), t.table[i]? ≠ some key) :
    ∀ (fuel d : Nat), d < N → N - d ≤ fuel →
      searchLoop t key (s : Int) fuel ((pos N s d : Nat) : Int) = Except.ok (-1) := by
  intro fuel
  induction fuel with
  | zero => intro d hd hf; omega
  | succ f ih =>
    intro d hd hf
    have hN : 0 < N := by omega
    obtain ⟨y, hy⟩ := slot_defined hlen (pos_lt hN s d)
    rw [searchLoop, readSlot_cast, hy]
    simp only [hsize, next_cast]
    by_cases h1 : y = EMPTY
    · simp [h1]
    · have h2 : y ≠ key := fun h => habs _ (h ▸ hy)
      simp only [h1, h2, if_false]
      by_cases h3 : ((pos N s (d + 1) : Nat) : Int) = (s : Int)
      · simp [h3]
      · rw [if_neg h3]
        by_cases h4 : d + 1 = N
        · exfalso
          apply h3
          rw [h4, pos_wrap, pos_zero hs]
        · exact ih (d + 1) (by omega) (by omega)

theorem searchLoop_sound {t : LinearProbing} {key start : Int} :
    ∀ (fuel : Nat) (h r : Int), searchLoop t key start fuel h = Except.ok r → r ≠ -1 →
      readSlot t.table r = some key := by
  intro fuel
  induction fuel with
  | zero => intro h r hr; simp [searchLoop] at hr
  | succ f ih =>
    intro h r hr hne
    rw [searchLoop] at hr
    cases hx : readSlot t.table h with
    | none => simp [hx] at hr
    | some x =>
      simp only [hx] at hr
      by_cases h1 : x = EMPTY
      · rw [if_pos h1] at hr
        cases hr; exact absurd rfl hne
      · rw [if_neg h1] at hr
        by_cases h2 : x = key
        · rw [if_pos h2] at hr
          cases hr
          rw [hx, h2]
        · rw [if_neg h2] at hr
          by_cases h3 : Int.tmod (h + 1) t.size = start
          · rw [if_pos h3] at hr
            cases hr; exact absurd rfl hne
          · rw [if_neg h3] at hr
            exact ih _ _ hr hne

theorem insertLoop_free {t : LinearProbing} {N : Nat} (hsize : t.size = (N : Int))
    (hlen : t.table.length = N) {s : Nat} (hs : s < N) :
    ∀ (n d e fuel : Nat) (steps : List ProbeStep), e = d + n → e < N → n < fuel →
      (∀ d', d ≤ d' → d' < e → ∀ y : Int, t.table[pos N s d']? = some y →
        y ≠ EMPTY ∧ y ≠ DELETED) →
      (∃ x, t.table[pos N s e]? = some x ∧ (x = EMPTY ∨ x = DELETED)) →
      ∃ steps', insertLoop t (s : Int) fuel ((pos N s d : Nat) : Int) steps
        = Except.ok (some (((pos N s e : Nat) : Int), steps')) := by
  intro n
  induction n with
  | zero =>
    intro d e fuel steps he _ hf _ hslot
    obtain ⟨f, rfl⟩ : ∃ f, fuel = f + 1 := ⟨fuel - 1, by omega⟩
    have hde : e = d := by omega
    subst hde
    obtain ⟨x, hx, hfree⟩ := hslot
    refine ⟨steps, ?_⟩
    rw [insertLoop, readSlot_cast, hx]
    have : ¬ (x ≠ EMPTY ∧ x ≠ DELETED) := by
      rcases hfree with h | h <;> simp [h]
    simp only [this, if_false]
  | succ n ih =>
    intro d e fuel steps he heN hf hbefore hslot
    obtain ⟨f, rfl⟩ : ∃ f, fuel = f + 1 := ⟨fuel - 1, by omega⟩
    have hN : 0 < N := by omega
    obtain ⟨y, hy⟩ := slot_defined hlen (pos_lt hN s d)
    have hocc := hbefore d (le_refl d) (by omega) y hy
    have hne : ((pos N s (d + 1) : Nat) : Int) ≠ (s : Int) := by
      intro h
      have h' : pos N s (d + 1) = pos N s 0 := by
        rw [pos_zero hs]; exact_mod_cast h
      have := pos_inj (by omega) hN h'
      omega
    rw [insertLoop, readSlot_cast, hy]
    simp only [hsize, next_cast]
    rw [if_pos hocc, if_neg hne]
    exact ih (d + 1) e f _ (by omega) heN (by omega)
      (fun d' h1 h2 => hbefore d' (by omega) h2) hslot

theorem insertLoop_full {t : LinearProbing} {N : Nat} (hsize : t.size = (N : Int))
    (hlen : t.table.length = N) {s : Nat} (hs : s < N)
    (hfull : ∀ (i : Nat) (y : Int), t.table[i]? = some y → y ≠ EMPTY ∧ y ≠ DELETED) :
    ∀ (fuel d : Nat) (steps : List ProbeStep), d < N → N - d ≤ fuel →
      insertLoop t (s : Int) fuel ((pos N s d : Nat) : Int) steps = Except.ok none := by
  intro fuel
  induction fuel with
  | zero => intro d _ hd hf; omega
  | succ f ih =>
    intro d steps hd hf
    have hN : 0 < N := by omega
    obtain ⟨y, hy⟩ := slot_defined hlen (pos_lt hN s d)
    have hocc := hfull _ y hy
    rw [insertLoop, readSlot_cast, hy]
    simp only [hsize, next_cast]
    rw [if_pos hocc]
    by_cases h3 : ((pos N s (d + 1) : Nat) : Int) = (s : Int)
    · simp [h3]
    · rw [if_neg h3]
      by_cases h4 : d + 1 = N
      · exfalso
        apply h3
        rw [h4, pos_wrap, pos_zero hs]
      · exact ih (d + 1) _ (by omega) (by omega)

end LinearProbing

namespace LinearProbing

/-! ## Lookup on a table that satisfies the invariant -/

theorem inv_replicate {N : Nat} (hN : 0 < N) :
    Inv { table := List.replicate N EMPTY, size := (N : Int) } N := by
  refine ⟨rfl, by simp, hN, ?_, ?_⟩
  · intro i x hx
    rw [List.getElem?_replicate] at hx
    split at hx
    · left; cases hx; rfl
    · cases hx
  · intro i k hk hk0
    rw [List.getElem?_replicate] at hk
    split at hk
    · cases hk; simp [EMPTY] at hk0
    · cases hk

theorem inv_new {N : Nat} (hN : 0 < N) : Inv (LinearProbing.new (N : Int)).1 N := by
  simpa [LinearProbing.new] using inv_replicate hN

theorem inv_clear {t : LinearProbing} {N : Nat} (h : Inv t N) : Inv (clear t).1 N := by
  have := inv_replicate h.hpos
  simpa [clear, h.hsize] using this

theorem searchInternal_stored {t : LinearProbing} {N : Nat} (h : Inv t N) {k : Int}
    (hk : 0 ≤ k) {i : Nat} (hi : t.table[i]? = some k) {fuel : Nat} (hf : N ≤ fuel) :
    searchInternal t k fuel = Except.ok (i : Int) := by
  obtain ⟨d, hd, hid, hbefore⟩ := h.hchain i k hi hk
  have hs := home_lt h.hpos k
  have hne : k ≠ EMPTY := by intro heq; rw [heq] at hk; simp [EMPTY] at hk
  have := searchLoop_found h.hsize h.hlen hs hne d 0 d fuel (by omega) hd (by omega)
    (fun d' _ h2 y hy => hbefore d' h2 y hy) (hid ▸ hi)
  rw [pos_zero hs] at this
  rw [searchInternal, hash_cast h.hsize hk, this, hid]

theorem searchInternal_absent {t : LinearProbing} {N : Nat} (h : Inv t N) {k : Int}
    (hk : 0 ≤ k) (habs : ∀ (i : Nat), t.table[i]? ≠ some k) {fuel : Nat} (hf : N ≤ fuel) :
    searchInternal t k fuel = Except.ok (-1) := by
  have hs := home_lt h.hpos k
  have := searchLoop_absent h.hsize h.hlen hs habs fuel 0 h.hpos (by omega)
  rw [pos_zero hs] at this
  rw [searchInternal, hash_cast h.hsize hk, this]

theorem stored_unique {t : LinearProbing} {N : Nat} (h : Inv t N) {k : Int} (hk : 0 ≤ k)
    {i j : Nat} (hi : t.table[i]? = some k) (hj : t.table[j]? = some k) : i = j := by
  have h1 := searchInternal_stored h hk hi (le_refl N)
  have h2 := searchInternal_stored h hk hj (le_refl N)
  rw [h1] at h2
  injection h2 with h3
  exact_mod_cast h3

theorem searchInternal_total {t : LinearProbing} {N : Nat} (h : Inv t N) {k : Int}
    (hk : 0 ≤ k) {fuel : Nat} (hf : N ≤ fuel) :
    (∃ i : Nat, t.table[i]? = some k ∧ searchInternal t k fuel = Except.ok (i : Int)) ∨
    ((∀ (i : Nat), t.table[i]? ≠ some k) ∧ searchInternal t k fuel = Except.ok (-1)) := by
  by_cases hex : ∃ i : Nat, t.table[i]? = some k
  · obtain ⟨i, hi⟩ := hex
    exact Or.inl ⟨i, hi, searchInternal_stored h hk hi hf⟩
  · have habs : ∀ (i : Nat), t.table[i]? ≠ some k := fun i hi => hex ⟨i, hi⟩
    exact Or.inr ⟨habs, searchInternal_absent h hk habs hf⟩

/-! ## `insert` -/

/-- The result `insert` gives when it refuses the key. -/
theorem insert_stored {t : LinearProbing} {N : Nat} (h : Inv t N) {k : Int}
    (hk : 0 ≤ k) {i : Nat} (hi : t.table[i]? = some k) {fuel : Nat} (hf : N ≤ fuel) :
    insert t k fuel = Except.ok { ok := false, slot := none, tbl := t, events := [] } := by
  have hne : ((i : Nat) : Int) ≠ -1 := by omega
  rw [insert, searchInternal_stored h hk hi hf]
  simp only [hne, ne_eq, not_false_eq_true, if_true]

theorem insert_full {t : LinearProbing} {N : Nat} (h : Inv t N) {k : Int}
    (hk : 0 ≤ k) (habs : ∀ (i : Nat), t.table[i]? ≠ some k)
    (hfull : ∀ (i : Nat) (y : Int), t.table[i]? = some y → y ≠ EMPTY ∧ y ≠ DELETED)
    {fuel : Nat} (hf : N ≤ fuel) :
    insert t k fuel = Except.ok { ok := false, slot := none, tbl := t, events := [] } := by
  have hs := home_lt h.hpos k
  have := insertLoop_full h.hsize h.hlen hs hfull fuel 0 [] h.hpos (by omega)
  rw [pos_zero hs] at this
  rw [insert, searchInternal_absent h hk habs hf]
  simp only [ne_eq, not_true_eq_false, if_false, hash_cast h.hsize hk, this]

/-- The first free slot of the probe sequence of `k`. -/
theorem first_free {t : LinearProbing} {N : Nat} (h : Inv t N) (s : Nat) (hs : s < N)
    (hfree : ∃ (i : Nat) (x : Int), t.table[i]? = some x ∧ (x = EMPTY ∨ x = DELETED)) :
    ∃ e, e < N ∧ (∃ x, t.table[pos N s e]? = some x ∧ (x = EMPTY ∨ x = DELETED)) ∧
      ∀ d', d' < e → ∀ y : Int, t.table[pos N s d']? = some y → y ≠ EMPTY ∧ y ≠ DELETED := by
  classical
  obtain ⟨i, x, hx, hxfree⟩ := hfree
  have hi : i < N := by
    have := (List.getElem?_eq_some_iff.mp hx).1
    rw [h.hlen] at this; exact this
  obtain ⟨d, hd, hid⟩ := pos_surj hs hi
  have hex : ∃ e, e < N ∧ ∃ x, t.table[pos N s e]? = some x ∧ (x = EMPTY ∨ x = DELETED) :=
    ⟨d, hd, x, hid ▸ hx, hxfree⟩
  refine ⟨Nat.find hex, (Nat.find_spec hex).1, (Nat.find_spec hex).2, ?_⟩
  intro d' hd' y hy
  have hmin := Nat.find_min hex hd'
  have hd'N : d' < N := lt_trans hd' (Nat.find_spec hex).1
  constructor
  · intro he; exact hmin ⟨hd'N, y, hy, Or.inl he⟩
  · intro he; exact hmin ⟨hd'N, y, hy, Or.inr he⟩

theorem insert_fresh {t : LinearProbing} {N : Nat} (h : Inv t N) {k : Int}
    (hk : 0 ≤ k) (habs : ∀ (i : Nat), t.table[i]? ≠ some k)
    (hfree : ∃ (i : Nat) (x : Int), t.table[i]? = some x ∧ (x = EMPTY ∨ x = DELETED))
    {fuel : Nat} (hf : N ≤ fuel) :
    ∃ e steps, e < N ∧
      (∃ x, t.table[pos N (home N k) e]? = some x ∧ (x = EMPTY ∨ x = DELETED)) ∧
      (∀ d', d' < e → ∀ y : Int, t.table[pos N (home N k) d']? = some y →
        y ≠ EMPTY ∧ y ≠ DELETED) ∧
      insert t k fuel = Except.ok
        { ok := true, slot := some ((pos N (home N k) e : Nat) : Int),
          tbl := { t with table := t.table.set (pos N (home N k) e) k },
          events := [updateVisualizationWithAnimation
            { t with table := t.table.set (pos N (home N k) e) k }
            (steps ++ [ProbeStep.insert ((pos N (home N k) e : Nat) : Int)])] } := by
  have hs := home_lt h.hpos k
  obtain ⟨e, he, hslot, hbefore⟩ := first_free h (home N k) hs hfree
  obtain ⟨steps, hloop⟩ := insertLoop_free h.hsize h.hlen hs e 0 e fuel [] (by omega) he
    (by omega) (fun d' _ h2 y hy => hbefore d' h2 y hy) hslot
  rw [pos_zero hs] at hloop
  refine ⟨e, steps, he, hslot, hbefore, ?_⟩
  rw [insert, searchInternal_absent h hk habs hf]
  simp only [ne_eq, not_true_eq_false, if_false, hash_cast h.hsize hk, hloop, Int.toNat_ofNat]

end LinearProbing

namespace LinearProbing

/-! ## The invariant is kept by every operation -/

theorem getElem?_set_self_of_lt {l : List Int} {j : Nat} (hj : j < l.length) (v : Int) :
    (l.set j v)[j]? = some v := by
  rw [List.getElem?_set]; simp [hj]

theorem getElem?_set_other {l : List Int} {i j : Nat} (hij : j ≠ i) (v : Int) :
    (l.set j v)[i]? = l[i]? := by
  rw [List.getElem?_set]; simp [hij]

theorem inv_set_key {t : LinearProbing} {N : Nat} (h : Inv t N) {k : Int} (hk : 0 ≤ k)
    (habs : ∀ (i : Nat), t.table[i]? ≠ some k) {e : Nat} (he : e < N)
    (hbefore : ∀ d', d' < e → ∀ y : Int, t.table[pos N (home N k) d']? = some y →
      y ≠ EMPTY ∧ y ≠ DELETED) :
    Inv { t with table := t.table.set (pos N (home N k) e) k } N := by
  have hjl : pos N (home N k) e < t.table.length := by
    rw [h.hlen]; exact pos_lt h.hpos _ _
  have hkE : k ≠ EMPTY := by intro heq; rw [heq] at hk; simp [EMPTY] at hk
  refine ⟨h.hsize, by simp [h.hlen], h.hpos, ?_, ?_⟩
  · intro i x hx
    by_cases hij : pos N (home N k) e = i
    · subst hij
      simp only [getElem?_set_self_of_lt hjl] at hx
      cases hx; exact Or.inr (Or.inr hk)
    · simp only [getElem?_set_other hij] at hx
      exact h.hvals i x hx
  · intro i k' hk' hk0
    by_cases hij : pos N (home N k) e = i
    · subst hij
      simp only [getElem?_set_self_of_lt hjl] at hk'
      cases hk'
      refine ⟨e, he, rfl, ?_⟩
      intro d' hd' y hy
      have hne : pos N (home N k) e ≠ pos N (home N k) d' := by
        intro heq
        have := pos_inj he (lt_trans hd' he) heq
        omega
      simp only [getElem?_set_other hne] at hy
      exact ⟨(hbefore d' hd' y hy).1, fun heq => habs _ (heq ▸ hy)⟩
    · simp only [getElem?_set_other hij] at hk'
      obtain ⟨d, hd, hid, hb⟩ := h.hchain i k' hk' hk0
      refine ⟨d, hd, hid, ?_⟩
      intro d' hd' y hy
      by_cases hjj : pos N (home N k) e = pos N (home N k') d'
      · rw [← hjj] at hy
        simp only [getElem?_set_self_of_lt hjl] at hy
        cases hy
        exact ⟨hkE, fun heq => habs i (heq ▸ hk')⟩
      · simp only [getElem?_set_other hjj] at hy
        exact hb d' hd' y hy

theorem inv_set_deleted {t : LinearProbing} {N : Nat} (h : Inv t N) (j : Nat) :
    Inv { t with table := t.table.set j DELETED } N := by
  refine ⟨h.hsize, by simp [h.hlen], h.hpos, ?_, ?_⟩
  · intro i x hx
    by_cases hij : j = i
    · subst hij
      rw [List.getElem?_set] at hx
      simp only [if_true] at hx
      split at hx
      · cases hx; exact Or.inr (Or.inl rfl)
      · cases hx
    · simp only [getElem?_set_other hij] at hx
      exact h.hvals i x hx
  · intro i k' hk' hk0
    have hij : j ≠ i := by
      intro heq
      subst heq
      rw [List.getElem?_set] at hk'
      simp only [if_true] at hk'
      split at hk'
      · cases hk'; simp [DELETED] at hk0
      · cases hk'
    simp only [getElem?_set_other hij] at hk'
    obtain ⟨d, hd, hid, hb⟩ := h.hchain i k' hk' hk0
    refine ⟨d, hd, hid, ?_⟩
    intro d' hd' y hy
    by_cases hjj : j = pos N (home N k') d'
    · rw [← hjj, List.getElem?_set] at hy
      simp only [if_true] at hy
      split at hy
      · cases hy
        refine ⟨by decide, ?_⟩
        intro heq; rw [← heq] at hk0; simp [DELETED] at hk0
      · cases hy
    · simp only [getElem?_set_other hjj] at hy
      exact hb d' hd' y hy

/-- Every call of `insert` with a non-negative key returns, and keeps the invariant. -/
theorem insert_inv {t : LinearProbing} {N : Nat} (h : Inv t N) {k : Int} (hk : 0 ≤ k)
    {fuel : Nat} (hf : N ≤ fuel) :
    ∃ r, insert t k fuel = Except.ok r ∧ Inv r.tbl N := by
  rcases searchInternal_total h hk hf with ⟨i, hi, _⟩ | ⟨habs, _⟩
  · exact ⟨_, insert_stored h hk hi hf, h⟩
  · by_cases hfree : ∃ (i : Nat) (x : Int), t.table[i]? = some x ∧ (x = EMPTY ∨ x = DELETED)
    · obtain ⟨e, steps, he, _, hbefore, hins⟩ := insert_fresh h hk habs hfree hf
      exact ⟨_, hins, inv_set_key h hk habs he hbefore⟩
    · have hfull : ∀ (i : Nat) (y : Int), t.table[i]? = some y → y ≠ EMPTY ∧ y ≠ DELETED := by
        intro i y hy
        constructor
        · intro he; exact hfree ⟨i, y, hy, Or.inl he⟩
        · intro he; exact hfree ⟨i, y, hy, Or.inr he⟩
      exact ⟨_, insert_full h hk habs hfull hf, h⟩

/-- What `remove` does: a stored key is replaced by `DELETED`; an absent key changes nothing. -/
theorem remove_spec {t : LinearProbing} {N : Nat} (h : Inv t N) {k : Int} (hk : 0 ≤ k)
    {fuel : Nat} (hf : N ≤ fuel) :
    (∃ i : Nat, t.table[i]? = some k ∧
      remove t k fuel = Except.ok ({ t with table := t.table.set i DELETED },
        [updateVisualization { t with table := t.table.set i DELETED }])) ∨
    ((∀ (i : Nat), t.table[i]? ≠ some k) ∧ remove t k fuel = Except.ok (t, [])) := by
  rcases searchInternal_total h hk hf with ⟨i, hi, hs⟩ | ⟨habs, hs⟩
  · left
    refine ⟨i, hi, ?_⟩
    have hne : ((i : Nat) : Int) ≠ -1 := by omega
    rw [remove, hs]
    simp only [hne, ne_eq, not_false_eq_true, if_true, Int.toNat_ofNat]
  · right
    refine ⟨habs, ?_⟩
    rw [remove, hs]
    simp

theorem remove_inv {t : LinearProbing} {N : Nat} (h : Inv t N) {k : Int} (hk : 0 ≤ k)
    {fuel : Nat} (hf : N ≤ fuel) :
    ∃ r, remove t k fuel = Except.ok r ∧ Inv r.1 N := by
  rcases remove_spec h hk hf with ⟨i, _, hr⟩ | ⟨_, hr⟩
  · exact ⟨_, hr, inv_set_deleted h i⟩
  · exact ⟨_, hr, h⟩

theorem step_inv {t : LinearProbing} {N : Nat} (h : Inv t N) (op : Op) (hk : 0 ≤ op.key)
    {fuel : Nat} (hf : N ≤ fuel) :
    ∃ t', step fuel t op = Except.ok t' ∧ Inv t' N := by
  cases op with
  | insert k =>
    obtain ⟨r, hr, hinv⟩ := insert_inv h (k := k) hk hf
    exact ⟨r.tbl, by simp [step, hr], hinv⟩
  | remove k =>
    obtain ⟨r, hr, hinv⟩ := remove_inv h (k := k) hk hf
    exact ⟨r.1, by simp [step, hr], hinv⟩
  | clear => exact ⟨_, rfl, inv_clear h⟩

theorem run_inv {N : Nat} {fuel : Nat} (hf : N ≤ fuel) :
    ∀ (ops : List Op) (t : LinearProbing), Inv t N → (∀ op ∈ ops, 0 ≤ op.key) →
      ∃ t', run fuel t ops = Except.ok t' ∧ Inv t' N := by
  intro ops
  induction ops with
  | nil => intro t h _; exact ⟨t, rfl, h⟩
  | cons op ops ih =>
    intro t h hk
    obtain ⟨t1, h1, hinv1⟩ := step_inv h op (hk op (List.mem_cons_self _ _)) hf
    obtain ⟨t2, h2, hinv2⟩ := ih t1 hinv1 (fun o ho => hk o (List.mem_cons_of_mem _ ho))
    exact ⟨t2, by simp [run, h1, h2], hinv2⟩

end LinearProbing

namespace LinearProbing

/-! ## The tracked map follows the table -/

theorem set_other_key {l : List Int} {j : Nat} {x v k' : Int} (hj : l[j]? = some x)
    (hx : x ≠ k') (hv : v ≠ k') (i : Nat) :
    (l.set j v)[i]? = some k' ↔ l[i]? = some k' := by
  by_cases hij : j = i
  · subst hij
    have hjl : j < l.length := (List.getElem?_eq_some_iff.mp hj).1
    rw [getElem?_set_self_of_lt hjl, hj]
    constructor
    · intro h; cases h; exact absurd rfl hv
    · intro h; cases h; exact absurd rfl hx
  · rw [getElem?_set_other hij]

theorem agree_of_eq {t : LinearProbing} {m m' : Int → Option Int} (h : Agree t m)
    (heq : ∀ x, m' x = m x) : Agree t m' := by
  intro k hk hh
  rw [heq]
  exact h k hk hh

theorem agree_insert {t : LinearProbing} {N : Nat} (h : Inv t N) {m : Int → Option Int}
    (hm : Agree t m) {k : Int} (hk : 0 ≤ k) {fuel : Nat} (hf : N ≤ fuel) :
    ∃ r, insert t k fuel = Except.ok r ∧ Inv r.tbl N ∧
      Agree r.tbl (fun x => if x = k ∧ r.ok = true then r.slot else m x) := by
  rcases searchInternal_total h hk hf with ⟨i, hi, _⟩ | ⟨habs, _⟩
  · exact ⟨_, insert_stored h hk hi hf, h, agree_of_eq hm (by intro x; simp)⟩
  · by_cases hfree : ∃ (i : Nat) (x : Int), t.table[i]? = some x ∧ (x = EMPTY ∨ x = DELETED)
    · obtain ⟨e, steps, he, ⟨x, hx, hxfree⟩, hbefore, hins⟩ := insert_fresh h hk habs hfree hf
      refine ⟨_, hins, inv_set_key h hk habs he hbefore, ?_⟩
      have hjl : pos N (home N k) e < t.table.length := (List.getElem?_eq_some_iff.mp hx).1
      intro k' hk' hh
      simp only [and_true]
      by_cases hkk : k' = k
      · subst hkk
        simp only [if_true]
        constructor
        · intro heq
          cases heq
          exact ⟨_, rfl, getElem?_set_self_of_lt hjl _⟩
        · rintro ⟨i, rfl, hi⟩
          by_cases hij : pos N (home N k') e = i
          · rw [hij]
          · rw [getElem?_set_other hij] at hi
            exact absurd hi (habs i)
      · simp only [hkk, if_false]
        have hxk : x ≠ k' := by
          intro heq; rw [← heq] at hk'
          rcases hxfree with h1 | h1 <;> rw [h1] at hk' <;> simp [EMPTY, DELETED] at hk'
        rw [hm k' hk' hh]
        constructor
        · rintro ⟨i, rfl, hi⟩
          exact ⟨i, rfl, (set_other_key hx hxk (Ne.symm hkk) i).mpr hi⟩
        · rintro ⟨i, rfl, hi⟩
          exact ⟨i, rfl, (set_other_key hx hxk (Ne.symm hkk) i).mp hi⟩
    · have hfull : ∀ (i : Nat) (y : Int), t.table[i]? = some y → y ≠ EMPTY ∧ y ≠ DELETED := by
        intro i y hy
        constructor
        · intro he; exact hfree ⟨i, y, hy, Or.inl he⟩
        · intro he; exact hfree ⟨i, y, hy, Or.inr he⟩
      exact ⟨_, insert_full h hk habs hfull hf, h, agree_of_eq hm (by intro x; simp)⟩

theorem agree_remove {t : LinearProbing} {N : Nat} (h : Inv t N) {m : Int → Option Int}
    (hm : Agree t m) {k : Int} (hk : 0 ≤ k) {fuel : Nat} (hf : N ≤ fuel) :
    ∃ r, remove t k fuel = Except.ok r ∧ Inv r.1 N ∧
      Agree r.1 (fun x => if x = k then none else m x) := by
  rcases remove_spec h hk hf with ⟨i, hi, hr⟩ | ⟨habs, hr⟩
  · refine ⟨_, hr, inv_set_deleted h i, ?_⟩
    intro k' hk' hh
    have hdk : DELETED ≠ k' := by
      intro heq; rw [← heq] at hk'; simp [DELETED] at hk'
    by_cases hkk : k' = k
    · subst hkk
      simp only [if_true]
      constructor
      · intro hc; cases hc
      · rintro ⟨j, rfl, hj⟩
        exfalso
        by_cases hij : i = j
        · subst hij
          have hil : i < t.table.length := (List.getElem?_eq_some_iff.mp hi).1
          rw [getElem?_set_self_of_lt hil] at hj
          cases hj; exact hdk rfl
        · rw [getElem?_set_other hij] at hj
          exact hij (stored_unique h hk' hi hj)
    · simp only [hkk, if_false]
      rw [hm k' hk' hh]
      constructor
      · rintro ⟨j, rfl, hj⟩
        exact ⟨j, rfl, (set_other_key hi (Ne.symm hkk) hdk j).mpr hj⟩
      · rintro ⟨j, rfl, hj⟩
        exact ⟨j, rfl, (set_other_key hi (Ne.symm hkk) hdk j).mp hj⟩
  · refine ⟨_, hr, h, ?_⟩
    intro k' hk' hh
    by_cases hkk : k' = k
    · subst hkk
      simp only [if_true]
      constructor
      · intro hc; cases hc
      · rintro ⟨j, _, hj⟩
        exact absurd hj (habs j)
    · simp only [hkk, if_false]
      exact hm k' hk' hh

theorem agree_clear (t : LinearProbing) : Agree (clear t).1 (fun _ => none) := by
  intro k hk hh
  constructor
  · intro hc; cases hc
  · rintro ⟨i, _, hi⟩
    simp only [clear] at hi
    rw [List.getElem?_replicate] at hi
    split at hi
    · cases hi; simp [EMPTY] at hk
    · cases hi

theorem agree_new (s : Int) : Agree (LinearProbing.new s).1 (fun _ => none) := by
  intro k hk hh
  constructor
  · intro hc; cases hc
  · rintro ⟨i, _, hi⟩
    simp only [LinearProbing.new] at hi
    rw [List.getElem?_replicate] at hi
    split at hi
    · cases hi; simp [EMPTY] at hk
    · cases hi

theorem track_agree {N : Nat} {fuel : Nat} (hf : N ≤ fuel) :
    ∀ (ops : List Op) (t : LinearProbing) (m : Int → Option Int), Inv t N → Agree t m →
      (∀ op ∈ ops, 0 ≤ op.key) →
      ∃ t' m', run fuel t ops = Except.ok t' ∧ track fuel t m ops = Except.ok m' ∧
        Inv t' N ∧ Agree t' m' := by
  intro ops
  induction ops with
  | nil => intro t m h hm _; exact ⟨t, m, rfl, rfl, h, hm⟩
  | cons op ops ih =>
    intro t m h hm hk
    have hk0 := hk op (List.mem_cons_self _ _)
    have hk' : ∀ o ∈ ops, 0 ≤ o.key := fun o ho => hk o (List.mem_cons_of_mem _ ho)
    cases op with
    | insert k =>
      obtain ⟨r, hr, hinv, hag⟩ := agree_insert h hm (k := k) hk0 hf
      obtain ⟨t2, m2, h1, h2, h3, h4⟩ := ih r.tbl _ hinv hag hk'
      exact ⟨t2, m2, by simp [run, step, hr, h1], by simp [track, hr, h2], h3, h4⟩
    | remove k =>
      obtain ⟨r, hr, hinv, hag⟩ := agree_remove h hm (k := k) hk0 hf
      obtain ⟨t2, m2, h1, h2, h3, h4⟩ := ih r.1 _ hinv hag hk'
      exact ⟨t2, m2, by simp [run, step, hr, h1], by simp [track, hr, h2], h3, h4⟩
    | clear =>
      obtain ⟨t2, m2, h1, h2, h3, h4⟩ := ih (clear t).1 _ (inv_clear h) (agree_clear t) hk'
      exact ⟨t2, m2, by simp [run, step, h1], by simp [track, h2], h3, h4⟩

theorem searchInternal_agree {t : LinearProbing} {N : Nat} (h : Inv t N)
    {m : Int → Option Int} (hm : Agree t m) {k : Int} (hk : 0 ≤ k) {fuel : Nat}
    (hf : N ≤ fuel) : searchInternal t k fuel = Except.ok ((m k).getD (-1)) := by
  cases hmk : m k with
  | none =>
    have habs : ∀ (i : Nat), t.table[i]? ≠ some k := by
      intro i hi
      have := (hm k hk (i : Int)).mpr ⟨i, rfl, hi⟩
      rw [hmk] at this; cases this
    simpa using searchInternal_absent h hk habs hf
  | some hh =>
    obtain ⟨i, rfl, hi⟩ := (hm k hk hh).mp hmk
    simpa using searchInternal_stored h hk hi hf

end LinearProbing

namespace LinearProbing

/-! ## Counting free slots -/

theorem countP_set_lose (p : Int → Bool) :
    ∀ (l : List Int) (i : Nat) (x a : Int), l[i]? = some x → p x = true → p a = false →
      (l.set i a).countP p + 1 = l.countP p := by
  intro l
  induction l with
  | nil => intro i x a h; simp at h
  | cons y ys ih =>
    intro i x a h hx ha
    cases i with
    | zero =>
      simp only [List.getElem?_cons_zero, Option.some.injEq] at h
      subst h
      simp [List.set, List.countP_cons, hx, ha]
    | succ j =>
      simp only [List.getElem?_cons_succ] at h
      have := ih j x a h hx ha
      simp only [List.set, List.countP_cons]
      omega

theorem freeCount_new (N : Nat) : freeCount (LinearProbing.new (N : Int)).1 = N := by
  simp [freeCount, LinearProbing.new, List.countP_replicate, EMPTY]

theorem full_of_freeCount_zero {t : LinearProbing} (h0 : freeCount t = 0) :
    ∀ (i : Nat) (y : Int), t.table[i]? = some y → y ≠ EMPTY ∧ y ≠ DELETED := by
  intro i y hy
  have hmem : y ∈ t.table := List.mem_iff_getElem?.mpr ⟨_, hy⟩
  have := (List.countP_eq_zero.mp h0) y hmem
  simp only [decide_eq_true_eq, not_or] at this
  exact this

theorem free_of_freeCount_pos {t : LinearProbing} (h0 : 0 < freeCount t) :
    ∃ (i : Nat) (x : Int), t.table[i]? = some x ∧ (x = EMPTY ∨ x = DELETED) := by
  obtain ⟨x, hx, hp⟩ := List.countP_pos_iff.mp h0
  obtain ⟨i, hi⟩ := List.mem_iff_getElem?.mp hx
  exact ⟨i, x, hi, by simpa using hp⟩

theorem insertAll_fresh {N : Nat} {fuel : Nat} (hf : N ≤ fuel) :
    ∀ (keys : List Int) (t : LinearProbing), Inv t N → keys.Nodup → (∀ k ∈ keys, 0 ≤ k) →
      (∀ k ∈ keys, ∀ (i : Nat), t.table[i]? ≠ some k) → freeCount t + 1 = keys.length →
      insertAll fuel t keys = Except.ok (List.replicate (freeCount t) true ++ [false]) := by
  intro keys
  induction keys with
  | nil => intro t _ _ _ _ hlen; simp at hlen
  | cons k ks ih =>
    intro t h hnd hpos habs hlen
    have hk : 0 ≤ k := hpos k (List.mem_cons_self _ _)
    have habsk := habs k (List.mem_cons_self _ _)
    by_cases h0 : freeCount t = 0
    · have hks : ks = [] := by
        rw [h0] at hlen
        simp only [List.length_cons] at hlen
        exact List.eq_nil_of_length_eq_zero (by omega)
      subst hks
      rw [insertAll, insert_full h hk habsk (full_of_freeCount_zero h0) hf]
      simp [insertAll, h0]
    · obtain ⟨e, steps, he, ⟨x, hx, hxfree⟩, hbefore, hins⟩ :=
        insert_fresh h hk habsk (free_of_freeCount_pos (Nat.pos_of_ne_zero h0)) hf
      have hinv := inv_set_key h hk habsk he hbefore
      have hcount : freeCount { t with table := t.table.set (pos N (home N k) e) k } + 1
          = freeCount t := by
        unfold freeCount
        apply countP_set_lose _ _ _ x k hx
        · simpa using hxfree
        · have h1 : k ≠ EMPTY := by intro heq; rw [heq] at hk; simp [EMPTY] at hk
          have h2 : k ≠ DELETED := by intro heq; rw [heq] at hk; simp [DELETED] at hk
          simp [h1, h2]
      have hnd' : ks.Nodup := (List.nodup_cons.mp hnd).2
      have hknot : k ∉ ks := (List.nodup_cons.mp hnd).1
      have habs' : ∀ k' ∈ ks, ∀ (i : Nat),
          ({ t with table := t.table.set (pos N (home N k) e) k } : LinearProbing).table[i]?
            ≠ some k' := by
        intro k' hk' i hi
        have hxk : x ≠ k' := by
          intro heq
          have := hpos k' (List.mem_cons_of_mem _ hk')
          rw [← heq] at this
          rcases hxfree with h1 | h1 <;> rw [h1] at this <;> simp [EMPTY, DELETED] at this
        have hkk : k ≠ k' := fun heq => hknot (heq ▸ hk')
        exact habs k' (List.mem_cons_of_mem _ hk') i ((set_other_key hx hxk hkk i).mp hi)
      have hrec := ih _ hinv hnd' (fun k' hk' => hpos k' (List.mem_cons_of_mem _ hk')) habs'
        (by simp only [List.length_cons] at hlen; omega)
      rw [insertAll, hins]
      simp only [hrec]
      rw [← hcount, List.replicate_succ]
      rfl

end LinearProbing

/-- Claim C7. A fresh table of capacity `N ≥ 1` accepts the first `N` of any `N + 1`
pairwise distinct non-negative keys and refuses the last one. -/
theorem hash_capacity (N : Nat) (hN : 1 ≤ N) (keys : List Int) (hlen : keys.length = N + 1)
    (hnd : keys.Nodup) (hpos : ∀ k ∈ keys, 0 ≤ k) (fuel : Nat) (hf : N ≤ fuel) :
    LinearProbing.insertAll fuel (LinearProbing.new (N : Int)).1 keys
      = Except.ok (List.replicate N true ++ [false]) := by
  have h := LinearProbing.insertAll_fresh hf keys (LinearProbing.new (N : Int)).1
    (LinearProbing.inv_new hN) hnd hpos
    (by
      intro k hk i hi
      have := (LinearProbing.agree_new (N : Int) k (hpos k hk) (i : Int)).mpr ⟨i, rfl, hi⟩
      cases this)
    (by rw [LinearProbing.freeCount_new, hlen])
  rw [LinearProbing.freeCount_new] at h
  exact h

/-- Capacity 2 with the keys 5, 8, 3: two successes, then a failure. -/
theorem hash_capacity_witness :
    LinearProbing.insertAll 2 (LinearProbing.new 2).1 [5, 8, 3]
      = Except.ok [true, true, false] :=
  hash_capacity 2 (by decide) [5, 8, 3] rfl (by decide) (by decide) 2 (le_refl 2)

/-- Claim C8. After any run of insert/remove/clear on non-negative keys from a fresh
table of capacity `N ≥ 1`, `searchInternal k` returns the slot recorded for `k` by the
tracked map (the slot of its latest successful insert, if `k` was not removed or cleared
since) and -1 when the map has no entry for `k`; recorded slots lie in `0 .. N-1`, so
they are never mistaken for -1. -/
theorem hash_search_agrees (N : Nat) (hN : 1 ≤ N) (ops : List LinearProbing.Op)
    (hops : ∀ op ∈ ops, 0 ≤ op.key) (fuel : Nat) (hf : N ≤ fuel) :
    ∃ t m, LinearProbing.run fuel (LinearProbing.new (N : Int)).1 ops = Except.ok t ∧
      LinearProbing.track fuel (LinearProbing.new (N : Int)).1 (fun _ => none) ops
        = Except.ok m ∧
      (∀ k, 0 ≤ k → LinearProbing.searchInternal t k fuel = Except.ok ((m k).getD (-1))) ∧
      ∀ k, 0 ≤ k → ∀ h, m k = some h → 0 ≤ h ∧ h < (N : Int) := by
  obtain ⟨t, m, h1, h2, h3, h4⟩ := LinearProbing.track_agree hf ops
    (LinearProbing.new (N : Int)).1 (fun _ => none) (LinearProbing.inv_new hN)
    (LinearProbing.agree_new _) hops
  refine ⟨t, m, h1, h2, fun k hk => LinearProbing.searchInternal_agree h3 h4 hk hf, ?_⟩
  intro k hk h hm
  obtain ⟨i, rfl, hi⟩ := (h4 k hk h).mp hm
  have hlt : i < t.table.length := (List.getElem?_eq_some_iff.mp hi).1
  rw [h3.hlen] at hlt
  exact ⟨by omega, by exact_mod_cast hlt⟩

/-- Capacity 3: keys 0 and 3 collide, 0 is removed and re-inserted into its tombstone. -/
theorem hash_search_agrees_witness :
    ∃ t m, LinearProbing.run 3 (LinearProbing.new 3).1
        [LinearProbing.Op.insert 0, LinearProbing.Op.insert 3, LinearProbing.Op.remove 0,
         LinearProbing.Op.insert 0] = Except.ok t ∧
      LinearProbing.track 3 (LinearProbing.new 3).1 (fun _ => none)
        [LinearProbing.Op.insert 0, LinearProbing.Op.insert 3, LinearProbing.Op.remove 0,
         LinearProbing.Op.insert 0] = Except.ok m ∧
      (∀ k, 0 ≤ k → LinearProbing.searchInternal t k 3 = Except.ok ((m k).getD (-1))) ∧
      ∀ k, 0 ≤ k → ∀ h, m k = some h → 0 ≤ h ∧ h < ((3 : Nat) : Int) :=
  hash_search_agrees 3 (by decide) _ (by decide) 3 (le_refl 3)

/-- Claim C9. On every table reached from a fresh table of capacity `N ≥ 1`, `insert k`
for a non-negative key returns; it returns `false` exactly when `k` is already stored or
no slot is `EMPTY` or `DELETED`, and a `false` result leaves the table as it was and
makes no call to the visualisation. -/
theorem hash_insert_fails_iff (N : Nat) (hN : 1 ≤ N) (ops : List LinearProbing.Op)
    (hops : ∀ op ∈ ops, 0 ≤ op.key) (k : Int) (hk : 0 ≤ k) (fuel : Nat) (hf : N ≤ fuel) :
    ∃ t r, LinearProbing.run fuel (LinearProbing.new (N : Int)).1 ops = Except.ok t ∧
      LinearProbing.insert t k fuel = Except.ok r ∧
      (r.ok = false ↔
        (k ∈ t.table ∨ ∀ x ∈ t.table, x ≠ LinearProbing.EMPTY ∧ x ≠ LinearProbing.DELETED)) ∧
      (r.ok = false → r.tbl = t ∧ r.events = []) := by
  obtain ⟨t, hrun, h⟩ := LinearProbing.run_inv hf ops (LinearProbing.new (N : Int)).1
    (LinearProbing.inv_new hN) hops
  rcases LinearProbing.searchInternal_total h hk hf with ⟨i, hi, _⟩ | ⟨habs, _⟩
  · refine ⟨t, _, hrun, LinearProbing.insert_stored h hk hi hf, ?_, ?_⟩
    · simp only [true_iff]
      exact Or.inl (List.mem_iff_getElem?.mpr ⟨_, hi⟩)
    · intro _; exact ⟨rfl, rfl⟩
  · by_cases hfree : ∃ (i : Nat) (x : Int), t.table[i]? = some x ∧
        (x = LinearProbing.EMPTY ∨ x = LinearProbing.DELETED)
    · obtain ⟨e, steps, he, _, hbefore, hins⟩ :=
        LinearProbing.insert_fresh h hk habs hfree hf
      refine ⟨t, _, hrun, hins, ?_, ?_⟩
      · simp only [Bool.true_eq_false, false_iff, not_or]
        constructor
        · intro hmem
          obtain ⟨i, hi⟩ := List.mem_iff_getElem?.mp hmem
          exact habs i hi
        · intro hall
          obtain ⟨i, x, hx, hxfree⟩ := hfree
          have := hall x (List.mem_iff_getElem?.mpr ⟨_, hx⟩)
          rcases hxfree with h1 | h1
          · exact this.1 h1
          · exact this.2 h1
      · intro hc; simp at hc
    · have hfull : ∀ (i : Nat) (y : Int), t.table[i]? = some y →
          y ≠ LinearProbing.EMPTY ∧ y ≠ LinearProbing.DELETED := by
        intro i y hy
        constructor
        · intro he; exact hfree ⟨i, y, hy, Or.inl he⟩
        · intro he; exact hfree ⟨i, y, hy, Or.inr he⟩
      refine ⟨t, _, hrun, LinearProbing.insert_full h hk habs hfull hf, ?_, ?_⟩
      · simp only [true_iff]
        right
        intro x hx
        obtain ⟨i, hi⟩ := List.mem_iff_getElem?.mp hx
        exact hfull i x hi
      · intro _; exact ⟨rfl, rfl⟩

/-- Capacity 2, after inserting 1 and 3 and removing 1: inserting 3 again is refused. -/
theorem hash_insert_fails_iff_witness :
    ∃ t r, LinearProbing.run 2 (LinearProbing.new 2).1
        [LinearProbing.Op.insert 1, LinearProbing.Op.insert 3, LinearProbing.Op.remove 1]
        = Except.ok t ∧
      LinearProbing.insert t 3 2 = Except.ok r ∧
      (r.ok = false ↔
        ((3 : Int) ∈ t.table ∨
          ∀ x ∈ t.table, x ≠ LinearProbing.EMPTY ∧ x ≠ LinearProbing.DELETED)) ∧
      (r.ok = false → r.tbl = t ∧ r.events = []) :=
  hash_insert_fails_iff 2 (by decide) _ (by decide) 3 (by decide) 2 (le_refl 2)

namespace IntMap

theorem lookup?_put {V : Type} (m : IntMap V) (k : Int) (v : V) (k' : Int) :
    lookup? (put m k v) k' = if k' = k then some v else lookup? m k' := by
  induction m with
  | nil =>
    by_cases h : k' = k
    · simp [put, lookup?, h]
    · simp [put, lookup?, h, Ne.symm h]
  | cons p m ih =>
    obtain ⟨k0, v0⟩ := p
    simp only [put]
    by_cases h1 : k < k0
    · simp only [h1, if_true, lookup?]
      by_cases h : k' = k
      · simp [h]
      · simp [h, Ne.symm h]
    · simp only [h1, if_false]
      by_cases h2 : k = k0
      · subst h2
        simp only [if_true, lookup?]
        by_cases h : k' = k
        · simp [h]
        · simp [h, Ne.symm h]
      · simp only [h2, if_false, lookup?, ih]
        by_cases h : k' = k
        · subst h
          simp [Ne.symm h2]
        · simp [h]

theorem vec_put {V : Type} (m : IntMap (List V)) (k : Int) (v : List V) (k' : Int) :
    vec (put m k v) k' = if k' = k then v else vec m k' := by
  unfold vec
  rw [lookup?_put]
  by_cases h : k' = k <;> simp [h]

theorem rd_put (m : IntMap Int) (k : Int) (v : Int) (k' : Int) :
    rd (put m k v) k' = if k' = k then v else rd m k' := by
  unfold rd
  rw [lookup?_put]
  by_cases h : k' = k <;> simp [h]

theorem lookup?_del {V : Type} (m : IntMap V) (k k' : Int) :
    lookup? (del m k) k' = if k' = k then none else lookup? m k' := by
  induction m with
  | nil => simp [del, lookup?]
  | cons p m ih =>
    obtain ⟨k0, v0⟩ := p
    unfold del at ih ⊢
    by_cases h0 : k0 = k
    · subst h0
      simp only [List.filter, ne_eq, not_true_eq_false, decide_False, ih, lookup?]
      by_cases h : k' = k0
      · simp [h]
      · simp [h, Ne.symm h]
    · simp only [List.filter, ne_eq, h0, not_false_eq_true, decide_True, lookup?, ih]
      by_cases h : k' = k
      · subst h
        simp [h0]
      · simp [h]

theorem lookup?_mapVals {V : Type} (f : V → V) (m : IntMap V) (k : Int) :
    lookup? (mapVals f m) k = (lookup? m k).map f := by
  induction m with
  | nil => simp [mapVals, lookup?]
  | cons p m ih =>
    obtain ⟨k0, v0⟩ := p
    unfold mapVals at ih ⊢
    simp only [List.map, lookup?, ih]
    by_cases h : k0 = k <;> simp [h]

end IntMap

namespace Graph

theorem mem_dropTarget (es : List Edge) (v : Int) (e : Edge) :
    e ∈ dropTarget es v ↔ e ∈ es ∧ e.target ≠ v := by
  simp [dropTarget]

theorem addNode_adj (g : Graph) (id : Int) : (addNode g id).1.adj = g.adj := by
  unfold addNode
  split <;> rfl

theorem hasEdge_addNode (g : Graph) (id u v : Int) :
    hasEdge (addNode g id).1 u v ↔ hasEdge g u v := by
  unfold hasEdge
  rw [addNode_adj]

theorem hasEdge_addEdge (g : Graph) (s t w u v : Int) :
    hasEdge (addEdge g s t w).1 u v ↔
      (u = s ∧ v = t) ∨ (u = t ∧ v = s) ∨ hasEdge g u v := by
  unfold hasEdge addEdge
  simp only [addNode_adj, IntMap.vec_put]
  by_cases hus : u = s <;> by_cases hut : u = t <;> by_cases hvs : v = s <;>
    by_cases hvt : v = t <;>
    simp_all [mem_dropTarget, or_and_right, exists_or] <;> aesop

end Graph

namespace Graph

theorem vec_del_mapVals (m : IntMap (List Edge)) (id u : Int) :
    IntMap.vec (IntMap.mapVals (fun es => dropTarget es id) (IntMap.del m id)) u
      = if u = id then [] else dropTarget (IntMap.vec m u) id := by
  unfold IntMap.vec
  rw [IntMap.lookup?_mapVals, IntMap.lookup?_del]
  by_cases h : u = id
  · simp [h]
  · simp only [h, if_false]
    cases IntMap.lookup? m u <;> simp [dropTarget]

theorem hasEdge_removeNode (g : Graph) (id u v : Int) (hid : id ∈ g.nodes) :
    hasEdge (removeNode g id).1 u v ↔ hasEdge g u v ∧ u ≠ id ∧ v ≠ id := by
  unfold hasEdge removeNode
  simp only [hid, if_true, vec_del_mapVals]
  by_cases h : u = id
  · simp [h]
  · simp only [h, if_false, mem_dropTarget]
    constructor
    · rintro ⟨e, ⟨he, hne⟩, rfl⟩
      exact ⟨⟨e, he, rfl⟩, fun hc => h hc, hne⟩
    · rintro ⟨⟨e, he, rfl⟩, _, hne⟩
      exact ⟨e, ⟨he, hne⟩, rfl⟩

theorem removeNode_absent (g : Graph) (id : Int) (hid : id ∉ g.nodes) :
    removeNode g id = (g, []) := by
  simp [removeNode, hid]

theorem hasEdge_removeEdge (g : Graph) (s t u v : Int) :
    hasEdge (removeEdge g s t).1 u v ↔
      hasEdge g u v ∧ ¬ (u = s ∧ v = t) ∧ ¬ (u = t ∧ v = s) := by
  unfold hasEdge removeEdge
  simp only [IntMap.vec_put]
  by_cases hus : u = s <;> by_cases hut : u = t <;> by_cases hvs : v = s <;>
    by_cases hvt : v = t <;>
    simp_all [mem_dropTarget] <;> aesop

theorem hasEdge_empty (u v : Int) : ¬ hasEdge Graph.empty u v := by
  simp [hasEdge, Graph.empty, IntMap.vec, IntMap.lookup?]

/-- Adjacency symmetry of a graph state. -/
theorem symmetric_step (g : Graph) (op : Op)
    (h : ∀ u v, hasEdge g u v ↔ hasEdge g v u) :
    ∀ u v, hasEdge (step g op).1 u v ↔ hasEdge (step g op).1 v u := by
  intro u v
  cases op with
  | addNode id =>
    simp only [step, hasEdge_addNode]; exact h u v
  | addEdge s t w =>
    simp only [step, hasEdge_addEdge]
    have := h u v
    tauto
  | removeNode id =>
    simp only [step]
    by_cases hid : id ∈ g.nodes
    · simp only [hasEdge_removeNode _ _ _ _ hid]
      have := h u v
      tauto
    · rw [removeNode_absent g id hid]; exact h u v
  | removeEdge s t =>
    simp only [step, hasEdge_removeEdge]
    have := h u v
    tauto
  | clearGraph =>
    simp only [step, clearGraph]
    constructor <;> intro hc <;> exact absurd hc (hasEdge_empty _ _)

theorem run_append_one (g : Graph) (ops : List Op) (op : Op) :
    run g (ops ++ [op]) = (step (run g ops) op).1 := by
  simp [run, List.foldl_append]

theorem symmetric_run (ops : List Op) :
    ∀ g : Graph, (∀ u v, hasEdge g u v ↔ hasEdge g v u) →
      ∀ u v, hasEdge (run g ops) u v ↔ hasEdge (run g ops) v u := by
  induction ops with
  | nil => intro g h; exact h
  | cons op ops ih =>
    intro g h
    exact ih (step g op).1 (symmetric_step g op h)

end Graph

/-- Claim C3. After every sequence of `addNode`, `addEdge`, `removeNode`, `removeEdge`
and `clearGraph` calls on the initially empty graph, `adj[u]` has an entry targeting `v`
exactly when `adj[v]` has an entry targeting `u`. -/
theorem graph_adjacency_symmetric (ops : List Graph.Op) (u v : Int) :
    Graph.hasEdge (Graph.run Graph.empty ops) u v ↔
      Graph.hasEdge (Graph.run Graph.empty ops) v u :=
  Graph.symmetric_run ops Graph.empty
    (fun _ _ => ⟨fun h => absurd h (Graph.hasEdge_empty _ _),
      fun h => absurd h (Graph.hasEdge_empty _ _)⟩) u v

namespace Heap

/-! ## Comparator facts -/

theorem inOrder_of_not_swap {m : Bool} {p c : Int} (h : shouldSwap m p c = false) :
    inOrder m p c := by
  unfold shouldSwap at h
  unfold inOrder
  cases m <;> simp at h ⊢ <;> omega

theorem inOrder_of_swap {m : Bool} {p c : Int} (h : shouldSwap m p c = true) :
    inOrder m c p := by
  unfold shouldSwap at h
  unfold inOrder
  cases m <;> simp at h ⊢ <;> omega

theorem inOrder_refl (m : Bool) (a : Int) : inOrder m a a := by
  unfold inOrder; cases m <;> simp

theorem inOrder_trans {m : Bool} {a b c : Int} (h1 : inOrder m a b) (h2 : inOrder m b c) :
    inOrder m a c := by
  unfold inOrder at *
  cases m <;> simp at * <;> omega

/-! ## Swapping two slots -/

theorem length_swap (heap : List Int) (i j : Nat) : (swap heap i j).length = heap.length := by
  simp [swap]

theorem getD_swap {heap : List Int} {i j : Nat} (hi : i < heap.length) (hj : j < heap.length)
    (x : Nat) :
    (swap heap i j).getD x 0
      = if x = j then heap.getD i 0 else if x = i then heap.getD j 0 else heap.getD x 0 := by
  unfold swap
  simp only [List.getD_eq_getElem?_getD, List.getElem?_set, List.length_set]
  by_cases hxj : x = j
  · subst hxj; simp [hj]
  · have hjx : ¬ j = x := fun h => hxj h.symm
    rw [if_neg hjx, if_neg hxj]
    by_cases hxi : x = i
    · subst hxi; simp [hi]
    · have hix : ¬ i = x := fun h => hxi h.symm
      rw [if_neg hix, if_neg hxi]

theorem getD_swap_left {heap : List Int} {i j : Nat} (hi : i < heap.length)
    (hj : j < heap.length) (hij : i ≠ j) : (swap heap i j).getD i 0 = heap.getD j 0 := by
  rw [getD_swap hi hj, if_neg hij, if_pos rfl]

theorem getD_swap_right {heap : List Int} {i j : Nat} (hi : i < heap.length)
    (hj : j < heap.length) : (swap heap i j).getD j 0 = heap.getD i 0 := by
  rw [getD_swap hi hj, if_pos rfl]

theorem getD_swap_other {heap : List Int} {i j x : Nat} (hi : i < heap.length)
    (hj : j < heap.length) (hxi : x ≠ i) (hxj : x ≠ j) :
    (swap heap i j).getD x 0 = heap.getD x 0 := by
  rw [getD_swap hi hj, if_neg hxj, if_neg hxi]

/-! ## `bubbleUp` -/

theorem bubbleUp_ordered (m : Bool) :
    ∀ (fuel : Nat) (heap : List Int) (k : Nat), k < heap.length → k < fuel → UpInv m heap k →
      ∃ heap', bubbleUp m fuel heap k = Except.ok heap' ∧ Ordered m heap' ∧
        heap'.length = heap.length := by
  intro fuel
  induction fuel with
  | zero => intro heap k _ hf; omega
  | succ f ih =>
    intro heap k hk hf hinv
    obtain ⟨hb, hc⟩ := hinv
    rw [bubbleUp]
    by_cases hk0 : k = 0
    · subst hk0
      refine ⟨heap, by simp, ?_, rfl⟩
      intro i hi1 hi2
      exact hb i hi1 hi2 (by omega)
    · have hnot : ¬ heap.length ≤ k := by omega
      simp only [hk0, hnot, if_false]
      have hp : (k - 1) / 2 < heap.length := by omega
      have hkp' : k ≠ (k - 1) / 2 := by omega
      cases hs : shouldSwap m (heap.getD ((k - 1) / 2) 0) (heap.getD k 0) with
      | false =>
        refine ⟨heap, by simp, ?_, rfl⟩
        intro i hi1 hi2
        by_cases hik : i = k
        · subst hik; exact inOrder_of_not_swap hs
        · exact hb i hi1 hi2 hik
      | true =>
        simp only [if_true]
        have hkp := inOrder_of_swap hs
        have hinv' : UpInv m (swap heap k ((k - 1) / 2)) ((k - 1) / 2) := by
          constructor
          · intro i hi1 hi2 hip
            rw [length_swap] at hi2
            by_cases hik : i = k
            · subst hik
              rw [getD_swap_right hi2 hp, getD_swap_left hi2 hp hkp']
              exact hkp
            · rw [getD_swap_other hk hp hik hip]
              by_cases hpk : (i - 1) / 2 = k
              · rw [hpk, getD_swap_left hk hp hkp']
                exact hc i hi1 hi2 hpk (Nat.pos_of_ne_zero hk0)
              · by_cases hpp : (i - 1) / 2 = (k - 1) / 2
                · rw [hpp, getD_swap_right hk hp]
                  have := hb i hi1 hi2 hik
                  rw [hpp] at this
                  exact inOrder_trans hkp this
                · rw [getD_swap_other hk hp hpk hpp]
                  exact hb i hi1 hi2 hik
          · intro i hi1 hi2 hip hp1
            rw [length_swap] at hi2
            have h1 : ((k - 1) / 2 - 1) / 2 ≠ (k - 1) / 2 := by omega
            have h2 : ((k - 1) / 2 - 1) / 2 ≠ k := by omega
            have h3 : i ≠ (k - 1) / 2 := by omega
            have h4 : (k - 1) / 2 ≠ k := by omega
            rw [getD_swap_other hk hp h2 h1]
            have hpar := hb ((k - 1) / 2) hp1 hp h4
            by_cases hik : i = k
            · rw [hik, getD_swap_left hk hp hkp']
              exact hpar
            · rw [getD_swap_other hk hp hik h3]
              have := hb i hi1 hi2 hik
              rw [hip] at this
              exact inOrder_trans hpar this
        have hf' : (k - 1) / 2 < f := by omega
        obtain ⟨heap', h1, h2, h3⟩ := ih (swap heap k ((k - 1) / 2)) ((k - 1) / 2)
          (by rw [length_swap]; exact hp) hf' hinv'
        exact ⟨heap', h1, h2, by rw [h3, length_swap]⟩

end Heap

namespace Heap

/-! ## `bubbleDown` -/

theorem downTarget_cases (m : Bool) (heap : List Int) (k : Nat) :
    (downTarget m heap k = k ∧
      ∀ c, (c = 2 * k + 1 ∨ c = 2 * k + 2) → c < heap.length →
        inOrder m (heap.getD k 0) (heap.getD c 0)) ∨
    ((downTarget m heap k = 2 * k + 1 ∨ downTarget m heap k = 2 * k + 2) ∧
      downTarget m heap k < heap.length ∧
      inOrder m (heap.getD (downTarget m heap k) 0) (heap.getD k 0) ∧
      ∀ c, (c = 2 * k + 1 ∨ c = 2 * k + 2) → c < heap.length →
        inOrder m (heap.getD (downTarget m heap k) 0) (heap.getD c 0)) := by
  by_cases hl : 2 * k + 1 < heap.length
  · cases hsl : shouldSwap m (heap.getD k 0) (heap.getD (2 * k + 1) 0) with
    | true =>
      have hlk := inOrder_of_swap hsl
      by_cases hr : 2 * k + 2 < heap.length
      · cases hsr : shouldSwap m (heap.getD (2 * k + 1) 0) (heap.getD (2 * k + 2) 0) with
        | true =>
          have hrl := inOrder_of_swap hsr
          have hval : downTarget m heap k = 2 * k + 2 := by
            simp only [downTarget, hl, hsl, hr, hsr, true_and, false_and, ↓reduceIte, Bool.false_eq_true]
          rw [hval]
          right
          refine ⟨Or.inr rfl, hr, inOrder_trans hrl hlk, ?_⟩
          rintro c (rfl | rfl) _
          · exact hrl
          · exact inOrder_refl _ _
        | false =>
          have hlr := inOrder_of_not_swap hsr
          have hval : downTarget m heap k = 2 * k + 1 := by
            simp only [downTarget, hl, hsl, hr, hsr, true_and, false_and, ↓reduceIte, Bool.false_eq_true]
          rw [hval]
          right
          refine ⟨Or.inl rfl, hl, hlk, ?_⟩
          rintro c (rfl | rfl) _
          · exact inOrder_refl _ _
          · exact hlr
      · have hval : downTarget m heap k = 2 * k + 1 := by
          simp only [downTarget, hl, hsl, hr, true_and, false_and, ↓reduceIte, Bool.false_eq_true]
        rw [hval]
        right
        refine ⟨Or.inl rfl, hl, hlk, ?_⟩
        rintro c (rfl | rfl) hc
        · exact inOrder_refl _ _
        · exact absurd hc hr
    | false =>
      have hkl := inOrder_of_not_swap hsl
      by_cases hr : 2 * k + 2 < heap.length
      · cases hsr : shouldSwap m (heap.getD k 0) (heap.getD (2 * k + 2) 0) with
        | true =>
          have hrk := inOrder_of_swap hsr
          have hval : downTarget m heap k = 2 * k + 2 := by
            simp only [downTarget, hl, hsl, hr, hsr, true_and, false_and, ↓reduceIte, Bool.false_eq_true]
          rw [hval]
          right
          refine ⟨Or.inr rfl, hr, hrk, ?_⟩
          rintro c (rfl | rfl) _
          · exact inOrder_trans hrk hkl
          · exact inOrder_refl _ _
        | false =>
          have hkr := inOrder_of_not_swap hsr
          have hval : downTarget m heap k = k := by
            simp only [downTarget, hl, hsl, hr, hsr, true_and, false_and, ↓reduceIte, Bool.false_eq_true]
          rw [hval]
          left
          refine ⟨rfl, ?_⟩
          rintro c (rfl | rfl) _
          · exact hkl
          · exact hkr
      · have hval : downTarget m heap k = k := by
          simp only [downTarget, hl, hsl, hr, true_and, false_and, ↓reduceIte, Bool.false_eq_true]
        rw [hval]
        left
        refine ⟨rfl, ?_⟩
        rintro c (rfl | rfl) hc
        · exact hkl
        · exact absurd hc hr
  · have hr : ¬ 2 * k + 2 < heap.length := by omega
    have hval : downTarget m heap k = k := by
      simp only [downTarget, hl, hr, true_and, false_and, ↓reduceIte, Bool.false_eq_true]
    rw [hval]
    left
    refine ⟨rfl, ?_⟩
    rintro c (rfl | rfl) hc
    · exact absurd hc hl
    · exact absurd hc hr

theorem bubbleDown_ordered (m : Bool) :
    ∀ (fuel : Nat) (heap : List Int) (k : Nat), k < heap.length → heap.length ≤ fuel + k →
      DownInv m heap k →
      ∃ heap', bubbleDown m fuel heap k = Except.ok heap' ∧ Ordered m heap' ∧
        heap'.length = heap.length := by
  intro fuel
  induction fuel with
  | zero => intro heap k hk hf; omega
  | succ f ih =>
    intro heap k hk hf hinv
    obtain ⟨hb, hc⟩ := hinv
    rw [bubbleDown]
    rcases downTarget_cases m heap k with ⟨ht, hch⟩ | ⟨ht, htl, htk, hch⟩
    · rw [ht]
      refine ⟨heap, by simp, ?_, rfl⟩
      intro i hi1 hi2
      by_cases hp : (i - 1) / 2 = k
      · rw [hp]
        exact hch i (by omega) hi2
      · exact hb i hi1 hi2 hp
    · generalize downTarget m heap k = t at ht htl htk hch
      have htk' : t ≠ k := by omega
      rw [if_pos htk']
      have hkt : k ≠ t := Ne.symm htk'
      have hpt : (t - 1) / 2 = k := by omega
      have hinv' : DownInv m (swap heap k t) t := by
        constructor
        · intro i hi1 hi2 hip
          rw [length_swap] at hi2
          by_cases hit : i = t
          · rw [hit, hpt, getD_swap_left hk htl hkt, getD_swap_right hk htl]
            exact htk
          · by_cases hik : i = k
            · have h1 : (i - 1) / 2 ≠ k := by omega
              rw [getD_swap_other hk htl h1 hip, hik, getD_swap_left hk htl hkt]
              have hk1 : 1 ≤ k := by omega
              exact hc t (by omega) htl hpt hk1
            · rw [getD_swap_other hk htl hik hit]
              by_cases hpk : (i - 1) / 2 = k
              · rw [hpk, getD_swap_left hk htl hkt]
                exact hch i (by omega) hi2
              · rw [getD_swap_other hk htl hpk hip]
                exact hb i hi1 hi2 hpk
        · intro i hi1 hi2 hip _
          rw [length_swap] at hi2
          have h1 : i ≠ k := by omega
          have h2 : i ≠ t := by omega
          rw [hpt, getD_swap_left hk htl hkt, getD_swap_other hk htl h1 h2]
          have h3 : (i - 1) / 2 ≠ k := by omega
          have := hb i hi1 hi2 h3
          rw [hip] at this
          exact this
      have hf' : (swap heap k t).length ≤ f + t := by
        rw [length_swap]; omega
      obtain ⟨heap', h1, h2, h3⟩ := ih (swap heap k t) t
        (by rw [length_swap]; exact htl) hf' hinv'
      exact ⟨heap', h1, h2, by rw [h3, length_swap]⟩

end Heap

namespace Heap

/-! ## The public calls -/

theorem ordered_nil (m : Bool) : Ordered m [] := by
  intro i _ hi; simp at hi

theorem getD_append_left (heap : List Int) (v : Int) {i : Nat} (hi : i < heap.length) :
    (heap ++ [v]).getD i 0 = heap.getD i 0 := by
  simp [List.getD_eq_getElem?_getD, List.getElem?_append_left hi]

theorem insertHeap_ordered (m : Bool) {fuel : Nat} {heap : List Int} (v : Int)
    (h : Ordered m heap) (hf : heap.length < fuel) :
    ∃ r, insertHeap m fuel heap v = Except.ok r ∧ Ordered m r.1 ∧
      r.1.length = heap.length + 1 := by
  have hlen : (heap ++ [v]).length - 1 = heap.length := by simp
  have hinv : UpInv m (heap ++ [v]) heap.length := by
    constructor
    · intro i hi1 hi2 hik
      have hi3 : i < heap.length := by
        simp only [List.length_append, List.length_singleton] at hi2; omega
      have hp : (i - 1) / 2 < heap.length := by omega
      rw [getD_append_left heap v hi3, getD_append_left heap v hp]
      exact h i hi1 hi3
    · intro i hi1 hi2 hip _
      simp only [List.length_append, List.length_singleton] at hi2
      omega
  obtain ⟨heap', h1, h2, h3⟩ := bubbleUp_ordered m fuel (heap ++ [v]) heap.length
    (by simp) hf hinv
  refine ⟨(heap', [updateVisualization heap']), ?_, h2, ?_⟩
  · simp only [insertHeap, hlen, h1]
  · simp only [h3, List.length_append, List.length_singleton]

theorem getD_extract (heap : List Int) {i : Nat} (hi1 : 1 ≤ i) (hi2 : i < heap.length - 1) :
    ((heap.set 0 (heap.getD (heap.length - 1) 0)).dropLast).getD i 0 = heap.getD i 0 := by
  have h0 : 0 ≠ i := by omega
  simp only [List.getD_eq_getElem?_getD, List.dropLast_eq_take, List.length_set,
    List.getElem?_take, hi2, if_true, List.getElem?_set, h0, if_false]

theorem extractRoot_ordered (m : Bool) {fuel : Nat} {heap : List Int}
    (h : Ordered m heap) (hf : heap.length < fuel) :
    ∃ r, extractRoot m fuel heap = Except.ok r ∧ Ordered m r.1 ∧ r.1.length ≤ heap.length := by
  unfold extractRoot
  by_cases hnil : heap = []
  · subst hnil
    exact ⟨([], []), by simp, ordered_nil m, by simp⟩
  · simp only [hnil, if_false]
    have hl1 : ((heap.set 0 (heap.getD (heap.length - 1) 0)).dropLast).length
        = heap.length - 1 := by simp
    by_cases hnil1 : (heap.set 0 (heap.getD (heap.length - 1) 0)).dropLast = []
    · simp only [hnil1, ne_eq, not_true_eq_false, if_false]
      exact ⟨_, rfl, ordered_nil m, by simp⟩
    · simp only [hnil1, ne_eq, not_false_eq_true, if_true]
      have hpos : 0 < ((heap.set 0 (heap.getD (heap.length - 1) 0)).dropLast).length :=
        List.length_pos.mpr hnil1
      have hinv : DownInv m ((heap.set 0 (heap.getD (heap.length - 1) 0)).dropLast) 0 := by
        constructor
        · intro i hi1 hi2 hip
          rw [hl1] at hi2
          have hp1 : 1 ≤ (i - 1) / 2 := by omega
          have hp2 : (i - 1) / 2 < heap.length - 1 := by omega
          rw [getD_extract heap hi1 hi2, getD_extract heap hp1 hp2]
          exact h i hi1 (by omega)
        · intro i _ _ _ hc; omega
      obtain ⟨heap', h1, h2, h3⟩ := bubbleDown_ordered m fuel _ 0 hpos
        (by rw [hl1]; omega) hinv
      refine ⟨(heap', [updateVisualization heap']), ?_, h2, ?_⟩
      · simp only [h1]
      · simp only [h3, hl1]; omega

theorem run_ordered (m : Bool) {fuel : Nat} :
    ∀ (ops : List Op) (heap : List Int), Ordered m heap → heap.length + ops.length < fuel →
      ∃ heap', run m fuel heap ops = Except.ok heap' ∧ Ordered m heap' := by
  intro ops
  induction ops with
  | nil => intro heap h _; exact ⟨heap, rfl, h⟩
  | cons op ops ih =>
    intro heap h hf
    simp only [List.length_cons] at hf
    cases op with
    | insertHeap v =>
      obtain ⟨r, hr, hord, hlen⟩ := insertHeap_ordered m v h (show heap.length < fuel by omega)
      obtain ⟨heap', h1, h2⟩ := ih r.1 hord (by omega)
      exact ⟨heap', by simp only [run, step, hr, h1], h2⟩
    | extractRoot =>
      obtain ⟨r, hr, hord, hlen⟩ := extractRoot_ordered m h (show heap.length < fuel by omega)
      obtain ⟨heap', h1, h2⟩ := ih r.1 hord (by omega)
      exact ⟨heap', by simp only [run, step, hr, h1], h2⟩
    | clearHeap =>
      obtain ⟨heap', h1, h2⟩ := ih [] (ordered_nil m) (by simp only [List.length_nil]; omega)
      exact ⟨heap', by simp only [run, step, clearHeap, h1], h2⟩

end Heap

/-- Claim C2. Starting from the empty heap in a fixed mode, every sequence of
`insertHeap`, `extractRoot` and `clearHeap` calls returns, and afterwards every index
`i ≥ 1` is in order with its parent `(i - 1) / 2`: parent ≤ child in min mode,
parent ≥ child in max mode. -/
theorem heap_order_invariant (isMinHeap : Bool) (ops : List Heap.Op) (fuel : Nat)
    (hf : ops.length < fuel) :
    ∃ heap, Heap.run isMinHeap fuel [] ops = Except.ok heap ∧
      ∀ i, 1 ≤ i → i < heap.length →
        (isMinHeap = true → heap.getD ((i - 1) / 2) 0 ≤ heap.getD i 0) ∧
        (isMinHeap = false → heap.getD ((i - 1) / 2) 0 ≥ heap.getD i 0) := by
  obtain ⟨heap, h1, h2⟩ := Heap.run_ordered isMinHeap ops [] (Heap.ordered_nil _)
    (by simpa using hf)
  refine ⟨heap, h1, ?_⟩
  intro i hi1 hi2
  have := h2 i hi1 hi2
  unfold Heap.inOrder at this
  constructor
  · intro hm; simpa [hm] using this
  · intro hm; simpa [hm] using this

/-- Max mode: insert 3, 5, 1, 9 and extract the root once. -/
theorem heap_order_invariant_witness :
    ∃ heap, Heap.run false 6 []
        [Heap.Op.insertHeap 3, Heap.Op.insertHeap 5, Heap.Op.insertHeap 1,
         Heap.Op.insertHeap 9, Heap.Op.extractRoot] = Except.ok heap ∧
      ∀ i, 1 ≤ i → i < heap.length →
        (false = true → heap.getD ((i - 1) / 2) 0 ≤ heap.getD i 0) ∧
        (false = false → heap.getD ((i - 1) / 2) 0 ≥ heap.getD i 0) :=
  heap_order_invariant false _ 6 (by decide)

namespace Node

/-! ## Heights -/

theorem max_eq (a b : Int) : Node.max a b = Max.max a b := by
  unfold Node.max
  split <;> omega

theorem trueHeight_nonneg : ∀ t : Node, 0 ≤ trueHeight t
  | nil => by simp [trueHeight]
  | node _ l r _ _ => by
    have := trueHeight_nonneg l
    have := trueHeight_nonneg r
    simp only [trueHeight]
    omega

theorem trueHeight_node (d : Int) (l r : Node) (id h : Int) :
    trueHeight (node d l r id h) = 1 + Max.max (trueHeight l) (trueHeight r) := rfl

theorem trueHeight_pos_of_node (d : Int) (l r : Node) (id h : Int) :
    1 ≤ trueHeight (node d l r id h) := by
  have := trueHeight_nonneg l
  have := trueHeight_nonneg r
  rw [trueHeight_node]
  omega

theorem eq_nil_of_trueHeight_zero {t : Node} (h : trueHeight t = 0) : t = nil := by
  cases t with
  | nil => rfl
  | node d l r id hh =>
    have := trueHeight_pos_of_node d l r id hh
    omega

theorem getHeight_node (d : Int) (l r : Node) (id h : Int) :
    getHeight (node d l r id h) = h := rfl

theorem getHeight_nil : getHeight nil = 0 := rfl

theorem avl_nil : AVL nil := ⟨trivial, trivial⟩

theorem avl_node_iff (d : Int) (l r : Node) (id h : Int) :
    AVL (node d l r id h) ↔
      AVL l ∧ AVL r ∧ h = 1 + Max.max (trueHeight l) (trueHeight r) ∧
        trueHeight l ≤ trueHeight r + 1 ∧ trueHeight r ≤ trueHeight l + 1 := by
  unfold AVL
  simp only [Balanced, HeightsExact]
  tauto

theorem getHeight_eq {t : Node} (h : AVL t) : getHeight t = trueHeight t := by
  cases t with
  | nil => rfl
  | node d l r id hh =>
    rw [avl_node_iff] at h
    rw [getHeight_node, trueHeight_node]
    exact h.2.2.1

theorem avl_leaf (v id : Int) : AVL (node v nil nil id 1) := by
  rw [avl_node_iff]
  simp [avl_nil, trueHeight]

/-! ## The two rotations on trees with exact heights -/

theorem rightRotate_avl (yd xd yid xid yh xh : Int) {xl t2 yr : Node}
    (hxl : AVL xl) (ht2 : AVL t2) (hyr : AVL yr)
    (h1 : trueHeight t2 ≤ trueHeight yr + 1) (h2 : trueHeight yr ≤ trueHeight t2 + 1)
    (h3 : trueHeight xl ≤ 1 + Max.max (trueHeight t2) (trueHeight yr) + 1)
    (h4 : 1 + Max.max (trueHeight t2) (trueHeight yr) ≤ trueHeight xl + 1) :
    ∃ t', rightRotate (node yd (node xd xl t2 xid xh) yr yid yh) = Except.ok t' ∧ AVL t' ∧
      trueHeight t' = 1 + Max.max (trueHeight xl)
        (1 + Max.max (trueHeight t2) (trueHeight yr)) := by
  refine ⟨_, rfl, ?_, ?_⟩
  · rw [avl_node_iff, avl_node_iff]
    simp only [getHeight_node, max_eq, getHeight_eq hxl, getHeight_eq ht2, getHeight_eq hyr,
      trueHeight_node]
    refine ⟨hxl, ⟨ht2, hyr, ?_, h1, h2⟩, ?_, ?_, ?_⟩ <;> omega
  · simp only [trueHeight_node]

theorem leftRotate_avl (yd xd yid xid yh xh : Int) {xl t2 yr : Node}
    (hxl : AVL xl) (ht2 : AVL t2) (hyr : AVL yr)
    (h1 : trueHeight xl ≤ trueHeight t2 + 1) (h2 : trueHeight t2 ≤ trueHeight xl + 1)
    (h3 : trueHeight yr ≤ 1 + Max.max (trueHeight xl) (trueHeight t2) + 1)
    (h4 : 1 + Max.max (trueHeight xl) (trueHeight t2) ≤ trueHeight yr + 1) :
    ∃ t', leftRotate (node xd xl (node yd t2 yr yid yh) xid xh) = Except.ok t' ∧ AVL t' ∧
      trueHeight t' = 1 + Max.max (1 + Max.max (trueHeight xl) (trueHeight t2))
        (trueHeight yr) := by
  refine ⟨_, rfl, ?_, ?_⟩
  · rw [avl_node_iff, avl_node_iff]
    simp only [getHeight_node, max_eq, getHeight_eq hxl, getHeight_eq ht2, getHeight_eq hyr,
      trueHeight_node]
    refine ⟨⟨hxl, ht2, ?_, h1, h2⟩, hyr, ?_, ?_, ?_⟩ <;> omega
  · simp only [trueHeight_node]

end Node

namespace Node

/-! ## The rebalancing step of `insertRec` in AVL mode -/

theorem insertFix_bal (v d id h : Int) {l r : Node} (hl : AVL l) (hr : AVL r)
    (h1 : trueHeight l ≤ trueHeight r + 1) (h2 : trueHeight r ≤ trueHeight l + 1) :
    insertFix true v (node d l r id h)
      = Except.ok (node d l r id (1 + Max.max (trueHeight l) (trueHeight r))) := by
  have c1 : ¬ (trueHeight l - trueHeight r > 1) := by omega
  have c2 : ¬ (trueHeight l - trueHeight r < -1) := by omega
  simp only [insertFix, Bool.not_true, Bool.false_eq_true, if_false, getBalance,
    getHeight_node, getHeight_eq hl, getHeight_eq hr, max_eq, c1, c2]

theorem avl_bal_node (d id : Int) {l r : Node} (hl : AVL l) (hr : AVL r)
    (h1 : trueHeight l ≤ trueHeight r + 1) (h2 : trueHeight r ≤ trueHeight l + 1) :
    AVL (node d l r id (1 + Max.max (trueHeight l) (trueHeight r))) := by
  rw [avl_node_iff]
  exact ⟨hl, hr, rfl, h1, h2⟩

theorem insertFix_left (v d id h : Int) {l r : Node} (hl : AVL l) (hr : AVL r)
    (h1 : trueHeight l = trueHeight r + 2) (hg : Grown v l) :
    ∃ t', insertFix true v (node d l r id h) = Except.ok t' ∧ AVL t' ∧
      trueHeight t' = trueHeight l := by
  have hr0 := trueHeight_nonneg r
  cases l with
  | nil => exact absurd hg (by simp [Grown])
  | node ld ll lr lid lh =>
    have hl' := (avl_node_iff _ _ _ _ _).mp hl
    obtain ⟨hll, hlr, hlh, hb1, hb2⟩ := hl'
    rw [trueHeight_node] at h1
    have c1 : lh - trueHeight r > 1 := by omega
    have hll0 := trueHeight_nonneg ll
    have hlr0 := trueHeight_nonneg lr
    simp only [Grown] at hg
    rcases hg with ⟨_, h3, h4⟩ | ⟨hv, h3⟩ | ⟨hv, h3⟩
    · subst h3; subst h4
      simp only [trueHeight] at h1
      omega
    · obtain ⟨t', ht', havl, hth⟩ := rightRotate_avl d ld id lid
          (1 + Max.max lh (trueHeight r)) lh hll hlr hr
        (by omega) (by omega) (by omega) (by omega)
      refine ⟨t', ?_, havl, ?_⟩
      · simp only [insertFix, Bool.not_true, Bool.false_eq_true, if_false, getBalance,
          getHeight_node, getHeight_eq hr, max_eq, c1, if_true, hv]
        exact ht'
      · rw [hth, trueHeight_node]; omega
    · cases lr with
      | nil =>
        simp only [trueHeight] at h3
        omega
      | node lrd lrl lrr lrid lrh =>
        obtain ⟨hlrl, hlrr, hlrh, hb3, hb4⟩ := (avl_node_iff _ _ _ _ _).mp hlr
        rw [trueHeight_node] at h3 hb1 hb2 hlh h1
        have hv1 : ¬ v < ld := by omega
        have hrot1 : leftRotate (node ld ll (node lrd lrl lrr lrid lrh) lid lh)
            = Except.ok (node lrd (node ld ll lrl lid
                (Node.max (getHeight ll) (getHeight lrl) + 1)) lrr lrid
                (Node.max (getHeight (node ld ll lrl lid
                  (Node.max (getHeight ll) (getHeight lrl) + 1))) (getHeight lrr) + 1)) := rfl
        have hinner : AVL (node ld ll lrl lid (Node.max (getHeight ll) (getHeight lrl) + 1)) := by
          rw [avl_node_iff, max_eq, getHeight_eq hll, getHeight_eq hlrl]
          refine ⟨hll, hlrl, ?_, ?_, ?_⟩ <;> omega
        obtain ⟨t', ht', havl, hth⟩ := rightRotate_avl d lrd id lrid
          (1 + Max.max lh (trueHeight r))
          (Node.max (getHeight (node ld ll lrl lid (Node.max (getHeight ll) (getHeight lrl) + 1))) (getHeight lrr) + 1)
          hinner hlrr hr
          (by omega) (by omega)
          (by rw [trueHeight_node]; omega) (by rw [trueHeight_node]; omega)
        refine ⟨t', ?_, havl, ?_⟩
        · simp only [insertFix, Bool.not_true, Bool.false_eq_true, if_false, getBalance,
            getHeight_node, getHeight_eq hr, max_eq, c1, if_true, hv1, hv, hrot1]
          simpa only [max_eq, getHeight_node, getHeight_eq hr] using ht'
        · rw [hth, trueHeight_node, trueHeight_node, trueHeight_node]; omega

end Node

namespace Node

theorem insertFix_right (v d id h : Int) {l r : Node} (hl : AVL l) (hr : AVL r)
    (h1 : trueHeight r = trueHeight l + 2) (hg : Grown v r) :
    ∃ t', insertFix true v (node d l r id h) = Except.ok t' ∧ AVL t' ∧
      trueHeight t' = trueHeight r := by
  have hl0 := trueHeight_nonneg l
  cases r with
  | nil => exact absurd hg (by simp [Grown])
  | node rd rl rr rid rh =>
    obtain ⟨hrl, hrr, hrh, hb1, hb2⟩ := (avl_node_iff _ _ _ _ _).mp hr
    rw [trueHeight_node] at h1
    have c0 : ¬ (trueHeight l - rh > 1) := by omega
    have c1 : trueHeight l - rh < -1 := by omega
    have hrl0 := trueHeight_nonneg rl
    have hrr0 := trueHeight_nonneg rr
    simp only [Grown] at hg
    rcases hg with ⟨_, h3, h4⟩ | ⟨hv, h3⟩ | ⟨hv, h3⟩
    · subst h3; subst h4
      simp only [trueHeight] at h1
      omega
    · cases rl with
      | nil =>
        simp only [trueHeight] at h3
        omega
      | node rld rll rlr rlid rlh =>
        obtain ⟨hrll, hrlr, hrlh, hb3, hb4⟩ := (avl_node_iff _ _ _ _ _).mp hrl
        rw [trueHeight_node] at h3 hb1 hb2 hrh h1
        have hv1 : ¬ v > rd := by omega
        have hrot1 : rightRotate (node rd (node rld rll rlr rlid rlh) rr rid rh)
            = Except.ok (node rld rll (node rd rlr rr rid
                (Node.max (getHeight rlr) (getHeight rr) + 1)) rlid
                (Node.max (getHeight rll) (getHeight (node rd rlr rr rid
                  (Node.max (getHeight rlr) (getHeight rr) + 1))) + 1)) := rfl
        have hinner : AVL (node rd rlr rr rid (Node.max (getHeight rlr) (getHeight rr) + 1)) := by
          rw [avl_node_iff, max_eq, getHeight_eq hrlr, getHeight_eq hrr]
          refine ⟨hrlr, hrr, ?_, ?_, ?_⟩ <;> omega
        obtain ⟨t', ht', havl, hth⟩ := leftRotate_avl rld d rlid id
          (Node.max (getHeight rll) (getHeight (node rd rlr rr rid (Node.max (getHeight rlr) (getHeight rr) + 1))) + 1)
          (1 + Max.max (trueHeight l) rh)
          hl hrll hinner
          (by omega) (by omega)
          (by rw [trueHeight_node]; omega) (by rw [trueHeight_node]; omega)
        refine ⟨t', ?_, havl, ?_⟩
        · simp only [insertFix, Bool.not_true, Bool.false_eq_true, if_false, getBalance,
            getHeight_node, getHeight_eq hl, max_eq, c0, c1, if_true, hv1, hv, hrot1]
          simpa only [max_eq, getHeight_node, getHeight_eq hl] using ht'
        · rw [hth, trueHeight_node, trueHeight_node, trueHeight_node]; omega
    · obtain ⟨t', ht', havl, hth⟩ := leftRotate_avl rd d rid id rh
          (1 + Max.max (trueHeight l) rh) hl hrl hrr
        (by omega) (by omega) (by omega) (by omega)
      refine ⟨t', ?_, havl, ?_⟩
      · simp only [insertFix, Bool.not_true, Bool.false_eq_true, if_false, getBalance,
          getHeight_node, getHeight_eq hl, max_eq, c0, c1, if_true, hv]
        exact ht'
      · rw [hth, trueHeight_node]; omega

/-! ## `insertRec` keeps the AVL invariant -/

theorem insertRec_avl (v : Int) :
    ∀ (t : Node) (n : Int), AVL t →
      ∃ t' n', insertRec true v t n = Except.ok (t', n') ∧ AVL t' ∧
        (trueHeight t' = trueHeight t ∨
          (trueHeight t' = trueHeight t + 1 ∧ Grown v t')) := by
  intro t
  induction t with
  | nil =>
    intro n _
    refine ⟨_, _, rfl, avl_leaf v n, Or.inr ⟨by simp [trueHeight], ?_⟩⟩
    simp [Grown]
  | node d l r id h ihl ihr =>
    intro n havl
    obtain ⟨hl, hr, hh, hb1, hb2⟩ := (avl_node_iff _ _ _ _ _).mp havl
    rw [insertRec]
    by_cases hlt : v < d
    · simp only [hlt, if_true]
      obtain ⟨l', n', hrec, hl', hcase⟩ := ihl n hl
      simp only [hrec]
      by_cases hbal : trueHeight l' ≤ trueHeight r + 1
      · have hb2' : trueHeight r ≤ trueHeight l' + 1 := by
          rcases hcase with h1 | ⟨h1, _⟩ <;> omega
        rw [insertFix_bal v d id h hl' hr hbal hb2']
        refine ⟨_, n', rfl, avl_bal_node d id hl' hr hbal hb2', ?_⟩
        simp only [trueHeight_node]
        rcases hcase with h1 | ⟨h1, _⟩
        · left; rw [h1]
        · by_cases h5 : trueHeight l < trueHeight r
          · left; omega
          · right
            refine ⟨by omega, ?_⟩
            simp only [Grown]
            right; left
            exact ⟨hlt, by omega⟩
      · rcases hcase with h1 | ⟨h1, hg⟩
        · omega
        · obtain ⟨t', ht', havl', hth⟩ := insertFix_left v d id h hl' hr (by omega) hg
          rw [ht']
          refine ⟨t', n', rfl, havl', Or.inl ?_⟩
          rw [hth, trueHeight_node]; omega
    · simp only [hlt, if_false]
      by_cases hgt : v > d
      · simp only [hgt, if_true]
        obtain ⟨r', n', hrec, hr', hcase⟩ := ihr n hr
        simp only [hrec]
        by_cases hbal : trueHeight r' ≤ trueHeight l + 1
        · have hb1' : trueHeight l ≤ trueHeight r' + 1 := by
            rcases hcase with h1 | ⟨h1, _⟩ <;> omega
          rw [insertFix_bal v d id h hl hr' hb1' hbal]
          refine ⟨_, n', rfl, avl_bal_node d id hl hr' hb1' hbal, ?_⟩
          simp only [trueHeight_node]
          rcases hcase with h1 | ⟨h1, _⟩
          · left; rw [h1]
          · by_cases h5 : trueHeight r < trueHeight l
            · left; omega
            · right
              refine ⟨by omega, ?_⟩
              simp only [Grown]
              right; right
              exact ⟨hgt, by omega⟩
        · rcases hcase with h1 | ⟨h1, hg⟩
          · omega
          · obtain ⟨t', ht', havl', hth⟩ := insertFix_right v d id h hl hr' (by omega) hg
            rw [ht']
            refine ⟨t', n', rfl, havl', Or.inl ?_⟩
            rw [hth, trueHeight_node]; omega
      · simp only [hgt, if_false]
        exact ⟨_, n, rfl, havl, Or.inl rfl⟩

end Node

namespace Node

/-! ## The rebalancing step of `deleteRec` in AVL mode -/

theorem deleteFix_bal (d id h : Int) {l r : Node} (hl : AVL l) (hr : AVL r)
    (h1 : trueHeight l ≤ trueHeight r + 1) (h2 : trueHeight r ≤ trueHeight l + 1) :
    deleteFix true (node d l r id h)
      = Except.ok (node d l r id (1 + Max.max (trueHeight l) (trueHeight r))) := by
  have c1 : ¬ (trueHeight l - trueHeight r > 1) := by omega
  have c2 : ¬ (trueHeight l - trueHeight r < -1) := by omega
  simp only [deleteFix, Bool.not_true, Bool.false_eq_true, if_false, getBalance,
    getHeight_node, getHeight_eq hl, getHeight_eq hr, max_eq, c1, c2, false_and]

theorem deleteFix_left (d id h : Int) {l r : Node} (hl : AVL l) (hr : AVL r)
    (h1 : trueHeight l = trueHeight r + 2) :
    ∃ t', deleteFix true (node d l r id h) = Except.ok t' ∧ AVL t' ∧
      (trueHeight t' = trueHeight l ∨ trueHeight t' = trueHeight l + 1) := by
  have hr0 := trueHeight_nonneg r
  cases l with
  | nil => simp only [trueHeight] at h1; omega
  | node ld ll lr lid lh =>
    obtain ⟨hll, hlr, hlh, hb1, hb2⟩ := (avl_node_iff _ _ _ _ _).mp hl
    rw [trueHeight_node] at h1
    have c1 : lh - trueHeight r > 1 := by omega
    have hll0 := trueHeight_nonneg ll
    have hlr0 := trueHeight_nonneg lr
    by_cases hbl : trueHeight ll - trueHeight lr ≥ 0
    · obtain ⟨t', ht', havl, hth⟩ := rightRotate_avl d ld id lid
          (1 + Max.max lh (trueHeight r)) lh hll hlr hr
        (by omega) (by omega) (by omega) (by omega)
      refine ⟨t', ?_, havl, ?_⟩
      · simp only [deleteFix, Bool.not_true, Bool.false_eq_true, if_false, getBalance,
          getHeight_node, getHeight_eq hr, getHeight_eq hll, getHeight_eq hlr, max_eq, c1,
          hbl, and_self, if_true]
        exact ht'
      · rw [hth, trueHeight_node]; omega
    · cases lr with
      | nil =>
        simp only [trueHeight] at hbl
        omega
      | node lrd lrl lrr lrid lrh =>
        obtain ⟨hlrl, hlrr, hlrh, hb3, hb4⟩ := (avl_node_iff _ _ _ _ _).mp hlr
        have hbl' : trueHeight ll - trueHeight (node lrd lrl lrr lrid lrh) < 0 := by omega
        rw [trueHeight_node] at hbl hbl' hb1 hb2 hlh h1
        have hrot1 : leftRotate (node ld ll (node lrd lrl lrr lrid lrh) lid lh)
            = Except.ok (node lrd (node ld ll lrl lid
                (Node.max (getHeight ll) (getHeight lrl) + 1)) lrr lrid
                (Node.max (getHeight (node ld ll lrl lid
                  (Node.max (getHeight ll) (getHeight lrl) + 1))) (getHeight lrr) + 1)) := rfl
        have hinner : AVL (node ld ll lrl lid (Node.max (getHeight ll) (getHeight lrl) + 1)) := by
          rw [avl_node_iff, max_eq, getHeight_eq hll, getHeight_eq hlrl]
          refine ⟨hll, hlrl, ?_, ?_, ?_⟩ <;> omega
        obtain ⟨t', ht', havl, hth⟩ := rightRotate_avl d lrd id lrid
          (1 + Max.max lh (trueHeight r))
          (Node.max (getHeight (node ld ll lrl lid (Node.max (getHeight ll) (getHeight lrl) + 1))) (getHeight lrr) + 1)
          hinner hlrr hr
          (by omega) (by omega)
          (by rw [trueHeight_node]; omega) (by rw [trueHeight_node]; omega)
        have c2 : ¬ (trueHeight ll - lrh ≥ 0) := by omega
        have c3 : trueHeight ll - lrh < 0 := by omega
        refine ⟨t', ?_, havl, ?_⟩
        · simp only [deleteFix, Bool.not_true, Bool.false_eq_true, if_false, getBalance,
            getHeight_node, getHeight_eq hr, getHeight_eq hll, max_eq, c1, c2, c3,
            true_and, and_true, and_false, and_self, if_true, hrot1]
          simpa only [max_eq, getHeight_node, getHeight_eq hr, getHeight_eq hll] using ht'
        · rw [hth, trueHeight_node, trueHeight_node, trueHeight_node]; omega

theorem deleteFix_right (d id h : Int) {l r : Node} (hl : AVL l) (hr : AVL r)
    (h1 : trueHeight r = trueHeight l + 2) :
    ∃ t', deleteFix true (node d l r id h) = Except.ok t' ∧ AVL t' ∧
      (trueHeight t' = trueHeight r ∨ trueHeight t' = trueHeight r + 1) := by
  have hl0 := trueHeight_nonneg l
  cases r with
  | nil => simp only [trueHeight] at h1; omega
  | node rd rl rr rid rh =>
    obtain ⟨hrl, hrr, hrh, hb1, hb2⟩ := (avl_node_iff _ _ _ _ _).mp hr
    rw [trueHeight_node] at h1
    have c0 : ¬ (trueHeight l - rh > 1) := by omega
    have c1 : trueHeight l - rh < -1 := by omega
    have hrl0 := trueHeight_nonneg rl
    have hrr0 := trueHeight_nonneg rr
    by_cases hbr : trueHeight rl - trueHeight rr ≤ 0
    · obtain ⟨t', ht', havl, hth⟩ := leftRotate_avl rd d rid id rh
          (1 + Max.max (trueHeight l) rh) hl hrl hrr
        (by omega) (by omega) (by omega) (by omega)
      refine ⟨t', ?_, havl, ?_⟩
      · simp only [deleteFix, Bool.not_true, Bool.false_eq_true, if_false, getBalance,
          getHeight_node, getHeight_eq hl, getHeight_eq hrl, getHeight_eq hrr, max_eq, c0, c1,
          hbr, and_self, false_and, if_true]
        exact ht'
      · rw [hth, trueHeight_node]; omega
    · cases rl with
      | nil =>
        simp only [trueHeight] at hbr
        omega
      | node rld rll rlr rlid rlh =>
        obtain ⟨hrll, hrlr, hrlh, hb3, hb4⟩ := (avl_node_iff _ _ _ _ _).mp hrl
        have hbr' : trueHeight (node rld rll rlr rlid rlh) - trueHeight rr > 0 := by omega
        rw [trueHeight_node] at hbr hbr' hb1 hb2 hrh h1
        have hrot1 : rightRotate (node rd (node rld rll rlr rlid rlh) rr rid rh)
            = Except.ok (node rld rll (node rd rlr rr rid
                (Node.max (getHeight rlr) (getHeight rr) + 1)) rlid
                (Node.max (getHeight rll) (getHeight (node rd rlr rr rid
                  (Node.max (getHeight rlr) (getHeight rr) + 1))) + 1)) := rfl
        have hinner : AVL (node rd rlr rr rid (Node.max (getHeight rlr) (getHeight rr) + 1)) := by
          rw [avl_node_iff, max_eq, getHeight_eq hrlr, getHeight_eq hrr]
          refine ⟨hrlr, hrr, ?_, ?_, ?_⟩ <;> omega
        obtain ⟨t', ht', havl, hth⟩ := leftRotate_avl rld d rlid id
          (Node.max (getHeight rll) (getHeight (node rd rlr rr rid (Node.max (getHeight rlr) (getHeight rr) + 1))) + 1)
          (1 + Max.max (trueHeight l) rh)
          hl hrll hinner
          (by omega) (by omega)
          (by rw [trueHeight_node]; omega) (by rw [trueHeight_node]; omega)
        have c2 : ¬ (rlh - trueHeight rr ≤ 0) := by omega
        have c3 : rlh - trueHeight rr > 0 := by omega
        refine ⟨t', ?_, havl, ?_⟩
        · simp only [deleteFix, Bool.not_true, Bool.false_eq_true, if_false, getBalance,
            getHeight_node, getHeight_eq hl, getHeight_eq hrr, max_eq, c0, c1, c2, c3,
            true_and, and_true, and_false, false_and, and_self, if_true, hrot1]
          simpa only [max_eq, getHeight_node, getHeight_eq hl, getHeight_eq hrr] using ht'
        · rw [hth, trueHeight_node, trueHeight_node, trueHeight_node]; omega

/-- The rebalancing step of `deleteRec` on two AVL subtrees whose heights differ by at most 2. -/
theorem deleteFix_avl (d id h : Int) {l r : Node} (hl : AVL l) (hr : AVL r)
    (h1 : trueHeight l ≤ trueHeight r + 2) (h2 : trueHeight r ≤ trueHeight l + 2) :
    ∃ t', deleteFix true (node d l r id h) = Except.ok t' ∧ AVL t' ∧
      (trueHeight t' = 1 + Max.max (trueHeight l) (trueHeight r) ∨
        ((trueHeight l = trueHeight r + 2 ∨ trueHeight r = trueHeight l + 2) ∧
          trueHeight t' = Max.max (trueHeight l) (trueHeight r))) := by
  by_cases hA : trueHeight l = trueHeight r + 2
  · obtain ⟨t', h3, h4, h5⟩ := deleteFix_left d id h hl hr hA
    refine ⟨t', h3, h4, ?_⟩
    rcases h5 with h5 | h5
    · right; exact ⟨Or.inl hA, by omega⟩
    · left; omega
  · by_cases hB : trueHeight r = trueHeight l + 2
    · obtain ⟨t', h3, h4, h5⟩ := deleteFix_right d id h hl hr hB
      refine ⟨t', h3, h4, ?_⟩
      rcases h5 with h5 | h5
      · right; exact ⟨Or.inr hB, by omega⟩
      · left; omega
    · have hb1 : trueHeight l ≤ trueHeight r + 1 := by omega
      have hb2 : trueHeight r ≤ trueHeight l + 1 := by omega
      refine ⟨_, deleteFix_bal d id h hl hr hb1 hb2, avl_bal_node d id hl hr hb1 hb2, ?_⟩
      left; rw [trueHeight_node]

end Node

namespace Node

/-! ## `deleteRec` keeps the AVL invariant -/

theorem minValueNode_node (d : Int) (l r : Node) (id h : Int) :
    ∃ td tl tr tid th, minValueNode (node d l r id h) = node td tl tr tid th := by
  induction l generalizing d r id h with
  | nil => exact ⟨d, nil, r, id, h, rfl⟩
  | node ld ll lr lid lh ihl _ =>
    obtain ⟨td, tl, tr, tid, th, ht⟩ := ihl ld lr lid lh
    exact ⟨td, tl, tr, tid, th, by rw [minValueNode, ht]⟩

theorem deleteRec_avl :
    ∀ (t : Node), AVL t → ∀ v : Int,
      ∃ t', deleteRec true t v = Except.ok t' ∧ AVL t' ∧
        (trueHeight t' = trueHeight t ∨ trueHeight t' + 1 = trueHeight t) := by
  intro t
  induction t with
  | nil => intro _ v; exact ⟨nil, rfl, avl_nil, Or.inl rfl⟩
  | node d l r id h ihl ihr =>
    intro havl v
    obtain ⟨hl, hr, hh, hb1, hb2⟩ := (avl_node_iff _ _ _ _ _).mp havl
    have hl0 := trueHeight_nonneg l
    have hr0 := trueHeight_nonneg r
    rw [deleteRec]
    by_cases hlt : v < d
    · simp only [hlt, if_true]
      obtain ⟨l', hrec, hl', hcase⟩ := ihl hl v
      simp only [hrec]
      obtain ⟨t', h3, h4, h5⟩ := deleteFix_avl d id h hl' hr (by omega) (by omega)
      refine ⟨t', h3, h4, ?_⟩
      rw [trueHeight_node]
      omega
    · simp only [hlt, if_false]
      by_cases hgt : v > d
      · simp only [hgt, if_true]
        obtain ⟨r', hrec, hr', hcase⟩ := ihr hr v
        simp only [hrec]
        obtain ⟨t', h3, h4, h5⟩ := deleteFix_avl d id h hl hr' (by omega) (by omega)
        refine ⟨t', h3, h4, ?_⟩
        rw [trueHeight_node]
        omega
      · simp only [hgt, if_false]
        cases l with
        | nil =>
          refine ⟨r, by simp [isNull], hr, Or.inr ?_⟩
          rw [trueHeight_node]
          simp only [trueHeight] at hb2 ⊢
          omega
        | node ld ll lr lid lh =>
          cases r with
          | nil =>
            refine ⟨node ld ll lr lid lh, by simp [isNull], hl, Or.inr ?_⟩
            rw [trueHeight_node (d := d)]
            simp only [trueHeight] at hb1 hl0 ⊢
            omega
          | node rd rl rr rid rh =>
            obtain ⟨td, tl, tr, tid, th, ht⟩ := minValueNode_node rd rl rr rid rh
            simp only [isNull, Bool.false_eq_true, if_false, ht]
            obtain ⟨r', hrec, hr', hcase⟩ := ihr hr td
            simp only [hrec]
            obtain ⟨t', h3, h4, h5⟩ := deleteFix_avl td id h hl hr' (by omega) (by omega)
            refine ⟨t', h3, h4, ?_⟩
            rw [trueHeight_node (d := d)]
            omega

/-! ## The rebuild done by `setAVL(true)` -/

theorem reinsert_avl :
    ∀ (vs : List Int) (t : Node) (n : Int), AVL t →
      ∃ t' n', TreeState.reinsert true vs t n = Except.ok (t', n') ∧ AVL t' := by
  intro vs
  induction vs with
  | nil => intro t n h; exact ⟨t, n, rfl, h⟩
  | cons v vs ih =>
    intro t n h
    obtain ⟨t1, n1, h1, havl1, _⟩ := insertRec_avl v t n h
    obtain ⟨t2, n2, h2, havl2⟩ := ih t1 n1 havl1
    exact ⟨t2, n2, by simp only [TreeState.reinsert, h1, h2], havl2⟩

end Node

namespace TreeState

theorem setAVL_true_avl (s : TreeState) :
    ∃ s', setAVL s true = Except.ok s' ∧ s'.useAVL = true ∧ Node.AVL s'.bstRoot := by
  obtain ⟨t', n', h1, h2⟩ :=
    Node.reinsert_avl (Node.inorderExtraction s.bstRoot) Node.nil 0 Node.avl_nil
  exact ⟨{ s with useAVL := true, bstRoot := t', nextId := n' },
    by simp only [setAVL, rebalanceBST, if_true, h1], rfl, h2⟩

theorem step_avl (s : TreeState) (op : Op) (hop : op.keepsAVL = true)
    (hs : s.useAVL = true) (h : Node.AVL s.bstRoot) :
    ∃ s', step s op = Except.ok s' ∧ s'.useAVL = true ∧ Node.AVL s'.bstRoot := by
  cases op with
  | insertBST v =>
    obtain ⟨t', n', h1, h2, _⟩ := Node.insertRec_avl v s.bstRoot s.nextId h
    exact ⟨{ s with bstRoot := t', nextId := n' },
      by simp only [step, insertBST, hs, h1], hs, h2⟩
  | deleteBST v =>
    obtain ⟨t', h1, h2, _⟩ := Node.deleteRec_avl s.bstRoot h v
    exact ⟨{ s with bstRoot := t' }, by simp only [step, deleteBST, hs, h1], hs, h2⟩
  | setAVL b =>
    cases b with
    | false => simp [Op.keepsAVL] at hop
    | true => exact setAVL_true_avl s
  | clearBST => exact ⟨clearBST s, rfl, hs, Node.avl_nil⟩

theorem run_avl :
    ∀ (ops : List Op) (s : TreeState), (∀ op ∈ ops, op.keepsAVL = true) →
      s.useAVL = true → Node.AVL s.bstRoot →
      ∃ s', run s ops = Except.ok s' ∧ s'.useAVL = true ∧ Node.AVL s'.bstRoot := by
  intro ops
  induction ops with
  | nil => intro s _ hs h; exact ⟨s, rfl, hs, h⟩
  | cons op ops ih =>
    intro s hops hs h
    obtain ⟨s1, h1, hs1, havl1⟩ := step_avl s op (hops op (List.mem_cons_self _ _)) hs h
    obtain ⟨s2, h2, hs2, havl2⟩ := ih s1 (fun o ho => hops o (List.mem_cons_of_mem _ ho))
      hs1 havl1
    exact ⟨s2, by simp only [run, h1, h2], hs2, havl2⟩

end TreeState

/-- Claim C1. From any tree state, `setAVL(true)` followed by any sequence of calls that
does not switch AVL mode off again (in particular any sequence of `insertBST` and
`deleteBST`) returns, and in the resulting tree the true heights of the two subtrees of
every node differ by at most 1. -/
theorem avl_balance_invariant (s : TreeState) (ops : List TreeState.Op)
    (hops : ∀ op ∈ ops, op.keepsAVL = true) :
    ∃ s1 s2, TreeState.setAVL s true = Except.ok s1 ∧ TreeState.run s1 ops = Except.ok s2 ∧
      Node.Balanced s2.bstRoot := by
  obtain ⟨s1, h1, hs1, havl1⟩ := TreeState.setAVL_true_avl s
  obtain ⟨s2, h2, _, havl2⟩ := TreeState.run_avl ops s1 hops hs1 havl1
  exact ⟨s1, s2, h1, h2, havl2.1⟩

/-- A right-leaning chain 1, 2, 3 built in plain mode is rebuilt and then updated. -/
theorem avl_balance_invariant_witness :
    ∃ s1 s2,
      TreeState.setAVL
        { bstRoot := Node.node 1 Node.nil
            (Node.node 2 Node.nil (Node.node 3 Node.nil Node.nil 2 1) 1 1) 0 1,
          nextId := 3, useAVL := false } true = Except.ok s1 ∧
      TreeState.run s1 [TreeState.Op.insertBST 4, TreeState.Op.insertBST 5,
        TreeState.Op.deleteBST 1] = Except.ok s2 ∧
      Node.Balanced s2.bstRoot :=
  avl_balance_invariant _ _ (by decide)

namespace Node

/-! ## In-order contents -/

theorem inorder_node (d : Int) (l r : Node) (id h : Int) :
    inorderExtraction (node d l r id h) = inorderExtraction l ++ d :: inorderExtraction r := rfl

theorem rightRotate_inorder {t t' : Node} (h : rightRotate t = Except.ok t') :
    inorderExtraction t' = inorderExtraction t := by
  cases t with
  | nil => simp [rightRotate] at h
  | node yd x yr yid yh =>
    cases x with
    | nil => simp [rightRotate] at h
    | node xd xl t2 xid xh =>
      simp only [rightRotate, Except.ok.injEq] at h
      subst h
      simp [inorder_node]

theorem leftRotate_inorder {t t' : Node} (h : leftRotate t = Except.ok t') :
    inorderExtraction t' = inorderExtraction t := by
  cases t with
  | nil => simp [leftRotate] at h
  | node xd xl y xid xh =>
    cases y with
    | nil => simp [leftRotate] at h
    | node yd t2 yr yid yh =>
      simp only [leftRotate, Except.ok.injEq] at h
      subst h
      simp [inorder_node]

theorem insertFix_inorder {b : Bool} {v : Int} {t t' : Node}
    (h : insertFix b v t = Except.ok t') : inorderExtraction t' = inorderExtraction t := by
  cases t with
  | nil => simp [insertFix] at h
  | node d l r id hh =>
    simp only [insertFix] at h
    split at h
    · simp only [Except.ok.injEq] at h; subst h; rfl
    · split at h
      · split at h
        · cases h
        · split at h
          · rw [rightRotate_inorder h]; rfl
          · split at h
            · split at h
              · cases h
              · rename_i l' hl'
                rw [rightRotate_inorder h, inorder_node, leftRotate_inorder hl']
                rfl
            · simp only [Except.ok.injEq] at h; subst h; rfl
      · split at h
        · split at h
          · cases h
          · split at h
            · rw [leftRotate_inorder h]; rfl
            · split at h
              · split at h
                · cases h
                · rename_i r' hr'
                  rw [leftRotate_inorder h, inorder_node, rightRotate_inorder hr']
                  rfl
              · simp only [Except.ok.injEq] at h; subst h; rfl
        · simp only [Except.ok.injEq] at h; subst h; rfl

theorem deleteFix_inorder {b : Bool} {t t' : Node}
    (h : deleteFix b t = Except.ok t') : inorderExtraction t' = inorderExtraction t := by
  cases t with
  | nil => simp only [deleteFix, Except.ok.injEq] at h; subst h; rfl
  | node d l r id hh =>
    simp only [deleteFix] at h
    split at h
    · simp only [Except.ok.injEq] at h; subst h; rfl
    · split at h
      · rw [rightRotate_inorder h]; rfl
      · split at h
        · split at h
          · cases h
          · rename_i l' hl'
            rw [rightRotate_inorder h, inorder_node, leftRotate_inorder hl']
            rfl
        · split at h
          · rw [leftRotate_inorder h]; rfl
          · split at h
            · split at h
              · cases h
              · rename_i r' hr'
                rw [leftRotate_inorder h, inorder_node, rightRotate_inorder hr']
                rfl
            · simp only [Except.ok.injEq] at h; subst h; rfl

end Node

namespace Node

/-! ## `insertRec` and `deleteRec` against the in-order sequence -/

theorem insertRec_mem {b : Bool} {v : Int} :
    ∀ (t : Node) (n : Int) (t' : Node) (n' : Int),
      insertRec b v t n = Except.ok (t', n') →
      ∀ x, x ∈ inorderExtraction t' ↔ x = v ∨ x ∈ inorderExtraction t := by
  intro t
  induction t with
  | nil =>
    intro n t' n' h x
    simp only [insertRec, Except.ok.injEq, Prod.mk.injEq] at h
    obtain ⟨rfl, _⟩ := h
    simp [inorderExtraction]
  | node d l r id hh ihl ihr =>
    intro n t' n' h x
    rw [insertRec] at h
    split at h
    · split at h
      · cases h
      · rename_i l' n1 hrec
        split at h
        · cases h
        · rename_i t1 hfix
          simp only [Except.ok.injEq, Prod.mk.injEq] at h
          obtain ⟨rfl, _⟩ := h
          rw [insertFix_inorder hfix]
          simp only [inorder_node, List.mem_append, List.mem_cons, ihl n l' n1 hrec x]
          tauto
    · split at h
      · split at h
        · cases h
        · rename_i r' n1 hrec
          split at h
          · cases h
          · rename_i t1 hfix
            simp only [Except.ok.injEq, Prod.mk.injEq] at h
            obtain ⟨rfl, _⟩ := h
            rw [insertFix_inorder hfix]
            simp only [inorder_node, List.mem_append, List.mem_cons, ihr n r' n1 hrec x]
            tauto
      · simp only [Except.ok.injEq, Prod.mk.injEq] at h
        obtain ⟨rfl, _⟩ := h
        have hvd : v = d := by omega
        simp only [inorder_node, List.mem_append, List.mem_cons, hvd]
        tauto

theorem sorted_node_iff (d : Int) (L R : List Int) :
    List.Pairwise (· < ·) (L ++ d :: R) ↔
      List.Pairwise (· < ·) L ∧ List.Pairwise (· < ·) R ∧ (∀ x ∈ L, x < d) ∧ (∀ y ∈ R, d < y) := by
  rw [List.pairwise_append, List.pairwise_cons]
  constructor
  · rintro ⟨h1, ⟨h2, h3⟩, h4⟩
    exact ⟨h1, h3, fun x hx => h4 x hx d (List.mem_cons_self _ _), h2⟩
  · rintro ⟨h1, h2, h3, h4⟩
    refine ⟨h1, ⟨h4, h2⟩, ?_⟩
    intro x hx y hy
    rcases List.mem_cons.mp hy with rfl | hy
    · exact h3 x hx
    · exact lt_trans (h3 x hx) (h4 y hy)

theorem insertRec_sorted {b : Bool} {v : Int} :
    ∀ (t : Node) (n : Int) (t' : Node) (n' : Int),
      insertRec b v t n = Except.ok (t', n') →
      List.Pairwise (· < ·) (inorderExtraction t) →
      List.Pairwise (· < ·) (inorderExtraction t') := by
  intro t
  induction t with
  | nil =>
    intro n t' n' h _
    simp only [insertRec, Except.ok.injEq, Prod.mk.injEq] at h
    obtain ⟨rfl, _⟩ := h
    simp [inorderExtraction]
  | node d l r id hh ihl ihr =>
    intro n t' n' h hs
    rw [inorder_node, sorted_node_iff] at hs
    obtain ⟨hsl, hsr, hL, hR⟩ := hs
    rw [insertRec] at h
    split at h
    · rename_i hlt
      split at h
      · cases h
      · rename_i l' n1 hrec
        split at h
        · cases h
        · rename_i t1 hfix
          simp only [Except.ok.injEq, Prod.mk.injEq] at h
          obtain ⟨rfl, _⟩ := h
          rw [insertFix_inorder hfix, inorder_node, sorted_node_iff]
          refine ⟨ihl n l' n1 hrec hsl, hsr, ?_, hR⟩
          intro x hx
          rcases (insertRec_mem l n l' n1 hrec x).mp hx with rfl | hx
          · exact hlt
          · exact hL x hx
    · split at h
      · rename_i hgt
        split at h
        · cases h
        · rename_i r' n1 hrec
          split at h
          · cases h
          · rename_i t1 hfix
            simp only [Except.ok.injEq, Prod.mk.injEq] at h
            obtain ⟨rfl, _⟩ := h
            rw [insertFix_inorder hfix, inorder_node, sorted_node_iff]
            refine ⟨hsl, ihr n r' n1 hrec hsr, hL, ?_⟩
            intro x hx
            rcases (insertRec_mem r n r' n1 hrec x).mp hx with rfl | hx
            · exact hgt
            · exact hR x hx
      · simp only [Except.ok.injEq, Prod.mk.injEq] at h
        obtain ⟨rfl, _⟩ := h
        rw [inorder_node, sorted_node_iff]
        exact ⟨hsl, hsr, hL, hR⟩

theorem minValueNode_inorder (d : Int) (l r : Node) (id h : Int) {td tid th : Int}
    {tl tr : Node} (hm : minValueNode (node d l r id h) = node td tl tr tid th) :
    ∃ rest, inorderExtraction (node d l r id h) = td :: rest := by
  induction l generalizing d r id h with
  | nil =>
    simp only [minValueNode, node.injEq] at hm
    obtain ⟨rfl, _⟩ := hm
    exact ⟨inorderExtraction r, rfl⟩
  | node ld ll lr lid lh ihl _ =>
    rw [minValueNode] at hm
    obtain ⟨rest, hrest⟩ := ihl ld lr lid lh hm
    exact ⟨rest ++ d :: inorderExtraction r, by rw [inorder_node, hrest]; rfl⟩

theorem filter_ne_self {l : List Int} {v : Int} (h : v ∉ l) :
    l.filter (fun x => decide (x ≠ v)) = l := by
  rw [List.filter_eq_self]
  intro a ha
  simp only [ne_eq, decide_not, Bool.not_eq_eq_eq_not, Bool.not_true, decide_eq_false_iff_not]
  intro heq
  exact h (heq ▸ ha)

theorem deleteRec_inorder {b : Bool} :
    ∀ (t : Node) (v : Int) (t' : Node), deleteRec b t v = Except.ok t' →
      List.Pairwise (· < ·) (inorderExtraction t) →
      inorderExtraction t' = (inorderExtraction t).filter (fun x => decide (x ≠ v)) := by
  intro t
  induction t with
  | nil =>
    intro v t' h _
    simp only [deleteRec, Except.ok.injEq] at h
    subst h
    rfl
  | node d l r id hh ihl ihr =>
    intro v t' h hs
    rw [inorder_node, sorted_node_iff] at hs
    obtain ⟨hsl, hsr, hL, hR⟩ := hs
    rw [deleteRec] at h
    rw [inorder_node, List.filter_append, List.filter_cons]
    split at h
    · rename_i hlt
      split at h
      · cases h
      · rename_i l' hrec
        have hne : d ≠ v := by omega
        have hvR : v ∉ inorderExtraction r := fun hv => by have := hR v hv; omega
        rw [deleteFix_inorder h, inorder_node, ihl v l' hrec hsl, filter_ne_self hvR]
        simp [hne]
    · split at h
      · rename_i hgt
        split at h
        · cases h
        · rename_i r' hrec
          have hne : d ≠ v := by omega
          have hvL : v ∉ inorderExtraction l := fun hv => by have := hL v hv; omega
          rw [deleteFix_inorder h, inorder_node, ihr v r' hrec hsr, filter_ne_self hvL]
          simp [hne]
      · have hvd : v = d := by omega
        subst hvd
        have hvL : v ∉ inorderExtraction l := fun hv => by have := hL v hv; omega
        have hvR : v ∉ inorderExtraction r := fun hv => by have := hR v hv; omega
        rw [filter_ne_self hvL, filter_ne_self hvR]
        simp only [ne_eq, not_true_eq_false, decide_False, Bool.false_eq_true, if_false]
        split at h
        · rename_i hnull
          simp only [Except.ok.injEq] at h
          subst h
          cases l with
          | nil => simp [inorderExtraction]
          | node _ _ _ _ _ => simp [isNull] at hnull
        · split at h
          · rename_i hnull
            simp only [Except.ok.injEq] at h
            subst h
            cases r with
            | nil => simp [inorderExtraction]
            | node _ _ _ _ _ => simp [isNull] at hnull
          · split at h
            · cases h
            · rename_i td tl tr tid th hmin
              split at h
              · cases h
              · rename_i r' hrec
                cases r with
                | nil => simp [minValueNode] at hmin
                | node rd rl rr rid rh =>
                  obtain ⟨rest, hrest⟩ := minValueNode_inorder rd rl rr rid rh hmin
                  rw [deleteFix_inorder h, inorder_node, ihr td r' hrec hsr, hrest]
                  rw [hrest, List.pairwise_cons] at hsr
                  have htd : td ∉ rest := fun hm => by
                    have := hsr.1 td hm
                    omega
                  rw [List.filter_cons, filter_ne_self htd]
                  simp

end Node

namespace Node

/-! ## Plain mode never faults -/

theorem insertFix_plain (v d : Int) (l r : Node) (id h : Int) :
    insertFix false v (node d l r id h) = Except.ok (node d l r id h) := by
  simp [insertFix]

theorem deleteFix_plain (t : Node) : deleteFix false t = Except.ok t := by
  cases t <;> simp [deleteFix]

theorem insertRec_plain (v : Int) :
    ∀ (t : Node) (n : Int), ∃ t' n', insertRec false v t n = Except.ok (t', n') := by
  intro t
  induction t with
  | nil => intro n; exact ⟨_, _, rfl⟩
  | node d l r id h ihl ihr =>
    intro n
    rw [insertRec]
    by_cases hlt : v < d
    · obtain ⟨l', n', hrec⟩ := ihl n
      simp only [hlt, if_true, hrec, insertFix_plain]
      exact ⟨_, _, rfl⟩
    · by_cases hgt : v > d
      · obtain ⟨r', n', hrec⟩ := ihr n
        simp only [hlt, hgt, if_true, if_false, hrec, insertFix_plain]
        exact ⟨_, _, rfl⟩
      · simp only [hlt, hgt, if_false]
        exact ⟨_, _, rfl⟩

theorem deleteRec_plain :
    ∀ (t : Node) (v : Int), ∃ t', deleteRec false t v = Except.ok t' := by
  intro t
  induction t with
  | nil => intro v; exact ⟨nil, rfl⟩
  | node d l r id h ihl ihr =>
    intro v
    rw [deleteRec]
    by_cases hlt : v < d
    · obtain ⟨l', hrec⟩ := ihl v
      simp only [hlt, if_true, hrec, deleteFix_plain]
      exact ⟨_, rfl⟩
    · by_cases hgt : v > d
      · obtain ⟨r', hrec⟩ := ihr v
        simp only [hlt, hgt, if_true, if_false, hrec, deleteFix_plain]
        exact ⟨_, rfl⟩
      · simp only [hlt, hgt, if_false]
        cases l with
        | nil => exact ⟨r, by simp [isNull]⟩
        | node ld ll lr lid lh =>
          cases r with
          | nil => exact ⟨node ld ll lr lid lh, by simp [isNull]⟩
          | node rd rl rr rid rh =>
            obtain ⟨td, tl, tr, tid, th, ht⟩ := minValueNode_node rd rl rr rid rh
            obtain ⟨r', hrec⟩ := ihr td
            simp only [isNull, Bool.false_eq_true, if_false, ht, hrec, deleteFix_plain]
            exact ⟨_, rfl⟩

theorem sorted_ext {l1 l2 : List Int} (h1 : List.Pairwise (· < ·) l1)
    (h2 : List.Pairwise (· < ·) l2) (hm : ∀ x, x ∈ l1 ↔ x ∈ l2) : l1 = l2 := by
  have hn1 : l1.Nodup := h1.imp (fun h => ne_of_lt h)
  have hn2 : l2.Nodup := h2.imp (fun h => ne_of_lt h)
  have hp : l1.Perm l2 := (List.perm_ext_iff_of_nodup hn1 hn2).mpr hm
  exact List.eq_of_perm_of_sorted hp h1 h2

end Node

namespace TreeState

theorem insertBST_spec (s : TreeState) (v : Int)
    (hs : List.Pairwise (· < ·) (Node.inorderExtraction s.bstRoot))
    (ha : s.useAVL = true → Node.AVL s.bstRoot) :
    ∃ s', insertBST s v = Except.ok s' ∧ s'.useAVL = s.useAVL ∧
      List.Pairwise (· < ·) (Node.inorderExtraction s'.bstRoot) ∧
      (s'.useAVL = true → Node.AVL s'.bstRoot) ∧
      ∀ x, x ∈ Node.inorderExtraction s'.bstRoot ↔
        x = v ∨ x ∈ Node.inorderExtraction s.bstRoot := by
  cases hb : s.useAVL with
  | true =>
    obtain ⟨t', n', h1, h2, _⟩ := Node.insertRec_avl v s.bstRoot s.nextId (ha hb)
    refine ⟨{ s with bstRoot := t', nextId := n' }, by simp only [insertBST, hb, h1], hb, ?_,
      fun _ => h2, ?_⟩
    · exact Node.insertRec_sorted _ _ _ _ h1 hs
    · exact Node.insertRec_mem _ _ _ _ h1
  | false =>
    obtain ⟨t', n', h1⟩ := Node.insertRec_plain v s.bstRoot s.nextId
    refine ⟨{ s with bstRoot := t', nextId := n' }, by simp only [insertBST, hb, h1], hb, ?_,
      ?_, ?_⟩
    · exact Node.insertRec_sorted _ _ _ _ h1 hs
    · intro hc; simp [hb] at hc
    · exact Node.insertRec_mem _ _ _ _ h1

theorem deleteBST_spec (s : TreeState) (v : Int)
    (hs : List.Pairwise (· < ·) (Node.inorderExtraction s.bstRoot))
    (ha : s.useAVL = true → Node.AVL s.bstRoot) :
    ∃ s', deleteBST s v = Except.ok s' ∧ s'.useAVL = s.useAVL ∧
      (s'.useAVL = true → Node.AVL s'.bstRoot) ∧
      Node.inorderExtraction s'.bstRoot
        = (Node.inorderExtraction s.bstRoot).filter (fun x => decide (x ≠ v)) := by
  cases hb : s.useAVL with
  | true =>
    obtain ⟨t', h1, h2, _⟩ := Node.deleteRec_avl s.bstRoot (ha hb) v
    exact ⟨{ s with bstRoot := t' }, by simp only [deleteBST, hb, h1], hb, fun _ => h2,
      Node.deleteRec_inorder _ _ _ h1 hs⟩
  | false =>
    obtain ⟨t', h1⟩ := Node.deleteRec_plain s.bstRoot v
    refine ⟨{ s with bstRoot := t' }, by simp only [deleteBST, hb, h1], hb, ?_,
      Node.deleteRec_inorder _ _ _ h1 hs⟩
    intro hc; simp [hb] at hc

theorem reinsert_contents :
    ∀ (vs : List Int) (t : Node) (n : Int) (t' : Node) (n' : Int),
      reinsert true vs t n = Except.ok (t', n') →
      List.Pairwise (· < ·) (Node.inorderExtraction t) →
      List.Pairwise (· < ·) (Node.inorderExtraction t') ∧
      ∀ x, x ∈ Node.inorderExtraction t' ↔ x ∈ vs ∨ x ∈ Node.inorderExtraction t := by
  intro vs
  induction vs with
  | nil =>
    intro t n t' n' h hs
    simp only [reinsert, Except.ok.injEq, Prod.mk.injEq] at h
    obtain ⟨rfl, _⟩ := h
    exact ⟨hs, by simp⟩
  | cons v vs ih =>
    intro t n t' n' h hs
    rw [reinsert] at h
    split at h
    · cases h
    · rename_i t1 n1 h1
      obtain ⟨h2, h3⟩ := ih t1 n1 t' n' h (Node.insertRec_sorted _ _ _ _ h1 hs)
      refine ⟨h2, ?_⟩
      intro x
      rw [h3 x, Node.insertRec_mem _ _ _ _ h1 x, List.mem_cons]
      tauto

theorem step_model (s : TreeState) (op : Op) (m : Int → Bool)
    (hs : List.Pairwise (· < ·) (Node.inorderExtraction s.bstRoot))
    (ha : s.useAVL = true → Node.AVL s.bstRoot)
    (hm : ∀ x, x ∈ Node.inorderExtraction s.bstRoot ↔ m x = true) :
    ∃ s', step s op = Except.ok s' ∧
      List.Pairwise (· < ·) (Node.inorderExtraction s'.bstRoot) ∧
      (s'.useAVL = true → Node.AVL s'.bstRoot) ∧
      ∀ x, x ∈ Node.inorderExtraction s'.bstRoot ↔ track m op x = true := by
  cases op with
  | insertBST v =>
    obtain ⟨s', h1, _, h3, h4, h5⟩ := insertBST_spec s v hs ha
    refine ⟨s', h1, h3, h4, ?_⟩
    intro x
    rw [h5 x, hm x]
    simp [track]
  | deleteBST v =>
    obtain ⟨s', h1, _, h3, h4⟩ := deleteBST_spec s v hs ha
    refine ⟨s', h1, ?_, h3, ?_⟩
    · rw [h4]; exact hs.filter _
    · intro x
      rw [h4, List.mem_filter, hm x]
      simp [track, and_comm]
  | setAVL b =>
    cases b with
    | false =>
      refine ⟨{ s with useAVL := false }, rfl, hs, ?_, hm⟩
      intro hc; cases hc
    | true =>
      obtain ⟨t', n', h1, h2⟩ :=
        Node.reinsert_avl (Node.inorderExtraction s.bstRoot) Node.nil 0 Node.avl_nil
      obtain ⟨h3, h4⟩ := reinsert_contents _ _ _ _ _ h1 (by simp [Node.inorderExtraction])
      refine ⟨{ s with useAVL := true, bstRoot := t', nextId := n' },
        by simp only [step, setAVL, rebalanceBST, if_true, h1], h3, fun _ => h2, ?_⟩
      intro x
      rw [h4 x]
      simp only [Node.inorderExtraction, List.not_mem_nil, or_false, track]
      exact hm x
  | clearBST =>
    refine ⟨clearBST s, rfl, by simp [clearBST, Node.inorderExtraction],
      fun _ => Node.avl_nil, ?_⟩
    intro x
    simp [clearBST, Node.inorderExtraction, track]

theorem run_model :
    ∀ (ops : List Op) (s : TreeState) (m : Int → Bool),
      List.Pairwise (· < ·) (Node.inorderExtraction s.bstRoot) →
      (s.useAVL = true → Node.AVL s.bstRoot) →
      (∀ x, x ∈ Node.inorderExtraction s.bstRoot ↔ m x = true) →
      ∃ s', run s ops = Except.ok s' ∧
        List.Pairwise (· < ·) (Node.inorderExtraction s'.bstRoot) ∧
        (s'.useAVL = true → Node.AVL s'.bstRoot) ∧
        ∀ x, x ∈ Node.inorderExtraction s'.bstRoot ↔ ops.foldl track m x = true := by
  intro ops
  induction ops with
  | nil => intro s m hs ha hm; exact ⟨s, rfl, hs, ha, hm⟩
  | cons op ops ih =>
    intro s m hs ha hm
    obtain ⟨s1, h1, hs1, ha1, hm1⟩ := step_model s op m hs ha hm
    obtain ⟨s2, h2, hs2, ha2, hm2⟩ := ih s1 (track m op) hs1 ha1 hm1
    exact ⟨s2, by simp only [run, h1, h2], hs2, ha2, by simpa [List.foldl] using hm2⟩

end TreeState

/-- Claim C10. From the empty tree, in plain or AVL mode, every sequence of
`insertBST`, `deleteBST`, `setAVL` (and `clearBST`) calls returns; afterwards the
in-order traversal is strictly increasing and holds exactly the values inserted and not
deleted since; inserting a value that is present, or deleting one that is absent,
leaves the in-order sequence unchanged. -/
theorem tree_set_model (avl : Bool) (ops : List TreeState.Op) :
    ∃ s, TreeState.run { bstRoot := Node.nil, nextId := 0, useAVL := avl } ops = Except.ok s ∧
      List.Pairwise (· < ·) (Node.inorderExtraction s.bstRoot) ∧
      (∀ x, x ∈ Node.inorderExtraction s.bstRoot ↔ TreeState.live ops x = true) ∧
      (∀ v, v ∈ Node.inorderExtraction s.bstRoot →
        ∃ s', TreeState.insertBST s v = Except.ok s' ∧
          Node.inorderExtraction s'.bstRoot = Node.inorderExtraction s.bstRoot) ∧
      (∀ v, v ∉ Node.inorderExtraction s.bstRoot →
        ∃ s', TreeState.deleteBST s v = Except.ok s' ∧
          Node.inorderExtraction s'.bstRoot = Node.inorderExtraction s.bstRoot) := by
  obtain ⟨s, h1, hs, ha, hm⟩ := TreeState.run_model ops
    { bstRoot := Node.nil, nextId := 0, useAVL := avl } (fun _ => false)
    (by simp [Node.inorderExtraction]) (fun _ => Node.avl_nil)
    (by simp [Node.inorderExtraction])
  refine ⟨s, h1, hs, hm, ?_, ?_⟩
  · intro v hv
    obtain ⟨s', h2, _, h3, _, h5⟩ := TreeState.insertBST_spec s v hs ha
    refine ⟨s', h2, Node.sorted_ext h3 hs ?_⟩
    intro x
    rw [h5 x]
    constructor
    · rintro (rfl | hx)
      · exact hv
      · exact hx
    · intro hx; exact Or.inr hx
  · intro v hv
    obtain ⟨s', h2, _, _, h4⟩ := TreeState.deleteBST_spec s v hs ha
    exact ⟨s', h2, by rw [h4, Node.filter_ne_self hv]⟩

namespace Graph

/-- Once the reconstruction has stepped onto node 0, whose `parent` entry reads 0, it
never reaches the start node 1. -/
theorem pathLoop_stuck_at_zero :
    ∀ (fuel : Nat) (path : List Int),
      pathLoop [] 1 fuel 0 path = Except.error Fault.outOfFuel := by
  intro fuel
  induction fuel with
  | zero => intro path; rfl
  | succ f ih =>
    intro path
    rw [pathLoop]
    simp only [ne_eq, zero_ne_one, not_false_eq_true, if_true]
    exact ih _

end Graph

/-- Claim C5, evaluated at the failing input. On the graph that has the single node 0,
`dijkstra(0, 5)` with the absent end node 5 emits a `shortest_path` event carrying
`[0, 5]`. -/
theorem dijkstra_absent_end_emits_path :
    (5 : Int) ∉ (Graph.run Graph.empty [Graph.Op.addNode 0]).nodes ∧
    ∀ n : Nat, Graph.dijkstra (Graph.run Graph.empty [Graph.Op.addNode 0]) 0 5 (n + 2)
      = Except.ok [GEvent.visit_node 0 0, GEvent.shortest_path [0, 5]] := by
  refine ⟨by decide, ?_⟩
  intro n
  rfl

/-- Claim C6, evaluated at the failing input. On the graph that has the single node 1,
`dijkstra(1, 5)` with the absent end node 5 does not return, whatever the loop budget. -/
theorem dijkstra_absent_end_diverges :
    ∀ fuel : Nat, Graph.dijkstra (Graph.run Graph.empty [Graph.Op.addNode 1]) 1 5 fuel
      = Except.error Fault.outOfFuel := by
  intro fuel
  match fuel with
  | 0 => rfl
  | 1 => rfl
  | n + 2 =>
    have h1 : Graph.mainLoop (Graph.run Graph.empty [Graph.Op.addNode 1]) 5 (n + 2)
        (Graph.initState (Graph.run Graph.empty [Graph.Op.addNode 1]) 1)
        = Except.ok { dist := [(1, 0)], parent := [], pq := [],
                      events := [GEvent.visit_node 1 0] } := rfl
    have h2 : Graph.pathLoop [] 1 (n + 2) 5 [] = Except.error Fault.outOfFuel := by
      rw [Graph.pathLoop]
      simp only [ne_eq, show ¬ ((5 : Int) = 1) by decide, not_false_eq_true, if_true]
      exact Graph.pathLoop_stuck_at_zero _ _
    unfold Graph.dijkstra
    rw [h1]
    simp only [h2]
    rfl

/-- The claim C4 as stated fails when a path weight equals `INT_MAX`: with the single
edge `(1, 2, 2147483647)` node 2 is reachable from node 1 by a walk of weight
2147483647, no addition overflows, and `dijkstra(1, 2)` reports no path. -/
theorem dijkstra_int_max_edge_counterexample :
    (1 : Int) ∈ (Graph.run Graph.empty [Graph.Op.addEdge 1 2 2147483647]).nodes ∧
    (∀ p ∈ (Graph.run Graph.empty [Graph.Op.addEdge 1 2 2147483647]).adj,
      ∀ e ∈ p.2, 0 ≤ e.weight) ∧
    Graph.Walk (Graph.run Graph.empty [Graph.Op.addEdge 1 2 2147483647]) 1 [1, 2] 2 2147483647 ∧
    Graph.addInt 0 2147483647 = 0 + 2147483647 ∧
    ∀ n : Nat, Graph.dijkstra (Graph.run Graph.empty [Graph.Op.addEdge 1 2 2147483647]) 1 2
      (n + 2) = Except.ok [GEvent.visit_node 1 0, GEvent.finished] := by
  refine ⟨by decide, by decide, ?_, by decide, ?_⟩
  · have h := Graph.Walk.snoc (g := Graph.run Graph.empty [Graph.Op.addEdge 1 2 2147483647])
      (s := 1) { target := 2, weight := 2147483647 } Graph.Walk.nil (by decide)
    simpa using h
  · intro n
    rfl

namespace Graph

/-! ## Dijkstra: queue, walks and chains -/

theorem wrap32_id {x : Int} (h0 : 0 ≤ x) (h1 : x < INT_MAX) : wrap32 x = x := by
  unfold wrap32
  unfold INT_MAX at h1
  omega

theorem minPair_cons_some (p : Int × Int) (ps : List (Int × Int)) :
    ∃ m, minPair (p :: ps) = some m := by
  rw [minPair]
  cases minPair ps with
  | none => exact ⟨p, rfl⟩
  | some q =>
    by_cases h : pairLt q p = true
    · exact ⟨q, by simp only [if_pos h]⟩
    · exact ⟨p, by simp only [if_neg h]⟩

theorem minPair_spec :
    ∀ (pq : List (Int × Int)) (m : Int × Int), minPair pq = some m →
      m ∈ pq ∧ ∀ q ∈ pq, m.1 ≤ q.1 := by
  intro pq
  induction pq with
  | nil => intro m h; simp [minPair] at h
  | cons p ps ih =>
    intro m h
    rw [minPair] at h
    cases hps : minPair ps with
    | none =>
      rw [hps] at h
      simp only [Option.some.injEq] at h
      subst h
      have hnil : ps = [] := by
        cases ps with
        | nil => rfl
        | cons a as =>
          obtain ⟨m, hm⟩ := minPair_cons_some a as
          rw [hm] at hps
          cases hps
      subst hnil
      simp
    | some q =>
      rw [hps] at h
      obtain ⟨hq1, hq2⟩ := ih q hps
      simp only at h
      by_cases hlt : pairLt q p = true
      · rw [if_pos hlt] at h
        simp only [Option.some.injEq] at h
        subst h
        refine ⟨List.mem_cons_of_mem _ hq1, ?_⟩
        intro x hx
        rcases List.mem_cons.mp hx with rfl | hx
        · unfold pairLt at hlt
          simp only [Bool.or_eq_true, decide_eq_true_eq, Bool.and_eq_true] at hlt
          omega
        · exact hq2 x hx
      · rw [if_neg hlt] at h
        simp only [Option.some.injEq] at h
        subst h
        refine ⟨List.mem_cons_self _ _, ?_⟩
        intro x hx
        rcases List.mem_cons.mp hx with rfl | hx
        · exact le_refl _
        · have := hq2 x hx
          unfold pairLt at hlt
          simp only [Bool.or_eq_true, decide_eq_true_eq, Bool.and_eq_true, not_or, not_and,
            not_lt] at hlt
          omega

theorem popMin_none {pq : List (Int × Int)} (h : popMin pq = none) : pq = [] := by
  cases pq with
  | nil => rfl
  | cons p ps =>
    exfalso
    obtain ⟨m, hm⟩ := minPair_cons_some p ps
    unfold popMin at h
    rw [hm] at h
    cases h

theorem popMin_some {pq pq' : List (Int × Int)} {d u : Int}
    (h : popMin pq = some ((d, u), pq')) :
    (d, u) ∈ pq ∧ pq' = pq.erase (d, u) ∧ ∀ q ∈ pq, d ≤ q.1 := by
  unfold popMin at h
  cases h2 : minPair pq with
  | none => rw [h2] at h; simp at h
  | some m =>
    rw [h2] at h
    simp only [Option.some.injEq, Prod.mk.injEq] at h
    obtain ⟨rfl, rfl⟩ := h
    obtain ⟨h3, h4⟩ := minPair_spec pq _ h2
    exact ⟨h3, rfl, h4⟩

theorem walk_nonneg {g : Graph} {s : Int} (hnn : ∀ u e, e ∈ g.adj.vec u → 0 ≤ e.weight)
    {p : List Int} {u w : Int} (h : Walk g s p u w) : 0 ≤ w := by
  induction h with
  | nil => exact le_refl 0
  | snoc e _ he ih =>
    have := hnn _ e he
    omega

theorem walk_head_last {g : Graph} {s : Int} {p : List Int} {u w : Int}
    (h : Walk g s p u w) : p.head? = some s ∧ p.getLast? = some u := by
  induction h with
  | nil => simp
  | snoc e _ _ ih =>
    constructor
    · rw [List.head?_append_of_ne_nil]
      · exact ih.1
      · intro hnil; rw [hnil] at ih; simp at ih
    · simp

theorem settled_mono {evs : List GEvent} {u : Int} (ev : GEvent) (h : Settled evs u) :
    Settled (evs ++ [ev]) u := by
  obtain ⟨d, hd⟩ := h
  exact ⟨d, List.mem_append_left _ hd⟩

theorem settled_append_visit {evs : List GEvent} {u d x : Int} :
    Settled (evs ++ [GEvent.visit_node u d]) x ↔ Settled evs x ∨ x = u := by
  constructor
  · rintro ⟨d', hd'⟩
    rcases List.mem_append.mp hd' with h | h
    · exact Or.inl ⟨d', h⟩
    · simp only [List.mem_singleton, GEvent.visit_node.injEq] at h
      exact Or.inr h.1
  · rintro (h | rfl)
    · exact settled_mono _ h
    · exact ⟨d, by simp⟩

theorem settled_append_relax {evs : List GEvent} {a b c x : Int} :
    Settled (evs ++ [GEvent.relax_edge a b c]) x ↔ Settled evs x := by
  constructor
  · rintro ⟨d', hd'⟩
    rcases List.mem_append.mp hd' with h | h
    · exact ⟨d', h⟩
    · simp at h
  · exact settled_mono _

theorem chain_mono {parent parent' : IntMap Int} {start : Int} {S S' : Int → Prop}
    (hS : ∀ x, S x → S' x) (hp : ∀ x, S x → parent'.rd x = parent.rd x)
    {v : Int} {p : List Int} (h : Chain parent start S v p) : Chain parent' start S' v p := by
  induction h with
  | base => exact Chain.base
  | step hne hs _ ih =>
    refine Chain.step hne (hS _ hs) ?_
    rw [hp _ hs]
    exact ih

theorem pathLoop_chain {parent : IntMap Int} {start : Int} {S : Int → Prop} {v : Int}
    {p : List Int} (h : Chain parent start S v p) :
    ∃ q, (q ++ [start]).reverse = p ∧
      ∀ (fuel : Nat) (acc : List Int), q.length < fuel →
        pathLoop parent start fuel v acc = Except.ok (acc ++ q) := by
  induction h with
  | base =>
    refine ⟨[], by simp, ?_⟩
    intro fuel acc hf
    obtain ⟨f, rfl⟩ : ∃ f, fuel = f + 1 := ⟨fuel - 1, by simp at hf; omega⟩
    simp [pathLoop]
  | @step v p hne _ _ ih =>
    obtain ⟨q, hq, hloop⟩ := ih
    refine ⟨v :: q, by simp [← hq], ?_⟩
    intro fuel acc hf
    obtain ⟨f, rfl⟩ : ∃ f, fuel = f + 1 := ⟨fuel - 1, by simp at hf; omega⟩
    rw [pathLoop, if_pos hne, hloop f (acc ++ [v]) (by simp at hf; omega)]
    simp

end Graph

namespace Graph

/-! ## Dijkstra: the frontier argument and the measure -/

/-- Every walk from `start` either ends in a settled node whose distance it does not
beat, or passes an unsettled node with a finite tentative distance it does not beat. -/
theorem frontier {g : Graph} {start endNode : Int} {st : DState}
    (hg : DHyp g start) (hinv : DInv g start endNode (fun _ _ => True) st)
    {p : List Int} {x w : Int} (hw : Walk g start p x w) :
    (Settled st.events x ∧ st.dist.rd x ≤ w) ∨
    (∃ y, y ∈ g.nodes ∧ ¬ Settled st.events y ∧ st.dist.rd y ≤ w ∧ st.dist.rd y < INT_MAX) := by
  induction hw with
  | nil =>
    by_cases hs : Settled st.events start
    · exact Or.inl ⟨hs, by rw [hinv.dist_start]⟩
    · refine Or.inr ⟨start, hg.start_mem, hs, by rw [hinv.dist_start], ?_⟩
      rw [hinv.dist_start]; decide
  | @snoc p u w e hwalk he ih =>
    have hew := hg.nonneg u e he
    rcases ih with ⟨hs, hle⟩ | ⟨y, hy1, hy2, hy3, hy4⟩
    · obtain ⟨_, _, hmin, pp, _, hwalk'⟩ := hinv.settled u hs
      have hb := hg.bound pp u _ hwalk' hmin e he
      have hc := hinv.closed u hs e he trivial
      by_cases ht : Settled st.events e.target
      · exact Or.inl ⟨ht, by omega⟩
      · exact Or.inr ⟨e.target, hg.targets u e he, ht, by omega, by omega⟩
    · exact Or.inr ⟨y, hy1, hy2, by omega, hy4⟩

theorem sum_put_le (nodes : List Int) (dist : IntMap Int) (t x : Int)
    (hx : x ≤ dist.rd t) :
    (nodes.map fun v => (dist.put t x).rd v).sum ≤ (nodes.map fun v => dist.rd v).sum := by
  induction nodes with
  | nil => simp
  | cons a as ih =>
    simp only [List.map_cons, List.sum_cons]
    have hh := IntMap.rd_put dist t x a
    by_cases h : a = t
    · rw [if_pos h] at hh
      subst h
      omega
    · rw [if_neg h] at hh
      omega

theorem sum_put_lt (nodes : List Int) (dist : IntMap Int) (t x : Int)
    (hx : x < dist.rd t) (ht : t ∈ nodes) :
    (nodes.map fun v => (dist.put t x).rd v).sum + 1 ≤ (nodes.map fun v => dist.rd v).sum := by
  induction nodes with
  | nil => simp at ht
  | cons a as ih =>
    simp only [List.map_cons, List.sum_cons]
    have hh := IntMap.rd_put dist t x a
    by_cases h : a = t
    · rw [if_pos h] at hh
      subst h
      have := sum_put_le as dist a x (le_of_lt hx)
      omega
    · rw [if_neg h] at hh
      have ht' : t ∈ as := by
        rcases List.mem_cons.mp ht with h1 | h1
        · exact absurd h1.symm h
        · exact h1
      have := ih ht'
      omega

theorem distSum_nonneg {g : Graph} {dist : IntMap Int}
    (h : ∀ v, v ∈ g.nodes → 0 ≤ dist.rd v) : 0 ≤ distSum g dist := by
  unfold distSum
  apply List.sum_nonneg
  intro x hx
  obtain ⟨v, hv, rfl⟩ := List.mem_map.mp hx
  exact h v hv

end Graph

namespace Graph

/-! ## Dijkstra: relaxing the edges of a settled node -/

theorem dinv_weaken {g : Graph} {start endNode : Int} {C C' : Int → Edge → Prop}
    {st : DState} (h : DInv g start endNode C st)
    (hC : ∀ x e, e ∈ g.adj.vec x → C' x e → C x e) : DInv g start endNode C' st :=
  { dist_start := h.dist_start
    dist_nonneg := h.dist_nonneg
    tree := h.tree
    settled := h.settled
    queued := h.queued
    closed := fun u hu e he hc => h.closed u hu e he (hC u e he hc)
    pq_ok := h.pq_ok
    end_open := h.end_open
    no_path_event := h.no_path_event }

/-- The sum computed for an edge that leaves a settled node does not wrap. -/
theorem relax_sum {g : Graph} {start endNode : Int} {C : Int → Edge → Prop} {st : DState}
    (hg : DHyp g start) (hinv : DInv g start endNode C st) {u : Int}
    (hu : Settled st.events u) {e : Edge} (he : e ∈ g.adj.vec u) :
    addInt (st.dist.rd u) e.weight = st.dist.rd u + e.weight ∧
      0 ≤ st.dist.rd u + e.weight ∧ st.dist.rd u + e.weight < INT_MAX := by
  obtain ⟨hun, _, hmin, pp, _, hwalk⟩ := hinv.settled u hu
  have hb := hg.bound pp u _ hwalk hmin e he
  have h0 := hinv.dist_nonneg u hun
  have hw := hg.nonneg u e he
  have h1 : 0 ≤ st.dist.rd u + e.weight := by omega
  exact ⟨wrap32_id h1 hb, h1, hb⟩

theorem relax_hit {g : Graph} {start endNode : Int} {st : DState} (hg : DHyp g start)
    {u : Int} {done : List Edge}
    (hinv : DInv g start endNode (fun x e => x ≠ u ∨ e ∈ done) st)
    (hu : Settled st.events u) {e : Edge} (he : e ∈ g.adj.vec u)
    (hlt : st.dist.rd u + e.weight < st.dist.rd e.target) :
    DInv g start endNode (fun x e' => x ≠ u ∨ e' ∈ done ++ [e])
      { dist := st.dist.put e.target (st.dist.rd u + e.weight),
        parent := st.parent.put e.target u,
        pq := (st.dist.rd u + e.weight, e.target) :: st.pq,
        events := st.events ++ [GEvent.relax_edge u e.target (st.dist.rd u + e.weight)] } ∧
    measure g
      { dist := st.dist.put e.target (st.dist.rd u + e.weight),
        parent := st.parent.put e.target u,
        pq := (st.dist.rd u + e.weight, e.target) :: st.pq,
        events := st.events ++ [GEvent.relax_edge u e.target (st.dist.rd u + e.weight)] }
      ≤ measure g st := by
  obtain ⟨_, h0, hb⟩ := relax_sum hg hinv hu he
  obtain ⟨hun, _, _, pp, _, hwalk⟩ := hinv.settled u hu
  have htn : e.target ∈ g.nodes := hg.targets u e he
  have hns : ¬ Settled st.events e.target := by
    intro hs
    obtain ⟨_, _, hmin, _⟩ := hinv.settled e.target hs
    have := hmin _ _ (Walk.snoc e hwalk he)
    omega
  have htu : e.target ≠ u := fun h => hns (h ▸ hu)
  have hts : e.target ≠ start := by
    intro h
    rw [h, hinv.dist_start] at hlt
    omega
  have hset : ∀ x, Settled st.events x → x ≠ e.target := fun x hx h => hns (h ▸ hx)
  have hle : ∀ y, (st.dist.put e.target (st.dist.rd u + e.weight)).rd y ≤ st.dist.rd y := by
    intro y
    rw [IntMap.rd_put]
    by_cases h : y = e.target
    · rw [if_pos h, h]; omega
    · rw [if_neg h]
  constructor
  · refine
      { dist_start := ?_, dist_nonneg := ?_, tree := ?_, settled := ?_, queued := ?_,
        closed := ?_, pq_ok := ?_, end_open := ?_, no_path_event := ?_ }
    · simp only [IntMap.rd_put, if_neg (Ne.symm hts)]
      exact hinv.dist_start
    · intro v hv
      simp only [IntMap.rd_put]
      by_cases h : v = e.target
      · rw [if_pos h]; exact h0
      · rw [if_neg h]; exact hinv.dist_nonneg v hv
    · intro v hv hfin
      simp only [IntMap.rd_put] at hfin ⊢
      by_cases h : v = e.target
      · right
        simp only [h, if_true, if_neg (Ne.symm htu)]
        exact ⟨settled_append_relax.mpr hu, e, he, rfl, rfl⟩
      · rw [if_neg h] at hfin
        simp only [if_neg h]
        rcases hinv.tree v hv hfin with h1 | ⟨h1, e', he', het, hd⟩
        · exact Or.inl h1
        · right
          refine ⟨settled_append_relax.mpr h1, e', he', het, ?_⟩
          rw [if_neg (hset _ h1)]
          exact hd
    · intro x hx
      have hx' := settled_append_relax.mp hx
      obtain ⟨h1, h2, h3, p, h4, h5⟩ := hinv.settled x hx'
      simp only [IntMap.rd_put, if_neg (hset x hx')]
      refine ⟨h1, h2, h3, p, ?_, h5⟩
      refine chain_mono (fun y hy => settled_append_relax.mpr hy) ?_ h4
      intro y hy
      rw [IntMap.rd_put, if_neg (hset y hy)]
    · intro v hv hfin
      simp only [IntMap.rd_put] at hfin ⊢
      by_cases h : v = e.target
      · right
        simp only [h, if_true]
        exact List.mem_cons_self _ _
      · rw [if_neg h] at hfin
        simp only [if_neg h]
        rcases hinv.queued v hv hfin with h1 | h1
        · exact Or.inl (settled_append_relax.mpr h1)
        · exact Or.inr (List.mem_cons_of_mem _ h1)
    · intro x hx e' he' hc
      have hx' := settled_append_relax.mp hx
      have hxd : (st.dist.put e.target (st.dist.rd u + e.weight)).rd x = st.dist.rd x := by
        rw [IntMap.rd_put, if_neg (hset x hx')]
      simp only [hxd]
      by_cases hold : x ≠ u ∨ e' ∈ done
      · have := hinv.closed x hx' e' he' hold
        have := hle e'.target
        omega
      · have hxu : x = u := by
          by_contra hne
          exact hold (Or.inl hne)
        have hee : e' = e := by
          rcases hc with hc | hc
          · exact absurd hxu hc
          · rcases List.mem_append.mp hc with h1 | h1
            · exact absurd (Or.inr h1) hold
            · simpa using h1
        subst hxu; subst hee
        rw [IntMap.rd_put, if_pos rfl]
    · intro d v hdv
      rcases List.mem_cons.mp hdv with h1 | h1
      · simp only [Prod.mk.injEq] at h1
        obtain ⟨rfl, rfl⟩ := h1
        refine ⟨htn, ?_, hb⟩
        simp only [IntMap.rd_put, if_true, le_refl]
      · obtain ⟨h2, h3, h4⟩ := hinv.pq_ok d v h1
        refine ⟨h2, ?_, h4⟩
        have := hle v
        simp only at this ⊢
        omega
    · intro hc
      exact hinv.end_open (settled_append_relax.mp hc)
    · intro ev hev
      rcases List.mem_append.mp hev with h1 | h1
      · exact hinv.no_path_event ev h1
      · simp only [List.mem_singleton] at h1
        subst h1
        rfl
  · unfold measure distSum
    have := sum_put_lt g.nodes st.dist e.target (st.dist.rd u + e.weight) hlt htn
    simp only [List.length_cons]
    push_cast
    omega

theorem relax_miss {g : Graph} {start endNode : Int} {st : DState}
    {u : Int} {done : List Edge}
    (hinv : DInv g start endNode (fun x e => x ≠ u ∨ e ∈ done) st)
    {e : Edge} (hlt : ¬ (st.dist.rd u + e.weight < st.dist.rd e.target)) :
    DInv g start endNode (fun x e' => x ≠ u ∨ e' ∈ done ++ [e]) st :=
  { dist_start := hinv.dist_start
    dist_nonneg := hinv.dist_nonneg
    tree := hinv.tree
    settled := hinv.settled
    queued := hinv.queued
    closed := by
      intro x hx e' he' hc
      by_cases hold : x ≠ u ∨ e' ∈ done
      · exact hinv.closed x hx e' he' hold
      · have hxu : x = u := by
          by_contra hne
          exact hold (Or.inl hne)
        have hee : e' = e := by
          rcases hc with hc | hc
          · exact absurd hxu hc
          · rcases List.mem_append.mp hc with h1 | h1
            · exact absurd (Or.inr h1) hold
            · simpa using h1
        subst hxu; subst hee
        omega
    pq_ok := hinv.pq_ok
    end_open := hinv.end_open
    no_path_event := hinv.no_path_event }

theorem relaxEdges_inv {g : Graph} {start endNode : Int} (hg : DHyp g start) (u : Int) :
    ∀ (rest done : List Edge) (st : DState), done ++ rest = g.adj.vec u →
      DInv g start endNode (fun x e => x ≠ u ∨ e ∈ done) st → Settled st.events u →
      DInv g start endNode (fun _ _ => True) (relaxEdges u rest st) ∧
        measure g (relaxEdges u rest st) ≤ measure g st := by
  intro rest
  induction rest with
  | nil =>
    intro done st hdone hinv _
    simp only [List.append_nil] at hdone
    refine ⟨dinv_weaken hinv ?_, le_refl _⟩
    intro x e he _
    by_cases hxu : x = u
    · right; rw [hdone, ← hxu]; exact he
    · left; exact hxu
  | cons e es ih =>
    intro done st hdone hinv hu
    have he : e ∈ g.adj.vec u := by
      rw [← hdone]; simp
    obtain ⟨hsum, _, _⟩ := relax_sum hg hinv hu he
    rw [relaxEdges]
    simp only [hsum]
    by_cases hlt : st.dist.rd u + e.weight < st.dist.rd e.target
    · rw [if_pos hlt]
      obtain ⟨h1, h2⟩ := relax_hit hg hinv hu he hlt
      obtain ⟨h3, h4⟩ := ih (done ++ [e]) _ (by simp [← hdone]) h1
        (settled_append_relax.mpr hu)
      exact ⟨h3, le_trans h4 h2⟩
    · rw [if_neg hlt]
      exact ih (done ++ [e]) st (by simp [← hdone]) (relax_miss hinv hlt) hu

end Graph

namespace Graph

/-! ## Dijkstra: the main loop -/

theorem settle_info {g : Graph} {start endNode : Int} {st : DState} (hg : DHyp g start)
    (hinv : DInv g start endNode (fun _ _ => True) st) {d u : Int}
    (hmem : (d, u) ∈ st.pq) (hmin : ∀ q ∈ st.pq, d ≤ q.1) (hd : d = st.dist.rd u) :
    u ∈ g.nodes ∧ st.dist.rd u < INT_MAX ∧ IsMin g start u (st.dist.rd u) ∧
      ∃ p, Chain st.parent start (Settled (st.events ++ [GEvent.visit_node u d])) u p ∧
        Walk g start p u (st.dist.rd u) := by
  obtain ⟨hun, _, hdlt⟩ := hinv.pq_ok d u hmem
  have hfin : st.dist.rd u < INT_MAX := by omega
  have hmono : ∀ x, Settled st.events x → Settled (st.events ++ [GEvent.visit_node u d]) x :=
    fun x hx => settled_mono _ hx
  by_cases hs : Settled st.events u
  · obtain ⟨h1, h2, h3, p, h4, h5⟩ := hinv.settled u hs
    exact ⟨h1, h2, h3, p, chain_mono hmono (fun _ _ => rfl) h4, h5⟩
  · have hismin : IsMin g start u (st.dist.rd u) := by
      intro p w hw
      rcases frontier hg hinv hw with ⟨h1, _⟩ | ⟨y, hy1, hy2, hy3, hy4⟩
      · exact absurd h1 hs
      · rcases hinv.queued y hy1 hy4 with h1 | h1
        · exact absurd h1 hy2
        · have := hmin _ h1
          simp only at this
          omega
    refine ⟨hun, hfin, hismin, ?_⟩
    by_cases hus : u = start
    · subst hus
      refine ⟨[u], Chain.base, ?_⟩
      rw [hinv.dist_start]
      exact Walk.nil
    · rcases hinv.tree u hun hfin with h1 | ⟨h1, e, he, het, hdist⟩
      · exact absurd h1 hus
      · obtain ⟨_, _, _, pp, hc, hw⟩ := hinv.settled _ h1
        refine ⟨pp ++ [u], ?_, ?_⟩
        · exact Chain.step hus (settled_append_visit.mpr (Or.inr rfl))
            (chain_mono hmono (fun _ _ => rfl) hc)
        · have := Walk.snoc e hw he
          rw [het, ← hdist] at this
          exact this

theorem dinv_stale {g : Graph} {start endNode : Int} {st : DState}
    (hinv : DInv g start endNode (fun _ _ => True) st) {d u : Int}
    (hstale : d > st.dist.rd u) :
    DInv g start endNode (fun _ _ => True) { st with pq := st.pq.erase (d, u) } :=
  { dist_start := hinv.dist_start
    dist_nonneg := hinv.dist_nonneg
    tree := hinv.tree
    settled := hinv.settled
    queued := by
      intro v hv hfin
      rcases hinv.queued v hv hfin with h1 | h1
      · exact Or.inl h1
      · right
        refine (List.mem_erase_of_ne ?_).mpr h1
        intro heq
        simp only [Prod.mk.injEq] at heq
        obtain ⟨h2, h3⟩ := heq
        subst h3
        omega
    closed := hinv.closed
    pq_ok := fun d' v h => hinv.pq_ok d' v (List.mem_of_mem_erase h)
    end_open := hinv.end_open
    no_path_event := hinv.no_path_event }

theorem dinv_settle {g : Graph} {start endNode : Int} {st : DState} (hg : DHyp g start)
    (hinv : DInv g start endNode (fun _ _ => True) st) {d u : Int}
    (hmem : (d, u) ∈ st.pq) (hmin : ∀ q ∈ st.pq, d ≤ q.1) (hd : d = st.dist.rd u)
    (hue : u ≠ endNode) :
    DInv g start endNode (fun x e => x ≠ u ∨ e ∈ ([] : List Edge))
      { st with pq := st.pq.erase (d, u), events := st.events ++ [GEvent.visit_node u d] } := by
  obtain ⟨h1, h2, h3, p, h4, h5⟩ := settle_info hg hinv hmem hmin hd
  have hmono : ∀ x, Settled st.events x → Settled (st.events ++ [GEvent.visit_node u d]) x :=
    fun x hx => settled_mono _ hx
  refine
    { dist_start := hinv.dist_start, dist_nonneg := hinv.dist_nonneg, tree := ?_,
      settled := ?_, queued := ?_, closed := ?_, pq_ok := ?_, end_open := ?_,
      no_path_event := ?_ }
  · intro v hv hfin
    rcases hinv.tree v hv hfin with h | ⟨h, e, he, het, hdist⟩
    · exact Or.inl h
    · exact Or.inr ⟨hmono _ h, e, he, het, hdist⟩
  · intro x hx
    rcases settled_append_visit.mp hx with hx' | rfl
    · obtain ⟨a1, a2, a3, q, a4, a5⟩ := hinv.settled x hx'
      exact ⟨a1, a2, a3, q, chain_mono hmono (fun _ _ => rfl) a4, a5⟩
    · exact ⟨h1, h2, h3, p, h4, h5⟩
  · intro v hv hfin
    by_cases hvu : v = u
    · exact Or.inl (settled_append_visit.mpr (Or.inr hvu))
    · rcases hinv.queued v hv hfin with h | h
      · exact Or.inl (hmono _ h)
      · right
        refine (List.mem_erase_of_ne ?_).mpr h
        intro heq
        simp only [Prod.mk.injEq] at heq
        exact hvu heq.2
  · intro x hx e he hc
    rcases hc with hc | hc
    · rcases settled_append_visit.mp hx with hx' | hx'
      · exact hinv.closed x hx' e he trivial
      · exact absurd hx' hc
    · simp at hc
  · intro d' v h
    exact hinv.pq_ok d' v (List.mem_of_mem_erase h)
  · intro hc
    rcases settled_append_visit.mp hc with hc' | hc'
    · exact hinv.end_open hc'
    · exact hue hc'.symm
  · intro ev hev
    rcases List.mem_append.mp hev with h | h
    · exact hinv.no_path_event ev h
    · simp only [List.mem_singleton] at h
      subst h
      rfl

theorem measure_nonneg {g : Graph} {start endNode : Int} {C : Int → Edge → Prop}
    {st : DState} (hinv : DInv g start endNode C st) : 0 ≤ measure g st := by
  unfold measure
  have := distSum_nonneg hinv.dist_nonneg
  omega

theorem measure_erase {g : Graph} {st : DState} {x : Int × Int} (hx : x ∈ st.pq)
    (evs : List GEvent) :
    measure g { st with pq := st.pq.erase x, events := evs } + 1 = measure g st := by
  unfold measure
  simp only [List.length_erase_of_mem hx]
  have : 0 < st.pq.length := List.length_pos_of_mem hx
  omega

theorem mainLoop_correct {g : Graph} {start endNode : Int} (hg : DHyp g start)
    (hreach : ∃ p w, Walk g start p endNode w) :
    ∀ (fuel : Nat) (st : DState), DInv g start endNode (fun _ _ => True) st →
      measure g st < (fuel : Int) →
      ∃ st', mainLoop g endNode fuel st = Except.ok st' ∧ DPost g start endNode st' := by
  intro fuel
  induction fuel with
  | zero =>
    intro st hinv hm
    have := measure_nonneg hinv
    simp only [Nat.cast_zero] at hm
    omega
  | succ f ih =>
    intro st hinv hm
    rw [mainLoop]
    cases hpop : popMin st.pq with
    | none =>
      exfalso
      have hnil := popMin_none hpop
      obtain ⟨p, w, hw⟩ := hreach
      rcases frontier hg hinv hw with ⟨h1, _⟩ | ⟨y, hy1, hy2, _, hy4⟩
      · exact hinv.end_open h1
      · rcases hinv.queued y hy1 hy4 with h1 | h1
        · exact hy2 h1
        · rw [hnil] at h1; simp at h1
    | some r =>
      obtain ⟨⟨d, u⟩, pq'⟩ := r
      obtain ⟨hmem, hpq', hmin⟩ := popMin_some hpop
      subst hpq'
      simp only
      by_cases hstale : d > st.dist.rd u
      · rw [if_pos hstale]
        have hm' := measure_erase (g := g) hmem st.events
        exact ih _ (dinv_stale hinv hstale) (by push_cast at hm; omega)
      · rw [if_neg hstale]
        have hd : d = st.dist.rd u := by
          have := (hinv.pq_ok d u hmem).2.1
          omega
        have hm' := measure_erase (g := g) hmem (st.events ++ [GEvent.visit_node u d])
        by_cases hue : u = endNode
        · rw [if_pos hue]
          obtain ⟨_, h2, h3, p, h4, h5⟩ := settle_info hg hinv hmem hmin hd
          refine ⟨_, rfl, ?_⟩
          subst hue
          refine { no_path_event := ?_, finite := h2, minimal := h3, chain := ⟨p, h4, h5⟩ }
          intro ev hev
          rcases List.mem_append.mp hev with h | h
          · exact hinv.no_path_event ev h
          · simp only [List.mem_singleton] at h
            subst h
            rfl
        · rw [if_neg hue]
          have hs1 := dinv_settle hg hinv hmem hmin hd hue
          obtain ⟨h3, h4⟩ := relaxEdges_inv hg u (g.adj.vec u) [] _ (by simp) hs1
            (settled_append_visit.mpr (Or.inr rfl))
          exact ih _ h3 (by push_cast at hm; omega)

theorem mainLoop_mono {g : Graph} {endNode : Int} :
    ∀ (fuel : Nat) (st st' : DState), mainLoop g endNode fuel st = Except.ok st' →
      ∀ k, mainLoop g endNode (fuel + k) st = Except.ok st' := by
  intro fuel
  induction fuel with
  | zero => intro st st' h; simp [mainLoop] at h
  | succ f ih =>
    intro st st' h k
    rw [show f + 1 + k = (f + k) + 1 by omega, mainLoop]
    rw [mainLoop] at h
    cases hpop : popMin st.pq with
    | none => rw [hpop] at h; exact h
    | some r =>
      obtain ⟨⟨d, u⟩, pq'⟩ := r
      rw [hpop] at h
      simp only at h ⊢
      by_cases hstale : d > st.dist.rd u
      · rw [if_pos hstale] at h ⊢
        exact ih _ _ h k
      · rw [if_neg hstale] at h ⊢
        by_cases hue : u = endNode
        · rw [if_pos hue] at h ⊢
          exact h
        · rw [if_neg hue] at h ⊢
          exact ih _ _ h k

end Graph

namespace Graph

/-! ## Dijkstra: reachable graphs and the initial state -/

theorem mem_setInsert (l : List Int) (id x : Int) :
    x ∈ setInsert l id ↔ x = id ∨ x ∈ l := by
  induction l with
  | nil => simp [setInsert]
  | cons a as ih =>
    rw [setInsert]
    by_cases h1 : id < a
    · simp [h1]
    · by_cases h2 : id = a
      · subst h2
        simp
      · simp only [h1, h2, if_false, List.mem_cons, ih]
        tauto

theorem mem_nodes_addNode (g : Graph) (id x : Int) :
    x ∈ (addNode g id).1.nodes ↔ x = id ∨ x ∈ g.nodes := by
  unfold addNode
  by_cases h : id ∈ g.nodes
  · simp only [h, if_true]
    constructor
    · exact Or.inr
    · rintro (rfl | h1)
      · exact h
      · exact h1
  · simp only [h, if_false, mem_setInsert]

theorem nodes_addEdge (g : Graph) (s t w x : Int) :
    x ∈ (addEdge g s t w).1.nodes ↔ x = s ∨ x = t ∨ x ∈ g.nodes := by
  unfold addEdge
  simp only [mem_nodes_addNode]
  tauto

/-- Every adjacency entry of a graph state joins two nodes. -/
theorem step_endpoints (g : Graph) (op : Op)
    (h : ∀ u v, hasEdge g u v → u ∈ g.nodes ∧ v ∈ g.nodes) :
    ∀ u v, hasEdge (step g op).1 u v → u ∈ (step g op).1.nodes ∧ v ∈ (step g op).1.nodes := by
  intro u v huv
  cases op with
  | addNode id =>
    simp only [step, hasEdge_addNode] at huv
    simp only [step, mem_nodes_addNode]
    exact ⟨Or.inr (h u v huv).1, Or.inr (h u v huv).2⟩
  | addEdge s t w =>
    simp only [step, hasEdge_addEdge] at huv
    simp only [step, nodes_addEdge]
    rcases huv with ⟨rfl, rfl⟩ | ⟨rfl, rfl⟩ | h1
    · exact ⟨Or.inl rfl, Or.inr (Or.inl rfl)⟩
    · exact ⟨Or.inr (Or.inl rfl), Or.inl rfl⟩
    · exact ⟨Or.inr (Or.inr (h u v h1).1), Or.inr (Or.inr (h u v h1).2)⟩
  | removeNode id =>
    simp only [step] at huv ⊢
    by_cases hid : id ∈ g.nodes
    · rw [hasEdge_removeNode _ _ _ _ hid] at huv
      obtain ⟨h1, h2, h3⟩ := huv
      simp only [removeNode, hid, if_true, List.mem_filter, decide_eq_true_eq]
      exact ⟨⟨(h u v h1).1, h2⟩, ⟨(h u v h1).2, h3⟩⟩
    · rw [removeNode_absent g id hid] at huv ⊢
      exact h u v huv
  | removeEdge s t =>
    simp only [step, hasEdge_removeEdge] at huv
    simp only [step, removeEdge]
    exact h u v huv.1
  | clearGraph =>
    simp only [step, clearGraph] at huv
    exact absurd huv (hasEdge_empty _ _)

theorem run_endpoints (ops : List Op) :
    ∀ g : Graph, (∀ u v, hasEdge g u v → u ∈ g.nodes ∧ v ∈ g.nodes) →
      ∀ u v, hasEdge (run g ops) u v → u ∈ (run g ops).nodes ∧ v ∈ (run g ops).nodes := by
  induction ops with
  | nil => intro g h; exact h
  | cons op ops ih =>
    intro g h
    exact ih (step g op).1 (step_endpoints g op h)

theorem run_targets (ops : List Op) (u : Int) (e : Edge)
    (he : e ∈ (run Graph.empty ops).adj.vec u) : e.target ∈ (run Graph.empty ops).nodes :=
  (run_endpoints ops Graph.empty
    (fun a b hab => absurd hab (hasEdge_empty a b)) u e.target ⟨e, he, rfl⟩).2

theorem rd_foldl_put (nodes : List Int) (x : Int) :
    ∀ (m : IntMap Int) (v : Int),
      IntMap.rd (nodes.foldl (fun m id => IntMap.put m id x) m) v
        = if v ∈ nodes then x else IntMap.rd m v := by
  induction nodes with
  | nil => intro m v; simp
  | cons a as ih =>
    intro m v
    simp only [List.foldl_cons, ih, IntMap.rd_put, List.mem_cons]
    by_cases h1 : v ∈ as
    · simp [h1]
    · by_cases h2 : v = a
      · simp [h1, h2]
      · simp [h1, h2]

theorem rd_initState (g : Graph) (start v : Int) :
    (initState g start).dist.rd v
      = if v = start then 0 else if v ∈ g.nodes then INT_MAX else 0 := by
  simp only [initState, IntMap.rd_put, rd_foldl_put]
  rfl

theorem dinv_init {g : Graph} {start endNode : Int} (hs : start ∈ g.nodes) :
    DInv g start endNode (fun _ _ => True) (initState g start) := by
  have hnot : ∀ u, ¬ Settled (initState g start).events u := by
    rintro u ⟨d, hd⟩
    simp [initState] at hd
  refine
    { dist_start := by rw [rd_initState]; simp, dist_nonneg := ?_, tree := ?_,
      settled := fun u hu => absurd hu (hnot u), queued := ?_,
      closed := fun u hu => absurd hu (hnot u), pq_ok := ?_, end_open := hnot endNode,
      no_path_event := ?_ }
  · intro v _
    rw [rd_initState]
    by_cases h1 : v = start
    · rw [if_pos h1]
    · rw [if_neg h1]
      by_cases h2 : v ∈ g.nodes
      · rw [if_pos h2]; decide
      · rw [if_neg h2]
  · intro v hv hfin
    rw [rd_initState] at hfin
    by_cases h : v = start
    · exact Or.inl h
    · simp only [h, hv, if_true, if_false, lt_self_iff_false] at hfin
  · intro v hv hfin
    rw [rd_initState] at hfin ⊢
    by_cases h : v = start
    · right
      simp [h, initState]
    · simp only [h, hv, if_true, if_false, lt_self_iff_false] at hfin
  · intro d v hdv
    simp only [initState, List.mem_singleton, Prod.mk.injEq] at hdv
    obtain ⟨rfl, rfl⟩ := hdv
    refine ⟨hs, ?_, by decide⟩
    rw [rd_initState]
    simp
  · intro ev hev
    simp [initState] at hev

end Graph

namespace Graph

theorem vec_mem_entries {V : Type} (m : IntMap (List V)) (u : Int) (e : V)
    (he : e ∈ IntMap.vec m u) : ∃ es, (u, es) ∈ m ∧ e ∈ es := by
  induction m with
  | nil => simp [IntMap.vec, IntMap.lookup?] at he
  | cons p m ih =>
    obtain ⟨k, es⟩ := p
    unfold IntMap.vec at he ih
    rw [IntMap.lookup?] at he
    by_cases h : k = u
    · subst h
      simp only [if_true, Option.getD_some] at he
      exact ⟨es, List.mem_cons_self _ _, he⟩
    · rw [if_neg h] at he
      obtain ⟨es', h1, h2⟩ := ih he
      exact ⟨es', List.mem_cons_of_mem _ h1, h2⟩

theorem dijkstra_correct {g : Graph} {start endNode : Int} (hg : DHyp g start)
    (hreach : ∃ p w, Walk g start p endNode w) :
    ∃ N : Nat, ∀ fuel : Nat, N ≤ fuel →
      ∃ evs path W, dijkstra g start endNode fuel = Except.ok evs ∧
        evs.filter isShortestPath = [GEvent.shortest_path path] ∧
        path.head? = some start ∧ path.getLast? = some endNode ∧
        Walk g start path endNode W ∧
        ∀ p' w', Walk g start p' endNode w' → W ≤ w' := by
  have hinit : DInv g start endNode (fun _ _ => True) (initState g start) :=
    dinv_init hg.start_mem
  have hm0 := measure_nonneg hinit
  obtain ⟨st', hloop, hpost⟩ := mainLoop_correct hg hreach
    ((measure g (initState g start)).toNat + 1) (initState g start) hinit
    (by push_cast; omega)
  obtain ⟨p, hchain, hwalk⟩ := hpost.chain
  obtain ⟨q, hq, hpath⟩ := pathLoop_chain hchain
  refine ⟨Nat.max ((measure g (initState g start)).toNat + 1) (q.length + 1), ?_⟩
  intro fuel hfuel
  have hf1 : (measure g (initState g start)).toNat + 1 ≤ fuel :=
    le_trans (Nat.le_max_left _ _) hfuel
  have hf2 : q.length + 1 ≤ fuel := le_trans (Nat.le_max_right _ _) hfuel
  have hloop' : mainLoop g endNode fuel (initState g start) = Except.ok st' := by
    have := mainLoop_mono _ _ _ hloop (fuel - ((measure g (initState g start)).toNat + 1))
    rw [Nat.add_sub_cancel' hf1] at this
    exact this
  have hpath' := hpath fuel [] (by omega)
  have hne : st'.dist.rd endNode ≠ INT_MAX := ne_of_lt hpost.finite
  refine ⟨st'.events ++ [GEvent.shortest_path p], p, st'.dist.rd endNode, ?_, ?_,
    (walk_head_last hwalk).1, (walk_head_last hwalk).2, hwalk, hpost.minimal⟩
  · unfold dijkstra
    rw [if_neg (not_not.mpr hg.start_mem), hloop']
    simp only [hne, ne_eq, not_false_eq_true, if_true, hpath', List.nil_append, hq]
  · rw [List.filter_append]
    have : st'.events.filter isShortestPath = [] := by
      rw [List.filter_eq_nil_iff]
      intro ev hev
      rw [hpost.no_path_event ev hev]
      simp
    rw [this]
    rfl

end Graph

/-- Claim C4, amended. For every graph state reached from the empty graph, with
non-negative edge weights and with no sum of a shortest distance from `start` and the
weight of an edge leaving that node reaching `INT_MAX`, every `start` in the node set
and every `end` reachable from `start`: with enough fuel `dijkstra(start, end)` returns
and emits exactly one `shortest_path` event; its payload begins with `start`, ends with
`end`, follows adjacency entries of the graph, and no walk from `start` to `end` weighs
less. -/
theorem dijkstra_shortest_path (ops : List Graph.Op) (startNode endNode : Int)
    (hstart : startNode ∈ (Graph.run Graph.empty ops).nodes)
    (hnonneg : ∀ u e, e ∈ (Graph.run Graph.empty ops).adj.vec u → 0 ≤ e.weight)
    (hbound : ∀ p u d, Graph.Walk (Graph.run Graph.empty ops) startNode p u d →
      (∀ p' w', Graph.Walk (Graph.run Graph.empty ops) startNode p' u w' → d ≤ w') →
      ∀ e, e ∈ (Graph.run Graph.empty ops).adj.vec u → d + e.weight < Graph.INT_MAX)
    (hreach : ∃ p w, Graph.Walk (Graph.run Graph.empty ops) startNode p endNode w) :
    ∃ N : Nat, ∀ fuel : Nat, N ≤ fuel →
      ∃ evs path W,
        Graph.dijkstra (Graph.run Graph.empty ops) startNode endNode fuel = Except.ok evs ∧
        evs.filter Graph.isShortestPath = [GEvent.shortest_path path] ∧
        path.head? = some startNode ∧ path.getLast? = some endNode ∧
        Graph.Walk (Graph.run Graph.empty ops) startNode path endNode W ∧
        ∀ p' w', Graph.Walk (Graph.run Graph.empty ops) startNode p' endNode w' → W ≤ w' :=
  Graph.dijkstra_correct
    { start_mem := hstart
      targets := Graph.run_targets ops
      nonneg := hnonneg
      bound := hbound } hreach

/-- Edges (1,2,4), (1,3,1), (3,2,1): the hypotheses hold, and `dijkstra(1, 2)` emits
the path `[1, 3, 2]` of weight 2. -/
theorem dijkstra_shortest_path_witness :
    (∃ N : Nat, ∀ fuel : Nat, N ≤ fuel →
      ∃ evs path W,
        Graph.dijkstra (Graph.run Graph.empty
          [Graph.Op.addEdge 1 2 4, Graph.Op.addEdge 1 3 1, Graph.Op.addEdge 3 2 1]) 1 2 fuel
          = Except.ok evs ∧
        evs.filter Graph.isShortestPath = [GEvent.shortest_path path] ∧
        path.head? = some 1 ∧ path.getLast? = some 2 ∧
        Graph.Walk (Graph.run Graph.empty
          [Graph.Op.addEdge 1 2 4, Graph.Op.addEdge 1 3 1, Graph.Op.addEdge 3 2 1]) 1 path 2 W ∧
        ∀ p' w', Graph.Walk (Graph.run Graph.empty
          [Graph.Op.addEdge 1 2 4, Graph.Op.addEdge 1 3 1, Graph.Op.addEdge 3 2 1]) 1 p' 2 w' →
          W ≤ w') ∧
    Graph.dijkstra (Graph.run Graph.empty
        [Graph.Op.addEdge 1 2 4, Graph.Op.addEdge 1 3 1, Graph.Op.addEdge 3 2 1]) 1 2 7
      = Except.ok [GEvent.visit_node 1 0, GEvent.relax_edge 1 2 4, GEvent.relax_edge 1 3 1,
          GEvent.visit_node 3 1, GEvent.relax_edge 3 2 2, GEvent.visit_node 2 2,
          GEvent.shortest_path [1, 3, 2]] := by
  have hall : ∀ p ∈ (Graph.run Graph.empty
      [Graph.Op.addEdge 1 2 4, Graph.Op.addEdge 1 3 1, Graph.Op.addEdge 3 2 1]).adj,
      (p.1 = 1 ∨ p.1 = 2 ∨ p.1 = 3) ∧ ∀ e ∈ p.2, 0 ≤ e.weight ∧ e.weight ≤ 4 := by decide
  have w1 : Graph.Walk (Graph.run Graph.empty
      [Graph.Op.addEdge 1 2 4, Graph.Op.addEdge 1 3 1, Graph.Op.addEdge 3 2 1]) 1 [1] 1 0 :=
    Graph.Walk.nil
  have w2 : Graph.Walk (Graph.run Graph.empty
      [Graph.Op.addEdge 1 2 4, Graph.Op.addEdge 1 3 1, Graph.Op.addEdge 3 2 1]) 1 [1, 2] 2 4 := by
    have h := Graph.Walk.snoc { target := 2, weight := 4 } w1 (by decide)
    simpa using h
  have w3 : Graph.Walk (Graph.run Graph.empty
      [Graph.Op.addEdge 1 2 4, Graph.Op.addEdge 1 3 1, Graph.Op.addEdge 3 2 1]) 1 [1, 3] 3 1 := by
    have h := Graph.Walk.snoc { target := 3, weight := 1 } w1 (by decide)
    simpa using h
  refine ⟨dijkstra_shortest_path _ 1 2 (by decide) ?_ ?_ ⟨_, _, w2⟩, by decide⟩
  · intro u e he
    obtain ⟨es, h1, h2⟩ := Graph.vec_mem_entries _ u e he
    exact ((hall _ h1).2 e h2).1
  · intro p u d _ hmin e he
    obtain ⟨es, h1, h2⟩ := Graph.vec_mem_entries _ u e he
    have hw := ((hall _ h1).2 e h2).2
    have hu := (hall _ h1).1
    simp only at hu
    have hd : d ≤ 4 := by
      rcases hu with rfl | rfl | rfl
      · have := hmin _ _ w1; omega
      · exact hmin _ _ w2
      · have := hmin _ _ w3; omega
    unfold Graph.INT_MAX
    omega

/-! ## The rebuild keeps the in-order sequence of a search tree -/

/-- C11: for every binary search tree (strictly increasing in-order sequence, whatever
its shape, ids, stored heights and mode), `setAVL(true)` returns and the in-order
sequence of the rebuilt tree equals the in-order sequence before the call. -/
theorem avl_rebuild_preserves_inorder (s : TreeState)
    (hbst : List.Pairwise (· < ·) (Node.inorderExtraction s.bstRoot)) :
    ∃ s', TreeState.setAVL s true = Except.ok s' ∧ s'.useAVL = true ∧
      Node.inorderExtraction s'.bstRoot = Node.inorderExtraction s.bstRoot := by
  obtain ⟨t', n', h1, _⟩ :=
    Node.reinsert_avl (Node.inorderExtraction s.bstRoot) Node.nil 0 Node.avl_nil
  obtain ⟨h2, h3⟩ := TreeState.reinsert_contents _ _ _ _ _ h1 List.Pairwise.nil
  refine ⟨{ s with useAVL := true, bstRoot := t', nextId := n' },
    by simp only [TreeState.setAVL, TreeState.rebalanceBST, if_true, h1], rfl, ?_⟩
  apply Node.sorted_ext h2 hbst
  intro x
  rw [h3]
  simp [Node.inorderExtraction]

theorem avl_rebuild_preserves_inorder_witness :
    ∃ s', TreeState.setAVL
        { bstRoot := Node.node 1 Node.nil (Node.node 2 Node.nil (Node.node 3 Node.nil Node.nil 7 1) 5 1) 0 1,
          nextId := 9, useAVL := false } true = Except.ok s' ∧ s'.useAVL = true ∧
      Node.inorderExtraction s'.bstRoot = [1, 2, 3] :=
  avl_rebuild_preserves_inorder
    { bstRoot := Node.node 1 Node.nil (Node.node 2 Node.nil (Node.node 3 Node.nil Node.nil 7 1) 5 1) 0 1,
      nextId := 9, useAVL := false } (by decide)

/-! ## The search path -/

namespace Node

theorem searchRec_eq (v : Int) :
    ∀ (t : Node) (path : List Int), searchRec t v path = path ++ (descent t v).map idOf := by
  intro t
  induction t with
  | nil => intro path; simp [searchRec, descent]
  | node d l r id h ihl ihr =>
    intro path
    simp only [searchRec, descent]
    by_cases h1 : d = v
    · simp [h1, idOf]
    · by_cases h2 : v < d
      · simp [h1, h2, ihl, idOf]
      · simp [h1, h2, ihr, idOf]

theorem descent_eq_nil (v : Int) (t : Node) : descent t v = [] ↔ t = nil := by
  cases t <;> simp [descent]

theorem descent_head (v : Int) (t : Node) (ht : t ≠ nil) : (descent t v).head? = some t := by
  cases t with
  | nil => exact absurd rfl ht
  | node d l r id h => simp [descent]

theorem getLast?_cons_iff {α : Type} (a n : α) (rest : List α) :
    (a :: rest).getLast? = some n ↔ (rest = [] ∧ a = n) ∨ rest.getLast? = some n := by
  cases rest with
  | nil => simp
  | cons b bs => simp [List.getLast?_cons_cons]

theorem descent_last (v : Int) :
    ∀ (t : Node), List.Pairwise (· < ·) (inorderExtraction t) →
      (v ∈ inorderExtraction t ↔
        ∃ n, (descent t v).getLast? = some n ∧ dataOf n = v) := by
  intro t
  induction t with
  | nil => intro _; simp [inorderExtraction, descent]
  | node d l r id h ihl ihr =>
    intro hs
    rw [inorder_node, sorted_node_iff] at hs
    obtain ⟨hl, hr, hlt, hgt⟩ := hs
    rw [inorder_node]
    simp only [descent, getLast?_cons_iff]
    by_cases h1 : d = v
    · simp [h1, dataOf]
    · by_cases h2 : v < d
      · simp only [h1, h2, if_true, if_false, descent_eq_nil]
        have hmem : v ∈ inorderExtraction l ++ d :: inorderExtraction r ↔
            v ∈ inorderExtraction l := by
          simp only [List.mem_append, List.mem_cons]
          constructor
          · rintro (h | h | h)
            · exact h
            · exact absurd h.symm h1
            · have := hgt v h; omega
          · intro h; exact Or.inl h
        rw [hmem, ihl hl]
        constructor
        · rintro ⟨n, hn, hd⟩; exact ⟨n, Or.inr hn, hd⟩
        · rintro ⟨n, hn | hn, hd⟩
          · obtain ⟨_, rfl⟩ := hn
            exact absurd hd h1
          · exact ⟨n, hn, hd⟩
      · simp only [h1, h2, if_false, descent_eq_nil]
        have hmem : v ∈ inorderExtraction l ++ d :: inorderExtraction r ↔
            v ∈ inorderExtraction r := by
          simp only [List.mem_append, List.mem_cons]
          constructor
          · rintro (h | h | h)
            · have := hlt v h; omega
            · exact absurd h.symm h1
            · exact h
          · intro h; exact Or.inr (Or.inr h)
        rw [hmem, ihr hr]
        constructor
        · rintro ⟨n, hn, hd⟩; exact ⟨n, Or.inr hn, hd⟩
        · rintro ⟨n, hn | hn, hd⟩
          · obtain ⟨_, rfl⟩ := hn
            exact absurd hd h1
          · exact ⟨n, hn, hd⟩

end Node

/-- C13: for every tree whose in-order sequence is strictly increasing and every query
`v`, `searchBST(v)` emits exactly one `highlightPath` event, holding the ids of the nodes
met on the comparison descent from the root; the descent is empty iff the tree is empty
and otherwise starts at the root; and `v` is stored in the tree iff the descent is not
empty and the key of its last node equals `v`. -/
theorem search_path (s : TreeState) (v : Int)
    (hbst : List.Pairwise (· < ·) (Node.inorderExtraction s.bstRoot)) :
    TreeState.searchBST s v
        = [TEvent.highlightPath ((Node.descent s.bstRoot v).map Node.idOf)] ∧
      (Node.descent s.bstRoot v = [] ↔ s.bstRoot = Node.nil) ∧
      (s.bstRoot ≠ Node.nil → (Node.descent s.bstRoot v).head? = some s.bstRoot) ∧
      (v ∈ Node.inorderExtraction s.bstRoot ↔
        ∃ n, (Node.descent s.bstRoot v).getLast? = some n ∧ Node.dataOf n = v) := by
  refine ⟨?_, Node.descent_eq_nil v _, Node.descent_head v _, Node.descent_last v _ hbst⟩
  simp [TreeState.searchBST, Node.searchRec_eq]

theorem search_path_witness :
    TreeState.searchBST
        { bstRoot := Node.node 5 (Node.node 2 Node.nil Node.nil 1 1) (Node.node 8 Node.nil Node.nil 2 1) 0 2,
          nextId := 3, useAVL := false } 8 = [TEvent.highlightPath [0, 2]] :=
  (search_path
      { bstRoot := Node.node 5 (Node.node 2 Node.nil Node.nil 1 1) (Node.node 8 Node.nil Node.nil 2 1) 0 2,
        nextId := 3, useAVL := false } 8 (by decide)).1

/-! ## Inserting a stored value: the tree is untouched, a snapshot is emitted -/

namespace Node

theorem rightRotateLog_state (t : Node) :
    Except.map Prod.fst (rightRotateLog t) = rightRotate t := by
  cases t with
  | nil => rfl
  | node yd yl yr yid yh =>
    simp only [rightRotateLog]
    cases rightRotate (node yd yl yr yid yh) <;> rfl

theorem leftRotateLog_state (t : Node) :
    Except.map Prod.fst (leftRotateLog t) = leftRotate t := by
  cases t with
  | nil => rfl
  | node yd yl yr yid yh =>
    simp only [leftRotateLog]
    cases leftRotate (node yd yl yr yid yh) <;> rfl

theorem rightRotateLog_cases (t : Node) :
    (∃ e, rightRotateLog t = Except.error e ∧ rightRotate t = Except.error e) ∨
      ∃ t' ev, rightRotateLog t = Except.ok (t', ev) ∧ rightRotate t = Except.ok t' := by
  have h := rightRotateLog_state t
  cases h1 : rightRotateLog t with
  | error e => rw [h1] at h; exact Or.inl ⟨e, rfl, h.symm⟩
  | ok r => rw [h1] at h; exact Or.inr ⟨r.1, r.2, rfl, h.symm⟩

theorem leftRotateLog_cases (t : Node) :
    (∃ e, leftRotateLog t = Except.error e ∧ leftRotate t = Except.error e) ∨
      ∃ t' ev, leftRotateLog t = Except.ok (t', ev) ∧ leftRotate t = Except.ok t' := by
  have h := leftRotateLog_state t
  cases h1 : leftRotateLog t with
  | error e => rw [h1] at h; exact Or.inl ⟨e, rfl, h.symm⟩
  | ok r => rw [h1] at h; exact Or.inr ⟨r.1, r.2, rfl, h.symm⟩

/-- The function `insertFix` is the state part of `insertFixLog`. -/
theorem insertFixLog_state (b : Bool) (v : Int) (t : Node) :
    Except.map Prod.fst (insertFixLog b v t) = insertFix b v t := by
  cases t with
  | nil => rfl
  | node d l r id h =>
    cases b with
    | false => rfl
    | true =>
      simp only [insertFixLog, insertFix, Bool.not_true, Bool.false_eq_true, if_false]
      split
      · cases l with
        | nil => rfl
        | node ld ll lr lid lh =>
          simp only []
          split
          · exact rightRotateLog_state _
          · split
            · rcases leftRotateLog_cases (node ld ll lr lid lh) with
                ⟨e, h1, h2⟩ | ⟨t', ev, h1, h2⟩
              · simp only [h1, h2]; rfl
              · simp only [h1, h2]
                rcases rightRotateLog_cases
                    (node d t' r id (1 + max (getHeight (node ld ll lr lid lh)) (getHeight r))) with
                  ⟨e, h3, h4⟩ | ⟨t'', ev', h3, h4⟩
                · simp only [h3, h4]; rfl
                · simp only [h3, h4]; rfl
            · rfl
      · split
        · cases r with
          | nil => rfl
          | node rd rl rr rid rh =>
            simp only []
            split
            · exact leftRotateLog_state _
            · split
              · rcases rightRotateLog_cases (node rd rl rr rid rh) with
                  ⟨e, h1, h2⟩ | ⟨t', ev, h1, h2⟩
                · simp only [h1, h2]; rfl
                · simp only [h1, h2]
                  rcases leftRotateLog_cases
                      (node d l t' id (1 + max (getHeight l) (getHeight (node rd rl rr rid rh)))) with
                    ⟨e, h3, h4⟩ | ⟨t'', ev', h3, h4⟩
                  · simp only [h3, h4]; rfl
                  · simp only [h3, h4]; rfl
              · rfl
        · rfl

theorem insertFixLog_cases (b : Bool) (v : Int) (t : Node) :
    (∃ e, insertFixLog b v t = Except.error e ∧ insertFix b v t = Except.error e) ∨
      ∃ t' ev, insertFixLog b v t = Except.ok (t', ev) ∧ insertFix b v t = Except.ok t' := by
  have h := insertFixLog_state b v t
  cases h1 : insertFixLog b v t with
  | error e => rw [h1] at h; exact Or.inl ⟨e, rfl, h.symm⟩
  | ok r => rw [h1] at h; exact Or.inr ⟨r.1, r.2, rfl, h.symm⟩

/-- The function `insertRec` is the state part of `insertRecLog`. -/
theorem insertRecLog_state (b : Bool) (v : Int) :
    ∀ (t : Node) (ctx : Node → Node) (n : Int),
      Except.map (fun r => (r.1, r.2.1)) (insertRecLog b v ctx t n) = insertRec b v t n := by
  intro t
  induction t with
  | nil => intro ctx n; rfl
  | node d l r id h ihl ihr =>
    intro ctx n
    simp only [insertRecLog, insertRec]
    by_cases h1 : v < d
    · simp only [h1, if_true]
      have ih := ihl (fun x => ctx (node d x r id h)) n
      cases h2 : insertRecLog b v (fun x => ctx (node d x r id h)) l n with
      | error e => rw [h2] at ih; rw [← ih]; rfl
      | ok res =>
        obtain ⟨l', n', ev⟩ := res
        rw [h2] at ih; rw [← ih]
        simp only [Except.map]
        rcases insertFixLog_cases b v (node d l' r id h) with ⟨e, h3, h4⟩ | ⟨t', ev', h3, h4⟩
        · simp only [h3, h4]
        · simp only [h3, h4]
    · simp only [h1, if_false]
      by_cases h5 : v > d
      · simp only [h5, if_true]
        have ih := ihr (fun x => ctx (node d l x id h)) n
        cases h2 : insertRecLog b v (fun x => ctx (node d l x id h)) r n with
        | error e => rw [h2] at ih; rw [← ih]; rfl
        | ok res =>
          obtain ⟨r', n', ev⟩ := res
          rw [h2] at ih; rw [← ih]
          simp only [Except.map]
          rcases insertFixLog_cases b v (node d l r' id h) with ⟨e, h3, h4⟩ | ⟨t', ev', h3, h4⟩
          · simp only [h3, h4]
          · simp only [h3, h4]
      · simp only [h5, if_false]; rfl

theorem insertFixLog_bal (v d id h : Int) {l r : Node} (hl : AVL l) (hr : AVL r)
    (h1 : trueHeight l ≤ trueHeight r + 1) (h2 : trueHeight r ≤ trueHeight l + 1) :
    insertFixLog true v (node d l r id h)
      = Except.ok (node d l r id (1 + Max.max (trueHeight l) (trueHeight r)), []) := by
  have c1 : ¬ (trueHeight l - trueHeight r > 1) := by omega
  have c2 : ¬ (trueHeight l - trueHeight r < -1) := by omega
  simp only [insertFixLog, Bool.not_true, Bool.false_eq_true, if_false, getBalance,
    getHeight_node, getHeight_eq hl, getHeight_eq hr, max_eq, c1, c2]

/-- On a node that is stored already the fix-up changes nothing and logs nothing. -/
theorem insertFixLog_same (b : Bool) (v d id h : Int) (l r : Node)
    (ha : b = true → AVL (node d l r id h)) :
    insertFixLog b v (node d l r id h) = Except.ok (node d l r id h, []) := by
  cases b with
  | false => rfl
  | true =>
    obtain ⟨hl, hr, hh, h1, h2⟩ := (avl_node_iff _ _ _ _ _).mp (ha rfl)
    rw [insertFixLog_bal v d id h hl hr h1 h2, ← hh]

/-- Inserting a value that a search tree stores returns the same tree and the same
`nextId`; the only events are the `Rebalancing...` snapshots of AVL mode, which all show
the unchanged tree. -/
theorem insertRecLog_stored (b : Bool) (v : Int) :
    ∀ (t : Node), List.Pairwise (· < ·) (inorderExtraction t) → v ∈ inorderExtraction t →
      (b = true → AVL t) → ∀ (ctx : Node → Node) (n : Int),
      ∃ evs, insertRecLog b v ctx t n = Except.ok (t, n, evs) ∧
        (∀ ev ∈ evs, ev = TEvent.snapshot (getTreeData (ctx t)) "Rebalancing...") ∧
        (b = false → evs = []) := by
  intro t
  induction t with
  | nil => intro _ hv; simp [inorderExtraction] at hv
  | node d l r id h ihl ihr =>
    intro hs hv ha ctx n
    rw [inorder_node, sorted_node_iff] at hs
    obtain ⟨hsl, hsr, hlt, hgt⟩ := hs
    rw [inorder_node] at hv
    simp only [List.mem_append, List.mem_cons] at hv
    have hfix := insertFixLog_same b v d id h l r ha
    have hal : b = true → AVL l := fun hb => ((avl_node_iff _ _ _ _ _).mp (ha hb)).1
    have har : b = true → AVL r := fun hb => ((avl_node_iff _ _ _ _ _).mp (ha hb)).2.1
    simp only [insertRecLog]
    by_cases h1 : v < d
    · have hvl : v ∈ inorderExtraction l := by
        rcases hv with h | h | h
        · exact h
        · omega
        · have := hgt v h; omega
      obtain ⟨evs, he, hall, hpl⟩ := ihl hsl hvl hal (fun x => ctx (node d x r id h)) n
      simp only [h1, if_true, he, hfix, List.append_nil]
      refine ⟨_, rfl, ?_, ?_⟩
      · intro ev hev
        rcases List.mem_append.mp hev with h | h
        · exact hall ev h
        · cases b with
          | false => simp [rebalancingEvent] at h
          | true => simpa [rebalancingEvent] using h
      · intro hb
        rw [hpl hb, hb]
        rfl
    · by_cases h2 : v > d
      · have hvr : v ∈ inorderExtraction r := by
          rcases hv with h | h | h
          · have := hlt v h; omega
          · omega
          · exact h
        obtain ⟨evs, he, hall, hpl⟩ := ihr hsr hvr har (fun x => ctx (node d l x id h)) n
        simp only [h1, h2, if_true, if_false, he, hfix, List.append_nil]
        refine ⟨_, rfl, ?_, ?_⟩
        · intro ev hev
          rcases List.mem_append.mp hev with h | h
          · exact hall ev h
          · cases b with
            | false => simp [rebalancingEvent] at h
            | true => simpa [rebalancingEvent] using h
        · intro hb
          rw [hpl hb, hb]
          rfl
      · simp only [h1, h2, if_false]
        exact ⟨[], rfl, by simp, fun _ => rfl⟩

end Node

namespace TreeState

/-- The function `insertBST` is the state part of `insertBSTLog`. -/
theorem insertBSTLog_state (s : TreeState) (v : Int) :
    Except.map Prod.fst (insertBSTLog s v) = insertBST s v := by
  have h := Node.insertRecLog_state s.useAVL v s.bstRoot (fun x => x) s.nextId
  simp only [insertBSTLog, insertBST]
  cases h1 : Node.insertRecLog s.useAVL v (fun x => x) s.bstRoot s.nextId with
  | error e => rw [h1] at h; rw [← h]; rfl
  | ok res =>
    obtain ⟨t, n, ev⟩ := res
    rw [h1] at h; rw [← h]; rfl

end TreeState

/-- C12: in every state reached from the initial one by a sequence of calls, in plain
and in AVL mode, `insertBST(v)` of a stored value `v` returns the very same state (same
tree with its ids and stored heights, same `nextId`, same mode); its events are snapshots
of that unchanged tree, the last one being the final `Tree Updated` snapshot, and in
plain mode that snapshot is the only event. -/
theorem duplicate_insert_noop (ops : List TreeState.Op) (s : TreeState) (v : Int)
    (hrun : TreeState.run TreeState.init ops = Except.ok s)
    (hv : v ∈ Node.inorderExtraction s.bstRoot) :
    TreeState.insertBST s v = Except.ok s ∧
    ∃ evs, TreeState.insertBSTLog s v
        = Except.ok (s, evs ++ [TEvent.snapshot (Node.getTreeData s.bstRoot) "Tree Updated"]) ∧
      (∀ ev ∈ evs, ev = TEvent.snapshot (Node.getTreeData s.bstRoot) "Rebalancing...") ∧
      (s.useAVL = false → evs = []) := by
  obtain ⟨s', h1, hs, ha, _⟩ := TreeState.run_model ops TreeState.init (fun _ => false)
    List.Pairwise.nil (fun h => by simp [TreeState.init] at h)
    (fun x => by simp [TreeState.init, Node.inorderExtraction])
  rw [hrun] at h1
  cases h1
  obtain ⟨evs, he, hall, hpl⟩ :=
    Node.insertRecLog_stored s.useAVL v s.bstRoot hs hv ha (fun x => x) s.nextId
  have hlog : TreeState.insertBSTLog s v
      = Except.ok (s, evs ++ [TEvent.snapshot (Node.getTreeData s.bstRoot) "Tree Updated"]) := by
    simp only [TreeState.insertBSTLog, he, TreeState.updateBSTVisualization]
  refine ⟨?_, evs, hlog, hall, hpl⟩
  rw [← TreeState.insertBSTLog_state, hlog]
  rfl

theorem duplicate_insert_noop_witness :
    TreeState.insertBST
        { bstRoot := Node.node 5 (Node.node 3 Node.nil Node.nil 1 1) Node.nil 0 1,
          nextId := 2, useAVL := false } 3
      = Except.ok
        { bstRoot := Node.node 5 (Node.node 3 Node.nil Node.nil 1 1) Node.nil 0 1,
          nextId := 2, useAVL := false } :=
  (duplicate_insert_noop [TreeState.Op.insertBST 5, TreeState.Op.insertBST 3]
    { bstRoot := Node.node 5 (Node.node 3 Node.nil Node.nil 1 1) Node.nil 0 1,
      nextId := 2, useAVL := false } 3 (by decide) (by decide)).1

namespace Heap

/-! ## The multiset of stored values -/

theorem count_set_add (c : Int) :
    ∀ (l : List Int) (i : Nat) (a : Int), i < l.length →
      (l.set i a).count c + (if l.getD i 0 = c then 1 else 0)
        = l.count c + (if a = c then 1 else 0) := by
  intro l
  induction l with
  | nil => intro i a h; simp at h
  | cons y ys ih =>
    intro i a h
    cases i with
    | zero =>
      simp only [List.set_cons_zero, List.count_cons, List.getD_cons_zero, beq_iff_eq]
      omega
    | succ j =>
      have hj : j < ys.length := by simpa using h
      have := ih j a hj
      simp only [List.set_cons_succ, List.count_cons, List.getD_cons_succ]
      omega

theorem swap_perm {heap : List Int} {i j : Nat} (hi : i < heap.length) (hj : j < heap.length) :
    (swap heap i j).Perm heap := by
  rw [List.perm_iff_count]
  intro c
  have h1 := count_set_add c heap i (heap.getD j 0) hi
  have h2 := count_set_add c (heap.set i (heap.getD j 0)) j (heap.getD i 0)
    (by rw [List.length_set]; exact hj)
  have h3 : (heap.set i (heap.getD j 0)).getD j 0 = heap.getD j 0 := by
    simp only [List.getD_eq_getElem?_getD, List.getElem?_set]
    by_cases hij : i = j
    · subst hij; simp [hi]
    · simp [hij]
  rw [h3] at h2
  unfold swap
  omega

theorem bubbleUp_perm (m : Bool) :
    ∀ (fuel : Nat) (heap : List Int) (k : Nat) (heap' : List Int),
      bubbleUp m fuel heap k = Except.ok heap' → heap'.Perm heap := by
  intro fuel
  induction fuel with
  | zero => intro heap k heap' h; simp [bubbleUp] at h
  | succ f ih =>
    intro heap k heap' h
    rw [bubbleUp] at h
    by_cases hk0 : k = 0
    · rw [if_pos hk0] at h
      cases h
      exact List.Perm.refl _
    · rw [if_neg hk0] at h
      by_cases hlen : heap.length ≤ k
      · rw [if_pos hlen] at h; cases h
      · rw [if_neg hlen] at h
        cases hs : shouldSwap m (heap.getD ((k - 1) / 2) 0) (heap.getD k 0) with
        | false =>
          simp only [hs, Bool.false_eq_true, if_false] at h
          cases h
          exact List.Perm.refl _
        | true =>
          simp only [hs, if_true] at h
          exact (ih _ _ _ h).trans (swap_perm (by omega) (by omega))

theorem bubbleDown_perm (m : Bool) :
    ∀ (fuel : Nat) (heap : List Int) (k : Nat) (heap' : List Int),
      bubbleDown m fuel heap k = Except.ok heap' → heap'.Perm heap := by
  intro fuel
  induction fuel with
  | zero => intro heap k heap' h; simp [bubbleDown] at h
  | succ f ih =>
    intro heap k heap' h
    rw [bubbleDown] at h
    rcases downTarget_cases m heap k with ⟨ht, _⟩ | ⟨ht, htl, _, _⟩
    · simp only [ht, ne_eq, not_true_eq_false, if_false] at h
      cases h
      exact List.Perm.refl _
    · generalize downTarget m heap k = t at ht htl h
      have htk : t ≠ k := by omega
      simp only [ne_eq, htk, not_false_eq_true, if_true] at h
      exact (ih _ _ _ h).trans (swap_perm (by omega) htl)

/-! ## The root is the extreme value -/

theorem root_extreme (m : Bool) {heap : List Int} (h : Ordered m heap) :
    ∀ (i : Nat), i < heap.length → inOrder m (heap.getD 0 0) (heap.getD i 0) := by
  intro i
  induction i using Nat.strong_induction_on with
  | _ i ih =>
    intro hi
    by_cases h0 : i = 0
    · subst h0; exact inOrder_refl _ _
    · have hp : (i - 1) / 2 < i := by omega
      exact inOrder_trans (ih _ hp (by omega)) (h i (by omega) hi)

theorem root_extreme_mem (m : Bool) {heap : List Int} (h : Ordered m heap) :
    ∀ x ∈ heap, inOrder m (heap.getD 0 0) x := by
  intro x hx
  obtain ⟨i, hi, rfl⟩ := List.mem_iff_getElem.mp hx
  have := root_extreme m h i hi
  rwa [List.getD_eq_getElem _ _ hi] at this

theorem extract_perm {heap : List Int} (hne : heap ≠ []) :
    heap.Perm (heap.getD 0 0 :: (heap.set 0 (heap.getD (heap.length - 1) 0)).dropLast) := by
  cases heap with
  | nil => exact absurd rfl hne
  | cons x xs =>
    cases hxs : xs.reverse with
    | nil =>
      have : xs = [] := by simpa using hxs
      subst this
      simp
    | cons y ys =>
      have hxs' : xs = ys.reverse ++ [y] := by
        have := congrArg List.reverse hxs
        simpa using this
      subst hxs'
      have hlast : (x :: (ys.reverse ++ [y])).getD ((x :: (ys.reverse ++ [y])).length - 1) 0 = y := by
        simp [List.getD_eq_getElem?_getD]
      rw [hlast]
      simp only [List.set_cons_zero, List.getD_cons_zero]
      have hd : (y :: (ys.reverse ++ [y])).dropLast = y :: ys.reverse := by
        rw [← List.cons_append, List.dropLast_concat]
      rw [hd]
      exact List.Perm.cons x (List.perm_append_singleton y ys.reverse)

end Heap

/-- C18: for every vector that satisfies the heap order of the active mode,
`insertHeap(v)` returns a vector whose multiset is the old one plus one occurrence of
`v`; `extractRoot` on a non-empty heap returns a vector whose multiset is the old one
minus one occurrence of the value at index 0, that value being the maximum in max-heap
mode and the minimum in min-heap mode, and emits its rendering event; on a heap of size
one it leaves the vector empty; on the empty heap it changes nothing and emits no
event. -/
theorem heap_priority_queue (isMinHeap : Bool) (heap : List Int) (fuel : Nat)
    (hv : Heap.Ordered isMinHeap heap) (hf : heap.length < fuel) :
    (∀ v, ∃ r, Heap.insertHeap isMinHeap fuel heap v = Except.ok r ∧ r.1.Perm (v :: heap)) ∧
    (∃ r, Heap.extractRoot isMinHeap fuel heap = Except.ok r ∧
      (heap = [] → r = ([], [])) ∧
      (heap ≠ [] → heap.Perm (heap.getD 0 0 :: r.1) ∧ r.2 = [Heap.HeapEvent.renderHeap r.1] ∧
        ∀ x ∈ heap, (isMinHeap = true → heap.getD 0 0 ≤ x) ∧
          (isMinHeap = false → x ≤ heap.getD 0 0)) ∧
      (heap.length = 1 → r.1 = [])) := by
  constructor
  · intro v
    obtain ⟨r, hr, _, _⟩ := Heap.insertHeap_ordered isMinHeap v hv hf
    refine ⟨r, hr, ?_⟩
    unfold Heap.insertHeap at hr
    simp only at hr
    cases hb : Heap.bubbleUp isMinHeap fuel (heap ++ [v]) ((heap ++ [v]).length - 1) with
    | error e => rw [hb] at hr; cases hr
    | ok heap' =>
      rw [hb] at hr
      cases hr
      exact (Heap.bubbleUp_perm _ _ _ _ _ hb).trans (List.perm_append_singleton v heap)
  · obtain ⟨r, hr, _, _⟩ := Heap.extractRoot_ordered isMinHeap hv hf
    refine ⟨r, hr, ?_, ?_, ?_⟩
    · intro hnil
      subst hnil
      simp only [Heap.extractRoot, if_true] at hr
      cases hr
      rfl
    · intro hne
      have hroot : ∀ x ∈ heap, (isMinHeap = true → heap.getD 0 0 ≤ x) ∧
          (isMinHeap = false → x ≤ heap.getD 0 0) := by
        intro x hx
        have := Heap.root_extreme_mem isMinHeap hv x hx
        unfold Heap.inOrder at this
        constructor
        · intro hm; rw [if_pos hm] at this; exact this
        · intro hm
          rw [if_neg (by rw [hm]; exact Bool.false_ne_true)] at this
          exact this
      have hperm := Heap.extract_perm hne
      unfold Heap.extractRoot at hr
      simp only [hne, if_false] at hr
      by_cases hnil1 : (heap.set 0 (heap.getD (heap.length - 1) 0)).dropLast = []
      · simp only [hnil1, ne_eq, not_true_eq_false, if_false] at hr
        cases hr
        rw [hnil1] at hperm
        exact ⟨hperm, rfl, hroot⟩
      · simp only [hnil1, ne_eq, not_false_eq_true, if_true] at hr
        cases hb : Heap.bubbleDown isMinHeap fuel
            ((heap.set 0 (heap.getD (heap.length - 1) 0)).dropLast) 0 with
        | error e => rw [hb] at hr; cases hr
        | ok heap' =>
          rw [hb] at hr
          cases hr
          refine ⟨hperm.trans (List.Perm.cons _ (Heap.bubbleDown_perm _ _ _ _ _ hb).symm),
            rfl, hroot⟩
    · intro h1
      have hne : heap ≠ [] := by
        intro h; rw [h] at h1; simp at h1
      have hnil1 : (heap.set 0 (heap.getD (heap.length - 1) 0)).dropLast = [] := by
        apply List.eq_nil_of_length_eq_zero
        simp [h1]
      unfold Heap.extractRoot at hr
      simp only [hne, if_false, hnil1, ne_eq, not_true_eq_false] at hr
      cases hr
      rfl

theorem heap_priority_queue_witness :
    (∀ v, ∃ r, Heap.insertHeap false 5 [9, 5, 1, 3] v = Except.ok r ∧
      r.1.Perm (v :: [9, 5, 1, 3])) ∧
    (∃ r, Heap.extractRoot false 5 [9, 5, 1, 3] = Except.ok r ∧
      (([9, 5, 1, 3] : List Int) = [] → r = ([], [])) ∧
      (([9, 5, 1, 3] : List Int) ≠ [] →
        ([9, 5, 1, 3] : List Int).Perm (([9, 5, 1, 3] : List Int).getD 0 0 :: r.1) ∧
        r.2 = [Heap.HeapEvent.renderHeap r.1] ∧
        ∀ x ∈ ([9, 5, 1, 3] : List Int),
          (false = true → ([9, 5, 1, 3] : List Int).getD 0 0 ≤ x) ∧
          (false = false → x ≤ ([9, 5, 1, 3] : List Int).getD 0 0)) ∧
      (([9, 5, 1, 3] : List Int).length = 1 → r.1 = [])) :=
  heap_priority_queue false [9, 5, 1, 3] 5
    (by
      intro i h1 h2
      have h3 : i < 4 := h2
      have : i = 1 ∨ i = 2 ∨ i = 3 := by omega
      rcases this with rfl | rfl | rfl <;> simp [Heap.inOrder])
    (by decide)

namespace Heap

/-! ## Rebuilding the heap from arbitrary content -/

theorem bubbleDown_from (m : Bool) (lo : Nat) :
    ∀ (fuel : Nat) (heap : List Int) (k : Nat), k < heap.length → heap.length ≤ fuel + k →
      lo ≤ k →
      (∀ i, 1 ≤ i → i < heap.length → lo ≤ (i - 1) / 2 → (i - 1) / 2 ≠ k →
        inOrder m (heap.getD ((i - 1) / 2) 0) (heap.getD i 0)) →
      (∀ i, 1 ≤ i → i < heap.length → (i - 1) / 2 = k → 1 ≤ k → lo ≤ (k - 1) / 2 →
        inOrder m (heap.getD ((k - 1) / 2) 0) (heap.getD i 0)) →
      ∃ heap', bubbleDown m fuel heap k = Except.ok heap' ∧ OrderedFrom m lo heap' ∧
        heap'.length = heap.length := by
  intro fuel
  induction fuel with
  | zero => intro heap k hk hf; omega
  | succ f ih =>
    intro heap k hk hf hlo hb hc
    rw [bubbleDown]
    rcases downTarget_cases m heap k with ⟨ht, hch⟩ | ⟨ht, htl, htk, hch⟩
    · rw [ht]
      refine ⟨heap, by simp, ?_, rfl⟩
      intro i hi1 hi2 hil
      by_cases hp : (i - 1) / 2 = k
      · rw [hp]
        exact hch i (by omega) hi2
      · exact hb i hi1 hi2 hil hp
    · generalize downTarget m heap k = t at ht htl htk hch
      have htk' : t ≠ k := by omega
      rw [if_pos htk']
      have hkt : k ≠ t := Ne.symm htk'
      have hpt : (t - 1) / 2 = k := by omega
      have hb' : ∀ i, 1 ≤ i → i < (swap heap k t).length → lo ≤ (i - 1) / 2 → (i - 1) / 2 ≠ t →
          inOrder m ((swap heap k t).getD ((i - 1) / 2) 0) ((swap heap k t).getD i 0) := by
        intro i hi1 hi2 hil hip
        rw [length_swap] at hi2
        by_cases hit : i = t
        · rw [hit, hpt, getD_swap_left hk htl hkt, getD_swap_right hk htl]
          exact htk
        · by_cases hik : i = k
          · have h1 : (i - 1) / 2 ≠ k := by omega
            rw [getD_swap_other hk htl h1 hip, hik, getD_swap_left hk htl hkt]
            have hk1 : 1 ≤ k := by omega
            exact hc t (by omega) htl hpt hk1 (by rw [← hik]; exact hil)
          · rw [getD_swap_other hk htl hik hit]
            by_cases hpk : (i - 1) / 2 = k
            · rw [hpk, getD_swap_left hk htl hkt]
              exact hch i (by omega) hi2
            · rw [getD_swap_other hk htl hpk hip]
              exact hb i hi1 hi2 hil hpk
      have hc' : ∀ i, 1 ≤ i → i < (swap heap k t).length → (i - 1) / 2 = t → 1 ≤ t →
          lo ≤ (t - 1) / 2 →
          inOrder m ((swap heap k t).getD ((t - 1) / 2) 0) ((swap heap k t).getD i 0) := by
        intro i hi1 hi2 hip _ _
        rw [length_swap] at hi2
        have h1 : i ≠ k := by omega
        have h2 : i ≠ t := by omega
        rw [hpt, getD_swap_left hk htl hkt, getD_swap_other hk htl h1 h2]
        have h3 : (i - 1) / 2 ≠ k := by omega
        have := hb i hi1 hi2 (by omega) h3
        rw [hip] at this
        exact this
      have hf' : (swap heap k t).length ≤ f + t := by
        rw [length_swap]; omega
      obtain ⟨heap', h1, h2, h3⟩ := ih (swap heap k t) t
        (by rw [length_swap]; exact htl) hf' (by omega) hb' hc'
      exact ⟨heap', h1, h2, by rw [h3, length_swap]⟩

theorem rebuildLoop_ordered (m : Bool) (fuel : Nat) :
    ∀ (count : Nat) (heap : List Int), count ≤ heap.length / 2 → heap.length ≤ fuel →
      OrderedFrom m count heap →
      ∃ heap', rebuildLoop m fuel count heap = Except.ok heap' ∧ Ordered m heap' ∧
        heap'.Perm heap := by
  intro count
  induction count with
  | zero =>
    intro heap _ _ h
    exact ⟨heap, rfl, fun i h1 h2 => h i h1 h2 (Nat.zero_le _), List.Perm.refl _⟩
  | succ i ih =>
    intro heap hc hf h
    obtain ⟨heap1, h1, h2, h3⟩ := bubbleDown_from m i fuel heap i (by omega) (by omega)
      (Nat.le_refl _)
      (fun j hj1 hj2 hjl hjp => h j hj1 hj2 (by omega))
      (fun j _ _ _ _ hcon => by omega)
    obtain ⟨heap2, h4, h5, h6⟩ := ih heap1 (by rw [h3]; omega) (by rw [h3]; exact hf) h2
    refine ⟨heap2, ?_, h5, h6.trans (bubbleDown_perm _ _ _ _ _ h1)⟩
    simp only [rebuildLoop, h1, h4]

end Heap

/-- C19: for every content of the vector and every flag `m`, `toggleHeapType(m)` returns
(the helper's recursion is no deeper than the vector is long), sets the mode to `m`,
keeps the multiset of stored values, and leaves every index `i ≥ 1` in the order of
mode `m` with its parent `(i - 1) / 2`; it emits one rendering of the new vector. -/
theorem toggle_reheapifies (heap : List Int) (m : Bool) (fuel : Nat)
    (hf : heap.length ≤ fuel) :
    ∃ heap', Heap.toggleHeapType m fuel heap
        = Except.ok (m, heap', [Heap.HeapEvent.renderHeap heap']) ∧
      heap'.Perm heap ∧
      ∀ i, 1 ≤ i → i < heap'.length →
        (m = true → heap'.getD ((i - 1) / 2) 0 ≤ heap'.getD i 0) ∧
        (m = false → heap'.getD ((i - 1) / 2) 0 ≥ heap'.getD i 0) := by
  obtain ⟨heap', h1, h2, h3⟩ := Heap.rebuildLoop_ordered m fuel (heap.length / 2) heap
    (Nat.le_refl _) hf (fun i hi1 hi2 hil => by omega)
  refine ⟨heap', ?_, h3, ?_⟩
  · simp only [Heap.toggleHeapType, Heap.rebuildHeap, h1, Heap.updateVisualization]
  · intro i hi1 hi2
    have := h2 i hi1 hi2
    unfold Heap.inOrder at this
    constructor
    · intro hm; rw [if_pos hm] at this; exact this
    · intro hm
      rw [if_neg (by rw [hm]; exact Bool.false_ne_true)] at this
      exact this

theorem toggle_reheapifies_witness :
    ∃ heap', Heap.toggleHeapType true 5 [9, 5, 1, 3, 7]
        = Except.ok (true, heap', [Heap.HeapEvent.renderHeap heap']) ∧
      heap'.Perm [9, 5, 1, 3, 7] ∧
      ∀ i, 1 ≤ i → i < heap'.length →
        (true = true → heap'.getD ((i - 1) / 2) 0 ≤ heap'.getD i 0) ∧
        (true = false → heap'.getD ((i - 1) / 2) 0 ≥ heap'.getD i 0) :=
  toggle_reheapifies [9, 5, 1, 3, 7] true 5 (by decide)

namespace Graph

/-! ## The entries stored for one pair of nodes -/

theorem filter_dropTarget (es : List Edge) (v b : Int) :
    (dropTarget es v).filter (fun e => decide (e.target = b))
      = if b = v then [] else es.filter (fun e => decide (e.target = b)) := by
  by_cases hbv : b = v
  · subst hbv
    rw [if_pos rfl, List.filter_eq_nil_iff]
    intro e he
    have := ((mem_dropTarget _ _ _).mp he).2
    simpa using this
  · rw [if_neg hbv]
    unfold dropTarget
    rw [List.filter_filter]
    apply List.filter_congr
    intro e _
    by_cases heb : e.target = b
    · have : e.target ≠ v := by rw [heb]; exact hbv
      simp [heb, hbv]
    · simp [heb]

theorem entries_addNode (g : Graph) (id a b : Int) :
    entries (addNode g id).1 a b = entries g a b := by
  unfold entries
  rw [addNode_adj]

/-- The adjacency lists after `addEdge(s, t, w)` with `s ≠ t`. -/
theorem vec_addEdge (g : Graph) (s t w a : Int) (hst : s ≠ t) :
    (addEdge g s t w).1.adj.vec a
      = if a = s then dropTarget (g.adj.vec s) t ++ [{ target := t, weight := w }]
        else if a = t then dropTarget (g.adj.vec t) s ++ [{ target := s, weight := w }]
        else g.adj.vec a := by
  have hts : t ≠ s := Ne.symm hst
  unfold addEdge
  simp only [addNode_adj, IntMap.vec_put]
  by_cases has : a = s
  · subst has
    simp only [hst, if_true, if_false]
  · by_cases hat : a = t
    · subst hat
      simp only [has, hts, if_true, if_false]
    · simp only [has, hat, if_false]

/-- The adjacency lists after `addEdge(s, s, w)`. -/
theorem vec_addEdge_loop (g : Graph) (s w a : Int) :
    (addEdge g s s w).1.adj.vec a
      = if a = s then
          dropTarget (dropTarget (g.adj.vec s) s) s ++ [{ target := s, weight := w }]
            ++ [{ target := s, weight := w }]
        else g.adj.vec a := by
  unfold addEdge
  simp only [addNode_adj, IntMap.vec_put]
  by_cases has : a = s
  · subst has
    simp only [if_true]
  · simp only [has, if_false]

theorem entries_addEdge_other (g : Graph) (s t w a b : Int)
    (h1 : ¬ (a = s ∧ b = t)) (h2 : ¬ (a = t ∧ b = s)) :
    entries (addEdge g s t w).1 a b = entries g a b := by
  unfold entries
  by_cases hst : s = t
  · subst hst
    rw [vec_addEdge_loop]
    by_cases has : a = s
    · subst has
      have hb : b ≠ a := fun h => h1 ⟨rfl, h⟩
      have hb' : ¬ a = b := fun h => hb h.symm
      simp only [if_true, List.filter_append, filter_dropTarget, hb, if_false, List.filter_cons,
        hb', decide_False, Bool.false_eq_true, List.filter_nil, List.append_nil]
    · simp only [has, if_false]
  · rw [vec_addEdge g s t w a hst]
    by_cases has : a = s
    · subst has
      have hb : b ≠ t := fun h => h1 ⟨rfl, h⟩
      have hb' : ¬ t = b := fun h => hb h.symm
      simp only [if_true, List.filter_append, filter_dropTarget, hb, if_false, List.filter_cons,
        hb', decide_False, Bool.false_eq_true, List.filter_nil, List.append_nil]
    · by_cases hat : a = t
      · subst hat
        have hb : b ≠ s := fun h => h2 ⟨rfl, h⟩
        have hb' : ¬ s = b := fun h => hb h.symm
        simp only [has, if_true, if_false, List.filter_append, filter_dropTarget, hb,
          List.filter_cons, hb', decide_False, Bool.false_eq_true, List.filter_nil,
          List.append_nil]
      · simp only [has, hat, if_false]

theorem entries_addEdge_fst (g : Graph) (s t w : Int) (hst : s ≠ t) :
    entries (addEdge g s t w).1 s t = [{ target := t, weight := w }] := by
  unfold entries
  rw [vec_addEdge g s t w s hst]
  simp only [if_true, List.filter_append, filter_dropTarget, List.filter_cons, decide_True,
    List.filter_nil, List.nil_append]

theorem entries_addEdge_snd (g : Graph) (s t w : Int) (hst : s ≠ t) :
    entries (addEdge g s t w).1 t s = [{ target := s, weight := w }] := by
  unfold entries
  rw [vec_addEdge g s t w t hst]
  have hts : ¬ t = s := fun h => hst h.symm
  simp only [hts, if_true, if_false, List.filter_append, filter_dropTarget, List.filter_cons,
    decide_True, List.filter_nil, List.nil_append]

theorem entries_removeNode (g : Graph) (id a b : Int) (hid : id ∈ g.nodes) :
    entries (removeNode g id).1 a b = if a = id ∨ b = id then [] else entries g a b := by
  unfold entries removeNode
  simp only [hid, if_true, vec_del_mapVals]
  by_cases ha : a = id
  · simp [ha]
  · simp only [ha, if_false, filter_dropTarget, false_or]

theorem entries_removeEdge (g : Graph) (s t a b : Int) :
    entries (removeEdge g s t).1 a b
      = if (a = s ∧ b = t) ∨ (a = t ∧ b = s) then [] else entries g a b := by
  unfold entries removeEdge
  simp only [IntMap.vec_put]
  by_cases has : a = s <;> by_cases hat : a = t <;> by_cases hbs : b = s <;>
    by_cases hbt : b = t <;>
    simp [has, hat, hbs, hbt, filter_dropTarget] <;> (try subst_vars) <;>
    (try simp_all [filter_dropTarget]) <;>
    (try (intro e he; exact ((mem_dropTarget _ _ _).mp he).2))

theorem entries_empty (a b : Int) : entries Graph.empty a b = [] := by
  simp [entries, Graph.empty, IntMap.vec, IntMap.lookup?]

theorem step_single (g : Graph) (op : Op)
    (h : ∀ u v, u ≠ v → (entries g u v).length ≤ 1) :
    ∀ u v, u ≠ v → (entries (step g op).1 u v).length ≤ 1 := by
  intro u v huv
  cases op with
  | addNode id => simp only [step, entries_addNode]; exact h u v huv
  | addEdge s t w =>
    simp only [step]
    by_cases h1 : u = s ∧ v = t
    · obtain ⟨rfl, rfl⟩ := h1
      rw [entries_addEdge_fst g u v w huv]; simp
    · by_cases h2 : u = t ∧ v = s
      · obtain ⟨rfl, rfl⟩ := h2
        rw [entries_addEdge_snd g v u w (Ne.symm huv)]; simp
      · rw [entries_addEdge_other g s t w u v h1 h2]; exact h u v huv
  | removeNode id =>
    simp only [step]
    by_cases hid : id ∈ g.nodes
    · rw [entries_removeNode g id u v hid]
      split
      · simp
      · exact h u v huv
    · rw [removeNode_absent g id hid]; exact h u v huv
  | removeEdge s t =>
    simp only [step]
    rw [entries_removeEdge]
    split
    · simp
    · exact h u v huv
  | clearGraph => simp [step, clearGraph, entries_empty]

theorem run_single (ops : List Op) :
    ∀ g : Graph, (∀ u v, u ≠ v → (entries g u v).length ≤ 1) →
      ∀ u v, u ≠ v → (entries (run g ops) u v).length ≤ 1 := by
  induction ops with
  | nil => intro g h; exact h
  | cons op ops ih =>
    intro g h
    exact ih (step g op).1 (step_single g op h)

end Graph

/-- C20: after every sequence of graph calls, for all distinct ids `u` and `v` the
adjacency list of `u` holds at most one entry targeting `v`; and right after
`addEdge(s, t, w)` with `s ≠ t`, the list of `s` holds exactly one entry for `t` and the
list of `t` exactly one entry for `s`, both of weight `w`, while the entries of every
other ordered pair are unchanged. -/
theorem one_edge_per_pair (ops : List Graph.Op) :
    (∀ u v, u ≠ v → (Graph.entries (Graph.run Graph.empty ops) u v).length ≤ 1) ∧
    (∀ s t w, s ≠ t →
      Graph.entries (Graph.addEdge (Graph.run Graph.empty ops) s t w).1 s t
        = [{ target := t, weight := w }] ∧
      Graph.entries (Graph.addEdge (Graph.run Graph.empty ops) s t w).1 t s
        = [{ target := s, weight := w }] ∧
      ∀ a b, ¬ (a = s ∧ b = t) → ¬ (a = t ∧ b = s) →
        Graph.entries (Graph.addEdge (Graph.run Graph.empty ops) s t w).1 a b
          = Graph.entries (Graph.run Graph.empty ops) a b) := by
  constructor
  · exact Graph.run_single ops Graph.empty (fun u v _ => by simp [Graph.entries_empty])
  · intro s t w hst
    exact ⟨Graph.entries_addEdge_fst _ s t w hst, Graph.entries_addEdge_snd _ s t w hst,
      fun a b h1 h2 => Graph.entries_addEdge_other _ s t w a b h1 h2⟩

namespace Graph

/-! ## Reachability and the work bound shared by the traversals -/

theorem reach_start (g : Graph) (start : Int) : Reach g start start :=
  ⟨[start], 0, Walk.nil⟩

theorem reach_step {g : Graph} {start u : Int} (h : Reach g start u) {e : Edge}
    (he : e ∈ g.adj.vec u) : Reach g start e.target := by
  obtain ⟨p, w, hw⟩ := h
  exact ⟨_, _, Walk.snoc e hw he⟩

/-- A set that holds `start` and is closed under adjacency holds every reachable node. -/
theorem reach_closed {g : Graph} {start : Int} (S : Int → Prop) (h0 : S start)
    (hc : ∀ u, S u → ∀ e, e ∈ g.adj.vec u → S e.target) :
    ∀ v, Reach g start v → S v := by
  rintro v ⟨p, w, hw⟩
  induction hw with
  | nil => exact h0
  | snoc e _ he ih => exact hc _ ih e he

theorem sum_map_drop {l : List Int} {f f' : Int → Nat} {u : Int} {c : Nat}
    (hle : ∀ x, f' x ≤ f x) (hu : u ∈ l) (hc : f' u + c ≤ f u) :
    (l.map f').sum + c ≤ (l.map f).sum := by
  induction l with
  | nil => simp at hu
  | cons a as ih =>
    simp only [List.map_cons, List.sum_cons]
    have hle' : (as.map f').sum ≤ (as.map f).sum := by
      apply List.sum_le_sum
      intro x _
      exact hle x
    rcases List.mem_cons.mp hu with h | h
    · subst h
      omega
    · have := ih h
      have := hle a
      omega

theorem pending_nil (g : Graph) : pending g [] = size g := by
  simp [pending, size]

theorem pending_insert_le (g : Graph) (V : List Int) (u : Int) :
    pending g (setInsert V u) ≤ pending g V := by
  unfold pending
  apply List.sum_le_sum
  intro x _
  by_cases h1 : x ∈ V
  · have : x ∈ setInsert V u := (mem_setInsert _ _ _).mpr (Or.inr h1)
    simp [h1, this]
  · by_cases h2 : x ∈ setInsert V u
    · simp [h2]
    · simp [h1, h2]

theorem pending_insert (g : Graph) (V : List Int) (u : Int) (hu : u ∈ g.nodes) (hV : u ∉ V) :
    pending g (setInsert V u) + ((g.adj.vec u).length + 1) ≤ pending g V := by
  unfold pending
  apply sum_map_drop _ hu
  · have : u ∈ setInsert V u := (mem_setInsert _ _ _).mpr (Or.inl rfl)
    simp [hV, this]
  · intro x
    by_cases h1 : x ∈ V
    · have : x ∈ setInsert V u := (mem_setInsert _ _ _).mpr (Or.inr h1)
      simp [h1, this]
    · by_cases h2 : x ∈ setInsert V u
      · simp [h2]
      · simp [h1, h2]

theorem highlighted_append (evs : List GEvent) (u : Int) (st : List Int) :
    highlighted (evs ++ [GEvent.highlight u st]) = highlighted evs ++ [u] := by
  induction evs with
  | nil => rfl
  | cons ev evs ih =>
    cases ev <;> simp [highlighted, ih]

theorem highlighted_finished (evs : List GEvent) :
    highlighted (evs ++ [GEvent.finished]) = highlighted evs := by
  induction evs with
  | nil => rfl
  | cons ev evs ih =>
    cases ev <;> simp [highlighted, ih]

/-! ## `dfs` -/

theorem mem_dfsPush (V : List Int) :
    ∀ (es : List Edge) (s : List Int) (v : Int),
      v ∈ dfsPush es V s ↔ v ∈ s ∨ ∃ e ∈ es, e.target = v ∧ v ∉ V := by
  intro es
  induction es with
  | nil => intro s v; simp [dfsPush]
  | cons e es ih =>
    intro s v
    rw [dfsPush]
    by_cases h : e.target ∈ V
    · rw [if_pos h, ih]
      constructor
      · rintro (h1 | ⟨e', he', h2, h3⟩)
        · exact Or.inl h1
        · exact Or.inr ⟨e', List.mem_cons_of_mem _ he', h2, h3⟩
      · rintro (h1 | ⟨e', he', h2, h3⟩)
        · exact Or.inl h1
        · rcases List.mem_cons.mp he' with rfl | he'
          · rw [h2] at h; exact absurd h h3
          · exact Or.inr ⟨e', he', h2, h3⟩
    · rw [if_neg h, ih]
      constructor
      · rintro (h1 | ⟨e', he', h2, h3⟩)
        · rcases List.mem_cons.mp h1 with rfl | h1
          · exact Or.inr ⟨e, List.mem_cons_self _ _, rfl, h⟩
          · exact Or.inl h1
        · exact Or.inr ⟨e', List.mem_cons_of_mem _ he', h2, h3⟩
      · rintro (h1 | ⟨e', he', h2, h3⟩)
        · exact Or.inl (List.mem_cons_of_mem _ h1)
        · rcases List.mem_cons.mp he' with rfl | he'
          · exact Or.inl (by rw [h2]; exact List.mem_cons_self _ _)
          · exact Or.inr ⟨e', he', h2, h3⟩

theorem length_dfsPush (V : List Int) :
    ∀ (es : List Edge) (s : List Int), (dfsPush es V s).length ≤ s.length + es.length := by
  intro es
  induction es with
  | nil => intro s; simp [dfsPush]
  | cons e es ih =>
    intro s
    rw [dfsPush]
    by_cases h : e.target ∈ V
    · rw [if_pos h]
      have := ih s
      simp only [List.length_cons]
      omega
    · rw [if_neg h]
      have := ih (e.target :: s)
      simp only [List.length_cons] at this ⊢
      omega

theorem dfsLoop_correct (g : Graph) (start : Int)
    (htargets : ∀ u e, e ∈ g.adj.vec u → e.target ∈ g.nodes) :
    ∀ (fuel : Nat) (s V : List Int) (evs : List GEvent), DfsInv g start s V evs →
      s.length + pending g V < fuel →
      ∃ evs', dfsLoop g fuel s V evs = Except.ok evs' ∧
        (∀ ev ∈ evs', isHighlight ev = true) ∧ (highlighted evs').Nodup ∧
        (∀ v, v ∈ highlighted evs' ↔ Reach g start v) ∧
        (highlighted evs').head? = some start := by
  intro fuel
  induction fuel with
  | zero => intro s V evs _ hf; omega
  | succ f ih =>
    intro s V evs inv hf
    cases s with
    | nil =>
      refine ⟨evs, rfl, inv.events, inv.nodup, ?_, ?_⟩
      · have hstart : start ∈ V := by
          rcases inv.started with h | h
          · exact h
          · simp at h
        intro v
        constructor
        · intro hv
          exact inv.reach v (Or.inr ((inv.vis v).mpr hv))
        · intro hr
          rw [← inv.vis]
          apply reach_closed (fun x => x ∈ V) hstart _ v hr
          intro u hu e he
          rcases inv.closed u hu e he with h | h
          · exact h
          · simp at h
      · rcases inv.first with ⟨_, h⟩ | h
        · simp at h
        · exact h
    | cons u s =>
      rw [dfsLoop]
      by_cases hu : u ∈ V
      · rw [if_pos hu]
        apply ih s V evs _ (by simp only [List.length_cons] at hf; omega)
        refine ⟨inv.events, inv.vis, inv.nodup, ?_, ?_, ?_, ?_, ?_⟩
        · rintro v (h | h)
          · exact inv.reach v (Or.inl (List.mem_cons_of_mem _ h))
          · exact inv.reach v (Or.inr h)
        · intro v hv
          exact inv.innodes v (List.mem_cons_of_mem _ hv)
        · intro x hx e he
          rcases inv.closed x hx e he with h | h
          · exact Or.inl h
          · rcases List.mem_cons.mp h with h | h
            · exact Or.inl (by rw [h]; exact hu)
            · exact Or.inr h
        · rcases inv.started with h | h
          · exact Or.inl h
          · rcases List.mem_cons.mp h with h | h
            · exact Or.inl (by rw [h]; exact hu)
            · exact Or.inr h
        · rcases inv.first with ⟨h1, _⟩ | h
          · have := (inv.vis u).mp hu
            rw [h1] at this
            simp at this
          · exact Or.inr h
      · rw [if_neg hu]
        have hur : Reach g start u := inv.reach u (Or.inl (List.mem_cons_self _ _))
        have hun : u ∈ g.nodes := inv.innodes u (List.mem_cons_self _ _)
        have hlen := length_dfsPush (setInsert V u) (g.adj.vec u) s
        have hpend := pending_insert g V u hun hu
        apply ih _ _ _ _ (by simp only [List.length_cons] at hf; omega)
        refine ⟨?_, ?_, ?_, ?_, ?_, ?_, ?_, ?_⟩
        · intro ev hev
          rcases List.mem_append.mp hev with h | h
          · exact inv.events ev h
          · simp only [List.mem_singleton] at h
            rw [h]; rfl
        · intro v
          rw [highlighted_append, mem_setInsert, List.mem_append, List.mem_singleton, inv.vis]
          tauto
        · rw [highlighted_append]
          apply List.Nodup.append inv.nodup (List.nodup_singleton u)
          intro x hx hx'
          simp only [List.mem_singleton] at hx'
          subst hx'
          exact hu ((inv.vis x).mpr hx)
        · rintro v (h | h)
          · rcases (mem_dfsPush _ _ _ _).mp h with h | ⟨e, he, rfl, _⟩
            · exact inv.reach v (Or.inl (List.mem_cons_of_mem _ h))
            · exact reach_step hur he
          · rcases (mem_setInsert _ _ _).mp h with rfl | h
            · exact hur
            · exact inv.reach v (Or.inr h)
        · intro v hv
          rcases (mem_dfsPush _ _ _ _).mp hv with h | ⟨e, he, rfl, _⟩
          · exact inv.innodes v (List.mem_cons_of_mem _ h)
          · exact htargets u e he
        · intro x hx e he
          by_cases ht : e.target ∈ setInsert V u
          · exact Or.inl ht
          · right
            rw [mem_dfsPush]
            rcases (mem_setInsert _ _ _).mp hx with rfl | hx
            · exact Or.inr ⟨e, he, rfl, ht⟩
            · rcases inv.closed x hx e he with h | h
              · exact absurd ((mem_setInsert _ _ _).mpr (Or.inr h)) ht
              · rcases List.mem_cons.mp h with h | h
                · exact absurd ((mem_setInsert _ _ _).mpr (Or.inl h)) ht
                · exact Or.inl h
        · by_cases hst : start ∈ setInsert V u
          · exact Or.inl hst
          · right
            rw [mem_dfsPush]
            rcases inv.started with h | h
            · exact absurd ((mem_setInsert _ _ _).mpr (Or.inr h)) hst
            · rcases List.mem_cons.mp h with h | h
              · exact absurd ((mem_setInsert _ _ _).mpr (Or.inl h)) hst
              · exact Or.inl h
        · right
          rw [highlighted_append]
          rcases inv.first with ⟨h1, h2⟩ | h
          · rw [h1]
            simp only [List.cons.injEq] at h2
            rw [h2.1]
            rfl
          · cases hh : highlighted evs with
            | nil => rw [hh] at h; simp at h
            | cons a as => rw [hh] at h; simpa using h

theorem dfsInv_init (g : Graph) (start : Int) (hs : start ∈ g.nodes) :
    DfsInv g start [start] [] [] := by
  refine ⟨by simp, by simp [highlighted], by simp [highlighted], ?_, ?_, by simp, by simp,
    Or.inl ⟨rfl, rfl⟩⟩
  · rintro v (h | h)
    · simp only [List.mem_singleton] at h
      rw [h]; exact reach_start g start
    · simp at h
  · intro v hv
    simp only [List.mem_singleton] at hv
    rw [hv]; exact hs

end Graph

namespace Graph

theorem isHighlight_iff (ev : GEvent) :
    isHighlight ev = true ↔ ∃ u st, ev = GEvent.highlight u st := by
  cases ev <;> simp [isHighlight]

theorem absent_start (g : Graph) (s : Int) (n : Nat) (hs : s ∉ g.nodes) :
    bfs g s n = Except.ok [] ∧ dfs g s n = Except.ok [] ∧ prim g s n = Except.ok [] := by
  simp [bfs, dfs, prim, hs]

end Graph

/-- C17: on every graph state reached by a sequence of calls and every `start` in the node
set, `dfs(start)` returns (the loop runs at most once per node and adjacency entry);
its events are `highlight` events followed by one `finished` event; the highlighted nodes
are pairwise distinct, they are exactly the nodes reachable from `start`, and the first
one is `start`.  A node can sit on the stack several times: after `addEdge(1,2,5)`,
`addEdge(1,3,2)`, `addEdge(2,4,1)`, `addEdge(3,2,1)`, `dfs(1)` visits 2 while a second
copy of 2 is still on the stack.  If `start` is not in the node set, `bfs`, `dfs` and
`prim` emit no event at all. -/
theorem dfs_visits_reachable (ops : List Graph.Op) (start : Int) (fuel : Nat)
    (hs : start ∈ (Graph.run Graph.empty ops).nodes)
    (hf : Graph.size (Graph.run Graph.empty ops) + 1 < fuel) :
    (∃ evs, Graph.dfs (Graph.run Graph.empty ops) start fuel
        = Except.ok (evs ++ [GEvent.finished]) ∧
      (∀ ev ∈ evs, ∃ u st, ev = GEvent.highlight u st) ∧
      (Graph.highlighted evs).Nodup ∧
      (∀ v, v ∈ Graph.highlighted evs ↔ Graph.Reach (Graph.run Graph.empty ops) start v) ∧
      (Graph.highlighted evs).head? = some start) ∧
    Graph.dfs (Graph.run Graph.empty
        [Graph.Op.addEdge 1 2 5, Graph.Op.addEdge 1 3 2, Graph.Op.addEdge 2 4 1,
          Graph.Op.addEdge 3 2 1]) 1 20
      = Except.ok [GEvent.highlight 1 [], GEvent.highlight 3 [2], GEvent.highlight 2 [2],
          GEvent.highlight 4 [2], GEvent.finished] ∧
    (∀ s n, s ∉ (Graph.run Graph.empty ops).nodes →
      Graph.bfs (Graph.run Graph.empty ops) s n = Except.ok [] ∧
      Graph.dfs (Graph.run Graph.empty ops) s n = Except.ok [] ∧
      Graph.prim (Graph.run Graph.empty ops) s n = Except.ok []) := by
  refine ⟨?_, by decide, fun s n h => Graph.absent_start _ s n h⟩
  obtain ⟨evs, h1, h2, h3, h4, h5⟩ :=
    Graph.dfsLoop_correct (Graph.run Graph.empty ops) start (Graph.run_targets ops)
      fuel [start] [] [] (Graph.dfsInv_init _ start hs)
      (by rw [Graph.pending_nil]; simp only [List.length_singleton]; omega)
  refine ⟨evs, ?_, fun ev hev => (Graph.isHighlight_iff ev).mp (h2 ev hev), h3, h4, h5⟩
  simp only [Graph.dfs, hs, not_true_eq_false, if_false, h1]

theorem dfs_visits_reachable_witness :
    ∃ evs, Graph.dfs (Graph.run Graph.empty
          [Graph.Op.addEdge 1 2 5, Graph.Op.addEdge 1 3 2, Graph.Op.addEdge 2 4 1,
            Graph.Op.addEdge 3 2 1]) 1 20
        = Except.ok (evs ++ [GEvent.finished]) ∧
      (∀ ev ∈ evs, ∃ u st, ev = GEvent.highlight u st) ∧
      (Graph.highlighted evs).Nodup ∧
      (∀ v, v ∈ Graph.highlighted evs ↔ Graph.Reach (Graph.run Graph.empty
          [Graph.Op.addEdge 1 2 5, Graph.Op.addEdge 1 3 2, Graph.Op.addEdge 2 4 1,
            Graph.Op.addEdge 3 2 1]) 1 v) ∧
      (Graph.highlighted evs).head? = some 1 :=
  (dfs_visits_reachable
    [Graph.Op.addEdge 1 2 5, Graph.Op.addEdge 1 3 2, Graph.Op.addEdge 2 4 1,
      Graph.Op.addEdge 3 2 1] 1 20 (by decide) (by decide)).1

namespace Graph

/-! ## `prim`: the priority queue -/

theorem minTriple_cons_some (p : Int × Int × Int) (ps : List (Int × Int × Int)) :
    ∃ m, minTriple (p :: ps) = some m := by
  rw [minTriple]
  cases minTriple ps with
  | none => exact ⟨p, rfl⟩
  | some q =>
    by_cases h : tripleLt q p = true
    · exact ⟨q, by simp only [if_pos h]⟩
    · exact ⟨p, by simp only [if_neg h]⟩

theorem minTriple_spec :
    ∀ (pq : List (Int × Int × Int)) (m : Int × Int × Int), minTriple pq = some m →
      m ∈ pq ∧ ∀ q ∈ pq, m.1 ≤ q.1 := by
  intro pq
  induction pq with
  | nil => intro m h; simp [minTriple] at h
  | cons p ps ih =>
    intro m h
    rw [minTriple] at h
    cases hps : minTriple ps with
    | none =>
      rw [hps] at h
      simp only [Option.some.injEq] at h
      subst h
      have hnil : ps = [] := by
        cases ps with
        | nil => rfl
        | cons a as =>
          obtain ⟨m, hm⟩ := minTriple_cons_some a as
          rw [hm] at hps
          cases hps
      subst hnil
      simp
    | some q =>
      rw [hps] at h
      obtain ⟨hq1, hq2⟩ := ih q hps
      simp only at h
      by_cases hlt : tripleLt q p = true
      · rw [if_pos hlt] at h
        simp only [Option.some.injEq] at h
        subst h
        refine ⟨List.mem_cons_of_mem _ hq1, ?_⟩
        intro x hx
        rcases List.mem_cons.mp hx with rfl | hx
        · unfold tripleLt at hlt
          simp only [Bool.or_eq_true, decide_eq_true_eq, Bool.and_eq_true] at hlt
          omega
        · exact hq2 x hx
      · rw [if_neg hlt] at h
        simp only [Option.some.injEq] at h
        subst h
        refine ⟨List.mem_cons_self _ _, ?_⟩
        intro x hx
        rcases List.mem_cons.mp hx with rfl | hx
        · exact le_refl _
        · have := hq2 x hx
          unfold tripleLt at hlt
          simp only [Bool.or_eq_true, decide_eq_true_eq, Bool.and_eq_true, not_or, not_and,
            not_lt] at hlt
          omega

theorem popMinTriple_none {pq : List (Int × Int × Int)} (h : popMinTriple pq = none) :
    pq = [] := by
  cases pq with
  | nil => rfl
  | cons p ps =>
    exfalso
    obtain ⟨m, hm⟩ := minTriple_cons_some p ps
    unfold popMinTriple at h
    rw [hm] at h
    cases h

theorem popMinTriple_some {pq pq' : List (Int × Int × Int)} {m : Int × Int × Int}
    (h : popMinTriple pq = some (m, pq')) :
    m ∈ pq ∧ pq' = pq.erase m ∧ (∀ q ∈ pq, m.1 ≤ q.1) ∧ pq'.length + 1 = pq.length := by
  unfold popMinTriple at h
  cases hm : minTriple pq with
  | none => rw [hm] at h; cases h
  | some x =>
    rw [hm] at h
    simp only [Option.some.injEq, Prod.mk.injEq] at h
    obtain ⟨rfl, rfl⟩ := h
    obtain ⟨h1, h2⟩ := minTriple_spec pq x hm
    refine ⟨h1, rfl, h2, ?_⟩
    rw [List.length_erase_of_mem h1]
    have : 0 < pq.length := List.length_pos_of_mem h1
    omega

theorem mem_primPush (u : Int) (V : List Int) :
    ∀ (es : List Edge) (pq : List (Int × Int × Int)) (x : Int × Int × Int),
      x ∈ primPush u es V pq ↔
        x ∈ pq ∨ ∃ e ∈ es, e.target ∉ V ∧ x = (e.weight, e.target, u) := by
  intro es
  induction es with
  | nil => intro pq x; simp [primPush]
  | cons e es ih =>
    intro pq x
    rw [primPush]
    by_cases h : e.target ∈ V
    · rw [if_pos h, ih]
      constructor
      · rintro (h1 | ⟨e', he', h2, h3⟩)
        · exact Or.inl h1
        · exact Or.inr ⟨e', List.mem_cons_of_mem _ he', h2, h3⟩
      · rintro (h1 | ⟨e', he', h2, h3⟩)
        · exact Or.inl h1
        · rcases List.mem_cons.mp he' with rfl | he'
          · exact absurd h h2
          · exact Or.inr ⟨e', he', h2, h3⟩
    · rw [if_neg h, ih]
      constructor
      · rintro (h1 | ⟨e', he', h2, h3⟩)
        · rcases List.mem_cons.mp h1 with rfl | h1
          · exact Or.inr ⟨e, List.mem_cons_self _ _, h, rfl⟩
          · exact Or.inl h1
        · exact Or.inr ⟨e', List.mem_cons_of_mem _ he', h2, h3⟩
      · rintro (h1 | ⟨e', he', h2, h3⟩)
        · exact Or.inl (List.mem_cons_of_mem _ h1)
        · rcases List.mem_cons.mp he' with rfl | he'
          · exact Or.inl (by rw [h3]; exact List.mem_cons_self _ _)
          · exact Or.inr ⟨e', he', h2, h3⟩

theorem length_primPush (u : Int) (V : List Int) :
    ∀ (es : List Edge) (pq : List (Int × Int × Int)),
      (primPush u es V pq).length ≤ pq.length + es.length := by
  intro es
  induction es with
  | nil => intro pq; simp [primPush]
  | cons e es ih =>
    intro pq
    rw [primPush]
    by_cases h : e.target ∈ V
    · rw [if_pos h]
      have := ih pq
      simp only [List.length_cons]
      omega
    · rw [if_neg h]
      have := ih ((e.weight, e.target, u) :: pq)
      simp only [List.length_cons] at this ⊢
      omega

theorem mstEdges_append (evs : List GEvent) (s t : Int) :
    mstEdges (evs ++ [GEvent.mst_edge s t]) = mstEdges evs ++ [(s, t)] := by
  induction evs with
  | nil => rfl
  | cons ev evs ih =>
    cases ev <;> simp [mstEdges, ih]

theorem mstEdges_finished (evs : List GEvent) :
    mstEdges (evs ++ [GEvent.finished]) = mstEdges evs := by
  induction evs with
  | nil => rfl
  | cons ev evs ih =>
    cases ev <;> simp [mstEdges, ih]

theorem mstTargets_append (evs : List GEvent) (s t : Int) :
    mstTargets (evs ++ [GEvent.mst_edge s t]) = mstTargets evs ++ [t] := by
  simp [mstTargets, mstEdges_append]

theorem isMstEdge_iff (ev : GEvent) :
    isMstEdge ev = true ↔ ∃ s t, ev = GEvent.mst_edge s t := by
  cases ev <;> simp [isMstEdge]

end Graph

namespace Graph

/-! ## `prim`: the loop invariant -/

theorem edge_eta (e : Edge) : ({ target := e.target, weight := e.weight } : Edge) = e := by
  cases e; rfl

theorem primInv_skip {g : Graph} {start : Int} {pq pq' : List (Int × Int × Int)}
    {V : List Int} {evs : List GEvent} {w u p : Int}
    (inv : PrimInv g start pq V evs) (hpop : popMinTriple pq = some ((w, u, p), pq'))
    (hu : u ∈ V) : PrimInv g start pq' V evs := by
  obtain ⟨_, hpq', _, _⟩ := popMinTriple_some hpop
  subst hpq'
  refine ⟨inv.events, inv.vis, inv.nodup, inv.reach, inv.innodes, ?_, ?_, inv.edges,
    inv.sources⟩
  · intro w' t' u' h
    exact inv.queue w' t' u' (List.mem_of_mem_erase h)
  · intro x hx e he het
    have h1 := inv.crossing x hx e he het
    have hne : (e.weight, e.target, x) ≠ (w, u, p) := by
      intro h
      simp only [Prod.mk.injEq] at h
      exact het (by rw [h.2.1]; exact hu)
    exact (List.mem_erase_of_ne hne).mpr h1

theorem primInv_accept {g : Graph} {start : Int} {pq pq' : List (Int × Int × Int)}
    {V : List Int} {evs : List GEvent} {w u p : Int}
    (htargets : ∀ u e, e ∈ g.adj.vec u → e.target ∈ g.nodes)
    (inv : PrimInv g start pq V evs) (hpop : popMinTriple pq = some ((w, u, p), pq'))
    (hu : u ∉ V) :
    PrimInv g start (primPush u (g.adj.vec u) (setInsert V u) pq') (setInsert V u)
      (evs ++ [GEvent.mst_edge p u]) := by
  obtain ⟨hmem, hpq', _, _⟩ := popMinTriple_some hpop
  subst hpq'
  obtain ⟨hpV, hedge⟩ := inv.queue w u p hmem
  have hpr : Reach g start p := inv.reach p hpV
  have hur : Reach g start u := reach_step hpr hedge
  refine ⟨?_, ?_, ?_, ?_, ?_, ?_, ?_, ?_, ?_⟩
  · intro ev hev
    rcases List.mem_append.mp hev with h | h
    · exact inv.events ev h
    · simp only [List.mem_singleton] at h
      rw [h]; rfl
  · intro v
    rw [mstTargets_append, mem_setInsert, List.mem_append, List.mem_singleton, inv.vis]
    tauto
  · rw [mstTargets_append, ← List.cons_append]
    apply List.Nodup.append inv.nodup (List.nodup_singleton u)
    intro x hx hx'
    simp only [List.mem_singleton] at hx'
    subst hx'
    apply hu
    rw [inv.vis]
    simpa using hx
  · intro v hv
    rcases (mem_setInsert _ _ _).mp hv with rfl | hv
    · exact hur
    · exact inv.reach v hv
  · intro v hv
    rcases (mem_setInsert _ _ _).mp hv with rfl | hv
    · exact htargets p _ hedge
    · exact inv.innodes v hv
  · intro w' t' u' h
    rcases (mem_primPush _ _ _ _ _).mp h with h | ⟨e, he, _, h⟩
    · obtain ⟨h1, h2⟩ := inv.queue w' t' u' (List.mem_of_mem_erase h)
      exact ⟨(mem_setInsert _ _ _).mpr (Or.inr h1), h2⟩
    · simp only [Prod.mk.injEq] at h
      obtain ⟨rfl, rfl, rfl⟩ := h
      exact ⟨(mem_setInsert _ _ _).mpr (Or.inl rfl), by rw [edge_eta]; exact he⟩
  · intro x hx e he het
    rw [mem_primPush]
    rcases (mem_setInsert _ _ _).mp hx with rfl | hx
    · exact Or.inr ⟨e, he, het, rfl⟩
    · left
      have het' : e.target ∉ V := fun h => het ((mem_setInsert _ _ _).mpr (Or.inr h))
      have h1 := inv.crossing x hx e he het'
      have hne : (e.weight, e.target, x) ≠ (w, u, p) := by
        intro h
        simp only [Prod.mk.injEq] at h
        exact het ((mem_setInsert _ _ _).mpr (Or.inl h.2.1))
      exact (List.mem_erase_of_ne hne).mpr h1
  · intro pre s t hpre
    rcases List.prefix_concat_iff.mp hpre with h | h
    · have h1 := List.append_inj' h rfl
      obtain ⟨h2, h3⟩ := h1
      simp only [List.cons.injEq, GEvent.mst_edge.injEq, and_true] at h3
      obtain ⟨rfl, rfl⟩ := h3
      subst h2
      exact ⟨⟨_, hedge, rfl⟩, (inv.vis s).mp hpV⟩
    · exact inv.edges pre s t h
  · intro e he
    rw [mstEdges_append] at he
    rcases List.mem_append.mp he with h | h
    · exact (mem_setInsert _ _ _).mpr (Or.inr (inv.sources e h))
    · simp only [List.mem_singleton] at h
      rw [h]
      exact (mem_setInsert _ _ _).mpr (Or.inr hpV)

/-- The loop of `prim` returns, and keeps its invariant as well as any property `J` of the
events that every accepted edge preserves. -/
theorem primLoop_correct (g : Graph) (start : Int)
    (htargets : ∀ u e, e ∈ g.adj.vec u → e.target ∈ g.nodes) (hneg : (-1 : Int) ∉ g.nodes)
    (J : List GEvent → Prop)
    (hJ : ∀ (pq pq' : List (Int × Int × Int)) (V : List Int) (evs : List GEvent) (w u p : Int),
      PrimInv g start pq V evs → J evs → popMinTriple pq = some ((w, u, p), pq') → u ∉ V →
      J (evs ++ [GEvent.mst_edge p u])) :
    ∀ (fuel : Nat) (pq : List (Int × Int × Int)) (V : List Int) (evs : List GEvent),
      PrimInv g start pq V evs → J evs → pq.length + pending g V < fuel →
      ∃ evs' V', primLoop g fuel pq V evs = Except.ok evs' ∧ PrimInv g start [] V' evs' ∧
        J evs' := by
  intro fuel
  induction fuel with
  | zero => intro pq V evs _ _ hf; omega
  | succ f ih =>
    intro pq V evs inv hj hf
    rw [primLoop]
    cases hpop : popMinTriple pq with
    | none =>
      have := popMinTriple_none hpop
      subst this
      exact ⟨evs, V, rfl, inv, hj⟩
    | some r =>
      obtain ⟨⟨w, u, p⟩, pq'⟩ := r
      obtain ⟨hmem, _, _, hlen⟩ := popMinTriple_some hpop
      simp only
      by_cases hu : u ∈ V
      · rw [if_pos hu]
        exact ih pq' V evs (primInv_skip inv hpop hu) hj (by omega)
      · rw [if_neg hu]
        have hp : p ≠ -1 := by
          intro h
          have := inv.innodes p (inv.queue w u p hmem).1
          rw [h] at this
          exact hneg this
        rw [if_pos hp]
        have hun : u ∈ g.nodes := htargets p _ (inv.queue w u p hmem).2
        have h1 := length_primPush u (setInsert V u) (g.adj.vec u) pq'
        have h2 := pending_insert g V u hun hu
        exact ih _ _ _ (primInv_accept htargets inv hpop hu)
          (hJ pq pq' V evs w u p inv hj hpop hu) (by omega)

theorem primInv_init (g : Graph) (start : Int) (hs : start ∈ g.nodes) :
    PrimInv g start (primPush start (g.adj.vec start) (setInsert [] start) [])
      (setInsert [] start) [] := by
  refine ⟨by simp, ?_, by simp [mstTargets, mstEdges], ?_, ?_, ?_, ?_, ?_,
    by simp [mstEdges]⟩
  · intro v; simp [setInsert, mstTargets, mstEdges]
  · intro v hv
    simp only [setInsert, List.mem_singleton] at hv
    rw [hv]; exact reach_start g start
  · intro v hv
    simp only [setInsert, List.mem_singleton] at hv
    rw [hv]; exact hs
  · intro w t u h
    rcases (mem_primPush _ _ _ _ _).mp h with h | ⟨e, he, _, h⟩
    · simp at h
    · simp only [Prod.mk.injEq] at h
      obtain ⟨rfl, rfl, rfl⟩ := h
      exact ⟨by simp [setInsert], by rw [edge_eta]; exact he⟩
  · intro x hx e he het
    simp only [setInsert, List.mem_singleton] at hx
    subst hx
    exact (mem_primPush _ _ _ _ _).mpr (Or.inr ⟨e, he, het, rfl⟩)
  · intro pre s t h
    have := List.IsPrefix.length_le h
    simp at this

/-- What `prim` has established when its queue is empty. -/
theorem primInv_final {g : Graph} {start : Int} {V : List Int} {evs : List GEvent}
    (inv : PrimInv g start [] V evs) :
    ∀ v, (v = start ∨ v ∈ mstTargets evs) ↔ Reach g start v := by
  intro v
  rw [← inv.vis]
  constructor
  · exact inv.reach v
  · intro hr
    apply reach_closed (fun x => x ∈ V) ((inv.vis start).mpr (Or.inl rfl)) _ v hr
    intro u hu e he
    by_contra hne
    have := inv.crossing u hu e he hne
    simp at this

theorem prim_run (g : Graph) (start : Int) (fuel : Nat)
    (htargets : ∀ u e, e ∈ g.adj.vec u → e.target ∈ g.nodes) (hneg : (-1 : Int) ∉ g.nodes)
    (hs : start ∈ g.nodes) (hf : size g + 1 < fuel)
    (J : List GEvent → Prop)
    (hJ : ∀ (pq pq' : List (Int × Int × Int)) (V : List Int) (evs : List GEvent) (w u p : Int),
      PrimInv g start pq V evs → J evs → popMinTriple pq = some ((w, u, p), pq') → u ∉ V →
      J (evs ++ [GEvent.mst_edge p u]))
    (h0 : J []) :
    ∃ evs V, prim g start fuel = Except.ok (evs ++ [GEvent.finished]) ∧
      PrimInv g start [] V evs ∧ J evs := by
  cases fuel with
  | zero => omega
  | succ f =>
    have h1 := length_primPush start (setInsert [] start) (g.adj.vec start) []
    have h2 := pending_insert g [] start hs (by simp)
    rw [pending_nil] at h2
    simp only [List.length_nil] at h1
    obtain ⟨evs, V, h3, h4, h5⟩ := primLoop_correct g start htargets hneg J hJ f _ _ _
      (primInv_init g start hs) h0 (by omega)
    refine ⟨evs, V, ?_, h4, h5⟩
    have hpop : popMinTriple [((0 : Int), start, (-1 : Int))] = some ((0, start, -1), []) := by
      simp [popMinTriple, minTriple]
    simp only [prim, hs, not_true_eq_false, if_false, primLoop, hpop, List.not_mem_nil,
      ne_eq, h3]

end Graph

/-- C14 as stated fails when -1 is a node id: in the graph with the single edge
`(-1, 5)`, the start -1 is in the node set and node 5 is reachable from it and differs
from it, yet `prim(-1)` emits the `finished` event only: no emitted edge targets 5. -/
theorem prim_node_minus_one_counterexample :
    (-1 : Int) ∈ (Graph.run Graph.empty [Graph.Op.addEdge (-1) 5 3]).nodes ∧
      Graph.Reach (Graph.run Graph.empty [Graph.Op.addEdge (-1) 5 3]) (-1) 5 ∧
      (5 : Int) ≠ -1 ∧
      ∃ evs, Graph.prim (Graph.run Graph.empty [Graph.Op.addEdge (-1) 5 3]) (-1) 20
          = Except.ok evs ∧ ((Graph.mstEdges evs).map Prod.snd).count 5 = 0 := by
  refine ⟨by decide, ?_, by decide, [GEvent.finished], by decide, by decide⟩
  exact ⟨_, _, Graph.Walk.snoc { target := 5, weight := 3 } Graph.Walk.nil (by decide)⟩

/-- C14, amended: on every graph state reached by a sequence of calls in which -1 is not a
node id, and every `start` in the node set, `prim(start)` returns; its events are
`mst_edge` events followed by one `finished` event; every node reachable from `start`
other than `start` is the target of exactly one emitted edge and no other node is a
target; every emitted edge is an adjacency entry of the graph whose source is `start` or
the target of an earlier emitted edge; and the number of `mst_edge` events is the number
of reachable nodes minus one. -/
theorem prim_spans_component (ops : List Graph.Op) (start : Int) (fuel : Nat)
    (hs : start ∈ (Graph.run Graph.empty ops).nodes)
    (hneg : (-1 : Int) ∉ (Graph.run Graph.empty ops).nodes)
    (hf : Graph.size (Graph.run Graph.empty ops) + 1 < fuel) :
    ∃ evs, Graph.prim (Graph.run Graph.empty ops) start fuel
        = Except.ok (evs ++ [GEvent.finished]) ∧
      (∀ ev ∈ evs, ∃ s t, ev = GEvent.mst_edge s t) ∧
      (∀ v, Graph.Reach (Graph.run Graph.empty ops) start v → v ≠ start →
        ((Graph.mstEdges evs).map Prod.snd).count v = 1) ∧
      (∀ e ∈ Graph.mstEdges evs,
        Graph.Reach (Graph.run Graph.empty ops) start e.2 ∧ e.2 ≠ start) ∧
      (∀ pre s t, pre ++ [GEvent.mst_edge s t] <+: evs →
        Graph.hasEdge (Graph.run Graph.empty ops) s t ∧
          (s = start ∨ s ∈ (Graph.mstEdges pre).map Prod.snd)) ∧
      (∀ R : List Int, R.Nodup →
        (∀ v, v ∈ R ↔ Graph.Reach (Graph.run Graph.empty ops) start v) →
        (Graph.mstEdges evs).length + 1 = R.length) := by
  obtain ⟨evs, V, h1, inv, _⟩ := Graph.prim_run (Graph.run Graph.empty ops) start fuel
    (Graph.run_targets ops) hneg hs hf (fun _ => True) (fun _ _ _ _ _ _ _ _ _ _ _ => trivial)
    trivial
  have hfin := Graph.primInv_final inv
  have hnd := inv.nodup
  rw [List.nodup_cons] at hnd
  refine ⟨evs, h1, fun ev hev => (Graph.isMstEdge_iff ev).mp (inv.events ev hev), ?_, ?_,
    inv.edges, ?_⟩
  · intro v hr hne
    rcases (hfin v).mpr hr with h | h
    · exact absurd h hne
    · exact List.count_eq_one_of_mem hnd.2 h
  · intro e he
    have hmem : e.2 ∈ Graph.mstTargets evs := List.mem_map_of_mem _ he
    refine ⟨(hfin e.2).mp (Or.inr hmem), ?_⟩
    intro h
    rw [h] at hmem
    exact hnd.1 hmem
  · intro R hR hmem
    have hperm : (start :: Graph.mstTargets evs).Perm R := by
      rw [List.perm_ext_iff_of_nodup inv.nodup hR]
      intro v
      rw [hmem, ← hfin v, List.mem_cons]
    have := hperm.length_eq
    simp only [List.length_cons, Graph.mstTargets, List.length_map] at this
    exact this

theorem prim_spans_component_witness :
    ∃ evs, Graph.prim (Graph.run Graph.empty
          [Graph.Op.addEdge 1 5 3, Graph.Op.addEdge 5 6 1, Graph.Op.addEdge 1 6 1]) 1 20
        = Except.ok (evs ++ [GEvent.finished]) ∧
      (∀ ev ∈ evs, ∃ s t, ev = GEvent.mst_edge s t) ∧
      (∀ v, Graph.Reach (Graph.run Graph.empty
          [Graph.Op.addEdge 1 5 3, Graph.Op.addEdge 5 6 1, Graph.Op.addEdge 1 6 1]) 1 v →
        v ≠ 1 → ((Graph.mstEdges evs).map Prod.snd).count v = 1) ∧
      (∀ e ∈ Graph.mstEdges evs,
        Graph.Reach (Graph.run Graph.empty
          [Graph.Op.addEdge 1 5 3, Graph.Op.addEdge 5 6 1, Graph.Op.addEdge 1 6 1]) 1 e.2 ∧
        e.2 ≠ 1) ∧
      (∀ pre s t, pre ++ [GEvent.mst_edge s t] <+: evs →
        Graph.hasEdge (Graph.run Graph.empty
          [Graph.Op.addEdge 1 5 3, Graph.Op.addEdge 5 6 1, Graph.Op.addEdge 1 6 1]) s t ∧
          (s = 1 ∨ s ∈ (Graph.mstEdges pre).map Prod.snd)) ∧
      (∀ R : List Int, R.Nodup →
        (∀ v, v ∈ R ↔ Graph.Reach (Graph.run Graph.empty
          [Graph.Op.addEdge 1 5 3, Graph.Op.addEdge 5 6 1, Graph.Op.addEdge 1 6 1]) 1 v) →
        (Graph.mstEdges evs).length + 1 = R.length) :=
  prim_spans_component
    [Graph.Op.addEdge 1 5 3, Graph.Op.addEdge 5 6 1, Graph.Op.addEdge 1 6 1] 1 20
    (by decide) (by decide) (by decide)

namespace Graph

/-! ## Hop distance -/

theorem hop_start (g : Graph) (start : Int) : Hop g start start 0 :=
  ⟨[start], 0, Walk.nil, rfl⟩

theorem hop_step {g : Graph} {start u : Int} {k : Nat} (h : Hop g start u k) {e : Edge}
    (he : e ∈ g.adj.vec u) : Hop g start e.target (k + 1) := by
  obtain ⟨p, w, hw, hl⟩ := h
  exact ⟨_, _, Walk.snoc e hw he, by simp [hl]⟩

theorem hop_cases {g : Graph} {start t : Int} {k : Nat} (h : Hop g start t k) :
    (t = start ∧ k = 0) ∨
      ∃ x e k', k = k' + 1 ∧ Hop g start x k' ∧ e ∈ g.adj.vec x ∧ e.target = t := by
  obtain ⟨p, w, hw, hl⟩ := h
  cases hw with
  | nil =>
    left
    simp only [List.length_singleton] at hl
    exact ⟨rfl, by omega⟩
  | @snoc p' x w' e hw' he =>
    right
    simp only [List.length_append, List.length_singleton] at hl
    have hp : 0 < p'.length := by
      cases p' with
      | nil => have := (walk_head_last hw').1; simp at this
      | cons a as => simp
    exact ⟨x, e, p'.length - 1, by omega, ⟨p', w', hw', by omega⟩, he, rfl⟩

theorem hop_reach {g : Graph} {start v : Int} {k : Nat} (h : Hop g start v k) :
    Reach g start v := by
  obtain ⟨p, w, hw, _⟩ := h
  exact ⟨p, w, hw⟩

theorem hopDist_start (g : Graph) (start : Int) : HopDist g start start 0 :=
  ⟨hop_start g start, fun _ _ => Nat.zero_le _⟩

theorem hopDist_unique {g : Graph} {start v : Int} {k1 k2 : Nat}
    (h1 : HopDist g start v k1) (h2 : HopDist g start v k2) : k1 = k2 :=
  Nat.le_antisymm (h1.2 k2 h2.1) (h2.2 k1 h1.1)

/-! ## `bfs`: the loop invariant -/

theorem bfsInv_head {g : Graph} {start : Int} {order q V : List Int} {u : Int}
    (inv : BfsInv g start order (u :: q) V) :
    ∀ x, x ∈ u :: q → ∀ ku kx, HopDist g start u ku → HopDist g start x kx → ku ≤ kx := by
  intro x hx ku kx hu hxk
  rcases List.mem_cons.mp hx with rfl | hx
  · exact le_of_eq (hopDist_unique hu hxk)
  · have h1 := (List.pairwise_append.mp inv.sorted).2.1
    exact (List.pairwise_cons.mp h1).1 x hx ku kx hu hxk

theorem bfsInv_order_le {g : Graph} {start : Int} {order q V : List Int} {u : Int}
    (inv : BfsInv g start order (u :: q) V) :
    ∀ a, a ∈ order → ∀ ka ku, HopDist g start a ka → HopDist g start u ku → ka ≤ ku := by
  intro a ha ka ku hka hku
  exact (List.pairwise_append.mp inv.sorted).2.2 a ha u (List.mem_cons_self _ _) ka ku hka hku

/-- Every node nearer to `start` than the head of the queue has been processed. -/
theorem bfs_frontier {g : Graph} {start : Int} {order q V : List Int} {u : Int}
    (inv : BfsInv g start order (u :: q) V) :
    ∀ (z : Int) (k : Nat), Hop g start z k →
      z ∈ order ∨ ∀ ku, HopDist g start u ku → ku ≤ k := by
  intro z k
  induction k generalizing z with
  | zero =>
    intro h
    rcases hop_cases h with ⟨rfl, _⟩ | ⟨x, e, k', hk, _⟩
    · rcases (inv.vis z).mp inv.start_in with h1 | h1
      · exact Or.inl h1
      · right
        intro ku hku
        exact bfsInv_head inv z h1 ku 0 hku (hopDist_start g z)
    · omega
  | succ n ih =>
    intro h
    rcases hop_cases h with ⟨rfl, hk⟩ | ⟨x, e, k', hk, hx, he, rfl⟩
    · omega
    · have hk' : k' = n := by omega
      subst hk'
      rcases ih x hx with h1 | h1
      · have hV := inv.closed x h1 e he
        rcases (inv.vis _).mp hV with h2 | h2
        · exact Or.inl h2
        · right
          intro ku hku
          obtain ⟨kt, hkt⟩ := inv.dist _ hV
          have := bfsInv_head inv _ h2 ku kt hku hkt
          have := hkt.2 _ h
          omega
      · right
        intro ku hku
        have := h1 ku hku
        omega

/-- The hop distance of a node discovered from the head `u` of the queue. -/
theorem bfs_new_dist {g : Graph} {start : Int} {order q V : List Int} {u : Int}
    (inv : BfsInv g start order (u :: q) V) {e : Edge} (he : e ∈ g.adj.vec u)
    (hnew : e.target ∉ V) {ku : Nat} (hku : HopDist g start u ku) :
    HopDist g start e.target (ku + 1) := by
  refine ⟨hop_step hku.1 he, ?_⟩
  intro k hk
  rcases hop_cases hk with ⟨h1, _⟩ | ⟨x, e', k', hk', hx, he', ht⟩
  · rw [h1] at hnew
    exact absurd inv.start_in hnew
  · rcases bfs_frontier inv x k' hx with h1 | h1
    · have := inv.closed x h1 e' he'
      rw [ht] at this
      exact absurd this hnew
    · have := h1 ku hku
      omega

theorem bfsInv_push {g : Graph} {start : Int} {order q V : List Int} {u : Int}
    (inv : BfsInv g start order (u :: q) V) {e : Edge} (he : e ∈ g.adj.vec u)
    (hnew : e.target ∉ V) :
    BfsInv g start order (u :: (q ++ [e.target])) (setInsert V e.target) := by
  have huV : u ∈ V := (inv.vis u).mpr (Or.inr (List.mem_cons_self _ _))
  obtain ⟨ku, hku⟩ := inv.dist u huV
  have hkt := bfs_new_dist inv he hnew hku
  have hlist : order ++ u :: (q ++ [e.target]) = (order ++ u :: q) ++ [e.target] := by simp
  have hbound : ∀ a, a ∈ order ++ u :: q → ∀ ka, HopDist g start a ka → ka ≤ ku + 1 := by
    intro a ha ka hka
    rcases List.mem_append.mp ha with h | h
    · have := bfsInv_order_le inv a h ka ku hka hku
      omega
    · exact inv.window u rfl a h ku ka hku hka
  refine ⟨?_, ?_, ?_, ?_, ?_, ?_, ?_⟩
  · rw [hlist]
    apply List.Nodup.append inv.nodup (List.nodup_singleton _)
    intro x hx hx'
    simp only [List.mem_singleton] at hx'
    subst hx'
    apply hnew
    rw [inv.vis]
    exact List.mem_append.mp hx
  · intro v
    rw [mem_setInsert, inv.vis]
    simp only [List.mem_cons, List.mem_append, List.mem_singleton]
    tauto
  · intro v hv
    rcases (mem_setInsert _ _ _).mp hv with rfl | hv
    · exact ⟨_, hkt⟩
    · exact inv.dist v hv
  · rw [hlist, List.pairwise_append]
    refine ⟨inv.sorted, List.pairwise_singleton _ _, ?_⟩
    intro a ha b hb ka kb hka hkb
    simp only [List.mem_singleton] at hb
    subst hb
    have := hopDist_unique hkb hkt
    have := hbound a ha ka hka
    omega
  · intro h hh x hx kh kx hkh hkx
    simp only [List.head?_cons, Option.some.injEq] at hh
    rw [← hh] at hkh
    have hk := hopDist_unique hkh hku
    rcases List.mem_cons.mp hx with rfl | hx
    · have := hopDist_unique hkx hku
      omega
    · rcases List.mem_append.mp hx with hx | hx
      · have := inv.window u rfl x (List.mem_cons_of_mem _ hx) ku kx hku hkx
        omega
      · simp only [List.mem_singleton] at hx
        subst hx
        have := hopDist_unique hkx hkt
        omega
  · intro x hx e' he'
    exact (mem_setInsert _ _ _).mpr (Or.inr (inv.closed x hx e' he'))
  · exact (mem_setInsert _ _ _).mpr (Or.inr inv.start_in)

theorem bfsScan_inv {g : Graph} {start : Int}
    (htargets : ∀ u e, e ∈ g.adj.vec u → e.target ∈ g.nodes) (order : List Int) (u : Int) :
    ∀ (es : List Edge) (V q : List Int), (∀ e, e ∈ es → e ∈ g.adj.vec u) →
      BfsInv g start order (u :: q) V →
      BfsInv g start order (u :: (bfsScan es V q).2) (bfsScan es V q).1 ∧
        (∀ e, e ∈ es → e.target ∈ (bfsScan es V q).1) ∧
        (∀ v, v ∈ V → v ∈ (bfsScan es V q).1) ∧
        (bfsScan es V q).2.length + 2 * pending g (bfsScan es V q).1
          ≤ q.length + 2 * pending g V := by
  intro es
  induction es with
  | nil =>
    intro V q _ inv
    exact ⟨inv, by simp, fun v hv => hv, le_refl _⟩
  | cons e es ih =>
    intro V q hes inv
    have he : e ∈ g.adj.vec u := hes e (List.mem_cons_self _ _)
    have hes' : ∀ e', e' ∈ es → e' ∈ g.adj.vec u :=
      fun e' h => hes e' (List.mem_cons_of_mem _ h)
    rw [bfsScan]
    by_cases ht : e.target ∈ V
    · rw [if_pos ht]
      obtain ⟨h1, h2, h3, h4⟩ := ih V q hes' inv
      refine ⟨h1, ?_, h3, h4⟩
      intro e' he'
      rcases List.mem_cons.mp he' with rfl | he'
      · exact h3 _ ht
      · exact h2 e' he'
    · rw [if_neg ht]
      obtain ⟨h1, h2, h3, h4⟩ := ih (setInsert V e.target) (q ++ [e.target]) hes'
        (bfsInv_push inv he ht)
      refine ⟨h1, ?_, ?_, ?_⟩
      · intro e' he'
        rcases List.mem_cons.mp he' with rfl | he'
        · exact h3 _ ((mem_setInsert _ _ _).mpr (Or.inl rfl))
        · exact h2 e' he'
      · intro v hv
        exact h3 v ((mem_setInsert _ _ _).mpr (Or.inr hv))
      · have := pending_insert g V e.target (htargets u e he) ht
        simp only [List.length_append, List.length_singleton] at h4
        omega

/-- After the scan of its adjacency list the head of the queue joins the visited order. -/
theorem bfsInv_next {g : Graph} {start : Int} {order q V : List Int} {u : Int}
    (inv : BfsInv g start order (u :: q) V)
    (hcl : ∀ e, e ∈ g.adj.vec u → e.target ∈ V) :
    BfsInv g start (order ++ [u]) q V := by
  have hlist : (order ++ [u]) ++ q = order ++ u :: q := by simp
  refine ⟨by rw [hlist]; exact inv.nodup, ?_, inv.dist, by rw [hlist]; exact inv.sorted,
    ?_, ?_, inv.start_in⟩
  · intro v
    rw [inv.vis]
    simp only [List.mem_cons, List.mem_append, List.mem_singleton]
    tauto
  · intro h hh x hx kh kx hkh hkx
    have hhq : h ∈ q := by
      cases q with
      | nil => simp at hh
      | cons a as =>
        simp only [List.head?_cons, Option.some.injEq] at hh
        rw [← hh]; exact List.mem_cons_self _ _
    have huV : u ∈ V := (inv.vis u).mpr (Or.inr (List.mem_cons_self _ _))
    obtain ⟨ku, hku⟩ := inv.dist u huV
    have h1 := inv.window u rfl x (List.mem_cons_of_mem _ hx) ku kx hku hkx
    have h2 := bfsInv_head inv h (List.mem_cons_of_mem _ hhq) ku kh hku hkh
    omega
  · intro x hx e he
    rcases List.mem_append.mp hx with h | h
    · exact inv.closed x h e he
    · simp only [List.mem_singleton] at h
      subst h
      exact hcl e he

theorem bfsLoop_correct (g : Graph) (start : Int)
    (htargets : ∀ u e, e ∈ g.adj.vec u → e.target ∈ g.nodes) :
    ∀ (fuel : Nat) (q V : List Int) (evs : List GEvent),
      BfsInv g start (highlighted evs) q V → (∀ ev ∈ evs, isHighlight ev = true) →
      q.length + 2 * pending g V < fuel →
      ∃ evs', bfsLoop g fuel q V evs = Except.ok evs' ∧
        (∀ ev ∈ evs', isHighlight ev = true) ∧ (highlighted evs').Nodup ∧
        (∀ v, v ∈ highlighted evs' ↔ Reach g start v) ∧
        (∀ v, v ∈ highlighted evs' → ∃ k, HopDist g start v k) ∧
        List.Pairwise (fun a b => ∀ ka kb, HopDist g start a ka → HopDist g start b kb →
          ka ≤ kb) (highlighted evs') := by
  intro fuel
  induction fuel with
  | zero => intro q V evs _ _ hf; omega
  | succ f ih =>
    intro q V evs inv hev hf
    cases q with
    | nil =>
      have hvis : ∀ v, v ∈ V ↔ v ∈ highlighted evs := by
        intro v; rw [inv.vis]; simp
      refine ⟨evs, rfl, hev, by simpa using inv.nodup, ?_,
        fun v hv => inv.dist v ((hvis v).mpr hv), by simpa using inv.sorted⟩
      intro v
      constructor
      · intro hv
        obtain ⟨k, hk⟩ := inv.dist v ((hvis v).mpr hv)
        exact hop_reach hk.1
      · intro hr
        rw [← hvis]
        apply reach_closed (fun x => x ∈ V) inv.start_in _ v hr
        intro x hx e he
        exact inv.closed x ((hvis x).mp hx) e he
    | cons u q =>
      rw [bfsLoop]
      obtain ⟨h1, h2, h3, h4⟩ := bfsScan_inv htargets (highlighted evs) u (g.adj.vec u) V q
        (fun e he => he) inv
      apply ih
      · rw [highlighted_append]
        exact bfsInv_next h1 h2
      · intro ev hev'
        rcases List.mem_append.mp hev' with h | h
        · exact hev ev h
        · simp only [List.mem_singleton] at h
          rw [h]; rfl
      · simp only [List.length_cons] at hf
        omega

theorem bfsInv_init (g : Graph) (start : Int) :
    BfsInv g start [] [start] (setInsert [] start) := by
  refine ⟨by simp, by simp [setInsert], ?_, by simp, ?_, by simp, by simp [setInsert]⟩
  · intro v hv
    simp only [setInsert, List.mem_singleton] at hv
    rw [hv]
    exact ⟨0, hopDist_start g start⟩
  · intro h hh x hx kh kx hkh hkx
    simp only [List.head?_cons, Option.some.injEq] at hh
    simp only [List.mem_singleton] at hx
    rw [← hh] at hkh
    rw [hx] at hkx
    have := hopDist_unique hkh hkx
    omega

end Graph

namespace Graph

/-! ## `bfs`: the order of discovery -/

theorem discover_congr :
    ∀ (ts seen1 seen2 : List Int), (∀ x, x ∈ seen1 ↔ x ∈ seen2) →
      discover seen1 ts = discover seen2 ts := by
  intro ts
  induction ts with
  | nil => intro _ _ _; rfl
  | cons t ts ih =>
    intro seen1 seen2 h
    rw [discover, discover]
    by_cases h1 : t ∈ seen1
    · rw [if_pos h1, if_pos ((h t).mp h1)]
      exact ih seen1 seen2 h
    · rw [if_neg h1, if_neg (fun h2 => h1 ((h t).mpr h2))]
      rw [ih (t :: seen1) (t :: seen2)]
      intro x
      simp only [List.mem_cons, h x]

theorem bfsScan_discover :
    ∀ (es : List Edge) (V q seen : List Int), (∀ x, x ∈ V ↔ x ∈ seen) →
      (bfsScan es V q).2 = q ++ discover seen (es.map fun e => e.target) ∧
      ∀ x, x ∈ (bfsScan es V q).1 ↔
        x ∈ V ∨ x ∈ discover seen (es.map fun e => e.target) := by
  intro es
  induction es with
  | nil => intro V q seen _; simp [bfsScan, discover]
  | cons e es ih =>
    intro V q seen h
    rw [bfsScan]
    simp only [List.map_cons, discover]
    by_cases h1 : e.target ∈ V
    · rw [if_pos h1, if_pos ((h _).mp h1)]
      exact ih V q seen h
    · rw [if_neg h1, if_neg (fun h2 => h1 ((h _).mpr h2))]
      obtain ⟨h2, h3⟩ := ih (setInsert V e.target) (q ++ [e.target]) (e.target :: seen)
        (fun x => by rw [mem_setInsert, List.mem_cons, h x])
      refine ⟨by rw [h2]; simp, ?_⟩
      intro x
      rw [h3, mem_setInsert, List.mem_cons]
      tauto

theorem bfsLoop_adjOrder (g : Graph) :
    ∀ (fuel : Nat) (q V : List Int) (evs out : List GEvent) (before : List Int),
      bfsLoop g fuel q V evs = Except.ok out → (∀ x, x ∈ V ↔ x ∈ before ∨ x ∈ q) →
      ∃ tail, out = evs ++ tail ∧
        ((q = [] ∧ tail = []) ∨
          ∃ u q' rest, q = u :: q' ∧ tail = GEvent.highlight u q' :: rest ∧
            AdjOrder g before tail) := by
  intro fuel
  induction fuel with
  | zero => intro q V evs out before h; simp [bfsLoop] at h
  | succ f ih =>
    intro q V evs out before h hV
    cases q with
    | nil =>
      simp only [bfsLoop, Except.ok.injEq] at h
      exact ⟨[], by simp [h], Or.inl ⟨rfl, rfl⟩⟩
    | cons u q =>
      rw [bfsLoop] at h
      have hseen : ∀ x, x ∈ V ↔ x ∈ before ++ u :: q := by
        intro x; rw [hV, List.mem_append]
      obtain ⟨hq, hV'⟩ := bfsScan_discover (g.adj.vec u) V q (before ++ u :: q) hseen
      obtain ⟨tail, ht, hcase⟩ := ih _ _ _ out (before ++ [u]) h (by
        intro x
        rw [hV' x, hq, hV]
        simp only [List.mem_cons, List.mem_append, List.mem_singleton]
        tauto)
      refine ⟨GEvent.highlight u q :: tail, by rw [ht]; simp, Or.inr ⟨u, q, tail, rfl, rfl, ?_⟩⟩
      rcases hcase with ⟨h1, h2⟩ | ⟨u', q', rest, h1, h2, h3⟩
      · subst h2
        rw [hq] at h1
        simp only [AdjOrder]
        exact h1
      · subst h2
        rw [hq] at h1
        simp only [AdjOrder]
        exact ⟨h1.symm, h3⟩

end Graph

/-- C16: on every graph state reached by a sequence of calls and every `start` in the node
set, `bfs(start)` returns; its events are `highlight` events followed by one `finished`
event; the highlighted nodes are pairwise distinct and are exactly the nodes reachable
from `start`; each has a hop distance and they come in non-decreasing hop distance from
`start`; and each queue
snapshot continues the previous one with the unvisited, unqueued neighbours of the visited
node in the order of its adjacency list.  On the graph built by `addEdge(1,2,5)`,
`addEdge(1,3,2)`, `addEdge(2,4,1)`, `bfs(1)` visits 1, 2, 3, 4. -/
theorem bfs_visit_order (ops : List Graph.Op) (start : Int) (fuel : Nat)
    (hs : start ∈ (Graph.run Graph.empty ops).nodes)
    (hf : 2 * Graph.size (Graph.run Graph.empty ops) + 1 < fuel) :
    (∃ evs, Graph.bfs (Graph.run Graph.empty ops) start fuel
        = Except.ok (evs ++ [GEvent.finished]) ∧
      (∀ ev ∈ evs, ∃ u q, ev = GEvent.highlight u q) ∧
      (Graph.highlighted evs).Nodup ∧
      (∀ v, v ∈ Graph.highlighted evs ↔ Graph.Reach (Graph.run Graph.empty ops) start v) ∧
      (∀ v, v ∈ Graph.highlighted evs →
        ∃ k, Graph.HopDist (Graph.run Graph.empty ops) start v k) ∧
      List.Pairwise (fun a b => ∀ ka kb,
        Graph.HopDist (Graph.run Graph.empty ops) start a ka →
        Graph.HopDist (Graph.run Graph.empty ops) start b kb → ka ≤ kb)
        (Graph.highlighted evs) ∧
      Graph.AdjOrder (Graph.run Graph.empty ops) [] evs) ∧
    Graph.bfs (Graph.run Graph.empty
        [Graph.Op.addEdge 1 2 5, Graph.Op.addEdge 1 3 2, Graph.Op.addEdge 2 4 1]) 1 10
      = Except.ok [GEvent.highlight 1 [], GEvent.highlight 2 [3],
          GEvent.highlight 3 [4], GEvent.highlight 4 [], GEvent.finished] := by
  refine ⟨?_, by decide⟩
  have hfuel : [start].length
      + 2 * Graph.pending (Graph.run Graph.empty ops) (Graph.setInsert [] start) < fuel := by
    have := Graph.pending_insert_le (Graph.run Graph.empty ops) [] start
    rw [Graph.pending_nil] at this
    simp only [List.length_singleton]
    omega
  obtain ⟨evs, h1, h2, h3, h4, h4', h5⟩ :=
    Graph.bfsLoop_correct (Graph.run Graph.empty ops) start (Graph.run_targets ops)
      fuel [start] (Graph.setInsert [] start) [] (Graph.bfsInv_init _ start) (by simp) hfuel
  obtain ⟨tail, ht, hcase⟩ := Graph.bfsLoop_adjOrder (Graph.run Graph.empty ops) fuel
    [start] (Graph.setInsert [] start) [] evs [] h1 (by simp [Graph.setInsert])
  simp only [List.nil_append] at ht
  refine ⟨evs, ?_, fun ev hev => (Graph.isHighlight_iff ev).mp (h2 ev hev), h3, h4, h4', h5, ?_⟩
  · simp only [Graph.bfs, hs, not_true_eq_false, if_false, h1]
  · rcases hcase with ⟨h, _⟩ | ⟨u, q', rest, _, _, h⟩
    · simp at h
    · rw [ht]; exact h

theorem bfs_visit_order_witness :
    ∃ evs, Graph.bfs (Graph.run Graph.empty
          [Graph.Op.addEdge 1 2 5, Graph.Op.addEdge 1 3 2, Graph.Op.addEdge 2 4 1]) 1 30
        = Except.ok (evs ++ [GEvent.finished]) ∧
      (∀ ev ∈ evs, ∃ u q, ev = GEvent.highlight u q) ∧
      (Graph.highlighted evs).Nodup ∧
      (∀ v, v ∈ Graph.highlighted evs ↔ Graph.Reach (Graph.run Graph.empty
          [Graph.Op.addEdge 1 2 5, Graph.Op.addEdge 1 3 2, Graph.Op.addEdge 2 4 1]) 1 v) ∧
      (∀ v, v ∈ Graph.highlighted evs → ∃ k, Graph.HopDist (Graph.run Graph.empty
          [Graph.Op.addEdge 1 2 5, Graph.Op.addEdge 1 3 2, Graph.Op.addEdge 2 4 1]) 1 v k) ∧
      List.Pairwise (fun a b => ∀ ka kb,
        Graph.HopDist (Graph.run Graph.empty
          [Graph.Op.addEdge 1 2 5, Graph.Op.addEdge 1 3 2, Graph.Op.addEdge 2 4 1]) 1 a ka →
        Graph.HopDist (Graph.run Graph.empty
          [Graph.Op.addEdge 1 2 5, Graph.Op.addEdge 1 3 2, Graph.Op.addEdge 2 4 1]) 1 b kb →
        ka ≤ kb) (Graph.highlighted evs) ∧
      Graph.AdjOrder (Graph.run Graph.empty
          [Graph.Op.addEdge 1 2 5, Graph.Op.addEdge 1 3 2, Graph.Op.addEdge 2 4 1]) [] evs :=
  (bfs_visit_order
    [Graph.Op.addEdge 1 2 5, Graph.Op.addEdge 1 3 2, Graph.Op.addEdge 2 4 1] 1 30
    (by decide) (by decide)).1

namespace Graph

/-! ## Weights of a reachable graph state -/

theorem wEdge_addNode (g : Graph) (id a b w : Int) :
    wEdge (addNode g id).1 a b w ↔ wEdge g a b w := by
  unfold wEdge
  rw [addNode_adj]

theorem wEdge_addEdge (g : Graph) (s t w0 a b w : Int) :
    wEdge (addEdge g s t w0).1 a b w ↔
      (((a = s ∧ b = t) ∨ (a = t ∧ b = s)) ∧ w = w0) ∨
      (¬ ((a = s ∧ b = t) ∨ (a = t ∧ b = s)) ∧ wEdge g a b w) := by
  unfold wEdge
  by_cases hst : s = t
  · subst hst
    rw [vec_addEdge_loop]
    by_cases has : a = s
    · subst has
      simp only [if_true, List.mem_append, mem_dropTarget, List.mem_singleton, Edge.mk.injEq]
      by_cases hb : b = a
      · subst hb; simp
      · simp [hb]
    · simp [has]
  · rw [vec_addEdge g s t w0 a hst]
    by_cases has : a = s
    · subst has
      simp only [if_true, List.mem_append, mem_dropTarget, List.mem_singleton, Edge.mk.injEq]
      by_cases hb : b = t
      · subst hb; simp
      · have : ¬ (a = t ∧ b = a) := fun h => hst h.1
        simp [hb, this]
    · by_cases hat : a = t
      · subst hat
        simp only [has, if_true, if_false, List.mem_append, mem_dropTarget, List.mem_singleton,
          Edge.mk.injEq]
        by_cases hb : b = s
        · subst hb; simp
        · simp [hb, has]
      · simp [has, hat]

theorem wEdge_removeNode (g : Graph) (id a b w : Int) (hid : id ∈ g.nodes) :
    wEdge (removeNode g id).1 a b w ↔ wEdge g a b w ∧ a ≠ id ∧ b ≠ id := by
  unfold wEdge removeNode
  simp only [hid, if_true, vec_del_mapVals]
  by_cases h : a = id
  · simp [h]
  · simp [h, mem_dropTarget]

theorem wEdge_removeEdge (g : Graph) (s t a b w : Int) :
    wEdge (removeEdge g s t).1 a b w ↔
      wEdge g a b w ∧ ¬ (a = s ∧ b = t) ∧ ¬ (a = t ∧ b = s) := by
  unfold wEdge removeEdge
  simp only [IntMap.vec_put]
  by_cases has : a = s <;> by_cases hat : a = t <;> by_cases hbs : b = s <;>
    by_cases hbt : b = t <;>
    simp [has, hat, hbs, hbt, mem_dropTarget] <;> (try subst_vars) <;>
    (try simp_all [mem_dropTarget])

theorem wEdge_empty (a b w : Int) : ¬ wEdge Graph.empty a b w := by
  simp [wEdge, Graph.empty, IntMap.vec, IntMap.lookup?]

theorem undirected_step (g : Graph) (op : Op) (h : Undirected g) :
    Undirected (step g op).1 := by
  obtain ⟨hf, hs⟩ := h
  cases op with
  | addNode id =>
    constructor
    · intro a b w1 w2 h1 h2
      simp only [step, wEdge_addNode] at h1 h2
      exact hf a b w1 w2 h1 h2
    · intro a b w h1
      simp only [step, wEdge_addNode] at h1 ⊢
      exact hs a b w h1
  | addEdge s t w0 =>
    constructor
    · intro a b w1 w2 h1 h2
      simp only [step, wEdge_addEdge] at h1 h2
      rcases h1 with ⟨hp1, h1⟩ | ⟨hn1, h1⟩ <;> rcases h2 with ⟨hp2, h2⟩ | ⟨hn2, h2⟩
      · rw [h1, h2]
      · exact absurd hp1 hn2
      · exact absurd hp2 hn1
      · exact hf a b w1 w2 h1 h2
    · intro a b w h1
      simp only [step, wEdge_addEdge] at h1 ⊢
      rcases h1 with ⟨hp, h1⟩ | ⟨hn, h1⟩
      · exact Or.inl ⟨by tauto, h1⟩
      · exact Or.inr ⟨by tauto, hs a b w h1⟩
  | removeNode id =>
    by_cases hid : id ∈ g.nodes
    · constructor
      · intro a b w1 w2 h1 h2
        simp only [step, wEdge_removeNode g id _ _ _ hid] at h1 h2
        exact hf a b w1 w2 h1.1 h2.1
      · intro a b w h1
        simp only [step, wEdge_removeNode g id _ _ _ hid] at h1 ⊢
        exact ⟨hs a b w h1.1, h1.2.2, h1.2.1⟩
    · simp only [step, removeNode_absent g id hid]
      exact ⟨hf, hs⟩
  | removeEdge s t =>
    constructor
    · intro a b w1 w2 h1 h2
      simp only [step, wEdge_removeEdge] at h1 h2
      exact hf a b w1 w2 h1.1 h2.1
    · intro a b w h1
      simp only [step, wEdge_removeEdge] at h1 ⊢
      exact ⟨hs a b w h1.1, by tauto, by tauto⟩
  | clearGraph =>
    constructor
    · intro a b w1 w2 h1
      exact absurd h1 (wEdge_empty a b w1)
    · intro a b w h1
      exact absurd h1 (wEdge_empty a b w)

theorem undirected_run (ops : List Op) :
    ∀ g : Graph, Undirected g → Undirected (run g ops) := by
  induction ops with
  | nil => intro g h; exact h
  | cons op ops ih =>
    intro g h
    exact ih (step g op).1 (undirected_step g op h)

theorem undirected_reachable (ops : List Op) : Undirected (run Graph.empty ops) :=
  undirected_run ops Graph.empty
    ⟨fun a b w1 _ h => absurd h (wEdge_empty a b w1), fun a b w h => absurd h (wEdge_empty a b w)⟩

theorem wEdge_of_mem {g : Graph} {a : Int} {e : Edge} (he : e ∈ g.adj.vec a) :
    wEdge g a e.target e.weight := by
  unfold wEdge
  rw [edge_eta]
  exact he

/-- The function `edgeWeight` reads the weight of an entry, whichever entry of the pair
it is. -/
theorem edgeWeight_eq {g : Graph} (hu : Undirected g) {a b w : Int} (h : wEdge g a b w) :
    edgeWeight g a b = w := by
  unfold edgeWeight
  cases hf : (g.adj.vec a).find? (fun e => decide (e.target = b)) with
  | none =>
    have := List.find?_eq_none.mp hf _ h
    simp at this
  | some e =>
    have hmem : e ∈ g.adj.vec a := List.mem_of_find?_eq_some hf
    have ht : e.target = b := by
      have := List.find?_some hf
      simpa using this
    have h1 := wEdge_of_mem hmem
    rw [ht] at h1
    exact hu.functional a b _ _ h1 h

theorem edgeWeight_symm {g : Graph} (hu : Undirected g) {a b : Int} (h : hasEdge g a b) :
    edgeWeight g a b = edgeWeight g b a := by
  obtain ⟨e, he, ht⟩ := h
  have h1 := wEdge_of_mem he
  rw [ht] at h1
  rw [edgeWeight_eq hu h1, edgeWeight_eq hu (hu.symm a b _ h1)]

theorem hasEdge_symm {g : Graph} (hu : Undirected g) {a b : Int} (h : hasEdge g a b) :
    hasEdge g b a := by
  obtain ⟨e, he, ht⟩ := h
  have h1 := wEdge_of_mem he
  rw [ht] at h1
  exact ⟨_, hu.symm a b _ h1, rfl⟩

end Graph

namespace Graph

/-! ## Rooted spanning trees -/

theorem rooted_zero {g : Graph} {start : Int} {P : Int → Int} {v : Int}
    (h : Rooted g start P v 0) : v = start := by
  cases h; rfl

theorem rooted_succ {g : Graph} {start : Int} {P : Int → Int} {v : Int} {d : Nat}
    (h : Rooted g start P v (d + 1)) :
    v ≠ start ∧ hasEdge g (P v) v ∧ Rooted g start P (P v) d := by
  cases h with
  | step h1 h2 h3 => exact ⟨h1, h2, h3⟩

theorem rooted_depth_unique {g : Graph} {start : Int} {P : Int → Int} :
    ∀ (d1 d2 : Nat) (v : Int), Rooted g start P v d1 → Rooted g start P v d2 → d1 = d2 := by
  intro d1
  induction d1 with
  | zero =>
    intro d2 v h1 h2
    have hv := rooted_zero h1
    cases d2 with
    | zero => rfl
    | succ n => exact absurd hv (rooted_succ h2).1
  | succ n ih =>
    intro d2 v h1 h2
    obtain ⟨hne, _, h3⟩ := rooted_succ h1
    cases d2 with
    | zero => exact absurd (rooted_zero h2) hne
    | succ m =>
      have := ih m (P v) h3 (rooted_succ h2).2.2
      omega

theorem rooted_iterate {g : Graph} {start : Int} {P : Int → Int} {v : Int} {d : Nat}
    (h : Rooted g start P v d) :
    ∀ j, j ≤ d → Rooted g start P (Nat.iterate P j v) (d - j) := by
  intro j
  induction j with
  | zero => intro _; exact h
  | succ n ih =>
    intro hj
    have h1 := ih (by omega)
    have h2 : d - n = (d - (n + 1)) + 1 := by omega
    rw [h2] at h1
    rw [Function.iterate_succ_apply']
    exact (rooted_succ h1).2.2

theorem rooted_reach {g : Graph} {start : Int} {P : Int → Int} :
    ∀ (d : Nat) (v : Int), Rooted g start P v d → Reach g start v := by
  intro d
  induction d with
  | zero => intro v h; rw [rooted_zero h]; exact reach_start g start
  | succ n ih =>
    intro v h
    obtain ⟨_, ⟨e, he, ht⟩, h3⟩ := rooted_succ h
    rw [← ht]
    exact reach_step (ih _ h3) he

theorem rooted_distinct {g : Graph} {start : Int} {P : Int → Int} {u : Int} {d : Nat}
    (h : Rooted g start P u d) {m1 m2 : Nat} (h12 : m1 < m2) (h2 : m2 ≤ d) :
    Nat.iterate P m1 u ≠ Nat.iterate P m2 u := by
  intro heq
  have a := rooted_iterate h m1 (by omega)
  have b := rooted_iterate h m2 h2
  rw [heq] at a
  have := rooted_depth_unique _ _ _ a b
  omega

/-- Walking up from a node outside `V`, the parent links enter `V`, which holds `start`. -/
theorem first_crossing {g : Graph} {start : Int} {P : Int → Int} (V : List Int)
    (hstart : start ∈ V) :
    ∀ (d : Nat) (u : Int), Rooted g start P u d → u ∉ V →
      ∃ i, i < d ∧ (∀ m, m ≤ i → Nat.iterate P m u ∉ V) ∧ Nat.iterate P (i + 1) u ∈ V := by
  intro d
  induction d with
  | zero =>
    intro u h hu
    rw [rooted_zero h] at hu
    exact absurd hstart hu
  | succ n ih =>
    intro u h hu
    obtain ⟨_, _, h3⟩ := rooted_succ h
    by_cases hp : P u ∈ V
    · refine ⟨0, by omega, ?_, by simpa using hp⟩
      intro m hm
      have : m = 0 := by omega
      subst this
      simpa using hu
    · obtain ⟨i, hi, h4, h5⟩ := ih (P u) h3 hp
      refine ⟨i + 1, by omega, ?_, ?_⟩
      · intro m hm
        cases m with
        | zero => simpa using hu
        | succ k =>
          rw [Function.iterate_succ_apply]
          exact h4 k (by omega)
      · rw [Function.iterate_succ_apply]
        exact h5

/-! ## Turning the links of a chain around -/

theorem rewire_other (P : Int → Int) (u p : Int) :
    ∀ (j : Nat) (v : Int), (∀ m, m ≤ j → v ≠ Nat.iterate P m u) → rewire P u p j v = P v := by
  intro j
  induction j with
  | zero =>
    intro v h
    have := h 0 (le_refl _)
    simp only [Function.iterate_zero, id_eq] at this
    simp only [rewire, this, if_false]
  | succ n ih =>
    intro v h
    rw [rewire, if_neg (h (n + 1) (le_refl _))]
    exact ih v (fun m hm => h m (by omega))

theorem rewire_head {g : Graph} {start : Int} {P : Int → Int} {u : Int} {d : Nat}
    (h : Rooted g start P u d) (p : Int) :
    ∀ (j : Nat), j ≤ d → rewire P u p j u = p := by
  intro j
  induction j with
  | zero => intro _; simp [rewire]
  | succ n ih =>
    intro hj
    have hne : u ≠ Nat.iterate P (n + 1) u := by
      have := rooted_distinct h (Nat.succ_pos n) hj
      simpa using this
    rw [rewire, if_neg hne]
    exact ih (by omega)

theorem rewire_link {g : Graph} {start : Int} {P : Int → Int} {u : Int} {d : Nat}
    (h : Rooted g start P u d) (p : Int) :
    ∀ (j : Nat), j ≤ d → ∀ m, m < j →
      rewire P u p j (Nat.iterate P (m + 1) u) = Nat.iterate P m u := by
  intro j
  induction j with
  | zero => intro _ m hm; omega
  | succ n ih =>
    intro hj m hm
    rw [rewire]
    by_cases hmn : m = n
    · subst hmn
      rw [if_pos rfl]
    · have hne : Nat.iterate P (m + 1) u ≠ Nat.iterate P (n + 1) u :=
        rooted_distinct h (by omega) hj
      rw [if_neg hne]
      exact ih (by omega) m (by omega)

end Graph

namespace Graph

/-! ## The rewired links form a spanning tree again -/

theorem rewire_rooted_inside {g : Graph} {start : Int} {P : Int → Int} (V : List Int)
    (hcl : ∀ v, v ∈ V → v ≠ start → P v ∈ V) (u p : Int) (i : Nat)
    (hout : ∀ m, m ≤ i → Nat.iterate P m u ∉ V) :
    ∀ (d : Nat) (v : Int), Rooted g start P v d → v ∈ V →
      Rooted g start (rewire P u p i) v d := by
  intro d
  induction d with
  | zero =>
    intro v h _
    rw [rooted_zero h]
    exact Rooted.root
  | succ n ih =>
    intro v h hv
    obtain ⟨hne, hedge, h3⟩ := rooted_succ h
    have hQ : rewire P u p i v = P v := by
      apply rewire_other
      intro m hm heq
      rw [heq] at hv
      exact hout m hm hv
    have h4 := ih (P v) h3 (hcl v hv hne)
    rw [← hQ] at h4 hedge
    exact Rooted.step hne hedge h4

theorem rewire_rooted_chain {g : Graph} {start : Int} {P : Int → Int} (hg : Undirected g)
    (V : List Int) (hstart : start ∈ V) (hcl : ∀ v, v ∈ V → v ≠ start → P v ∈ V)
    {u p : Int} {d dp i : Nat} (hroot : Rooted g start P u d) (hi : i < d)
    (hout : ∀ m, m ≤ i → Nat.iterate P m u ∉ V) (hp : p ∈ V) (hpr : Rooted g start P p dp)
    (hedge : hasEdge g p u) :
    ∀ m, m ≤ i → ∃ d', Rooted g start (rewire P u p i) (Nat.iterate P m u) d' := by
  intro m
  induction m with
  | zero =>
    intro _
    have hne : u ≠ start := by
      intro h
      have := hout 0 (Nat.zero_le _)
      simp only [Function.iterate_zero, id_eq] at this
      rw [h] at this
      exact this hstart
    have hQ : rewire P u p i u = p := rewire_head hroot p i (by omega)
    have h1 : Rooted g start (rewire P u p i) (rewire P u p i u) dp := by
      rw [hQ]; exact rewire_rooted_inside V hcl u p i hout dp p hpr hp
    have h2 : hasEdge g (rewire P u p i u) u := by rw [hQ]; exact hedge
    exact ⟨dp + 1, Rooted.step hne h2 h1⟩
  | succ n ih =>
    intro hm
    obtain ⟨d', h1⟩ := ih (by omega)
    have hne : Nat.iterate P (n + 1) u ≠ start := by
      intro h
      have := hout (n + 1) hm
      rw [h] at this
      exact this hstart
    have hQ : rewire P u p i (Nat.iterate P (n + 1) u) = Nat.iterate P n u :=
      rewire_link hroot p i (by omega) n (by omega)
    have h2 := rooted_iterate hroot n (by omega)
    have h3 : d - n = (d - (n + 1)) + 1 := by omega
    rw [h3] at h2
    have h4 := (rooted_succ h2).2.1
    rw [← Function.iterate_succ_apply' P n u] at h4
    have h5 := hasEdge_symm hg h4
    rw [← hQ] at h1 h5
    exact ⟨d' + 1, Rooted.step hne h5 h1⟩

theorem rewire_spanning {g : Graph} {start : Int} {P : Int → Int} (hg : Undirected g)
    (V : List Int) (hstart : start ∈ V) (hcl : ∀ v, v ∈ V → v ≠ start → P v ∈ V)
    {u p : Int} {d dp i : Nat} (hroot : Rooted g start P u d) (hi : i < d)
    (hout : ∀ m, m ≤ i → Nat.iterate P m u ∉ V) (hp : p ∈ V) (hpr : Rooted g start P p dp)
    (hedge : hasEdge g p u) (hsp : IsSpanningTree g start P) :
    IsSpanningTree g start (rewire P u p i) := by
  have key : ∀ (n : Nat) (v : Int), Rooted g start P v n →
      ∃ d', Rooted g start (rewire P u p i) v d' := by
    intro n
    induction n with
    | zero =>
      intro v h
      rw [rooted_zero h]
      exact ⟨0, Rooted.root⟩
    | succ n ih =>
      intro v h
      by_cases hx : ∃ m, m ≤ i ∧ v = Nat.iterate P m u
      · obtain ⟨m, hm, rfl⟩ := hx
        exact rewire_rooted_chain hg V hstart hcl hroot hi hout hp hpr hedge m hm
      · obtain ⟨hne, hedge', h3⟩ := rooted_succ h
        have hQ : rewire P u p i v = P v := by
          apply rewire_other
          intro m hm heq
          exact hx ⟨m, hm, heq⟩
        obtain ⟨d', h4⟩ := ih (P v) h3
        rw [← hQ] at h4 hedge'
        exact ⟨d' + 1, Rooted.step hne hedge' h4⟩
  intro v hv
  obtain ⟨n, hn⟩ := hsp v hv
  exact key n v hn

/-! ## The weight of the rewired tree -/

theorem treeWeight_override (g : Graph) (Q Q' : Int → Int) (a b : Int)
    (hQ : ∀ v, Q' v = if v = a then b else Q v) :
    ∀ (R : List Int), R.Nodup →
      (a ∈ R → treeWeight g Q' R + edgeWeight g (Q a) a = treeWeight g Q R + edgeWeight g b a) ∧
      (a ∉ R → treeWeight g Q' R = treeWeight g Q R) := by
  intro R
  induction R with
  | nil => intro _; simp [treeWeight]
  | cons x xs ih =>
    intro hnd
    obtain ⟨hx, hxs⟩ := List.nodup_cons.mp hnd
    obtain ⟨ih1, ih2⟩ := ih hxs
    have hcons : ∀ F : Int → Int, treeWeight g F (x :: xs)
        = edgeWeight g (F x) x + treeWeight g F xs := by
      intro F; simp [treeWeight]
    constructor
    · intro ha
      rw [hcons, hcons]
      by_cases hxa : x = a
      · subst hxa
        have := ih2 hx
        rw [hQ x, if_pos rfl, this]
        omega
      · have ha' : a ∈ xs := by
          rcases List.mem_cons.mp ha with h | h
          · exact absurd h.symm hxa
          · exact h
        have := ih1 ha'
        rw [hQ x, if_neg hxa]
        omega
    · intro ha
      rw [hcons, hcons]
      have hxa : x ≠ a := fun h => ha (by rw [h]; exact List.mem_cons_self _ _)
      have := ih2 (fun h => ha (List.mem_cons_of_mem _ h))
      rw [hQ x, if_neg hxa, this]

theorem rewire_weight {g : Graph} {start : Int} {P : Int → Int} (hg : Undirected g)
    {u : Int} (p : Int) {d i : Nat} (hroot : Rooted g start P u d) (hi : i < d)
    (R : List Int) (hR : R.Nodup) (hmem : ∀ m, m ≤ i → Nat.iterate P m u ∈ R) :
    ∀ j, j ≤ i →
      treeWeight g (rewire P u p j) R
          + edgeWeight g (Nat.iterate P (j + 1) u) (Nat.iterate P j u)
        = treeWeight g P R + edgeWeight g p u := by
  intro j
  induction j with
  | zero =>
    intro _
    have h1 := (treeWeight_override g P (rewire P u p 0) u p (fun v => rfl) R hR).1
      (by simpa using hmem 0 (Nat.zero_le _))
    simpa using h1
  | succ n ih =>
    intro hj
    have h0 := ih (by omega)
    have h1 := (treeWeight_override g (rewire P u p n) (rewire P u p (n + 1))
      (Nat.iterate P (n + 1) u) (Nat.iterate P n u) (fun v => rfl) R hR).1 (hmem (n + 1) hj)
    have h2 : rewire P u p n (Nat.iterate P (n + 1) u) = Nat.iterate P (n + 1 + 1) u := by
      rw [rewire_other P u p n, ← Function.iterate_succ_apply' P (n + 1) u]
      intro m hm
      exact Ne.symm (rooted_distinct hroot (by omega) (by omega))
    rw [h2] at h1
    have h3 := rooted_iterate hroot n (by omega)
    have h4 : d - n = (d - (n + 1)) + 1 := by omega
    rw [h4] at h3
    have h5 := (rooted_succ h3).2.1
    rw [← Function.iterate_succ_apply' P n u] at h5
    have h5' : hasEdge g (Nat.iterate P (n + 1) u) (Nat.iterate P n u) := h5
    have h6 := edgeWeight_symm hg h5'
    omega

/-- The exchange step of the minimality proof.  `V` holds `start` and is closed under the
parent links of the spanning tree `P`; the entry from `p ∈ V` to `u ∉ V` weighs no more
than any entry leaving `V`.  Then some spanning tree hangs `u` from `p`, agrees with `P`
on `V`, and weighs no more than `P`. -/
theorem exchange {g : Graph} {start : Int} (hg : Undirected g) (V R : List Int)
    (hR : R.Nodup) (hRm : ∀ v, v ∈ R ↔ Reach g start v ∧ v ≠ start)
    (P : Int → Int) (hsp : IsSpanningTree g start P) (hstart : start ∈ V)
    (hVr : ∀ v, v ∈ V → Reach g start v) (hcl : ∀ v, v ∈ V → v ≠ start → P v ∈ V)
    (p u w : Int) (hp : p ∈ V) (hu : u ∉ V) (hedge : wEdge g p u w)
    (hmin : ∀ a, a ∈ V → ∀ e, e ∈ g.adj.vec a → e.target ∉ V → w ≤ e.weight) :
    ∃ Q, IsSpanningTree g start Q ∧ Q u = p ∧ (∀ v, v ∈ V → Q v = P v) ∧
      treeWeight g Q R ≤ treeWeight g P R := by
  have hpu : hasEdge g p u := ⟨_, hedge, rfl⟩
  have hur : Reach g start u := by
    have := reach_step (hVr p hp) hedge
    exact this
  obtain ⟨d, hroot⟩ := hsp u hur
  obtain ⟨dp, hpr⟩ := hsp p (hVr p hp)
  obtain ⟨i, hi, hout, hin⟩ := first_crossing V hstart d u hroot hu
  refine ⟨rewire P u p i, rewire_spanning hg V hstart hcl hroot hi hout hp hpr hpu hsp,
    rewire_head hroot p i (by omega), ?_, ?_⟩
  · intro v hv
    apply rewire_other
    intro m hm heq
    rw [heq] at hv
    exact hout m hm hv
  · have hmem : ∀ m, m ≤ i → Nat.iterate P m u ∈ R := by
      intro m hm
      rw [hRm]
      refine ⟨rooted_reach _ _ (rooted_iterate hroot m (by omega)), ?_⟩
      intro h
      have := hout m hm
      rw [h] at this
      exact this hstart
    have h1 := rewire_weight hg p hroot hi R hR hmem i (le_refl _)
    have h2 := rooted_iterate hroot i (by omega)
    have h3 : d - i = (d - (i + 1)) + 1 := by omega
    rw [h3] at h2
    obtain ⟨e, he, het⟩ := (rooted_succ h2).2.1
    rw [← Function.iterate_succ_apply' P i u] at he
    have h4 := hmin _ hin e he (by rw [het]; exact hout i (le_refl _))
    have h5 := wEdge_of_mem he
    rw [het] at h5
    have h6 : edgeWeight g (Nat.iterate P (i + 1) u) (Nat.iterate P i u) = e.weight :=
      edgeWeight_eq hg h5
    have h7 := edgeWeight_eq hg hedge
    omega

end Graph

namespace Graph

/-! ## `prim`: minimality -/

theorem mem_mstTargets {evs : List GEvent} {v : Int} (h : v ∈ mstTargets evs) :
    ∃ e, e ∈ mstEdges evs ∧ e.2 = v := by
  unfold mstTargets at h
  obtain ⟨e, he, hv⟩ := List.mem_map.mp h
  exact ⟨e, he, hv⟩

/-- Accepting the cheapest entry that leaves the visited set keeps `MinInv`. -/
theorem minInv_accept {g : Graph} {start : Int} (hg : Undirected g) (R : List Int)
    (hR : R.Nodup) (hRm : ∀ v, v ∈ R ↔ Reach g start v ∧ v ≠ start)
    {pq pq' : List (Int × Int × Int)} {V : List Int} {evs : List GEvent} {w u p : Int}
    (inv : PrimInv g start pq V evs) (hmin : MinInv g start R evs)
    (hpop : popMinTriple pq = some ((w, u, p), pq')) (hu : u ∉ V) :
    MinInv g start R (evs ++ [GEvent.mst_edge p u]) := by
  intro par hpar
  obtain ⟨P, hP, hagree, hle⟩ := hmin par hpar
  obtain ⟨hmem, _, hleast, _⟩ := popMinTriple_some hpop
  obtain ⟨hpV, hedge⟩ := inv.queue w u p hmem
  have hstart : start ∈ V := (inv.vis start).mpr (Or.inl rfl)
  have hcl : ∀ v, v ∈ V → v ≠ start → P v ∈ V := by
    intro v hv hne
    rcases (inv.vis v).mp hv with h | h
    · exact absurd h hne
    · obtain ⟨e, he, rfl⟩ := mem_mstTargets h
      rw [hagree e he]
      exact inv.sources e he
  have hcheap : ∀ a, a ∈ V → ∀ e, e ∈ g.adj.vec a → e.target ∉ V → w ≤ e.weight := by
    intro a ha e he het
    exact hleast _ (inv.crossing a ha e he het)
  obtain ⟨Q, hQ, hQu, hQV, hQle⟩ :=
    exchange hg V R hR hRm P hP hstart inv.reach hcl p u w hpV hu hedge hcheap
  refine ⟨Q, hQ, ?_, le_trans hQle hle⟩
  intro e he
  rw [mstEdges_append] at he
  rcases List.mem_append.mp he with h | h
  · have hV : e.2 ∈ V := (inv.vis e.2).mpr (Or.inr (List.mem_map_of_mem _ h))
    rw [hQV e.2 hV]
    exact hagree e h
  · simp only [List.mem_singleton] at h
    rw [h]
    exact hQu

theorem mstWeight_eq (g : Graph) (P : Int → Int) :
    ∀ (es : List (Int × Int)), (∀ e, e ∈ es → P e.2 = e.1) →
      (es.map fun e => edgeWeight g e.1 e.2).sum = treeWeight g P (es.map Prod.snd) := by
  intro es
  induction es with
  | nil => intro _; simp [treeWeight]
  | cons e es ih =>
    intro h
    have h1 := ih (fun e' he' => h e' (List.mem_cons_of_mem _ he'))
    have h2 := h e (List.mem_cons_self _ _)
    simp only [List.map_cons, List.sum_cons, treeWeight] at h1 ⊢
    rw [h1, h2]

theorem treeWeight_perm (g : Graph) (P : Int → Int) {R1 R2 : List Int} (h : R1.Perm R2) :
    treeWeight g P R1 = treeWeight g P R2 := by
  unfold treeWeight
  exact (h.map _).sum_eq

/-! ### The emitted edges are themselves a spanning tree -/

theorem mstParent_edge {g : Graph} {start : Int} {pq : List (Int × Int × Int)}
    {V : List Int} {evs : List GEvent} (inv : PrimInv g start pq V evs) :
    ∀ e, e ∈ mstEdges evs → mstParent evs start e.2 = e.1 := by
  intro e he
  have hnd : ((mstEdges evs).map Prod.snd).Nodup := (List.nodup_cons.mp inv.nodup).2
  unfold mstParent
  cases hf : (mstEdges evs).find? (fun e' => decide (e'.2 = e.2)) with
  | none =>
    have := List.find?_eq_none.mp hf e he
    simp at this
  | some e' =>
    have hmem : e' ∈ mstEdges evs := List.mem_of_find?_eq_some hf
    have ht : e'.2 = e.2 := by
      have := List.find?_some hf
      simpa using this
    have := List.inj_on_of_nodup_map hnd hmem he ht
    rw [this]

theorem mstEdges_mem_append :
    ∀ (a b : List GEvent) (e : Int × Int), e ∈ mstEdges a → e ∈ mstEdges (a ++ b) := by
  intro a
  induction a with
  | nil => intro b e he; simp [mstEdges] at he
  | cons x xs ih =>
    intro b e he
    cases x <;> simp only [mstEdges, List.cons_append, List.mem_cons] at he ⊢ <;>
      first
      | exact ih b e he
      | (rcases he with h1 | h1
         · exact Or.inl h1
         · exact Or.inr (ih b e h1))

theorem mstTargets_prefix {pre evs : List GEvent} (h : pre <+: evs) :
    ∀ v, v ∈ mstTargets pre → v ∈ mstTargets evs := by
  obtain ⟨suf, rfl⟩ := h
  intro v hv
  obtain ⟨e, he, hev⟩ := mem_mstTargets hv
  rw [← hev]
  exact List.mem_map_of_mem _ (mstEdges_mem_append pre suf e he)

theorem mstParent_rooted {g : Graph} {start : Int} {pq : List (Int × Int × Int)}
    {V : List Int} {evs : List GEvent} (inv : PrimInv g start pq V evs) :
    ∀ (pre : List GEvent), pre <+: evs →
      ∀ v, v ∈ mstTargets pre → ∃ d, Rooted g start (mstParent evs start) v d := by
  intro pre
  induction pre using List.reverseRecOn with
  | nil => intro _ v hv; simp [mstTargets, mstEdges] at hv
  | append_singleton pre ev ih =>
    intro hpre v hv
    have hpre' : pre <+: evs := List.IsPrefix.trans (List.prefix_append pre [ev]) hpre
    have hev : ev ∈ evs := hpre.subset (by simp)
    obtain ⟨s, t, rfl⟩ := (isMstEdge_iff ev).mp (inv.events ev hev)
    rw [mstTargets_append] at hv
    rcases List.mem_append.mp hv with h | h
    · exact ih hpre' v h
    · simp only [List.mem_singleton] at h
      subst h
      obtain ⟨hedge, hsrc⟩ := inv.edges pre s v hpre
      have hmem : (s, v) ∈ mstEdges evs := by
        obtain ⟨suf, rfl⟩ := hpre
        have : (s, v) ∈ mstEdges (pre ++ [GEvent.mst_edge s v]) := by
          rw [mstEdges_append]; simp
        exact mstEdges_mem_append _ suf _ this
      have hpar : mstParent evs start v = s := mstParent_edge inv (s, v) hmem
      have hne : v ≠ start := by
        intro h
        have h1 : v ∈ mstTargets evs := List.mem_map_of_mem Prod.snd hmem
        rw [h] at h1
        exact (List.nodup_cons.mp inv.nodup).1 h1
      have hs : ∃ d, Rooted g start (mstParent evs start) s d := by
        rcases hsrc with h | h
        · rw [h]; exact ⟨0, Rooted.root⟩
        · exact ih hpre' s h
      obtain ⟨d, hd⟩ := hs
      have h1 : Rooted g start (mstParent evs start) (mstParent evs start v) d := by
        rw [hpar]; exact hd
      have h2 : hasEdge g (mstParent evs start v) v := by rw [hpar]; exact hedge
      exact ⟨d + 1, Rooted.step hne h2 h1⟩

theorem mstParent_spanning {g : Graph} {start : Int} {V : List Int} {evs : List GEvent}
    (inv : PrimInv g start [] V evs) : IsSpanningTree g start (mstParent evs start) := by
  intro v hv
  rcases (primInv_final inv v).mpr hv with h | h
  · rw [h]; exact ⟨0, Rooted.root⟩
  · exact mstParent_rooted inv evs (List.prefix_refl _) v h

end Graph

/-- C15: on every graph state reached by a sequence of calls in which -1 is not a node id,
and every `start` in the node set, `prim(start)` returns and the sum of the graph weights
of the emitted edges is at most the total weight of every spanning tree of the component
of `start`.  A spanning tree is given rooted at `start` by the parent `par v` of each
node: every node of the component is linked to `start` through parent links that are
adjacency entries; its total weight is the sum, over the nodes `R` of the component other
than `start`, of the weight of the edge between the node and its parent.  The emitted
edges are themselves such a spanning tree, of that very weight. -/
theorem prim_minimal (ops : List Graph.Op) (start : Int) (fuel : Nat)
    (hs : start ∈ (Graph.run Graph.empty ops).nodes)
    (hneg : (-1 : Int) ∉ (Graph.run Graph.empty ops).nodes)
    (hf : Graph.size (Graph.run Graph.empty ops) + 1 < fuel) :
    ∃ evs, Graph.prim (Graph.run Graph.empty ops) start fuel
        = Except.ok (evs ++ [GEvent.finished]) ∧
      (∀ (par : Int → Int) (R : List Int),
        Graph.IsSpanningTree (Graph.run Graph.empty ops) start par → R.Nodup →
        (∀ v, v ∈ R ↔ Graph.Reach (Graph.run Graph.empty ops) start v ∧ v ≠ start) →
        Graph.mstWeight (Graph.run Graph.empty ops) (evs ++ [GEvent.finished])
          ≤ Graph.treeWeight (Graph.run Graph.empty ops) par R) ∧
      Graph.IsSpanningTree (Graph.run Graph.empty ops) start (Graph.mstParent evs start) ∧
      (∀ R : List Int, R.Nodup →
        (∀ v, v ∈ R ↔ Graph.Reach (Graph.run Graph.empty ops) start v ∧ v ≠ start) →
        Graph.treeWeight (Graph.run Graph.empty ops) (Graph.mstParent evs start) R
          = Graph.mstWeight (Graph.run Graph.empty ops) (evs ++ [GEvent.finished])) := by
  have hg := Graph.undirected_reachable ops
  obtain ⟨evs, V, h1, inv, hJ⟩ := Graph.prim_run (Graph.run Graph.empty ops) start fuel
    (Graph.run_targets ops) hneg hs hf
    (fun evs => ∀ R : List Int, R.Nodup →
      (∀ v, v ∈ R ↔ Graph.Reach (Graph.run Graph.empty ops) start v ∧ v ≠ start) →
      Graph.MinInv (Graph.run Graph.empty ops) start R evs)
    (fun pq pq' V evs w u p inv hj hpop hu R hR hRm =>
      Graph.minInv_accept hg R hR hRm inv (hj R hR hRm) hpop hu)
    (fun R _ _ par hpar => ⟨par, hpar, by simp [Graph.mstEdges], le_refl _⟩)
  have hfin := Graph.primInv_final inv
  have hnd := List.nodup_cons.mp inv.nodup
  have hperm : ∀ R : List Int, R.Nodup →
      (∀ v, v ∈ R ↔ Graph.Reach (Graph.run Graph.empty ops) start v ∧ v ≠ start) →
      (Graph.mstTargets evs).Perm R := by
    intro R hR hRm
    rw [List.perm_ext_iff_of_nodup hnd.2 hR]
    intro v
    rw [hRm, ← hfin v]
    constructor
    · intro h
      refine ⟨Or.inr h, ?_⟩
      intro hv
      rw [hv] at h
      exact hnd.1 h
    · rintro ⟨h | h, hne⟩
      · exact absurd h hne
      · exact h
  have hw : ∀ (P : Int → Int) (R : List Int), (∀ e, e ∈ Graph.mstEdges evs → P e.2 = e.1) →
      R.Nodup →
      (∀ v, v ∈ R ↔ Graph.Reach (Graph.run Graph.empty ops) start v ∧ v ≠ start) →
      Graph.mstWeight (Graph.run Graph.empty ops) (evs ++ [GEvent.finished])
        = Graph.treeWeight (Graph.run Graph.empty ops) P R := by
    intro P R hagree hR hRm
    unfold Graph.mstWeight
    rw [Graph.mstEdges_finished, Graph.mstWeight_eq _ P _ hagree]
    exact Graph.treeWeight_perm _ P (hperm R hR hRm)
  refine ⟨evs, h1, ?_, Graph.mstParent_spanning inv, ?_⟩
  · intro par R hpar hR hRm
    obtain ⟨P, _, hagree, hle⟩ := hJ R hR hRm par hpar
    rw [hw P R hagree hR hRm]
    exact hle
  · intro R hR hRm
    exact (hw _ R (Graph.mstParent_edge inv) hR hRm).symm

theorem prim_minimal_witness :
    ∃ evs, Graph.prim (Graph.run Graph.empty
          [Graph.Op.addEdge 1 5 3, Graph.Op.addEdge 5 6 1, Graph.Op.addEdge 1 6 1]) 1 20
        = Except.ok (evs ++ [GEvent.finished]) ∧
      Graph.IsSpanningTree (Graph.run Graph.empty
          [Graph.Op.addEdge 1 5 3, Graph.Op.addEdge 5 6 1, Graph.Op.addEdge 1 6 1]) 1
        (Graph.mstParent evs 1) := by
  obtain ⟨evs, h1, _, h3, _⟩ := prim_minimal
    [Graph.Op.addEdge 1 5 3, Graph.Op.addEdge 5 6 1, Graph.Op.addEdge 1 6 1] 1 20
    (by decide) (by decide) (by decide)
  exact ⟨evs, h1, h3⟩

namespace Graph

/-! ## Nodes and adjacency lists after `removeNode` -/

theorem not_mem_del_mapVals {V : Type} (f : V → V) (m : IntMap V) (id : Int) (v : V) :
    (id, v) ∉ IntMap.mapVals f (IntMap.del m id) := by
  intro h
  unfold IntMap.mapVals IntMap.del at h
  obtain ⟨p, hp, heq⟩ := List.mem_map.mp h
  have h1 := (List.mem_filter.mp hp).2
  simp only [Prod.mk.injEq] at heq
  simp only [ne_eq, decide_not, Bool.not_eq_true', decide_eq_false_iff_not] at h1
  exact h1 heq.1

theorem removeNode_present (g : Graph) (id : Int) (hid : id ∈ g.nodes) :
    id ∉ (removeNode g id).1.nodes ∧ (∀ es, (id, es) ∉ (removeNode g id).1.adj) ∧
      (∀ u e, e ∈ (removeNode g id).1.adj.vec u → e.target ≠ id) ∧
      (removeNode g id).2 = [updateGraphVisualization (removeNode g id).1] := by
  refine ⟨?_, ?_, ?_, ?_⟩
  · simp [removeNode, hid]
  · intro es
    simp only [removeNode, hid, if_true]
    exact not_mem_del_mapVals _ _ _ _
  · intro u e he
    simp only [removeNode, hid, if_true, vec_del_mapVals] at he
    by_cases hu : u = id
    · simp [hu] at he
    · rw [if_neg hu] at he
      exact ((mem_dropTarget _ _ _).mp he).2
  · simp [removeNode, hid]

end Graph

/-- C21: after every sequence of `addNode`, `addEdge`, `removeNode`, `removeEdge` and
`clearGraph` calls, every adjacency entry sits in the list of a node and targets a node;
`removeNode(id)` of a present id leaves a state in which `id` is not a node, no adjacency
list is keyed by `id` and no entry targets `id`; `removeNode(id)` of an absent id returns
the same state and emits no event. -/
theorem no_dangling_edges (ops : List Graph.Op) :
    (∀ u e, e ∈ (Graph.run Graph.empty ops).adj.vec u →
      u ∈ (Graph.run Graph.empty ops).nodes ∧ e.target ∈ (Graph.run Graph.empty ops).nodes) ∧
    (∀ id, id ∈ (Graph.run Graph.empty ops).nodes →
      id ∉ (Graph.removeNode (Graph.run Graph.empty ops) id).1.nodes ∧
      (∀ es, (id, es) ∉ (Graph.removeNode (Graph.run Graph.empty ops) id).1.adj) ∧
      (∀ u e, e ∈ (Graph.removeNode (Graph.run Graph.empty ops) id).1.adj.vec u →
        e.target ≠ id)) ∧
    (∀ id, id ∉ (Graph.run Graph.empty ops).nodes →
      Graph.removeNode (Graph.run Graph.empty ops) id = (Graph.run Graph.empty ops, [])) := by
  refine ⟨?_, ?_, ?_⟩
  · intro u e he
    exact Graph.run_endpoints ops Graph.empty
      (fun a b hab => absurd hab (Graph.hasEdge_empty a b)) u e.target ⟨e, he, rfl⟩
  · intro id hid
    obtain ⟨h1, h2, h3, _⟩ := Graph.removeNode_present _ id hid
    exact ⟨h1, h2, h3⟩
  · intro id hid
    exact Graph.removeNode_absent _ id hid

/-- C22 on the code: `hash` is `key % size`, which C++ truncates toward zero.  On a fresh
table of capacity 5 the home slot of the key -3 is -3, and `insert(-3)`, `search(-3)` and
`remove(-3)` each read `table[-3]`, outside the vector, whatever the loop budget.  For
non-negative keys the home slot lies in `0 .. N-1`. -/
theorem hash_negative_key_out_of_bounds :
    LinearProbing.hash (LinearProbing.new 5).1 (-3) = -3 ∧
    (∀ fuel, 0 < fuel →
      LinearProbing.insert (LinearProbing.new 5).1 (-3) fuel
        = Except.error Fault.outOfBounds ∧
      LinearProbing.search (LinearProbing.new 5).1 (-3) fuel
        = Except.error Fault.outOfBounds ∧
      LinearProbing.remove (LinearProbing.new 5).1 (-3) fuel
        = Except.error Fault.outOfBounds) ∧
    (∀ (N : Nat) (k : Int), 1 ≤ N → 0 ≤ k →
      0 ≤ LinearProbing.hash (LinearProbing.new (N : Int)).1 k ∧
      LinearProbing.hash (LinearProbing.new (N : Int)).1 k < (N : Int)) := by
  refine ⟨by decide, ?_, ?_⟩
  · intro fuel hf
    obtain ⟨f, rfl⟩ : ∃ f, fuel = f + 1 := ⟨fuel - 1, by omega⟩
    refine ⟨rfl, rfl, rfl⟩
  · intro N k hN hk
    have h := LinearProbing.hash_cast (t := (LinearProbing.new (N : Int)).1) (N := N) rfl hk
    have h2 := LinearProbing.home_lt (N := N) (by omega) k
    rw [h]
    constructor
    · omega
    · exact_mod_cast h2

namespace LinearProbing

/-! ## The probe steps recorded by `insert` -/

theorem insertLoop_steps {t : LinearProbing} {N : Nat} (hsize : t.size = (N : Int))
    (hlen : t.table.length = N) {s : Nat} (hs : s < N) :
    ∀ (n d e fuel : Nat) (steps : List ProbeStep), e = d + n → e < N → n < fuel →
      (∀ d', d ≤ d' → d' < e → ∀ y : Int, t.table[pos N s d']? = some y →
        y ≠ EMPTY ∧ y ≠ DELETED) →
      (∃ x, t.table[pos N s e]? = some x ∧ (x = EMPTY ∨ x = DELETED)) →
      insertLoop t (s : Int) fuel ((pos N s d : Nat) : Int) steps
        = Except.ok (some (((pos N s e : Nat) : Int),
            steps ++ (List.range' d n).map fun d' =>
              ProbeStep.collision ((pos N s d' : Nat) : Int) (t.table.getD (pos N s d') 0))) := by
  intro n
  induction n with
  | zero =>
    intro d e fuel steps he _ hf _ hslot
    obtain ⟨f, rfl⟩ : ∃ f, fuel = f + 1 := ⟨fuel - 1, by omega⟩
    have hde : e = d := by omega
    subst hde
    obtain ⟨x, hx, hfree⟩ := hslot
    rw [insertLoop, readSlot_cast, hx]
    have : ¬ (x ≠ EMPTY ∧ x ≠ DELETED) := by
      rcases hfree with h | h <;> simp [h]
    simp only [this, if_false, List.range'_zero, List.map_nil, List.append_nil]
  | succ n ih =>
    intro d e fuel steps he heN hf hbefore hslot
    obtain ⟨f, rfl⟩ : ∃ f, fuel = f + 1 := ⟨fuel - 1, by omega⟩
    have hN : 0 < N := by omega
    obtain ⟨y, hy⟩ := slot_defined hlen (pos_lt hN s d)
    have hocc := hbefore d (le_refl d) (by omega) y hy
    have hne : ((pos N s (d + 1) : Nat) : Int) ≠ (s : Int) := by
      intro h
      have h' : pos N s (d + 1) = pos N s 0 := by
        rw [pos_zero hs]; exact_mod_cast h
      have := pos_inj (by omega) hN h'
      omega
    have hgetD : t.table.getD (pos N s d) 0 = y := by
      rw [List.getD_eq_getElem?_getD, hy]; rfl
    rw [insertLoop, readSlot_cast, hy]
    simp only [hsize, next_cast]
    rw [if_pos hocc, if_neg hne]
    rw [ih (d + 1) e f _ (by omega) heN (by omega)
      (fun d' h1 h2 => hbefore d' (by omega) h2) hslot]
    simp only [List.range'_succ, List.map_cons, hgetD, List.append_assoc, List.singleton_append]

/-! ### Size and length of the table never change -/

theorem insert_shape {t : LinearProbing} {k : Int} {fuel : Nat} {r : InsertResult}
    (h : insert t k fuel = Except.ok r) :
    r.tbl.size = t.size ∧ r.tbl.table.length = t.table.length := by
  unfold insert at h
  cases h1 : searchInternal t k fuel with
  | error e => rw [h1] at h; cases h
  | ok idx =>
    rw [h1] at h
    simp only at h
    by_cases h2 : idx ≠ -1
    · rw [if_pos h2] at h
      cases h
      exact ⟨rfl, rfl⟩
    · rw [if_neg h2] at h
      cases h3 : insertLoop t (hash t k) fuel (hash t k) [] with
      | error e => rw [h3] at h; cases h
      | ok o =>
        rw [h3] at h
        cases o with
        | none => cases h; exact ⟨rfl, rfl⟩
        | some p =>
          obtain ⟨slot, steps⟩ := p
          cases h
          exact ⟨rfl, by simp⟩

theorem remove_shape {t : LinearProbing} {k : Int} {fuel : Nat}
    {r : LinearProbing × List HEvent} (h : remove t k fuel = Except.ok r) :
    r.1.size = t.size ∧ r.1.table.length = t.table.length := by
  unfold remove at h
  cases h1 : searchInternal t k fuel with
  | error e => rw [h1] at h; cases h
  | ok idx =>
    rw [h1] at h
    simp only at h
    by_cases h2 : idx ≠ -1
    · rw [if_pos h2] at h
      cases h
      exact ⟨rfl, by simp⟩
    · rw [if_neg h2] at h
      cases h
      exact ⟨rfl, rfl⟩

theorem step_shape {N : Nat} {fuel : Nat} {t t' : LinearProbing} (op : Op)
    (hs : t.size = (N : Int) ∧ t.table.length = N) (h : step fuel t op = Except.ok t') :
    t'.size = (N : Int) ∧ t'.table.length = N := by
  cases op with
  | insert k =>
    simp only [step] at h
    cases h1 : insert t k fuel with
    | error e => rw [h1] at h; cases h
    | ok r =>
      rw [h1] at h
      cases h
      obtain ⟨h2, h3⟩ := insert_shape h1
      exact ⟨h2.trans hs.1, h3.trans hs.2⟩
  | remove k =>
    simp only [step] at h
    cases h1 : remove t k fuel with
    | error e => rw [h1] at h; cases h
    | ok r =>
      rw [h1] at h
      cases h
      obtain ⟨h2, h3⟩ := remove_shape h1
      exact ⟨h2.trans hs.1, h3.trans hs.2⟩
  | clear =>
    simp only [step, clear, Except.ok.injEq] at h
    subst h
    exact ⟨hs.1, by simp [hs.1]⟩

theorem run_shape {N : Nat} {fuel : Nat} :
    ∀ (ops : List Op) (t t' : LinearProbing), t.size = (N : Int) ∧ t.table.length = N →
      run fuel t ops = Except.ok t' → t'.size = (N : Int) ∧ t'.table.length = N := by
  intro ops
  induction ops with
  | nil =>
    intro t t' hs h
    simp only [run, Except.ok.injEq] at h
    subst h
    exact hs
  | cons op ops ih =>
    intro t t' hs h
    rw [run] at h
    cases h1 : step fuel t op with
    | error e => rw [h1] at h; cases h
    | ok t1 =>
      rw [h1] at h
      exact ih t1 t' (step_shape op hs h1) h

theorem first_free_slot {t : LinearProbing} {N : Nat} (hlen : t.table.length = N) (s : Nat)
    (hs : s < N)
    (hfree : ∃ (i : Nat) (x : Int), t.table[i]? = some x ∧ (x = EMPTY ∨ x = DELETED)) :
    ∃ e, e < N ∧ (∃ x, t.table[pos N s e]? = some x ∧ (x = EMPTY ∨ x = DELETED)) ∧
      ∀ d', d' < e → ∀ y : Int, t.table[pos N s d']? = some y → y ≠ EMPTY ∧ y ≠ DELETED := by
  classical
  obtain ⟨i, x, hx, hxfree⟩ := hfree
  have hi : i < N := by
    have := (List.getElem?_eq_some_iff.mp hx).1
    rw [hlen] at this; exact this
  obtain ⟨d, hd, hid⟩ := pos_surj hs hi
  have hex : ∃ e, e < N ∧ ∃ x, t.table[pos N s e]? = some x ∧ (x = EMPTY ∨ x = DELETED) :=
    ⟨d, hd, x, hid ▸ hx, hxfree⟩
  refine ⟨Nat.find hex, (Nat.find_spec hex).1, (Nat.find_spec hex).2, ?_⟩
  intro d' hd' y hy
  have hmin := Nat.find_min hex hd'
  have hd'N : d' < N := lt_trans hd' (Nat.find_spec hex).1
  constructor
  · intro he; exact hmin ⟨hd'N, y, hy, Or.inl he⟩
  · intro he; exact hmin ⟨hd'N, y, hy, Or.inr he⟩

theorem insert_fresh_steps {t : LinearProbing} {N : Nat} (hN : 0 < N)
    (hsize : t.size = (N : Int)) (hlen : t.table.length = N) {k : Int}
    (hk : 0 ≤ k) (habs : ∀ (i : Nat), t.table[i]? ≠ some k)
    (hfree : ∃ (i : Nat) (x : Int), t.table[i]? = some x ∧ (x = EMPTY ∨ x = DELETED))
    {fuel : Nat} (hf : N ≤ fuel) :
    ∃ e, e < N ∧
      (∃ x, t.table[pos N (home N k) e]? = some x ∧ (x = EMPTY ∨ x = DELETED)) ∧
      (∀ d', d' < e → ∀ y : Int, t.table[pos N (home N k) d']? = some y →
        y ≠ EMPTY ∧ y ≠ DELETED) ∧
      insert t k fuel = Except.ok
        { ok := true, slot := some ((pos N (home N k) e : Nat) : Int),
          tbl := { t with table := t.table.set (pos N (home N k) e) k },
          events := [updateVisualizationWithAnimation
            { t with table := t.table.set (pos N (home N k) e) k }
            (probeCollisions t N (home N k) e
              ++ [ProbeStep.insert ((pos N (home N k) e : Nat) : Int)])] } := by
  have hs := home_lt hN k
  obtain ⟨e, he, hslot, hbefore⟩ := first_free_slot hlen (home N k) hs hfree
  have hloop := insertLoop_steps hsize hlen hs e 0 e fuel [] (by omega) he
    (by omega) (fun d' _ h2 y hy => hbefore d' h2 y hy) hslot
  have hsearch := searchLoop_absent hsize hlen hs habs fuel 0 hN (by omega)
  rw [pos_zero hs] at hloop hsearch
  refine ⟨e, he, hslot, hbefore, ?_⟩
  rw [insert, searchInternal, hash_cast hsize hk, hsearch]
  simp only [ne_eq, not_true_eq_false, if_false, hloop, Int.toNat_ofNat,
    List.nil_append, probeCollisions, List.range_eq_range']

end LinearProbing

/-- C23: on every table `t` reached from a fresh table of capacity `N ≥ 1` by a sequence of
calls that returned, and every non-negative key `k` that is not stored, if some slot is
`EMPTY` or `DELETED` then `insert(k)` succeeds at the first slot, in cyclic probe order
from `k mod N`, that is `EMPTY` or `DELETED`: the slots probed before it are occupied, the
new table is the old one with `k` written to that slot, and the single event carries one
collision step (index and value held) per slot passed, in probe order, followed by one
insert step at that slot. -/
theorem hash_insert_placement (N : Nat) (hN : 1 ≤ N) (ops : List LinearProbing.Op)
    (fuel0 : Nat) (t : LinearProbing)
    (hrun : LinearProbing.run fuel0 (LinearProbing.new (N : Int)).1 ops = Except.ok t)
    (k : Int) (hk : 0 ≤ k) (fuel : Nat) (hf : N ≤ fuel) (habs : k ∉ t.table)
    (hfree : ∃ x ∈ t.table, x = LinearProbing.EMPTY ∨ x = LinearProbing.DELETED) :
    ∃ e, e < N ∧
      (∃ x, t.table[LinearProbing.pos N (LinearProbing.home N k) e]? = some x ∧
        (x = LinearProbing.EMPTY ∨ x = LinearProbing.DELETED)) ∧
      (∀ d', d' < e → ∀ y : Int,
        t.table[LinearProbing.pos N (LinearProbing.home N k) d']? = some y →
        y ≠ LinearProbing.EMPTY ∧ y ≠ LinearProbing.DELETED) ∧
      LinearProbing.insert t k fuel = Except.ok
        { ok := true,
          slot := some ((LinearProbing.pos N (LinearProbing.home N k) e : Nat) : Int),
          tbl := { t with
            table := t.table.set (LinearProbing.pos N (LinearProbing.home N k) e) k },
          events := [LinearProbing.updateVisualizationWithAnimation
            { t with
              table := t.table.set (LinearProbing.pos N (LinearProbing.home N k) e) k }
            (LinearProbing.probeCollisions t N (LinearProbing.home N k) e
              ++ [LinearProbing.ProbeStep.insert
                ((LinearProbing.pos N (LinearProbing.home N k) e : Nat) : Int)])] } := by
  obtain ⟨hsize, hlen⟩ := LinearProbing.run_shape (N := N) ops _ t
    (by simp [LinearProbing.new]) hrun
  have habs' : ∀ (i : Nat), t.table[i]? ≠ some k := by
    intro i hi
    exact habs (List.mem_iff_getElem?.mpr ⟨i, hi⟩)
  have hfree' : ∃ (i : Nat) (x : Int), t.table[i]? = some x ∧
      (x = LinearProbing.EMPTY ∨ x = LinearProbing.DELETED) := by
    obtain ⟨x, hx, hxf⟩ := hfree
    obtain ⟨i, hi⟩ := List.mem_iff_getElem?.mp hx
    exact ⟨i, x, hi, hxf⟩
  exact LinearProbing.insert_fresh_steps (by omega) hsize hlen hk habs' hfree' hf

/-- Capacity 3 after `insert 0`, `insert 3`, `insert 4`, `remove 3`: the table is
`[0, DELETED, 4]`, and `insert 6` passes slot 0 and reuses the tombstone in slot 1. -/
theorem hash_insert_placement_witness :
    LinearProbing.insert { table := [0, -2, 4], size := 3 } 6 3 = Except.ok
      { ok := true, slot := some 1, tbl := { table := [0, 6, 4], size := 3 },
        events := [LinearProbing.HEvent.animateHashMap
          [LinearProbing.Cell.val 0, LinearProbing.Cell.val 6, LinearProbing.Cell.val 4] 3
          [LinearProbing.ProbeStep.collision 0 0, LinearProbing.ProbeStep.insert 1]] } ∧
    ∃ e, e < 3 ∧
      (∃ x, ([0, -2, 4] : List Int)[LinearProbing.pos 3 (LinearProbing.home 3 6) e]? = some x ∧
        (x = LinearProbing.EMPTY ∨ x = LinearProbing.DELETED)) ∧
      (∀ d', d' < e → ∀ y : Int,
        ([0, -2, 4] : List Int)[LinearProbing.pos 3 (LinearProbing.home 3 6) d']? = some y →
        y ≠ LinearProbing.EMPTY ∧ y ≠ LinearProbing.DELETED) ∧
      LinearProbing.insert { table := [0, -2, 4], size := 3 } 6 3 = Except.ok
        { ok := true,
          slot := some ((LinearProbing.pos 3 (LinearProbing.home 3 6) e : Nat) : Int),
          tbl := LinearProbing.mk
            (([0, -2, 4] : List Int).set (LinearProbing.pos 3 (LinearProbing.home 3 6) e) 6) 3,
          events := [LinearProbing.updateVisualizationWithAnimation
            (LinearProbing.mk
              (([0, -2, 4] : List Int).set (LinearProbing.pos 3 (LinearProbing.home 3 6) e) 6)
              3)
            (LinearProbing.probeCollisions { table := [0, -2, 4], size := 3 } 3
                (LinearProbing.home 3 6) e
              ++ [LinearProbing.ProbeStep.insert
                ((LinearProbing.pos 3 (LinearProbing.home 3 6) e : Nat) : Int)])] } :=
  ⟨by decide,
    hash_insert_placement 3 (by decide)
      [LinearProbing.Op.insert 0, LinearProbing.Op.insert 3, LinearProbing.Op.insert 4,
        LinearProbing.Op.remove 3] 3 { table := [0, -2, 4], size := 3 } (by decide)
      6 (by decide) 3 (le_refl 3) (by decide) ⟨-2, by decide, Or.inr rfl⟩⟩

namespace Node

/-! ## Rotations and stored heights -/

theorem heightsExact_getHeight {t : Node} (h : HeightsExact t) : getHeight t = trueHeight t := by
  cases t with
  | nil => rfl
  | node d l r id hh =>
    simp only [HeightsExact] at h
    simp only [getHeight, trueHeight]
    exact h.2.2

theorem rightRotate_heights (yd xd yid xid yh xh : Int) (xl t2 yr : Node) :
    ∃ h1 h2, rightRotate (node yd (node xd xl t2 xid xh) yr yid yh)
        = Except.ok (node xd xl (node yd t2 yr yid h1) xid h2) ∧
      inorderExtraction (node xd xl (node yd t2 yr yid h1) xid h2)
        = inorderExtraction (node yd (node xd xl t2 xid xh) yr yid yh) ∧
      (HeightsExact xl → HeightsExact t2 → HeightsExact yr →
        HeightsExact (node xd xl (node yd t2 yr yid h1) xid h2)) := by
  refine ⟨_, _, rfl, by simp [inorder_node], ?_⟩
  intro h1 h2 h3
  simp only [HeightsExact, max_eq, getHeight_node, heightsExact_getHeight h1,
    heightsExact_getHeight h2, heightsExact_getHeight h3, trueHeight]
  refine ⟨h1, ⟨h2, h3, ?_⟩, ?_⟩ <;> omega

theorem leftRotate_heights (yd xd yid xid yh xh : Int) (xl t2 yr : Node) :
    ∃ h1 h2, leftRotate (node xd xl (node yd t2 yr yid yh) xid xh)
        = Except.ok (node yd (node xd xl t2 xid h1) yr yid h2) ∧
      inorderExtraction (node yd (node xd xl t2 xid h1) yr yid h2)
        = inorderExtraction (node xd xl (node yd t2 yr yid yh) xid xh) ∧
      (HeightsExact xl → HeightsExact t2 → HeightsExact yr →
        HeightsExact (node yd (node xd xl t2 xid h1) yr yid h2)) := by
  refine ⟨_, _, rfl, by simp [inorder_node], ?_⟩
  intro h1 h2 h3
  simp only [HeightsExact, max_eq, getHeight_node, heightsExact_getHeight h1,
    heightsExact_getHeight h2, heightsExact_getHeight h3, trueHeight]
  refine ⟨⟨h1, h2, ?_⟩, h3, ?_⟩ <;> omega

end Node

/-- C25: after `setAVL(true)`, whatever the tree was, and any further calls other than
`setAVL(false)`, every stored `height` field equals the true height of its node (1 for a
leaf, one more than the taller child otherwise).  `rightRotate` and `leftRotate` return the
same three hanging subtrees under the two rotated nodes, with the same in-order sequence;
only the `height` fields of those two nodes are recomputed, and they are exact whenever
the stored heights inside the three subtrees are. -/
theorem stored_heights_exact (s : TreeState) (ops : List TreeState.Op)
    (hops : ∀ op ∈ ops, op.keepsAVL = true) :
    (∃ s1 s2, TreeState.setAVL s true = Except.ok s1 ∧ TreeState.run s1 ops = Except.ok s2 ∧
      Node.HeightsExact s2.bstRoot) ∧
    (∀ (yd xd yid xid yh xh : Int) (xl t2 yr : Node),
      ∃ h1 h2, Node.rightRotate (Node.node yd (Node.node xd xl t2 xid xh) yr yid yh)
          = Except.ok (Node.node xd xl (Node.node yd t2 yr yid h1) xid h2) ∧
        Node.inorderExtraction (Node.node xd xl (Node.node yd t2 yr yid h1) xid h2)
          = Node.inorderExtraction (Node.node yd (Node.node xd xl t2 xid xh) yr yid yh) ∧
        (Node.HeightsExact xl → Node.HeightsExact t2 → Node.HeightsExact yr →
          Node.HeightsExact (Node.node xd xl (Node.node yd t2 yr yid h1) xid h2))) ∧
    (∀ (yd xd yid xid yh xh : Int) (xl t2 yr : Node),
      ∃ h1 h2, Node.leftRotate (Node.node xd xl (Node.node yd t2 yr yid yh) xid xh)
          = Except.ok (Node.node yd (Node.node xd xl t2 xid h1) yr yid h2) ∧
        Node.inorderExtraction (Node.node yd (Node.node xd xl t2 xid h1) yr yid h2)
          = Node.inorderExtraction (Node.node xd xl (Node.node yd t2 yr yid yh) xid xh) ∧
        (Node.HeightsExact xl → Node.HeightsExact t2 → Node.HeightsExact yr →
          Node.HeightsExact (Node.node yd (Node.node xd xl t2 xid h1) yr yid h2))) ∧
    (∀ (d id h : Int), Node.HeightsExact (Node.node d Node.nil Node.nil id h) ↔ h = 1) := by
  refine ⟨?_, Node.rightRotate_heights, Node.leftRotate_heights, ?_⟩
  · obtain ⟨s1, h1, h2, h3⟩ := TreeState.setAVL_true_avl s
    obtain ⟨s2, h4, _, h6⟩ := TreeState.run_avl ops s1 hops h2 h3
    exact ⟨s1, s2, h1, h4, h6.2⟩
  · intro d id h
    simp [Node.HeightsExact, Node.trueHeight]

theorem stored_heights_exact_witness :
    ∃ s1 s2, TreeState.setAVL
        { bstRoot := Node.node 1 Node.nil (Node.node 2 Node.nil Node.nil 5 7) 0 9,
          nextId := 9, useAVL := false } true = Except.ok s1 ∧
      TreeState.run s1 [TreeState.Op.insertBST 3, TreeState.Op.insertBST 4,
        TreeState.Op.deleteBST 1] = Except.ok s2 ∧
      Node.HeightsExact s2.bstRoot :=
  (stored_heights_exact
    { bstRoot := Node.node 1 Node.nil (Node.node 2 Node.nil Node.nil 5 7) 0 9,
      nextId := 9, useAVL := false }
    [TreeState.Op.insertBST 3, TreeState.Op.insertBST 4, TreeState.Op.deleteBST 1]
    (by decide)).1

namespace Node

/-! ## Node ids -/

theorem ids_node (d : Int) (l r : Node) (id h : Int) :
    ids (node d l r id h) = ids l ++ id :: ids r := rfl

theorem ids_length : ∀ t : Node, (ids t).length = (inorderExtraction t).length
  | nil => rfl
  | node d l r id h => by
    simp [ids, inorderExtraction, ids_length l, ids_length r]

theorem rightRotate_ids {t t' : Node} (h : rightRotate t = Except.ok t') :
    ids t' = ids t := by
  cases t with
  | nil => simp [rightRotate] at h
  | node yd x yr yid yh =>
    cases x with
    | nil => simp [rightRotate] at h
    | node xd xl t2 xid xh =>
      simp only [rightRotate, Except.ok.injEq] at h
      subst h
      simp [ids_node]

theorem leftRotate_ids {t t' : Node} (h : leftRotate t = Except.ok t') :
    ids t' = ids t := by
  cases t with
  | nil => simp [leftRotate] at h
  | node xd xl y xid xh =>
    cases y with
    | nil => simp [leftRotate] at h
    | node yd t2 yr yid yh =>
      simp only [leftRotate, Except.ok.injEq] at h
      subst h
      simp [ids_node]

theorem insertFix_ids {b : Bool} {v : Int} {t t' : Node}
    (h : insertFix b v t = Except.ok t') : ids t' = ids t := by
  cases t with
  | nil => simp [insertFix] at h
  | node d l r id hh =>
    simp only [insertFix] at h
    split at h
    · simp only [Except.ok.injEq] at h; subst h; rfl
    · split at h
      · split at h
        · cases h
        · split at h
          · rw [rightRotate_ids h]; rfl
          · split at h
            · split at h
              · cases h
              · rename_i l' hl'
                rw [rightRotate_ids h, ids_node, leftRotate_ids hl']
                rfl
            · simp only [Except.ok.injEq] at h; subst h; rfl
      · split at h
        · split at h
          · cases h
          · split at h
            · rw [leftRotate_ids h]; rfl
            · split at h
              · split at h
                · cases h
                · rename_i r' hr'
                  rw [leftRotate_ids h, ids_node, rightRotate_ids hr']
                  rfl
              · simp only [Except.ok.injEq] at h; subst h; rfl
        · simp only [Except.ok.injEq] at h; subst h; rfl

theorem deleteFix_ids {b : Bool} {t t' : Node}
    (h : deleteFix b t = Except.ok t') : ids t' = ids t := by
  cases t with
  | nil => simp only [deleteFix, Except.ok.injEq] at h; subst h; rfl
  | node d l r id hh =>
    simp only [deleteFix] at h
    split at h
    · simp only [Except.ok.injEq] at h; subst h; rfl
    · split at h
      · rw [rightRotate_ids h]; rfl
      · split at h
        · split at h
          · cases h
          · rename_i l' hl'
            rw [rightRotate_ids h, ids_node, leftRotate_ids hl']
            rfl
        · split at h
          · rw [leftRotate_ids h]; rfl
          · split at h
            · split at h
              · cases h
              · rename_i r' hr'
                rw [leftRotate_ids h, ids_node, rightRotate_ids hr']
                rfl
            · simp only [Except.ok.injEq] at h; subst h; rfl

/-- An insertion either finds the key (no node is made, `nextId` stays) or hangs one new
node, whose id is the old `nextId`, and increments `nextId`. -/
theorem insertRec_ids {b : Bool} {v : Int} :
    ∀ (t : Node) (n : Int) (t' : Node) (n' : Int),
      insertRec b v t n = Except.ok (t', n') →
      (n' = n ∧ ids t' = ids t ∧ v ∈ inorderExtraction t) ∨
      (n' = n + 1 ∧ (ids t').Perm (n :: ids t)) := by
  intro t
  induction t with
  | nil =>
    intro n t' n' h
    simp only [insertRec, Except.ok.injEq, Prod.mk.injEq] at h
    obtain ⟨rfl, rfl⟩ := h
    exact Or.inr ⟨rfl, by simp [ids]⟩
  | node d l r id hh ihl ihr =>
    intro n t' n' h
    rw [insertRec] at h
    split at h
    · split at h
      · cases h
      · rename_i l' n1 hrec
        split at h
        · cases h
        · rename_i t1 hfix
          simp only [Except.ok.injEq, Prod.mk.injEq] at h
          obtain ⟨rfl, rfl⟩ := h
          rw [insertFix_ids hfix]
          rcases ihl n l' n1 hrec with ⟨h1, h2, h3⟩ | ⟨h1, h2⟩
          · exact Or.inl ⟨h1, by rw [ids_node, ids_node, h2], by
              rw [inorder_node]; exact List.mem_append_left _ h3⟩
          · refine Or.inr ⟨h1, ?_⟩
            rw [ids_node, ids_node]
            exact h2.append_right _
    · split at h
      · split at h
        · cases h
        · rename_i r' n1 hrec
          split at h
          · cases h
          · rename_i t1 hfix
            simp only [Except.ok.injEq, Prod.mk.injEq] at h
            obtain ⟨rfl, rfl⟩ := h
            rw [insertFix_ids hfix]
            rcases ihr n r' n1 hrec with ⟨h1, h2, h3⟩ | ⟨h1, h2⟩
            · exact Or.inl ⟨h1, by rw [ids_node, ids_node, h2], by
                rw [inorder_node]
                exact List.mem_append_right _ (List.mem_cons_of_mem _ h3)⟩
            · refine Or.inr ⟨h1, ?_⟩
              rw [ids_node, ids_node]
              refine ((h2.cons id).append_left (ids l)).trans ?_
              refine (List.Perm.append_left (ids l) (List.Perm.swap n id (ids r))).trans ?_
              exact List.perm_middle
      · simp only [Except.ok.injEq, Prod.mk.injEq] at h
        obtain ⟨rfl, rfl⟩ := h
        have hvd : v = d := by omega
        refine Or.inl ⟨rfl, rfl, ?_⟩
        rw [inorder_node, hvd]
        exact List.mem_append_right _ (List.mem_cons_self _ _)

theorem pairs_node (d : Int) (l r : Node) (id h : Int) :
    pairs (node d l r id h) = pairs l ++ (d, id) :: pairs r := rfl

theorem pairs_ids : ∀ t : Node, (pairs t).map Prod.snd = ids t
  | nil => rfl
  | node d l r id h => by simp [pairs, ids, pairs_ids l, pairs_ids r]

theorem rightRotate_pairs {t t' : Node} (h : rightRotate t = Except.ok t') :
    pairs t' = pairs t := by
  cases t with
  | nil => simp [rightRotate] at h
  | node yd x yr yid yh =>
    cases x with
    | nil => simp [rightRotate] at h
    | node xd xl t2 xid xh =>
      simp only [rightRotate, Except.ok.injEq] at h
      subst h
      simp [pairs_node]

theorem leftRotate_pairs {t t' : Node} (h : leftRotate t = Except.ok t') :
    pairs t' = pairs t := by
  cases t with
  | nil => simp [leftRotate] at h
  | node xd xl y xid xh =>
    cases y with
    | nil => simp [leftRotate] at h
    | node yd t2 yr yid yh =>
      simp only [leftRotate, Except.ok.injEq] at h
      subst h
      simp [pairs_node]

theorem insertFix_pairs {b : Bool} {v : Int} {t t' : Node}
    (h : insertFix b v t = Except.ok t') : pairs t' = pairs t := by
  cases t with
  | nil => simp [insertFix] at h
  | node d l r id hh =>
    simp only [insertFix] at h
    split at h
    · simp only [Except.ok.injEq] at h; subst h; rfl
    · split at h
      · split at h
        · cases h
        · split at h
          · rw [rightRotate_pairs h]; rfl
          · split at h
            · split at h
              · cases h
              · rename_i l' hl'
                rw [rightRotate_pairs h, pairs_node, leftRotate_pairs hl']
                rfl
            · simp only [Except.ok.injEq] at h; subst h; rfl
      · split at h
        · split at h
          · cases h
          · split at h
            · rw [leftRotate_pairs h]; rfl
            · split at h
              · split at h
                · cases h
                · rename_i r' hr'
                  rw [leftRotate_pairs h, pairs_node, rightRotate_pairs hr']
                  rfl
              · simp only [Except.ok.injEq] at h; subst h; rfl
        · simp only [Except.ok.injEq] at h; subst h; rfl

/-- Inserting a key that is not in the tree hangs one new node, holding the key and the
old `nextId`, and keeps the key and the id of every other node. -/
theorem insertRec_pairs {b : Bool} {v : Int} :
    ∀ (t : Node) (n : Int) (t' : Node) (n' : Int),
      insertRec b v t n = Except.ok (t', n') → v ∉ inorderExtraction t →
      n' = n + 1 ∧ (pairs t').Perm ((v, n) :: pairs t) := by
  intro t
  induction t with
  | nil =>
    intro n t' n' h _
    simp only [insertRec, Except.ok.injEq, Prod.mk.injEq] at h
    obtain ⟨rfl, rfl⟩ := h
    exact ⟨rfl, by simp [pairs]⟩
  | node d l r id hh ihl ihr =>
    intro n t' n' h hv
    rw [inorder_node, List.mem_append, List.mem_cons] at hv
    push_neg at hv
    rw [insertRec] at h
    split at h
    · split at h
      · cases h
      · rename_i l' n1 hrec
        split at h
        · cases h
        · rename_i t1 hfix
          simp only [Except.ok.injEq, Prod.mk.injEq] at h
          obtain ⟨rfl, rfl⟩ := h
          rw [insertFix_pairs hfix]
          obtain ⟨h1, h2⟩ := ihl n l' n1 hrec hv.1
          refine ⟨h1, ?_⟩
          rw [pairs_node, pairs_node]
          exact h2.append_right _
    · split at h
      · split at h
        · cases h
        · rename_i r' n1 hrec
          split at h
          · cases h
          · rename_i t1 hfix
            simp only [Except.ok.injEq, Prod.mk.injEq] at h
            obtain ⟨rfl, rfl⟩ := h
            rw [insertFix_pairs hfix]
            obtain ⟨h1, h2⟩ := ihr n r' n1 hrec hv.2.2
            refine ⟨h1, ?_⟩
            rw [pairs_node, pairs_node]
            refine ((h2.cons (d, id)).append_left (pairs l)).trans ?_
            refine (List.Perm.append_left (pairs l)
              (List.Perm.swap (v, n) (d, id) (pairs r))).trans ?_
            exact List.perm_middle
      · exact absurd (show v = d by omega) hv.2.1

/-- A deletion makes no node and changes no id: the ids of the result are among the ids
of the tree, in the same order. -/
theorem deleteRec_ids {b : Bool} :
    ∀ (t : Node) (v : Int) (t' : Node), deleteRec b t v = Except.ok t' →
      (ids t').Sublist (ids t) := by
  intro t
  induction t with
  | nil =>
    intro v t' h
    simp only [deleteRec, Except.ok.injEq] at h
    subst h
    exact List.Sublist.refl _
  | node d l r id hh ihl ihr =>
    intro v t' h
    rw [deleteRec] at h
    split at h
    · split at h
      · cases h
      · rename_i l' hrec
        rw [deleteFix_ids h, ids_node, ids_node]
        exact (ihl v l' hrec).append_right _
    · split at h
      · split at h
        · cases h
        · rename_i r' hrec
          rw [deleteFix_ids h, ids_node, ids_node]
          exact List.Sublist.append_left ((ihr v r' hrec).cons₂ id) _
      · split at h
        · simp only [Except.ok.injEq] at h
          subst h
          rw [ids_node]
          exact (List.sublist_cons_self id _).trans (List.sublist_append_right _ _)
        · split at h
          · simp only [Except.ok.injEq] at h
            subst h
            rw [ids_node]
            exact List.sublist_append_left _ _
          · split at h
            · cases h
            · rename_i td _ _ _ _ hmin
              split at h
              · cases h
              · rename_i r' hrec
                rw [deleteFix_ids h, ids_node, ids_node]
                exact List.Sublist.append_left ((ihr td r' hrec).cons₂ id) _

end Node

namespace TreeState

/-- The ids `n, n + 1, ..., n + k - 1`. -/
theorem idRange_succ (n : Int) (k : Nat) :
    (List.range (k + 1)).map (fun (i : Nat) => n + (i : Int))
      = n :: (List.range k).map (fun (i : Nat) => (n + 1) + (i : Int)) := by
  rw [List.range_succ_eq_map, List.map_cons, List.map_map]
  simp only [Nat.cast_zero, add_zero, List.cons.injEq, true_and]
  apply List.map_congr_left
  intro i _
  simp only [Function.comp, Nat.succ_eq_add_one, Nat.cast_add, Nat.cast_one]
  omega

theorem reinsert_ids {b : Bool} :
    ∀ (vs : List Int) (t : Node) (n : Int) (t' : Node) (n' : Int),
      reinsert b vs t n = Except.ok (t', n') → vs.Nodup →
      (∀ v ∈ vs, v ∉ Node.inorderExtraction t) →
      n' = n + (vs.length : Int) ∧
      (Node.ids t').Perm ((List.range vs.length).map (fun (i : Nat) => n + (i : Int)) ++ Node.ids t) := by
  intro vs
  induction vs with
  | nil =>
    intro t n t' n' h _ _
    simp only [reinsert, Except.ok.injEq, Prod.mk.injEq] at h
    obtain ⟨rfl, rfl⟩ := h
    simp
  | cons v vs ih =>
    intro t n t' n' h hnd hfresh
    rw [reinsert] at h
    split at h
    · cases h
    · rename_i t1 n1 h1
      rw [List.nodup_cons] at hnd
      have hmem := Node.insertRec_mem _ _ _ _ h1
      have hfresh1 : ∀ w ∈ vs, w ∉ Node.inorderExtraction t1 := by
        intro w hw hc
        rcases (hmem w).mp hc with rfl | hc
        · exact hnd.1 hw
        · exact hfresh w (List.mem_cons_of_mem _ hw) hc
      rcases Node.insertRec_ids _ _ _ _ h1 with ⟨_, _, h3⟩ | ⟨h2, h3⟩
      · exact absurd h3 (hfresh v (List.mem_cons_self _ _))
      · obtain ⟨h4, h5⟩ := ih t1 n1 t' n' h hnd.2 hfresh1
        subst h2
        refine ⟨by rw [h4, List.length_cons]; push_cast; omega, ?_⟩
        rw [List.length_cons, idRange_succ, List.cons_append]
        refine h5.trans ?_
        refine (List.Perm.append_left _ h3).trans ?_
        exact List.perm_middle

/-- One call keeps the id invariant; unless it resets the allocator, `nextId` does not
decrease and every id in the tree afterwards was in the tree before or is at least the
old `nextId`. -/
theorem step_ids (s : TreeState) (op : Op) (c : Nat) (hinv : IdInv s c) :
    ∃ s', step s op = Except.ok s' ∧ IdInv s' (c + 1) ∧
      (op.resets = false → s.nextId ≤ s'.nextId ∧
        ∀ id, id ∈ Node.ids s'.bstRoot → id ∈ Node.ids s.bstRoot ∨ s.nextId ≤ id) := by
  obtain ⟨s', hstep, hs', ha', _⟩ :=
    step_model s op (fun x => decide (x ∈ Node.inorderExtraction s.bstRoot))
      hinv.sorted hinv.avl (by intro x; simp)
  have hb : s.nextId ≤ ((c + 1 : Nat) : Int) := by have := hinv.bound; push_cast; omega
  refine ⟨s', hstep, ?_⟩
  cases op with
  | insertBST v =>
    simp only [step, insertBST] at hstep
    split at hstep
    · cases hstep
    · rename_i t n hrec
      simp only [Except.ok.injEq] at hstep
      subst hstep
      rcases Node.insertRec_ids _ _ _ _ hrec with ⟨h1, h2, _⟩ | ⟨h1, h2⟩
      · subst h1
        refine ⟨⟨hs', ha', ?_, ?_, ?_, hb⟩, fun _ => ⟨le_refl _, ?_⟩⟩
        · show (Node.ids t).Nodup
          rw [h2]; exact hinv.nodup
        · show ∀ id, id ∈ Node.ids t → 0 ≤ id ∧ id < s.nextId
          rw [h2]; exact hinv.range
        · show ((Node.ids t).length : Int) ≤ s.nextId
          rw [h2]; exact hinv.count
        · show ∀ id, id ∈ Node.ids t → id ∈ Node.ids s.bstRoot ∨ s.nextId ≤ id
          rw [h2]; exact fun id h => Or.inl h
      · subst h1
        have hfresh : s.nextId ∉ Node.ids s.bstRoot := fun hc => by
          have := (hinv.range _ hc).2; omega
        have hcount := hinv.count
        have hbound := hinv.bound
        refine ⟨⟨hs', ha', ?_, ?_, ?_, ?_⟩, fun _ => ⟨?_, ?_⟩⟩
        · show (Node.ids t).Nodup
          rw [h2.nodup_iff, List.nodup_cons]
          exact ⟨hfresh, hinv.nodup⟩
        · show ∀ id, id ∈ Node.ids t → 0 ≤ id ∧ id < s.nextId + 1
          intro id hid
          rcases List.mem_cons.mp (h2.mem_iff.mp hid) with rfl | hid
          · have : (0 : Int) ≤ ((Node.ids s.bstRoot).length : Int) := Int.natCast_nonneg _
            omega
          · have := hinv.range id hid; omega
        · show ((Node.ids t).length : Int) ≤ s.nextId + 1
          rw [h2.length_eq, List.length_cons]; push_cast; omega
        · show s.nextId + 1 ≤ ((c + 1 : Nat) : Int)
          push_cast; omega
        · show s.nextId ≤ s.nextId + 1
          omega
        · show ∀ id, id ∈ Node.ids t → id ∈ Node.ids s.bstRoot ∨ s.nextId ≤ id
          intro id hid
          rcases List.mem_cons.mp (h2.mem_iff.mp hid) with rfl | hid
          · exact Or.inr (le_refl _)
          · exact Or.inl hid
  | deleteBST v =>
    simp only [step, deleteBST] at hstep
    split at hstep
    · cases hstep
    · rename_i t hrec
      simp only [Except.ok.injEq] at hstep
      subst hstep
      have hsub := Node.deleteRec_ids _ _ _ hrec
      refine ⟨⟨hs', ha', ?_, ?_, ?_, hb⟩, fun _ => ⟨le_refl _, ?_⟩⟩
      · exact hinv.nodup.sublist hsub
      · exact fun id hid => hinv.range id (hsub.subset hid)
      · show ((Node.ids t).length : Int) ≤ s.nextId
        have := hsub.length_le
        have := hinv.count
        omega
      · exact fun id hid => Or.inl (hsub.subset hid)
  | setAVL b =>
    cases b with
    | false =>
      simp only [step, setAVL, Bool.false_eq_true, if_false, Except.ok.injEq] at hstep
      subst hstep
      exact ⟨⟨hs', ha', hinv.nodup, hinv.range, hinv.count, hb⟩,
        fun _ => ⟨le_refl _, fun id h => Or.inl h⟩⟩
    | true =>
      simp only [step, setAVL, rebalanceBST, if_true] at hstep
      split at hstep
      · cases hstep
      · rename_i t n hrec
        simp only [Except.ok.injEq] at hstep
        subst hstep
        obtain ⟨h1, h2⟩ := reinsert_ids _ _ _ _ _ hrec hinv.sorted.nodup
          (by intro v _; simp [Node.inorderExtraction])
        simp only [Node.ids, List.append_nil, zero_add] at h1 h2
        have hcount := hinv.count
        have hbound := hinv.bound
        rw [Node.ids_length] at hcount
        refine ⟨⟨hs', ha', ?_, ?_, ?_, ?_⟩, fun hc => by simp [Op.resets] at hc⟩
        · show (Node.ids t).Nodup
          rw [h2.nodup_iff]
          exact (List.nodup_range _).map (fun a b hab => by simpa using hab)
        · show ∀ id, id ∈ Node.ids t → 0 ≤ id ∧ id < n
          intro id hid
          obtain ⟨i, hi, rfl⟩ := List.mem_map.mp (h2.mem_iff.mp hid)
          rw [List.mem_range] at hi
          omega
        · show ((Node.ids t).length : Int) ≤ n
          rw [h2.length_eq, List.length_map, List.length_range, h1]
        · show n ≤ ((c + 1 : Nat) : Int)
          push_cast; omega
  | clearBST =>
    simp only [step, clearBST, Except.ok.injEq] at hstep
    subst hstep
    refine ⟨⟨hs', ha', ?_, ?_, ?_, ?_⟩, fun hc => by simp [Op.resets] at hc⟩
    · simp [Node.ids]
    · simp [Node.ids]
    · simp [Node.ids]
    · show (0 : Int) ≤ ((c + 1 : Nat) : Int)
      exact Int.natCast_nonneg _

theorem idInv_init : IdInv init 0 :=
  ⟨by simp [init, Node.inorderExtraction], by simp [init], by simp [init, Node.ids],
    by simp [init, Node.ids], by simp [init, Node.ids], by simp [init]⟩

theorem run_ids :
    ∀ (ops : List Op) (s : TreeState) (c : Nat), IdInv s c →
      ∃ s', run s ops = Except.ok s' ∧ IdInv s' (c + ops.length) ∧
        ((∀ op ∈ ops, op.resets = false) → s.nextId ≤ s'.nextId ∧
          ∀ id, id ∈ Node.ids s'.bstRoot → id ∈ Node.ids s.bstRoot ∨ s.nextId ≤ id) := by
  intro ops
  induction ops with
  | nil => intro s c h; exact ⟨s, rfl, h, fun _ => ⟨le_refl _, fun id hid => Or.inl hid⟩⟩
  | cons op ops ih =>
    intro s c h
    obtain ⟨s1, h1, hinv1, hm1⟩ := step_ids s op c h
    obtain ⟨s2, h2, hinv2, hm2⟩ := ih s1 (c + 1) hinv1
    refine ⟨s2, by simp only [run, h1, h2], ?_, ?_⟩
    · rw [List.length_cons]
      have : c + (ops.length + 1) = c + 1 + ops.length := by omega
      rw [this]; exact hinv2
    · intro hno
      obtain ⟨h3, h4⟩ := hm1 (hno op (List.mem_cons_self _ _))
      obtain ⟨h5, h6⟩ := hm2 (fun o ho => hno o (List.mem_cons_of_mem _ ho))
      refine ⟨le_trans h3 h5, ?_⟩
      intro id hid
      rcases h6 id hid with h7 | h7
      · exact h4 id h7
      · exact Or.inr (le_trans h3 h7)

end TreeState

/-- C24: after every sequence of `insertBST`, `deleteBST`, `setAVL` and `clearBST` calls
from the start state the run returns a state `s` in which the node ids are pairwise
distinct, each id is non-negative and below `nextId`, and `nextId` is at most the number
of calls made (so the `int` counter cannot overflow in fewer than 2^31 calls).  From
such a state: inserting a key that is not stored hangs one node with that key and id
`nextId`, keeps the key and id of every other node, and increments `nextId`; over any
further calls other than `clearBST` and `setAVL(true)`, `nextId` never decreases and
every id in the tree was in the tree of `s` or is at least the `nextId` of `s`;
`clearBST` leaves the empty tree with `nextId = 0`; and `setAVL(true)` leaves `nextId`
equal to the number `n` of nodes, the ids of the rebuilt tree being `0, ..., n - 1`. -/
theorem tree_ids_unique_monotonic (ops : List TreeState.Op) :
    ∃ s, TreeState.run TreeState.init ops = Except.ok s ∧
      (Node.ids s.bstRoot).Nodup ∧
      (∀ id, id ∈ Node.ids s.bstRoot → 0 ≤ id ∧ id < s.nextId) ∧
      s.nextId ≤ (ops.length : Int) ∧
      (∀ v, v ∉ Node.inorderExtraction s.bstRoot →
        ∃ s', TreeState.insertBST s v = Except.ok s' ∧ s'.nextId = s.nextId + 1 ∧
          (Node.pairs s'.bstRoot).Perm ((v, s.nextId) :: Node.pairs s.bstRoot)) ∧
      (∀ ops2 : List TreeState.Op, (∀ op ∈ ops2, op.resets = false) →
        ∃ s2, TreeState.run s ops2 = Except.ok s2 ∧ s.nextId ≤ s2.nextId ∧
          ∀ id, id ∈ Node.ids s2.bstRoot → id ∈ Node.ids s.bstRoot ∨ s.nextId ≤ id) ∧
      ((TreeState.clearBST s).nextId = 0 ∧ (TreeState.clearBST s).bstRoot = Node.nil) ∧
      (∃ s', TreeState.setAVL s true = Except.ok s' ∧
        s'.nextId = ((Node.ids s.bstRoot).length : Int) ∧
        (Node.ids s'.bstRoot).Perm
          ((List.range (Node.ids s.bstRoot).length).map (fun (i : Nat) => (i : Int)))) := by
  obtain ⟨s, hrun, hinv, _⟩ := TreeState.run_ids ops TreeState.init 0 TreeState.idInv_init
  refine ⟨s, hrun, hinv.nodup, hinv.range, ?_, ?_, ?_, ⟨rfl, rfl⟩, ?_⟩
  · have := hinv.bound
    simpa using this
  · intro v hv
    obtain ⟨s', h1, _⟩ := TreeState.insertBST_spec s v hinv.sorted hinv.avl
    refine ⟨s', h1, ?_⟩
    simp only [TreeState.insertBST] at h1
    split at h1
    · cases h1
    · rename_i t n hrec
      simp only [Except.ok.injEq] at h1
      subst h1
      exact Node.insertRec_pairs _ _ _ _ hrec hv
  · intro ops2 hno
    obtain ⟨s2, h1, _, h2⟩ := TreeState.run_ids ops2 s ops.length (by simpa using hinv)
    exact ⟨s2, h1, h2 hno⟩
  · obtain ⟨s', h1, _⟩ := TreeState.setAVL_true_avl s
    refine ⟨s', h1, ?_⟩
    simp only [TreeState.setAVL, TreeState.rebalanceBST, if_true] at h1
    split at h1
    · cases h1
    · rename_i t n hrec
      simp only [Except.ok.injEq] at h1
      subst h1
      obtain ⟨h2, h3⟩ := TreeState.reinsert_ids _ _ _ _ _ hrec hinv.sorted.nodup
        (by intro v _; simp [Node.inorderExtraction])
      simp only [Node.ids, List.append_nil, zero_add] at h2 h3
      rw [Node.ids_length]
      exact ⟨h2, h3⟩

